import Mathlib

/-!
Adjacency-list graph stores of the `gogl` library.

A shallow embedding of the storage engine of the `gogl` graph library
(`adjacency_list.go`, `weighted.go`) and a verification of its specification.

Conventions of the embedding.

* A Go `map[K]T` is an association list `GoMap K T`; a key occurs at most once in a
  well-formed map (`GoMap.WF`).  The operations are defined on every list and the
  well-formedness of the maps a store can reach is proved, not assumed.
* A `nil` map and an empty map are both `[]`: the code only reads, measures and deletes
  from maps that may be `nil`, and on those three operations Go treats them alike.
* The inner maps are reference values in Go, so `g.list[s][t] = w` and
  `delete(g.list[s], t)` change the inner map in place; `GoMap.update` is that in-place change.
* The reader/writer lock is not modelled: every operation is one atomic state transition.
* `uint` and `int` are the 64-bit machine words; the counters wrap (`uintInc`, `uintDec`,
  `wrapInt`).
* A variadic call is a left fold of the loop body over the argument list.
* An enumerator takes its visitor as a state-passing closure and returns the final state of
  the closure (`visit`); a panic is the result `none`.
* A `float64` is kept as its IEEE 754 class and, when finite, its exact value, a dyadic
  rational (`FloatValue`); conversions and quotients round to nearest, ties to even
  (`roundFloat64`).  The sign of a zero is not kept.
-/

set_option linter.unusedSectionVars false

namespace Gogl

/-! ## Definitions -/

/-- A Go map from `K` to `T`, as an association list. -/
abbrev GoMap (K T : Type) := List (K × T)

namespace GoMap

variable {K T : Type} [DecidableEq K]

/-- The comma-ok read `v, ok := m[k]`: the value bound to the first entry with key `k`. -/
def lookup : GoMap K T → K → Option T
  | [], _ => none
  | (k', b) :: m, k => if k' = k then some b else lookup m k

/-- The `ok` flag of `_, ok := m[k]`. -/
def has (m : GoMap K T) (k : K) : Bool := (lookup m k).isSome

/-- The assignment `m[k] = b`: overwrite the entry of `k`, or add one. -/
def store : GoMap K T → K → T → GoMap K T
  | [], k, b => [(k, b)]
  | (k', b') :: m, k, b => if k' = k then (k, b) :: m else (k', b') :: store m k b

/-- The builtin `delete(m, k)`. -/
def delete : GoMap K T → K → GoMap K T
  | [], _ => []
  | (k', b) :: m, k => if k' = k then delete m k else (k', b) :: delete m k

/-- An in-place change `f` of the value bound to `k` (a mutation through the reference
`m[k]`); nothing happens when `k` is not a key. -/
def update : GoMap K T → K → (T → T) → GoMap K T
  | [], _, _ => []
  | (k', b') :: m, k, f => if k' = k then (k', f b') :: m else (k', b') :: update m k f

/-- The builtin `len(m)`. -/
def len (m : GoMap K T) : Nat := m.length

/-- The keys in iteration order. -/
def keys (m : GoMap K T) : List K := m.map Prod.fst

/-- Well-formed map: no key occurs twice. -/
def WF (m : GoMap K T) : Prop := (keys m).Nodup

/-- The inner map `m[k]` of a map of maps; the zero value (a `nil` map) when `k` is absent. -/
def inner {T2 : Type} (m : GoMap K (GoMap K T2)) (k : K) : GoMap K T2 := (lookup m k).getD []

/-- The slot `m[u][v]` of a map of maps, read comma-ok. -/
def slot {T2 : Type} (m : GoMap K (GoMap K T2)) (u v : K) : Option T2 := lookup (inner m u) v

/-- Number of (source, target) pairs stored in a map of maps. -/
def pairCount {T2 : Type} (m : GoMap K (GoMap K T2)) : Nat := (m.map (fun p => len p.2)).sum

/-- The (source, target) pairs stored in a map of maps, in iteration order. -/
def storedPairs {T2 : Type} (m : GoMap K (GoMap K T2)) : List (K × K) :=
  m.flatMap (fun p => (keys p.2).map (fun t => (p.1, t)))

/-- Number of entries of a map of maps whose inner map has the key `x`: the arcs into `x`. -/
def arcsTo {T2 : Type} (x : K) (m : GoMap K (GoMap K T2)) : Nat :=
  (m.filter (fun p => has p.2 x)).length

/-- Every inner map of a map of maps is well formed. -/
def InnerWF {T2 : Type} (m : GoMap K (GoMap K T2)) : Prop := ∀ p ∈ m, WF p.2

/-- A map of maps is well formed when it and all its inner maps are. -/
def WFall {T2 : Type} (m : GoMap K (GoMap K T2)) : Prop := WF m ∧ InnerWF m

/-- No dangling adjacency: the target of every slot is a key of the outer map. -/
def NoDangling {T2 : Type} (m : GoMap K (GoMap K T2)) : Prop :=
  ∀ u v, (slot m u v).isSome = true → has m v = true

/-- The loop `for _, adjacent := range list { if _, has := adjacent[vertex]; has {
delete(adjacent, vertex); size-- } }` shared by the directed stores, with the counter `size`
of type `C` and its decrement `dec` threaded through the iteration. -/
def removeArcsTo {T2 C : Type} (dec : C → C) (vertex : K) :
    GoMap K (GoMap K T2) → C → GoMap K (GoMap K T2) × C
  | [], size => ([], size)
  | (k, adjacent) :: rest, size =>
    if has adjacent vertex then
      let r := removeArcsTo dec vertex rest (dec size)
      ((k, delete adjacent vertex) :: r.1, r.2)
    else
      let r := removeArcsTo dec vertex rest size
      ((k, adjacent) :: r.1, r.2)

end GoMap

/-- The increment `size++` of a `uint` counter. -/
def uintInc (n : Nat) : Nat := (n + 1) % 18446744073709551616

/-- The decrement `size--` of a `uint` counter: zero wraps to `2^64 - 1`. -/
def uintDec (n : Nat) : Nat := (n + 18446744073709551615) % 18446744073709551616

/-- The value of an `int` expression after two's-complement wrap-around to 64 bits. -/
def wrapInt (x : Int) : Int := (x + 9223372036854775808) % 18446744073709551616 - 9223372036854775808

/-- Modelled from the spec: the plain edge value `BaseEdge`, whose declaration is not among the
sources: an ordered pair (source, target) of vertices. -/
structure BaseEdge (α : Type) where
  U : α
  V : α
deriving DecidableEq

/-- Modelled from the spec: `Edge.Source()`. -/
def BaseEdge.Source {α : Type} (e : BaseEdge α) : α := e.U

/-- Modelled from the spec: `Edge.Target()`. -/
def BaseEdge.Target {α : Type} (e : BaseEdge α) : α := e.V

/-- Modelled from the spec: `Edge.Both()`. -/
def BaseEdge.Both {α : Type} (e : BaseEdge α) : α × α := (e.U, e.V)

/-- Modelled from the spec: the weighted edge value `BaseWeightedEdge`, whose declaration is not
among the sources: a `BaseEdge` carrying a signed integer weight. -/
structure BaseWeightedEdge (α : Type) extends BaseEdge α where
  W : Int
deriving DecidableEq

/-- Modelled from the spec: `WeightedEdge.Weight()`. -/
def BaseWeightedEdge.Weight {α : Type} (e : BaseWeightedEdge α) : Int := e.W

/-! ### The unweighted store (`adjacency_list.go`) -/

/-- The type `VertexSet`, a `map[Vertex]struct{}`. -/
abbrev VertexSet (α : Type) := GoMap α Unit

/-- The struct `AdjacencyList`: the adjacency map and the `uint` edge counter. -/
structure AdjacencyList (α : Type) where
  list : GoMap α (VertexSet α)
  size : Nat
deriving DecidableEq

/-- The constructor `NewAdjacencyList`. -/
def NewAdjacencyList {α : Type} : AdjacencyList α := ⟨[], 0⟩

namespace AdjacencyList

variable {α : Type} [DecidableEq α]

def hasVertex (g : AdjacencyList α) (vertex : α) : Bool := GoMap.has g.list vertex

def HasVertex (g : AdjacencyList α) (vertex : α) : Bool := g.hasVertex vertex

def Order (g : AdjacencyList α) : Nat := GoMap.len g.list

def Size (g : AdjacencyList α) : Nat := g.size

/-- The enumerator `EachAdjacent`, as the sequence of vertices the visitor is called with. -/
def EachAdjacent (g : AdjacencyList α) (vertex : α) : List α :=
  if GoMap.has g.list vertex then GoMap.keys (GoMap.inner g.list vertex) else []

def addVertex (g : AdjacencyList α) (vertex : α) : AdjacencyList α × Bool :=
  if !g.hasVertex vertex then
    ({ g with list := GoMap.store g.list vertex [] }, true)
  else
    (g, false)

def AddVertex (g : AdjacencyList α) (vertex : α) : AdjacencyList α × Bool := g.addVertex vertex

def RemoveVertex (g : AdjacencyList α) (vertex : α) : AdjacencyList α × Bool :=
  if g.hasVertex vertex then
    let r := GoMap.removeArcsTo uintDec vertex (GoMap.delete g.list vertex) g.size
    (⟨r.1, r.2⟩, true)
  else
    (g, false)

/-- The method `addEdge`; the write `g.list[s][t] = keyExists` goes to the inner map of the
source, which `addVertex` has just made resident. -/
def addEdge (g : AdjacencyList α) (edge : BaseEdge α) : AdjacencyList α × Bool :=
  let g1 := (g.addVertex edge.Source).1
  let g2 := (g1.addVertex edge.Target).1
  let exists_ := GoMap.has (GoMap.inner g2.list edge.Source) edge.Target
  if !exists_ then
    (⟨GoMap.update g2.list edge.Source (fun adj => GoMap.store adj edge.Target ()),
      uintInc g2.size⟩, true)
  else
    (g2, false)

def AddEdge (g : AdjacencyList α) (edge : BaseEdge α) : AdjacencyList α × Bool := g.addEdge edge

def RemoveEdge (g : AdjacencyList α) (edge : BaseEdge α) : AdjacencyList α :=
  let st := edge.Both
  if GoMap.has (GoMap.inner g.list st.1) st.2 then
    ⟨GoMap.update g.list st.1 (fun adj => GoMap.delete adj st.2), uintDec g.size⟩
  else
    g

end AdjacencyList

/-- The stores an `AdjacencyList` client can build: `NewAdjacencyList` followed by any
sequence of `AddVertex`, `RemoveVertex`, `AddEdge` and `RemoveEdge` calls. -/
inductive AdjacencyList.Reachable {α : Type} [DecidableEq α] : AdjacencyList α → Prop
  | init : Reachable NewAdjacencyList
  | addVertex (g : AdjacencyList α) (vertex : α) : Reachable g → Reachable (g.AddVertex vertex).1
  | removeVertex (g : AdjacencyList α) (vertex : α) :
      Reachable g → Reachable (g.RemoveVertex vertex).1
  | addEdge (g : AdjacencyList α) (edge : BaseEdge α) : Reachable g → Reachable (g.AddEdge edge).1
  | removeEdge (g : AdjacencyList α) (edge : BaseEdge α) :
      Reachable g → Reachable (g.RemoveEdge edge)

/-! ### The weighted stores (`weighted.go`) -/

/-- The struct `baseWeighted`: the weighted adjacency map and the `int` edge counter. -/
structure baseWeighted (α : Type) where
  list : GoMap α (GoMap α Int)
  size : Int
deriving DecidableEq

namespace baseWeighted

variable {α : Type} [DecidableEq α]

def hasVertex (g : baseWeighted α) (vertex : α) : Bool := GoMap.has g.list vertex

def HasVertex (g : baseWeighted α) (vertex : α) : Bool := g.hasVertex vertex

def Order (g : baseWeighted α) : Int := (GoMap.len g.list : Int)

def Size (g : baseWeighted α) : Int := g.size

/-- The body of the loop of `ensureVertex`, for one vertex. -/
def ensureVertexStep (g : baseWeighted α) (vertex : α) : baseWeighted α :=
  if !g.hasVertex vertex then { g with list := GoMap.store g.list vertex [] } else g

def ensureVertex (g : baseWeighted α) (vertices : List α) : baseWeighted α :=
  vertices.foldl ensureVertexStep g

def EnsureVertex (g : baseWeighted α) (vertices : List α) : baseWeighted α :=
  if vertices.length = 0 then g else g.ensureVertex vertices

end baseWeighted

/-- The struct `weightedDirected`, which embeds `baseWeighted`. -/
structure weightedDirected (α : Type) extends baseWeighted α
deriving DecidableEq

/-- The constructor `NewWeightedDirected`. -/
def NewWeightedDirected {α : Type} : weightedDirected α := ⟨⟨[], 0⟩⟩

namespace weightedDirected

variable {α : Type} [DecidableEq α]

def EnsureVertex (g : weightedDirected α) (vertices : List α) : weightedDirected α :=
  ⟨g.tobaseWeighted.EnsureVertex vertices⟩

def HasEdge (g : weightedDirected α) (edge : BaseEdge α) : Bool :=
  GoMap.has (GoMap.inner g.list edge.Source) edge.Target

def HasWeightedEdge (g : weightedDirected α) (edge : BaseWeightedEdge α) : Bool :=
  match GoMap.lookup (GoMap.inner g.list edge.Source) edge.Target with
  | some weight => decide (weight = edge.Weight)
  | none => false

/-- The body of the loop of `RemoveVertex`, for one vertex. -/
def removeVertexStep (g : weightedDirected α) (vertex : α) : weightedDirected α :=
  if g.hasVertex vertex then
    let size1 := wrapInt (g.size - (GoMap.len (GoMap.inner g.list vertex) : Int))
    let r := GoMap.removeArcsTo (fun s => wrapInt (s - 1)) vertex (GoMap.delete g.list vertex) size1
    ⟨⟨r.1, r.2⟩⟩
  else
    g

def RemoveVertex (g : weightedDirected α) (vertices : List α) : weightedDirected α :=
  if vertices.length = 0 then g else vertices.foldl removeVertexStep g

/-- The body of the loop of `addEdges`, for one edge; the write `g.list[s][t] = w` goes to the
inner map of the source, which `ensureVertex` has just made resident. -/
def addEdgesStep (g : weightedDirected α) (edge : BaseWeightedEdge α) : weightedDirected α :=
  let g1 : weightedDirected α := ⟨g.tobaseWeighted.ensureVertex [edge.Source, edge.Target]⟩
  if !(GoMap.has (GoMap.inner g1.list edge.Source) edge.Target) then
    ⟨⟨GoMap.update g1.list edge.Source (fun adj => GoMap.store adj edge.Target edge.Weight),
      wrapInt (g1.size + 1)⟩⟩
  else
    g1

def addEdges (g : weightedDirected α) (edges : List (BaseWeightedEdge α)) : weightedDirected α :=
  edges.foldl addEdgesStep g

def AddEdges (g : weightedDirected α) (edges : List (BaseWeightedEdge α)) : weightedDirected α :=
  if edges.length = 0 then g else g.addEdges edges

/-- The body of the loop of `RemoveEdges`, for one edge. -/
def removeEdgesStep (g : weightedDirected α) (edge : BaseWeightedEdge α) : weightedDirected α :=
  let st := edge.Both
  if GoMap.has (GoMap.inner g.list st.1) st.2 then
    ⟨⟨GoMap.update g.list st.1 (fun adj => GoMap.delete adj st.2), wrapInt (g.size - 1)⟩⟩
  else
    g

def RemoveEdges (g : weightedDirected α) (edges : List (BaseWeightedEdge α)) :
    weightedDirected α :=
  if edges.length = 0 then g else edges.foldl removeEdgesStep g

/-- The counting invariant of the directed store: the maps are well formed and the counter is
the number of stored pairs, wrapped to the range of `int`. -/
def CountInv (g : weightedDirected α) : Prop :=
  GoMap.WFall g.list ∧ g.size = wrapInt (GoMap.pairCount g.list)

/-- The weighted directed stores reachable from the empty store by the public mutators. -/
inductive Reachable : weightedDirected α → Prop
  | init : Reachable NewWeightedDirected
  | ensureVertex (g : weightedDirected α) (vertices : List α) :
      Reachable g → Reachable (g.EnsureVertex vertices)
  | removeVertex (g : weightedDirected α) (vertices : List α) :
      Reachable g → Reachable (g.RemoveVertex vertices)
  | addEdges (g : weightedDirected α) (edges : List (BaseWeightedEdge α)) :
      Reachable g → Reachable (g.AddEdges edges)
  | removeEdges (g : weightedDirected α) (edges : List (BaseWeightedEdge α)) :
      Reachable g → Reachable (g.RemoveEdges edges)

end weightedDirected

/-- The struct `weightedUndirected`, which embeds `baseWeighted`. -/
structure weightedUndirected (α : Type) extends baseWeighted α
deriving DecidableEq

/-- The constructor `NewWeightedUndirected`. -/
def NewWeightedUndirected {α : Type} : weightedUndirected α := ⟨⟨[], 0⟩⟩

namespace weightedUndirected

variable {α : Type} [DecidableEq α]

def EnsureVertex (g : weightedUndirected α) (vertices : List α) : weightedUndirected α :=
  ⟨g.tobaseWeighted.EnsureVertex vertices⟩

def HasEdge (g : weightedUndirected α) (edge : BaseEdge α) : Bool :=
  if GoMap.has (GoMap.inner g.list edge.Source) edge.Target then
    true
  else if GoMap.has (GoMap.inner g.list edge.Target) edge.Source then
    true
  else
    false

def HasWeightedEdge (g : weightedUndirected α) (edge : BaseWeightedEdge α) : Bool :=
  match GoMap.lookup (GoMap.inner g.list edge.Source) edge.Target with
  | some weight => decide (edge.Weight = weight)
  | none =>
    match GoMap.lookup (GoMap.inner g.list edge.Target) edge.Source with
    | some weight => decide (edge.Weight = weight)
    | none => false

/-- The call `g.eachAdjacent(vertex, f)` of `RemoveVertex`, whose visitor `f` runs
`delete(g.list[adjacent], vertex)` and never stops the iteration.  The iteration ranges over
the keys of `g.list[vertex]` as they are on entry: the only entry of that map the visitor can
delete is the one of `vertex` itself, and it does so while visiting that very entry. -/
def stripFromNeighbours (list : GoMap α (GoMap α Int)) (vertex : α) : GoMap α (GoMap α Int) :=
  (GoMap.keys (GoMap.inner list vertex)).foldl
    (fun l adjacent => GoMap.update l adjacent (fun m => GoMap.delete m vertex)) list

/-- The body of the loop of `RemoveVertex`, for one vertex. -/
def removeVertexStep (g : weightedUndirected α) (vertex : α) : weightedUndirected α :=
  if g.hasVertex vertex then
    let list1 := stripFromNeighbours g.list vertex
    let size1 := wrapInt (g.size - (GoMap.len (GoMap.inner list1 vertex) : Int))
    ⟨⟨GoMap.delete list1 vertex, size1⟩⟩
  else
    g

def RemoveVertex (g : weightedUndirected α) (vertices : List α) : weightedUndirected α :=
  if vertices.length = 0 then g else vertices.foldl removeVertexStep g

/-- The body of the loop of `addEdges`, for one edge; both writes go to inner maps that
`ensureVertex` has just made resident. -/
def addEdgesStep (g : weightedUndirected α) (edge : BaseWeightedEdge α) : weightedUndirected α :=
  let g1 : weightedUndirected α := ⟨g.tobaseWeighted.ensureVertex [edge.Source, edge.Target]⟩
  if !(GoMap.has (GoMap.inner g1.list edge.Source) edge.Target) then
    let w := edge.Weight
    let list1 := GoMap.update g1.list edge.Source (fun adj => GoMap.store adj edge.Target w)
    let list2 := GoMap.update list1 edge.Target (fun adj => GoMap.store adj edge.Source w)
    ⟨⟨list2, wrapInt (g1.size + 1)⟩⟩
  else
    g1

def addEdges (g : weightedUndirected α) (edges : List (BaseWeightedEdge α)) :
    weightedUndirected α :=
  edges.foldl addEdgesStep g

def AddEdges (g : weightedUndirected α) (edges : List (BaseWeightedEdge α)) :
    weightedUndirected α :=
  if edges.length = 0 then g else g.addEdges edges

/-- The body of the loop of `RemoveEdges`, for one edge. -/
def removeEdgesStep (g : weightedUndirected α) (edge : BaseWeightedEdge α) :
    weightedUndirected α :=
  let st := edge.Both
  if GoMap.has (GoMap.inner g.list st.1) st.2 then
    let list1 := GoMap.update g.list st.1 (fun adj => GoMap.delete adj st.2)
    let list2 := GoMap.update list1 st.2 (fun adj => GoMap.delete adj st.1)
    ⟨⟨list2, wrapInt (g.size - 1)⟩⟩
  else
    g

def RemoveEdges (g : weightedUndirected α) (edges : List (BaseWeightedEdge α)) :
    weightedUndirected α :=
  if edges.length = 0 then g else edges.foldl removeEdgesStep g

/-- The two slots of every pair of vertices agree: both empty, or both holding the same weight. -/
def Symmetric (g : weightedUndirected α) : Prop :=
  ∀ a b, GoMap.slot g.list a b = GoMap.slot g.list b a

/-- The weighted undirected stores reachable from the empty store by the public mutators. -/
inductive Reachable : weightedUndirected α → Prop
  | init : Reachable NewWeightedUndirected
  | ensureVertex (g : weightedUndirected α) (vertices : List α) :
      Reachable g → Reachable (g.EnsureVertex vertices)
  | removeVertex (g : weightedUndirected α) (vertices : List α) :
      Reachable g → Reachable (g.RemoveVertex vertices)
  | addEdges (g : weightedUndirected α) (edges : List (BaseWeightedEdge α)) :
      Reachable g → Reachable (g.AddEdges edges)
  | removeEdges (g : weightedUndirected α) (edges : List (BaseWeightedEdge α)) :
      Reachable g → Reachable (g.RemoveEdges edges)

end weightedUndirected

/-- Number of logical edges stored by an undirected store: a self-loop occupies one slot, any
other edge two. -/
def weightedUndirected.edgeCount {α : Type} [DecidableEq α] (g : weightedUndirected α) : Nat :=
  ((g.list.map (fun p => (p.2.filter (fun q => decide (q.1 = p.1))).length)).sum
    + GoMap.pairCount g.list) / 2

/-! ### Queries, enumerators, density and transposition -/

/-- The loop `for _, x := range xs { if f(x) { return } }` over the items `xs` in iteration
order, for a visitor `f` that may ask to stop.  The visitor is a closure: it takes the state
it has captured and returns the new state with its `terminate` result.  The loop returns the
final state and whether it was stopped. -/
def visit {X S : Type} (f : X → S → S × Bool) : List X → S → S × Bool
  | [], s => (s, false)
  | x :: xs, s =>
    let r := f x s
    if r.2 then (r.1, true) else visit f xs r.1

/-- A `float64`: its IEEE 754 class (`NaN`, an infinity) or, when finite, its exact value,
which is a dyadic rational.  The sign of a zero is not recorded. -/
inductive FloatValue where
  | nan
  | posInf
  | negInf
  | finite (q : ℚ)
deriving DecidableEq

/-- Rounding of a rational to an integer: to the nearest one, and to the even one of the two
when it lies half way. -/
def roundHalfEven (q : ℚ) : Int :=
  if q - ⌊q⌋ < 1 / 2 then ⌊q⌋
  else if 1 / 2 < q - ⌊q⌋ then ⌊q⌋ + 1
  else if ⌊q⌋ % 2 = 0 then ⌊q⌋ else ⌊q⌋ + 1

/-- The `float64` to which an exact value `q` rounds (IEEE 754 binary64, round to nearest,
ties to even).  With 2^k ≤ |q| < 2^(k+1) the 53-bit significand is counted in units of
2^(k−52), and in units of 2^(−1074) in the subnormal range; a result of magnitude 2^1024 or
more is an infinity. -/
def roundFloat64 (q : ℚ) : FloatValue :=
  if q = 0 then FloatValue.finite 0
  else
    let e := max (Int.log 2 |q| - 52) (-1074)
    let v := (roundHalfEven (|q| / (2 : ℚ) ^ e) : ℚ) * (2 : ℚ) ^ e
    if (2 : ℚ) ^ (1024 : ℤ) ≤ v then (if 0 < q then FloatValue.posInf else FloatValue.negInf)
    else FloatValue.finite (if 0 < q then v else -v)

/-- The division `float64(x) / float64(y)` of two converted integers.  Both conversions
round; a converted integer is zero only for the integer 0, and then it is +0, so a zero
divisor gives `NaN` for 0/0 and the infinity of the sign of `x` otherwise.  The quotient of
two finite operands is rounded once more. -/
def floatDiv (x y : Int) : FloatValue :=
  if y = 0 then
    if x = 0 then FloatValue.nan else if 0 < x then FloatValue.posInf else FloatValue.negInf
  else
    match roundFloat64 x, roundFloat64 y with
    | FloatValue.finite a, FloatValue.finite b => roundFloat64 (a / b)
    | FloatValue.finite _, _ => FloatValue.finite 0
    | FloatValue.posInf, FloatValue.finite b =>
      if 0 < b then FloatValue.posInf else FloatValue.negInf
    | FloatValue.negInf, FloatValue.finite b =>
      if 0 < b then FloatValue.negInf else FloatValue.posInf
    | _, _ => FloatValue.nan

/-- The product of two `uint` values. -/
def uintMul (a b : Nat) : Nat := (a * b) % 18446744073709551616

/-- The three vertices of the edge set of the package tests. -/
inductive TestVertex where
  | foo
  | bar
  | baz
deriving DecidableEq

namespace AdjacencyList

variable {α : Type} [DecidableEq α]

def OutDegree (g : AdjacencyList α) (vertex : α) : Nat × Bool :=
  if g.hasVertex vertex then (GoMap.len (GoMap.inner g.list vertex), true) else (0, false)

/-- The method `InDegree`: for every key `e` of the adjacency map, `EachAdjacent(e, f)` runs
the closure `f`, which increments the `uint` result `degree` on every match. -/
def InDegree (g : AdjacencyList α) (vertex : α) : Nat × Bool :=
  if g.hasVertex vertex then
    ((GoMap.keys g.list).foldl
      (fun degree e =>
        (g.EachAdjacent e).foldl (fun d v => if v = vertex then uintInc d else d) degree) 0,
      true)
  else
    (0, false)

/-- The method `Density`: `2 * float64(g.Size()) / float64(order * (order - 1))`, the
denominator being computed in `uint`.  Doubling a `float64` is exact, so `2 * float64(m)` is
the conversion of the integer 2·m. -/
def Density (g : AdjacencyList α) : FloatValue :=
  let order := g.Order
  floatDiv (2 * (g.Size : Int)) (uintMul order (uintDec order) : Int)

end AdjacencyList

namespace weightedDirected

variable {α : Type} [DecidableEq α]

/-- The edges in the order in which the nested loops over `g.list` produce them. -/
def edgeSeq (g : weightedDirected α) : List (BaseWeightedEdge α) :=
  g.list.flatMap (fun p => p.2.map (fun q => (⟨⟨p.1, q.1⟩, q.2⟩ : BaseWeightedEdge α)))

def EachEdge {S : Type} (g : weightedDirected α) (f : BaseWeightedEdge α → S → S × Bool)
    (s : S) : S :=
  (visit f g.edgeSeq s).1

def OutDegreeOf (g : weightedDirected α) (vertex : α) : Int × Bool :=
  if g.hasVertex vertex then ((GoMap.len (GoMap.inner g.list vertex) : Int), true)
  else (0, false)

/-- The method `InDegreeOf`: `EachEdge` runs a closure that increments the `int` result
`degree` on every edge whose target is `vertex` and never asks to stop. -/
def InDegreeOf (g : weightedDirected α) (vertex : α) : Int × Bool :=
  if g.hasVertex vertex then
    (g.EachEdge (fun e degree =>
      (if vertex = e.Target then wrapInt (degree + 1) else degree, false)) 0, true)
  else
    (0, false)

def DegreeOf (g : weightedDirected α) (vertex : α) : Int × Bool :=
  let ind := g.InDegreeOf vertex
  let outd := g.OutDegreeOf vertex
  (wrapInt (ind.1 + outd.1), outd.2)

def EachArcFrom {S : Type} (g : weightedDirected α) (v : α)
    (f : BaseWeightedEdge α → S → S × Bool) (s : S) : S :=
  if !g.hasVertex v then s
  else
    (visit f ((GoMap.inner g.list v).map
      (fun q => (⟨⟨v, q.1⟩, q.2⟩ : BaseWeightedEdge α))) s).1

/-- The method `EachArcTo`: the nested loops pass to the visitor the entries whose target is
`v`, and a stop request leaves both loops. -/
def EachArcTo {S : Type} (g : weightedDirected α) (v : α)
    (f : BaseWeightedEdge α → S → S × Bool) (s : S) : S :=
  if !g.hasVertex v then s
  else
    (visit f (g.list.flatMap (fun p =>
      (p.2.filter (fun q => decide (q.1 = v))).map
        (fun q => (⟨⟨p.1, q.1⟩, q.2⟩ : BaseWeightedEdge α)))) s).1

/-- The closure `interloper` of `EachEdgeIncidentTo`: its state is the variable `terminate`
together with the state of the visitor `f`; `terminate = terminate || f(e)` does not call `f`
once `terminate` is set. -/
def interloper {S : Type} (f : BaseWeightedEdge α → S → S × Bool) (e : BaseWeightedEdge α)
    (st : Bool × S) : (Bool × S) × Bool :=
  if st.1 then (st, true)
  else
    let r := f e st.2
    ((r.2, r.1), r.2)

def EachEdgeIncidentTo {S : Type} (g : weightedDirected α) (v : α)
    (f : BaseWeightedEdge α → S → S × Bool) (s : S) : S :=
  let st1 := g.EachArcFrom v (interloper f) (false, s)
  let st2 := g.EachArcTo v (interloper f) st1
  st2.2

/-- The method `Density`: `float64(g.Size()) / float64(order*(order-1))`, the denominator
being computed in `int`. -/
def Density (g : weightedDirected α) : FloatValue :=
  let order := g.Order
  floatDiv g.Size (wrapInt (order * wrapInt (order - 1)))

/-- The body of the inner loop of `Transpose` for the arc `source → tw.1` of weight `tw.2`:
make the target resident in the new map, then `g2.list[target][source] = weight`. -/
def transposeArc (source : α) (list2 : GoMap α (GoMap α Int)) (tw : α × Int) :
    GoMap α (GoMap α Int) :=
  let list2a := if !GoMap.has list2 tw.1 then GoMap.store list2 tw.1 [] else list2
  GoMap.update list2a tw.1 (fun m => GoMap.store m source tw.2)

/-- The body of the outer loop of `Transpose` for the entry `p` of `g.list`. -/
def transposeEntry (list2 : GoMap α (GoMap α Int)) (p : α × GoMap α Int) :
    GoMap α (GoMap α Int) :=
  let list2a := if !GoMap.has list2 p.1 then GoMap.store list2 p.1 [] else list2
  p.2.foldl (transposeArc p.1) list2a

/-- The method `Transpose`.  The capacity estimate `int(g.Size() / g.Order())` is an integer
division, which panics when the order is zero: that is the result `none`.  The estimate is
only a size hint of `make` and has no other effect; the field `size` of the new store is never
assigned and keeps its zero value.  The receiver is only read. -/
def Transpose (g : weightedDirected α) : Option (weightedDirected α) :=
  if g.Order = 0 then none
  else some ⟨⟨g.list.foldl transposeEntry [], 0⟩⟩

end weightedDirected

namespace weightedUndirected

variable {α : Type} [DecidableEq α]

/-- The method `Density`: `2 * float64(g.Size()) / float64(order*(order-1))`, the denominator
being computed in `int`.  Doubling a `float64` is exact, so `2 * float64(m)` is the conversion
of the integer 2·m. -/
def Density (g : weightedUndirected α) : FloatValue :=
  let order := g.Order
  floatDiv (2 * g.Size) (wrapInt (order * wrapInt (order - 1)))

end weightedUndirected

/-- A store with the 2^32 + 1 vertices 0, …, 2^32 and the single arc (0,1). -/
def manyVertices : AdjacencyList Nat :=
  ⟨(0, [(1, ())]) :: (List.range' 1 4294967296).map (fun i => (i, ([] : VertexSet Nat))), 1⟩

/-- A weighted directed store with the 2^32 vertices 0, …, 2^32 − 1 and the single arc
(0,1) of weight 5. -/
def manyVerticesWeighted : weightedDirected Nat :=
  ⟨⟨(0, [(1, 5)]) :: (List.range' 1 4294967295).map (fun i => (i, ([] : GoMap Nat Int))), 1⟩⟩

/-! ### Enumerators and their visitors -/

/-- The visitor `f` with a log of its calls: every invocation appends the item it was given
and the value it returned. -/
def logged {X S : Type} (f : X → S → S × Bool) (x : X) (st : S × List (X × Bool)) :
    (S × List (X × Bool)) × Bool :=
  let r := f x st.1
  ((r.1, st.2 ++ [(x, r.2)]), r.2)

/-- In a log of calls, a call that returned true is the last one. -/
def NoCallAfterStop {X : Type} (log : List (X × Bool)) : Prop :=
  ∀ pre c post, log = pre ++ c :: post → c.2 = true → post = []

namespace baseWeighted

variable {α : Type} [DecidableEq α]

def EachVertex {S : Type} (g : baseWeighted α) (f : α → S → S × Bool) (s : S) : S :=
  (visit f (GoMap.keys g.list) s).1

end baseWeighted

namespace weightedDirected

variable {α : Type} [DecidableEq α]

/-- The method `EachAdjacent`: `EachEdgeIncidentTo` with a closure that passes to `f` the end
of the edge that is not `start`. -/
def EachAdjacent {S : Type} (g : weightedDirected α) (start : α) (f : α → S → S × Bool)
    (s : S) : S :=
  g.EachEdgeIncidentTo start
    (fun e => if e.Both.1 = start then f e.Both.2 else f e.Both.1) s

/-- The method `EachWeightedEdge`, whose visitor returns nothing. -/
def EachWeightedEdge {S : Type} (g : weightedDirected α) (f : BaseWeightedEdge α → S → S)
    (s : S) : S :=
  g.edgeSeq.foldl (fun s e => f e s) s

end weightedDirected

namespace weightedUndirected

variable {α : Type} [DecidableEq α]

/-- The adjacency slots in the order in which the nested loops over `g.list` produce them. -/
def edgeSeq (g : weightedUndirected α) : List (BaseWeightedEdge α) :=
  g.list.flatMap (fun p => p.2.map (fun q => (⟨⟨p.1, q.1⟩, q.2⟩ : BaseWeightedEdge α)))

/-- The body of the loops of `EachEdge`, as a closure over the set `visited` and the state of
the visitor `f`: a slot whose reverse is in `visited` is skipped, any other is added to
`visited` and passed to `f`. -/
def dedup {S : Type} (f : BaseWeightedEdge α → S → S × Bool) (e : BaseWeightedEdge α)
    (st : List (BaseEdge α) × S) : (List (BaseEdge α) × S) × Bool :=
  if (⟨e.V, e.U⟩ : BaseEdge α) ∈ st.1 then (st, false)
  else
    let r := f e st.2
    ((st.1 ++ [e.toBaseEdge], r.1), r.2)

def EachEdge {S : Type} (g : weightedUndirected α) (f : BaseWeightedEdge α → S → S × Bool)
    (s : S) : S :=
  (visit (dedup f) g.edgeSeq ([], s)).1.2

/-- The method `EachWeightedEdge`, whose visitor returns nothing. -/
def EachWeightedEdge {S : Type} (g : weightedUndirected α) (f : BaseWeightedEdge α → S → S)
    (s : S) : S :=
  (g.edgeSeq.foldl
    (fun st e =>
      if (⟨e.V, e.U⟩ : BaseEdge α) ∈ st.1 then st else (st.1 ++ [e.toBaseEdge], f e st.2))
    (([] : List (BaseEdge α)), s)).2

def EachEdgeIncidentTo {S : Type} (g : weightedUndirected α) (v : α)
    (f : BaseWeightedEdge α → S → S × Bool) (s : S) : S :=
  if !g.hasVertex v then s
  else
    (visit f ((GoMap.inner g.list v).map
      (fun q => (⟨⟨v, q.1⟩, q.2⟩ : BaseWeightedEdge α))) s).1

def eachAdjacent {S : Type} (g : weightedUndirected α) (vertex : α) (f : α → S → S × Bool)
    (s : S) : S :=
  if GoMap.has g.list vertex then (visit f (GoMap.keys (GoMap.inner g.list vertex)) s).1
  else s

def EachAdjacent {S : Type} (g : weightedUndirected α) (vertex : α) (f : α → S → S × Bool)
    (s : S) : S :=
  g.eachAdjacent vertex f s

/-- The slots that `EachEdge` passes to a visitor that never stops, in order: the slots of
`edges` whose reverse is neither in `visited` nor passed earlier. -/
def emitted : List (BaseWeightedEdge α) → List (BaseEdge α) → List (BaseWeightedEdge α)
  | [], _ => []
  | e :: edges, visited =>
    if (⟨e.V, e.U⟩ : BaseEdge α) ∈ visited then emitted edges visited
    else e :: emitted edges (visited ++ [e.toBaseEdge])

end weightedUndirected

namespace AdjacencyList

variable {α : Type} [DecidableEq α]

/-- The method `EachVertex`, whose visitor returns nothing. -/
def EachVertex {S : Type} (g : AdjacencyList α) (f : α → S → S) (s : S) : S :=
  (GoMap.keys g.list).foldl (fun s v => f v s) s

/-- The method `EachEdge`, whose visitor returns nothing. -/
def EachEdge {S : Type} (g : AdjacencyList α) (f : BaseEdge α → S → S) (s : S) : S :=
  (g.list.flatMap (fun p => (GoMap.keys p.2).map (fun t => (⟨p.1, t⟩ : BaseEdge α)))).foldl
    (fun s e => f e s) s

end AdjacencyList

/-! ### Degrees of the undirected store, edge sets and histories -/

namespace weightedUndirected

variable {α : Type} [DecidableEq α]

def DegreeOf (g : weightedUndirected α) (vertex : α) : Int × Bool :=
  if g.hasVertex vertex then ((GoMap.len (GoMap.inner g.list vertex) : Int), true)
  else (0, false)

/-- The weighted undirected stores reachable from the empty store by the public mutators when
no self-loop is ever passed to `AddEdges`. -/
inductive ReachableLoopFree : weightedUndirected α → Prop
  | init : ReachableLoopFree NewWeightedUndirected
  | ensureVertex (g : weightedUndirected α) (vertices : List α) :
      ReachableLoopFree g → ReachableLoopFree (g.EnsureVertex vertices)
  | removeVertex (g : weightedUndirected α) (vertices : List α) :
      ReachableLoopFree g → ReachableLoopFree (g.RemoveVertex vertices)
  | addEdges (g : weightedUndirected α) (edges : List (BaseWeightedEdge α)) :
      (∀ e ∈ edges, e.Source ≠ e.Target) →
      ReachableLoopFree g → ReachableLoopFree (g.AddEdges edges)
  | removeEdges (g : weightedUndirected α) (edges : List (BaseWeightedEdge α)) :
      ReachableLoopFree g → ReachableLoopFree (g.RemoveEdges edges)

end weightedUndirected

/-- The constructor `NewAdjacencyListFromEdgeSet`: `addEdge` for every edge of the slice, in
order, on a new store. -/
def NewAdjacencyListFromEdgeSet {α : Type} [DecidableEq α] (set : List (BaseEdge α)) :
    AdjacencyList α :=
  set.foldl (fun g edge => (g.addEdge edge).1) NewAdjacencyList

/-- The stores an `AdjacencyList` client can build with a given number of `AddEdge` calls:
`ReachableIn n g` holds when `g` is reached from `NewAdjacencyList` by a sequence of public
mutator calls of which `n` are calls of `AddEdge`. -/
inductive AdjacencyList.ReachableIn {α : Type} [DecidableEq α] : Nat → AdjacencyList α → Prop
  | init : ReachableIn 0 NewAdjacencyList
  | addVertex (n : Nat) (g : AdjacencyList α) (vertex : α) :
      ReachableIn n g → ReachableIn n (g.AddVertex vertex).1
  | removeVertex (n : Nat) (g : AdjacencyList α) (vertex : α) :
      ReachableIn n g → ReachableIn n (g.RemoveVertex vertex).1
  | addEdge (n : Nat) (g : AdjacencyList α) (edge : BaseEdge α) :
      ReachableIn n g → ReachableIn (n + 1) (g.AddEdge edge).1
  | removeEdge (n : Nat) (g : AdjacencyList α) (edge : BaseEdge α) :
      ReachableIn n g → ReachableIn n (g.RemoveEdge edge)


/-- The invariant of the undirected store without self-loops: well-formed maps, symmetric
slots, no slot (v,v), and a counter that is the `int` value of half the number of slots. -/
def weightedUndirected.LoopFreeInv {α : Type} [DecidableEq α] (g : weightedUndirected α) :
    Prop :=
  GoMap.WFall g.list ∧ g.Symmetric ∧ (∀ v, GoMap.slot g.list v v = none) ∧
    ∃ k : Nat, GoMap.pairCount g.list = 2 * k ∧ g.size = wrapInt k


/-! ## Lemmas on Go maps -/

namespace GoMap

variable {K T : Type} [DecidableEq K]

theorem lookup_store (m : GoMap K T) (k k' : K) (b : T) :
    lookup (store m k b) k' = if k = k' then some b else lookup m k' := by
  induction m with
  | nil => simp [store, lookup]
  | cons p m ih =>
    obtain ⟨a, c⟩ := p
    by_cases h : a = k
    · subst h
      by_cases h' : a = k' <;> simp [store, lookup, h']
    · by_cases h' : a = k'
      · subst h'
        simp [store, lookup, h, Ne.symm h]
      · simp [store, lookup, h, h', ih]

theorem lookup_delete (m : GoMap K T) (k k' : K) :
    lookup (delete m k) k' = if k = k' then none else lookup m k' := by
  induction m with
  | nil => simp [delete, lookup]
  | cons p m ih =>
    obtain ⟨a, c⟩ := p
    by_cases h : a = k
    · subst h
      by_cases h' : a = k'
      · subst h'
        simpa [delete, lookup] using ih
      · simpa [delete, lookup, h'] using ih
    · by_cases h' : a = k'
      · subst h'
        simp [delete, lookup, h, Ne.symm h]
      · simp [delete, lookup, h, h', ih]

theorem lookup_update (m : GoMap K T) (k k' : K) (f : T → T) :
    lookup (update m k f) k' = if k = k' then (lookup m k').map f else lookup m k' := by
  induction m with
  | nil => simp [update, lookup]
  | cons p m ih =>
    obtain ⟨a, c⟩ := p
    by_cases h : a = k
    · subst h
      by_cases h' : a = k' <;> simp [update, lookup, h']
    · by_cases h' : a = k'
      · subst h'
        simp [update, lookup, h, Ne.symm h]
      · simp [update, lookup, h, h', ih]

theorem lookup_mapValues (m : GoMap K T) (f : T → T) (k : K) :
    lookup (m.map (fun p => (p.1, f p.2))) k = (lookup m k).map f := by
  induction m with
  | nil => simp [lookup]
  | cons p m ih =>
    obtain ⟨a, c⟩ := p
    by_cases h : a = k <;> simp [lookup, h, ih]

theorem lookup_eq_none_iff (m : GoMap K T) (k : K) : lookup m k = none ↔ k ∉ keys m := by
  induction m with
  | nil => simp [lookup, keys]
  | cons p m ih =>
    obtain ⟨a, c⟩ := p
    simp only [keys] at ih
    by_cases h : a = k
    · simp [lookup, keys, h]
    · simp [lookup, keys, h, ih, Ne.symm h]

theorem has_iff_mem_keys (m : GoMap K T) (k : K) : has m k = true ↔ k ∈ keys m := by
  have h := lookup_eq_none_iff m k
  unfold has
  cases hl : lookup m k with
  | none => simpa [hl] using h
  | some b =>
    rw [hl] at h
    simpa using h

theorem has_eq_false_iff (m : GoMap K T) (k : K) : has m k = false ↔ lookup m k = none := by
  unfold has
  cases lookup m k <;> simp

theorem store_of_absent (m : GoMap K T) (k : K) (b : T) (h : lookup m k = none) :
    store m k b = m ++ [(k, b)] := by
  induction m with
  | nil => simp [store]
  | cons p m ih =>
    obtain ⟨a, c⟩ := p
    by_cases hk : a = k
    · simp [lookup, hk] at h
    · simp only [lookup, hk, if_false] at h
      simp [store, hk, ih h]

theorem keys_update (m : GoMap K T) (k : K) (f : T → T) : keys (update m k f) = keys m := by
  induction m with
  | nil => simp [update, keys]
  | cons p m ih =>
    obtain ⟨a, c⟩ := p
    simp only [keys] at ih
    by_cases h : a = k <;> simp [update, keys, h, ih]

theorem delete_of_absent (m : GoMap K T) (k : K) (h : lookup m k = none) : delete m k = m := by
  induction m with
  | nil => simp [delete]
  | cons p m ih =>
    obtain ⟨a, c⟩ := p
    by_cases hk : a = k
    · simp [lookup, hk] at h
    · simp only [lookup, hk, if_false] at h
      simp [delete, hk, ih h]

theorem removeArcsTo_fst {T2 C : Type} (dec : C → C) (x : K) (m : GoMap K (GoMap K T2)) (c : C) :
    (removeArcsTo dec x m c).1 = m.map (fun p => (p.1, delete p.2 x)) := by
  induction m generalizing c with
  | nil => simp [removeArcsTo]
  | cons p m ih =>
    obtain ⟨a, adj⟩ := p
    by_cases h : has adj x = true
    · simp [removeArcsTo, h, ih]
    · have h' : lookup adj x = none := (has_eq_false_iff adj x).1 (by simpa using h)
      simp [removeArcsTo, h, ih, delete_of_absent adj x h']

/-! ### Slots of a map of maps -/

variable {T2 : Type}

theorem has_inner (m : GoMap K (GoMap K T2)) (u v : K) :
    has (inner m u) v = (slot m u v).isSome := rfl

theorem slot_eq_none_of_absent (m : GoMap K (GoMap K T2)) (u v : K) (h : lookup m u = none) :
    slot m u v = none := by
  simp [slot, inner, h, lookup]

theorem slot_store_empty (m : GoMap K (GoMap K T2)) (k u v : K) (h : lookup m k = none) :
    slot (store m k []) u v = slot m u v := by
  unfold slot inner
  rw [lookup_store]
  by_cases hk : k = u
  · subst hk
    simp [h, lookup]
  · simp [hk]

theorem slot_delete (m : GoMap K (GoMap K T2)) (k u v : K) :
    slot (delete m k) u v = if k = u then none else slot m u v := by
  unfold slot inner
  rw [lookup_delete]
  by_cases hk : k = u <;> simp [hk, lookup]

theorem slot_update (m : GoMap K (GoMap K T2)) (k u v : K) (f : GoMap K T2 → GoMap K T2)
    (hk : has m k = true) :
    slot (update m k f) u v = if k = u then lookup (f (inner m u)) v else slot m u v := by
  unfold slot inner
  rw [lookup_update]
  by_cases h : k = u
  · subst h
    unfold has at hk
    cases hl : lookup m k with
    | none => simp [hl] at hk
    | some adj => simp
  · simp [h]

theorem slot_update_absent (m : GoMap K (GoMap K T2)) (k u v : K) (f : GoMap K T2 → GoMap K T2)
    (hk : lookup m k = none) : slot (update m k f) u v = slot m u v := by
  unfold slot inner
  rw [lookup_update]
  by_cases h : k = u
  · subst h
    simp [hk]
  · simp [h]

theorem slot_update_delete (m : GoMap K (GoMap K T2)) (k t u v : K) :
    slot (update m k (fun adj => delete adj t)) u v =
      if k = u ∧ t = v then none else slot m u v := by
  cases hl : lookup m k with
  | none =>
    rw [slot_update_absent m k u v _ hl]
    by_cases h : k = u ∧ t = v
    · obtain ⟨h1, h2⟩ := h
      subst h1
      simp [slot_eq_none_of_absent m k v hl]
    · simp [h]
  | some adj =>
    have hk : has m k = true := by simp [has, hl]
    rw [slot_update m k u v _ hk, lookup_delete]
    by_cases h1 : k = u <;> by_cases h2 : t = v <;> simp [h1, h2, slot]

theorem slot_mapDelete (m : GoMap K (GoMap K T2)) (x u v : K) :
    slot (m.map (fun p => (p.1, delete p.2 x))) u v = if x = v then none else slot m u v := by
  unfold slot inner
  rw [lookup_mapValues m (fun adj => delete adj x) u]
  cases lookup m u with
  | none => simp [lookup]
  | some adj => simp [lookup_delete]

end GoMap

namespace GoMap

variable {K T T2 : Type} [DecidableEq K]

theorem has_store (m : GoMap K T) (k k' : K) (b : T) :
    has (store m k b) k' = (decide (k = k') || has m k') := by
  unfold has
  rw [lookup_store]
  by_cases h : k = k' <;> simp [h]

theorem has_delete (m : GoMap K T) (k k' : K) :
    has (delete m k) k' = (!decide (k = k') && has m k') := by
  unfold has
  rw [lookup_delete]
  by_cases h : k = k' <;> simp [h]

theorem has_update (m : GoMap K T) (k k' : K) (f : T → T) :
    has (update m k f) k' = has m k' := by
  unfold has
  rw [lookup_update]
  by_cases h : k = k' <;> simp [h]

theorem has_mapValues (m : GoMap K T) (f : T → T) (k : K) :
    has (m.map (fun p => (p.1, f p.2))) k = has m k := by
  unfold has
  rw [lookup_mapValues]
  simp

theorem has_foldl_update (ks : List K) (F : K → T → T) (m : GoMap K T) (k : K) :
    has (ks.foldl (fun l a => update l a (F a)) m) k = has m k := by
  induction ks generalizing m with
  | nil => rfl
  | cons a ks ih => rw [List.foldl_cons, ih, has_update]

theorem slot_store_empty_of_has (m : GoMap K (GoMap K T2)) (k u v : K) :
    slot (if !has m k then store m k [] else m) u v = slot m u v := by
  by_cases h : has m k = true
  · simp [h]
  · have h' : lookup m k = none := (has_eq_false_iff m k).1 (by simpa using h)
    simp [h, slot_store_empty m k u v h']

end GoMap

/-! ## Lemmas on the stores -/

namespace AdjacencyList

variable {α : Type} [DecidableEq α]

theorem hasVertex_addVertex (g : AdjacencyList α) (v x : α) :
    (g.addVertex v).1.hasVertex x = (decide (v = x) || g.hasVertex x) := by
  unfold addVertex hasVertex
  by_cases h : GoMap.has g.list v = true
  · by_cases hx : v = x
    · subst hx
      simp [h]
    · simp [h, hx]
  · simp [h, GoMap.has_store]

theorem slot_addVertex (g : AdjacencyList α) (v a b : α) :
    GoMap.slot (g.addVertex v).1.list a b = GoMap.slot g.list a b := by
  have h := GoMap.slot_store_empty_of_has g.list v a b
  unfold addVertex hasVertex
  by_cases hv : GoMap.has g.list v = true
  · simp [hv]
  · simpa [hv] using h

theorem size_addVertex (g : AdjacencyList α) (v : α) : (g.addVertex v).1.size = g.size := by
  unfold addVertex
  split <;> rfl

theorem addVertex_of_hasVertex (g : AdjacencyList α) (v : α) (h : g.hasVertex v = true) :
    g.addVertex v = (g, false) := by
  simp [addVertex, h]

theorem hasVertex_RemoveVertex (g : AdjacencyList α) (v x : α) :
    (g.RemoveVertex v).1.hasVertex x = (!decide (v = x) && g.hasVertex x) := by
  unfold RemoveVertex hasVertex
  by_cases h : GoMap.has g.list v = true
  · simp only [h, if_true, GoMap.removeArcsTo_fst]
    rw [GoMap.has_mapValues (GoMap.delete g.list v) (fun adj => GoMap.delete adj v) x,
      GoMap.has_delete]
  · by_cases hx : v = x
    · subst hx
      simp [h]
    · simp [h, hx]

theorem hasVertex_addEdge (g : AdjacencyList α) (e : BaseEdge α) (x : α) :
    (g.addEdge e).1.hasVertex x = (decide (e.U = x) || decide (e.V = x) || g.hasVertex x) := by
  have h2 : ((g.addVertex e.U).1.addVertex e.V).1.hasVertex x =
      (decide (e.V = x) || (decide (e.U = x) || g.hasVertex x)) := by
    rw [hasVertex_addVertex (g.addVertex e.U).1, hasVertex_addVertex g]
  unfold addEdge
  simp only [BaseEdge.Source, BaseEdge.Target]
  split
  · simp only [hasVertex] at h2 ⊢
    rw [GoMap.has_update, h2]
    cases decide (e.U = x) <;> cases decide (e.V = x) <;> simp
  · rw [h2]
    cases decide (e.U = x) <;> cases decide (e.V = x) <;> simp

theorem slot_addEdge (g : AdjacencyList α) (e : BaseEdge α) (a b : α) :
    GoMap.slot (g.addEdge e).1.list a b =
      if e.U = a ∧ e.V = b then some () else GoMap.slot g.list a b := by
  have hs : GoMap.slot ((g.addVertex e.U).1.addVertex e.V).1.list a b = GoMap.slot g.list a b := by
    rw [slot_addVertex, slot_addVertex]
  have hu : GoMap.has ((g.addVertex e.U).1.addVertex e.V).1.list e.U = true := by
    have h := hasVertex_addVertex (g.addVertex e.U).1 e.V e.U
    rw [hasVertex_addVertex g] at h
    simpa [hasVertex] using h
  unfold addEdge
  simp only [BaseEdge.Source, BaseEdge.Target]
  by_cases hex : GoMap.has (GoMap.inner ((g.addVertex e.U).1.addVertex e.V).1.list e.U) e.V = true
  · simp only [hex, Bool.not_true, Bool.false_eq_true, if_false]
    rw [hs]
    by_cases hab : e.U = a ∧ e.V = b
    · obtain ⟨h1, h2⟩ := hab
      subst h1 h2
      rw [GoMap.has_inner, hs] at hex
      cases hg : GoMap.slot g.list e.U e.V with
      | none => simp [hg] at hex
      | some u => simp
    · simp [hab]
  · simp only [hex, Bool.not_false, if_true]
    rw [GoMap.slot_update _ _ _ _ _ hu, GoMap.lookup_store]
    by_cases h1 : e.U = a
    · subst h1
      by_cases h2 : e.V = b
      · simp [h2]
      · simp only [h2, and_false, if_false, if_true]
        exact hs
    · simp only [h1, false_and, if_false]
      exact hs

theorem addEdge_of_present (g : AdjacencyList α) (e : BaseEdge α)
    (hu : g.hasVertex e.U = true) (hv : g.hasVertex e.V = true)
    (he : (GoMap.slot g.list e.U e.V).isSome = true) : g.addEdge e = (g, false) := by
  unfold addEdge
  simp only [BaseEdge.Source, BaseEdge.Target]
  rw [addVertex_of_hasVertex g e.U hu]
  simp only
  rw [addVertex_of_hasVertex g e.V hv]
  simp only [GoMap.has_inner, he, Bool.not_true, Bool.false_eq_true, if_false]

end AdjacencyList

theorem foldl_invariant {S X : Type} (P : S → Prop) (f : S → X → S)
    (hstep : ∀ s x, P s → P (f s x)) (xs : List X) (s : S) (hs : P s) : P (xs.foldl f s) := by
  induction xs generalizing s with
  | nil => exact hs
  | cons x xs ih => exact ih (f s x) (hstep s x hs)

namespace GoMap

variable {K T2 : Type} [DecidableEq K]

theorem slot_foldl_update_delete (ks : List K) (x : K) (m : GoMap K (GoMap K T2)) (a b : K) :
    slot (ks.foldl (fun l k => update l k (fun adj => delete adj x)) m) a b =
      if a ∈ ks ∧ x = b then none else slot m a b := by
  induction ks generalizing m with
  | nil => simp
  | cons k ks ih =>
    rw [List.foldl_cons, ih, slot_update_delete]
    rcases eq_or_ne k a with h3 | h3
    · subst h3
      by_cases h1 : k ∈ ks <;> by_cases h2 : x = b <;> simp [h1, h2]
    · have h3' := h3.symm
      by_cases h1 : a ∈ ks <;> by_cases h2 : x = b <;> simp [h1, h2, h3, h3']

end GoMap

namespace baseWeighted

variable {α : Type} [DecidableEq α]

theorem hasVertex_ensureVertexStep (g : baseWeighted α) (v x : α) :
    (g.ensureVertexStep v).hasVertex x = (decide (v = x) || g.hasVertex x) := by
  unfold ensureVertexStep hasVertex
  by_cases h : GoMap.has g.list v = true
  · by_cases hx : v = x
    · subst hx
      simp [h]
    · simp [h, hx]
  · simp [h, GoMap.has_store]

theorem slot_ensureVertexStep (g : baseWeighted α) (v a b : α) :
    GoMap.slot (g.ensureVertexStep v).list a b = GoMap.slot g.list a b := by
  have h := GoMap.slot_store_empty_of_has g.list v a b
  unfold ensureVertexStep hasVertex
  by_cases hv : GoMap.has g.list v = true
  · simp [hv]
  · simpa [hv] using h

theorem size_ensureVertexStep (g : baseWeighted α) (v : α) :
    (g.ensureVertexStep v).size = g.size := by
  unfold ensureVertexStep
  split <;> rfl

theorem ensureVertexStep_of_hasVertex (g : baseWeighted α) (v : α) (h : g.hasVertex v = true) :
    g.ensureVertexStep v = g := by
  simp [ensureVertexStep, h]

theorem hasVertex_ensureVertex (g : baseWeighted α) (vs : List α) (x : α) :
    (g.ensureVertex vs).hasVertex x = (decide (x ∈ vs) || g.hasVertex x) := by
  unfold ensureVertex
  induction vs generalizing g with
  | nil => simp
  | cons v vs ih =>
    rw [List.foldl_cons, ih, hasVertex_ensureVertexStep]
    rcases eq_or_ne v x with h2 | h2
    · subst h2
      simp
    · have h2' := h2.symm
      by_cases h1 : x ∈ vs <;> simp [h1, h2, h2']

theorem hasVertex_ensureVertex_pair (g : baseWeighted α) (u v x : α) :
    (g.ensureVertex [u, v]).hasVertex x = (decide (u = x) || decide (v = x) || g.hasVertex x) := by
  show ((g.ensureVertexStep u).ensureVertexStep v).hasVertex x = _
  rw [hasVertex_ensureVertexStep, hasVertex_ensureVertexStep]
  cases decide (u = x) <;> cases decide (v = x) <;> simp

theorem slot_ensureVertex (g : baseWeighted α) (vs : List α) (a b : α) :
    GoMap.slot (g.ensureVertex vs).list a b = GoMap.slot g.list a b := by
  unfold ensureVertex
  induction vs generalizing g with
  | nil => rfl
  | cons v vs ih => rw [List.foldl_cons, ih, slot_ensureVertexStep]

theorem size_ensureVertex (g : baseWeighted α) (vs : List α) :
    (g.ensureVertex vs).size = g.size := by
  unfold ensureVertex
  induction vs generalizing g with
  | nil => rfl
  | cons v vs ih => rw [List.foldl_cons, ih, size_ensureVertexStep]

theorem ensureVertex_of_hasVertex (g : baseWeighted α) (vs : List α)
    (h : ∀ v ∈ vs, g.hasVertex v = true) : g.ensureVertex vs = g := by
  unfold ensureVertex
  induction vs with
  | nil => rfl
  | cons v vs ih =>
    rw [List.foldl_cons, ensureVertexStep_of_hasVertex g v (h v (List.mem_cons_self v vs))]
    exact ih (fun w hw => h w (List.mem_cons_of_mem v hw))

theorem EnsureVertex_eq (g : baseWeighted α) (vs : List α) :
    g.EnsureVertex vs = g.ensureVertex vs := by
  unfold EnsureVertex
  cases vs with
  | nil => rfl
  | cons v vs => simp

end baseWeighted

namespace weightedDirected

variable {α : Type} [DecidableEq α]

theorem wd_RemoveVertex_eq (g : weightedDirected α) (vs : List α) :
    g.RemoveVertex vs = vs.foldl removeVertexStep g := by
  unfold RemoveVertex
  cases vs with
  | nil => rfl
  | cons v vs => simp

theorem wd_AddEdges_eq (g : weightedDirected α) (es : List (BaseWeightedEdge α)) :
    g.AddEdges es = es.foldl addEdgesStep g := by
  unfold AddEdges addEdges
  cases es with
  | nil => rfl
  | cons v vs => simp

theorem wd_RemoveEdges_eq (g : weightedDirected α) (es : List (BaseWeightedEdge α)) :
    g.RemoveEdges es = es.foldl removeEdgesStep g := by
  unfold RemoveEdges
  cases es with
  | nil => rfl
  | cons v vs => simp

theorem wd_hasVertex_addEdgesStep (g : weightedDirected α) (e : BaseWeightedEdge α) (x : α) :
    (g.addEdgesStep e).hasVertex x = (decide (e.U = x) || decide (e.V = x) || g.hasVertex x) := by
  have h2 := baseWeighted.hasVertex_ensureVertex_pair g.tobaseWeighted e.U e.V x
  unfold addEdgesStep
  simp only [BaseEdge.Source, BaseEdge.Target]
  split
  · simp only [baseWeighted.hasVertex] at h2 ⊢
    rw [GoMap.has_update, h2]
  · rw [h2]

theorem wd_slot_addEdgesStep (g : weightedDirected α) (e : BaseWeightedEdge α) (a b : α) :
    GoMap.slot (g.addEdgesStep e).list a b =
      if e.U = a ∧ e.V = b then some ((GoMap.slot g.list a b).getD e.W)
      else GoMap.slot g.list a b := by
  have hs := baseWeighted.slot_ensureVertex g.tobaseWeighted [e.U, e.V]
  have hu : GoMap.has (g.tobaseWeighted.ensureVertex [e.U, e.V]).list e.U = true := by
    have h := baseWeighted.hasVertex_ensureVertex_pair g.tobaseWeighted e.U e.V e.U
    simpa [baseWeighted.hasVertex] using h
  unfold addEdgesStep
  simp only [BaseEdge.Source, BaseEdge.Target, BaseWeightedEdge.Weight]
  by_cases hex : GoMap.has (GoMap.inner (g.tobaseWeighted.ensureVertex [e.U, e.V]).list e.U) e.V
      = true
  · simp only [hex, Bool.not_true, Bool.false_eq_true, if_false]
    rw [hs]
    by_cases hab : e.U = a ∧ e.V = b
    · obtain ⟨h1, h2⟩ := hab
      subst h1 h2
      rw [GoMap.has_inner, hs] at hex
      cases hg : GoMap.slot g.list e.U e.V with
      | none => simp [hg] at hex
      | some u => simp
    · simp [hab]
  · simp only [hex, Bool.not_false, if_true]
    rw [GoMap.slot_update _ _ _ _ _ hu, GoMap.lookup_store]
    by_cases h1 : e.U = a
    · subst h1
      by_cases h2 : e.V = b
      · subst h2
        rw [GoMap.has_inner, hs] at hex
        cases hg : GoMap.slot g.list e.U e.V with
        | none => simp
        | some u => simp [hg] at hex
      · simp only [h2, and_false, if_false, if_true]
        exact hs e.U b
    · simp only [h1, false_and, if_false]
      exact hs a b

theorem wd_addEdgesStep_of_present (g : weightedDirected α) (e : BaseWeightedEdge α)
    (hu : g.hasVertex e.U = true) (hv : g.hasVertex e.V = true)
    (he : (GoMap.slot g.list e.U e.V).isSome = true) : g.addEdgesStep e = g := by
  have hg : g.tobaseWeighted.ensureVertex [e.U, e.V] = g.tobaseWeighted := by
    apply baseWeighted.ensureVertex_of_hasVertex
    intro v hvm
    simp only [List.mem_cons, List.mem_singleton, List.not_mem_nil, or_false] at hvm
    rcases hvm with h | h <;> subst h <;> assumption
  unfold addEdgesStep
  simp only [BaseEdge.Source, BaseEdge.Target]
  rw [hg]
  simp only [GoMap.has_inner, he, Bool.not_true, Bool.false_eq_true, if_false]

theorem wd_hasVertex_removeEdgesStep (g : weightedDirected α) (e : BaseWeightedEdge α) (x : α) :
    (g.removeEdgesStep e).hasVertex x = g.hasVertex x := by
  unfold removeEdgesStep
  dsimp only
  split
  · simp only [baseWeighted.hasVertex]
    rw [GoMap.has_update]
  · rfl

theorem wd_slot_removeEdgesStep (g : weightedDirected α) (e : BaseWeightedEdge α) (a b : α) :
    GoMap.slot (g.removeEdgesStep e).list a b =
      if e.U = a ∧ e.V = b then none else GoMap.slot g.list a b := by
  unfold removeEdgesStep
  simp only [BaseEdge.Both]
  by_cases hex : GoMap.has (GoMap.inner g.list e.U) e.V = true
  · simp only [hex, if_true]
    rw [GoMap.slot_update_delete]
  · simp only [hex, Bool.false_eq_true, if_false]
    by_cases hab : e.U = a ∧ e.V = b
    · obtain ⟨h1, h2⟩ := hab
      subst h1 h2
      rw [GoMap.has_inner] at hex
      cases hg : GoMap.slot g.list e.U e.V with
      | none => simp
      | some u => simp [hg] at hex
    · simp [hab]

theorem wd_hasVertex_removeVertexStep (g : weightedDirected α) (v x : α) :
    (g.removeVertexStep v).hasVertex x = (!decide (v = x) && g.hasVertex x) := by
  unfold removeVertexStep baseWeighted.hasVertex
  by_cases h : GoMap.has g.list v = true
  · simp only [h, if_true, GoMap.removeArcsTo_fst]
    rw [GoMap.has_mapValues (GoMap.delete g.list v) (fun adj => GoMap.delete adj v) x,
      GoMap.has_delete]
  · by_cases hx : v = x
    · subst hx
      simp [h]
    · simp [h, hx]

theorem wd_slot_removeVertexStep (g : weightedDirected α) (v a b : α) (h : g.hasVertex v = true) :
    GoMap.slot (g.removeVertexStep v).list a b =
      if v = a ∨ v = b then none else GoMap.slot g.list a b := by
  unfold removeVertexStep
  simp only [h, if_true, GoMap.removeArcsTo_fst]
  rw [GoMap.slot_mapDelete, GoMap.slot_delete]
  by_cases h1 : v = a <;> by_cases h2 : v = b <;> simp [h1, h2]

end weightedDirected

namespace weightedUndirected

variable {α : Type} [DecidableEq α]

theorem wu_RemoveVertex_eq (g : weightedUndirected α) (vs : List α) :
    g.RemoveVertex vs = vs.foldl removeVertexStep g := by
  unfold RemoveVertex
  cases vs with
  | nil => rfl
  | cons v vs => simp

theorem wu_AddEdges_eq (g : weightedUndirected α) (es : List (BaseWeightedEdge α)) :
    g.AddEdges es = es.foldl addEdgesStep g := by
  unfold AddEdges addEdges
  cases es with
  | nil => rfl
  | cons v vs => simp

theorem wu_RemoveEdges_eq (g : weightedUndirected α) (es : List (BaseWeightedEdge α)) :
    g.RemoveEdges es = es.foldl removeEdgesStep g := by
  unfold RemoveEdges
  cases es with
  | nil => rfl
  | cons v vs => simp

theorem wu_hasVertex_addEdgesStep (g : weightedUndirected α) (e : BaseWeightedEdge α) (x : α) :
    (g.addEdgesStep e).hasVertex x = (decide (e.U = x) || decide (e.V = x) || g.hasVertex x) := by
  have h2 := baseWeighted.hasVertex_ensureVertex_pair g.tobaseWeighted e.U e.V x
  unfold addEdgesStep
  simp only [BaseEdge.Source, BaseEdge.Target]
  split
  · simp only [baseWeighted.hasVertex] at h2 ⊢
    rw [GoMap.has_update, GoMap.has_update, h2]
  · rw [h2]

theorem wu_slot_addEdgesStep (g : weightedUndirected α) (e : BaseWeightedEdge α) (a b : α) :
    GoMap.slot (g.addEdgesStep e).list a b =
      if (GoMap.slot g.list e.U e.V).isSome = true then GoMap.slot g.list a b
      else if (e.U = a ∧ e.V = b) ∨ (e.V = a ∧ e.U = b) then some e.W
      else GoMap.slot g.list a b := by
  have hs := baseWeighted.slot_ensureVertex g.tobaseWeighted [e.U, e.V]
  have hu : GoMap.has (g.tobaseWeighted.ensureVertex [e.U, e.V]).list e.U = true := by
    have h := baseWeighted.hasVertex_ensureVertex_pair g.tobaseWeighted e.U e.V e.U
    simpa [baseWeighted.hasVertex] using h
  have hv : GoMap.has (g.tobaseWeighted.ensureVertex [e.U, e.V]).list e.V = true := by
    have h := baseWeighted.hasVertex_ensureVertex_pair g.tobaseWeighted e.U e.V e.V
    simpa [baseWeighted.hasVertex] using h
  unfold addEdgesStep
  simp only [BaseEdge.Source, BaseEdge.Target, BaseWeightedEdge.Weight]
  rw [GoMap.has_inner, hs]
  by_cases hex : (GoMap.slot g.list e.U e.V).isSome = true
  · simp only [hex, Bool.not_true, Bool.false_eq_true, if_false, if_true]
    exact hs a b
  · simp only [hex, Bool.not_false, if_true, if_false]
    have hv' : GoMap.has (GoMap.update (g.tobaseWeighted.ensureVertex [e.U, e.V]).list e.U
        (fun adj => GoMap.store adj e.V e.W)) e.V = true := by
      rw [GoMap.has_update]
      exact hv
    rw [GoMap.slot_update _ _ _ _ _ hv']
    by_cases h1 : e.V = a
    · subst h1
      simp only [if_true, GoMap.lookup_store]
      by_cases h2 : e.U = b
      · simp [h2]
      · simp only [h2, if_false, and_false, or_false]
        show GoMap.slot _ e.V b = _
        rw [GoMap.slot_update _ _ _ _ _ hu, GoMap.lookup_store]
        have hsb := hs e.V b
        have hR : ¬(e.U = e.V ∧ e.V = b) := fun hc => h2 (hc.1.trans hc.2)
        rw [if_neg hR]
        by_cases h3 : e.U = e.V
        · have h4 : ¬e.V = b := fun h4 => h2 (h3.trans h4)
          rw [if_pos h3, if_neg h4]
          exact hsb
        · rw [if_neg h3]
          exact hsb
    · simp only [h1, if_false, false_and, or_false]
      rw [GoMap.slot_update _ _ _ _ _ hu, GoMap.lookup_store]
      by_cases h3 : e.U = a
      · subst h3
        by_cases h4 : e.V = b
        · simp [h4]
        · simp only [h4, if_true, if_false, and_false]
          exact hs e.U b
      · simp only [h3, if_false, false_and]
        exact hs a b

theorem wu_addEdgesStep_of_present (g : weightedUndirected α) (e : BaseWeightedEdge α)
    (hu : g.hasVertex e.U = true) (hv : g.hasVertex e.V = true)
    (he : (GoMap.slot g.list e.U e.V).isSome = true) : g.addEdgesStep e = g := by
  have hg : g.tobaseWeighted.ensureVertex [e.U, e.V] = g.tobaseWeighted := by
    apply baseWeighted.ensureVertex_of_hasVertex
    intro v hvm
    simp only [List.mem_cons, List.mem_singleton, List.not_mem_nil, or_false] at hvm
    rcases hvm with h | h <;> subst h <;> assumption
  unfold addEdgesStep
  simp only [BaseEdge.Source, BaseEdge.Target]
  rw [hg]
  simp only [GoMap.has_inner, he, Bool.not_true, Bool.false_eq_true, if_false]

theorem wu_hasVertex_removeEdgesStep (g : weightedUndirected α) (e : BaseWeightedEdge α) (x : α) :
    (g.removeEdgesStep e).hasVertex x = g.hasVertex x := by
  unfold removeEdgesStep
  dsimp only
  split
  · simp only [baseWeighted.hasVertex]
    rw [GoMap.has_update, GoMap.has_update]
  · rfl

theorem wu_slot_removeEdgesStep (g : weightedUndirected α) (e : BaseWeightedEdge α) (a b : α) :
    GoMap.slot (g.removeEdgesStep e).list a b =
      if (GoMap.slot g.list e.U e.V).isSome = true then
        if (e.U = a ∧ e.V = b) ∨ (e.V = a ∧ e.U = b) then none else GoMap.slot g.list a b
      else GoMap.slot g.list a b := by
  unfold removeEdgesStep
  simp only [BaseEdge.Both, GoMap.has_inner]
  by_cases hex : (GoMap.slot g.list e.U e.V).isSome = true
  · simp only [hex, if_true]
    rw [GoMap.slot_update_delete, GoMap.slot_update_delete]
    by_cases h1 : e.U = a ∧ e.V = b <;> by_cases h2 : e.V = a ∧ e.U = b <;> simp [h1, h2]
  · simp only [hex, Bool.false_eq_true, if_false]

theorem wu_hasVertex_removeVertexStep (g : weightedUndirected α) (v x : α) :
    (g.removeVertexStep v).hasVertex x = (!decide (v = x) && g.hasVertex x) := by
  unfold removeVertexStep baseWeighted.hasVertex
  by_cases h : GoMap.has g.list v = true
  · simp only [h, if_true]
    rw [GoMap.has_delete]
    unfold stripFromNeighbours
    rw [GoMap.has_foldl_update _ (fun _ m => GoMap.delete m v)]
  · by_cases hx : v = x
    · subst hx
      simp [h]
    · simp [h, hx]

theorem wu_slot_removeVertexStep (g : weightedUndirected α) (v a b : α) (h : g.hasVertex v = true) :
    GoMap.slot (g.removeVertexStep v).list a b =
      if v = a ∨ (a ∈ GoMap.keys (GoMap.inner g.list v) ∧ v = b) then none
      else GoMap.slot g.list a b := by
  unfold removeVertexStep
  simp only [h, if_true]
  rw [GoMap.slot_delete]
  unfold stripFromNeighbours
  rw [GoMap.slot_foldl_update_delete]
  by_cases h1 : v = a
  · simp [h1]
  · simp only [h1, if_false, false_or]

end weightedUndirected

/-! ### Symmetry of the undirected store -/

namespace weightedUndirected

variable {α : Type} [DecidableEq α]

theorem symmetric_ensureVertex (g : weightedUndirected α) (vs : List α) (h : g.Symmetric) :
    (g.EnsureVertex vs).Symmetric := by
  intro a b
  unfold EnsureVertex
  rw [baseWeighted.EnsureVertex_eq, baseWeighted.slot_ensureVertex,
    baseWeighted.slot_ensureVertex]
  exact h a b

theorem symmetric_addEdgesStep (g : weightedUndirected α) (e : BaseWeightedEdge α)
    (h : g.Symmetric) : (g.addEdgesStep e).Symmetric := by
  intro a b
  rw [wu_slot_addEdgesStep, wu_slot_addEdgesStep, h a b]
  have hc : ((e.U = a ∧ e.V = b) ∨ (e.V = a ∧ e.U = b)) ↔
      ((e.U = b ∧ e.V = a) ∨ (e.V = b ∧ e.U = a)) := by
    constructor
    · rintro (⟨h1, h2⟩ | ⟨h1, h2⟩)
      · exact Or.inr ⟨h2, h1⟩
      · exact Or.inl ⟨h2, h1⟩
    · rintro (⟨h1, h2⟩ | ⟨h1, h2⟩)
      · exact Or.inr ⟨h2, h1⟩
      · exact Or.inl ⟨h2, h1⟩
  simp only [hc]

theorem symmetric_removeEdgesStep (g : weightedUndirected α) (e : BaseWeightedEdge α)
    (h : g.Symmetric) : (g.removeEdgesStep e).Symmetric := by
  intro a b
  rw [wu_slot_removeEdgesStep, wu_slot_removeEdgesStep, h a b]
  have hc : ((e.U = a ∧ e.V = b) ∨ (e.V = a ∧ e.U = b)) ↔
      ((e.U = b ∧ e.V = a) ∨ (e.V = b ∧ e.U = a)) := by
    constructor
    · rintro (⟨h1, h2⟩ | ⟨h1, h2⟩)
      · exact Or.inr ⟨h2, h1⟩
      · exact Or.inl ⟨h2, h1⟩
    · rintro (⟨h1, h2⟩ | ⟨h1, h2⟩)
      · exact Or.inr ⟨h2, h1⟩
      · exact Or.inl ⟨h2, h1⟩
  simp only [hc]

theorem slot_eq_none_of_not_mem_keys (g : weightedUndirected α) (v a : α)
    (h : a ∉ GoMap.keys (GoMap.inner g.list v)) : GoMap.slot g.list v a = none :=
  (GoMap.lookup_eq_none_iff _ _).2 h

theorem symmetric_removeVertexStep (g : weightedUndirected α) (v : α)
    (h : g.Symmetric) : (g.removeVertexStep v).Symmetric := by
  by_cases hv : g.hasVertex v = true
  · intro a b
    rw [wu_slot_removeVertexStep g v a b hv, wu_slot_removeVertexStep g v b a hv]
    by_cases h1 : v = a
    · subst h1
      by_cases h2 : v = b
      · simp [h2]
      · by_cases h3 : b ∈ GoMap.keys (GoMap.inner g.list v)
        · simp [h3]
        · have hn := slot_eq_none_of_not_mem_keys g v b h3
          simp [h2, h3, h b v, hn]
    · by_cases h2 : v = b
      · subst h2
        by_cases h3 : a ∈ GoMap.keys (GoMap.inner g.list v)
        · simp [h3]
        · have hn := slot_eq_none_of_not_mem_keys g v a h3
          simp [h1, h3, h a v, hn]
      · simp only [h1, h2, and_false, or_false, if_false]
        exact h a b
  · have : g.removeVertexStep v = g := by
      unfold removeVertexStep
      simp [hv]
    rw [this]
    exact h

theorem Reachable.symmetric {g : weightedUndirected α} (h : Reachable g) : g.Symmetric := by
  induction h with
  | init =>
    intro a b
    rfl
  | ensureVertex g vs _ ih => exact symmetric_ensureVertex g vs ih
  | removeVertex g vs _ ih =>
    rw [wu_RemoveVertex_eq]
    exact foldl_invariant Symmetric removeVertexStep symmetric_removeVertexStep vs g ih
  | addEdges g es _ ih =>
    rw [wu_AddEdges_eq]
    exact foldl_invariant Symmetric addEdgesStep symmetric_addEdgesStep es g ih
  | removeEdges g es _ ih =>
    rw [wu_RemoveEdges_eq]
    exact foldl_invariant Symmetric removeEdgesStep symmetric_removeEdgesStep es g ih

theorem wu_HasEdge_eq (g : weightedUndirected α) (u v : α) :
    g.HasEdge ⟨u, v⟩ = ((GoMap.slot g.list u v).isSome || (GoMap.slot g.list v u).isSome) := by
  unfold HasEdge
  simp only [BaseEdge.Source, BaseEdge.Target, GoMap.has_inner]
  by_cases h1 : (GoMap.slot g.list u v).isSome = true
  · simp [h1]
  · by_cases h2 : (GoMap.slot g.list v u).isSome = true
    · simp [h1, h2]
    · simp [h1, h2]

theorem wu_HasWeightedEdge_iff (g : weightedUndirected α) (u v : α) (w : Int) :
    g.HasWeightedEdge ⟨⟨u, v⟩, w⟩ = true ↔
      GoMap.slot g.list u v = some w ∨
        (GoMap.slot g.list u v = none ∧ GoMap.slot g.list v u = some w) := by
  unfold HasWeightedEdge
  simp only [BaseEdge.Source, BaseEdge.Target, BaseWeightedEdge.Weight]
  show (match GoMap.slot g.list u v with
    | some weight => decide (w = weight)
    | none =>
      match GoMap.slot g.list v u with
      | some weight => decide (w = weight)
      | none => false) = true ↔ _
  cases h1 : GoMap.slot g.list u v with
  | some w1 => simp [eq_comm]
  | none =>
    cases h2 : GoMap.slot g.list v u with
    | some w2 => simp [eq_comm]
    | none => simp

end weightedUndirected

namespace weightedDirected

variable {α : Type} [DecidableEq α]

theorem wd_HasEdge_eq (g : weightedDirected α) (u v : α) :
    g.HasEdge ⟨u, v⟩ = (GoMap.slot g.list u v).isSome := rfl

theorem wd_HasWeightedEdge_iff (g : weightedDirected α) (u v : α) (w : Int) :
    g.HasWeightedEdge ⟨⟨u, v⟩, w⟩ = true ↔ GoMap.slot g.list u v = some w := by
  unfold HasWeightedEdge
  simp only [BaseEdge.Source, BaseEdge.Target, BaseWeightedEdge.Weight]
  show (match GoMap.slot g.list u v with
    | some weight => decide (weight = w)
    | none => false) = true ↔ _
  cases h1 : GoMap.slot g.list u v with
  | some w1 => simp
  | none => simp

end weightedDirected

/-! ### Well-formedness and counting -/

namespace GoMap

variable {K T T2 : Type} [DecidableEq K]

theorem keys_store_of_absent (m : GoMap K T) (k : K) (b : T) (h : lookup m k = none) :
    keys (store m k b) = keys m ++ [k] := by
  rw [store_of_absent m k b h]
  simp [keys]

theorem WF_store_of_absent (m : GoMap K T) (k : K) (b : T) (h : lookup m k = none) (hm : WF m) :
    WF (store m k b) := by
  have hk : k ∉ keys m := (lookup_eq_none_iff m k).1 h
  unfold WF at hm ⊢
  rw [keys_store_of_absent m k b h, List.nodup_append]
  refine ⟨hm, List.nodup_singleton k, ?_⟩
  intro a ha hb
  rw [List.mem_singleton] at hb
  exact hk (hb ▸ ha)

theorem keys_delete (m : GoMap K T) (k : K) :
    keys (delete m k) = (keys m).filter (fun a => !decide (a = k)) := by
  induction m with
  | nil => rfl
  | cons p m ih =>
    obtain ⟨a, c⟩ := p
    simp only [keys] at ih
    by_cases h : a = k
    · simp [delete, keys, h, ih]
    · simp [delete, keys, h, ih]

theorem WF_delete (m : GoMap K T) (k : K) (hm : WF m) : WF (delete m k) := by
  unfold WF at hm ⊢
  rw [keys_delete]
  exact hm.filter _

theorem WF_update (m : GoMap K T) (k : K) (f : T → T) (hm : WF m) : WF (update m k f) := by
  unfold WF at hm ⊢
  rw [keys_update]
  exact hm

theorem WF_tail (a : K) (c : T) (m : GoMap K T) (h : WF ((a, c) :: m)) :
    lookup m a = none ∧ WF m := by
  unfold WF keys at h
  rw [List.map_cons, List.nodup_cons] at h
  exact ⟨(lookup_eq_none_iff m a).2 h.1, h.2⟩

theorem lookup_of_mem (m : GoMap K T) (hm : WF m) (k : K) (b : T) (h : (k, b) ∈ m) :
    lookup m k = some b := by
  induction m with
  | nil => simp at h
  | cons p m ih =>
    obtain ⟨a, c⟩ := p
    obtain ⟨hn, hm'⟩ := WF_tail a c m hm
    rcases List.mem_cons.1 h with h1 | h1
    · injection h1 with h2 h3
      subst h2 h3
      simp [lookup]
    · have hk : k ∈ keys m := List.mem_map_of_mem Prod.fst h1
      have hne : a ≠ k := by
        intro hak
        subst hak
        exact (lookup_eq_none_iff m a).1 hn hk
      simp [lookup, hne, ih hm' h1]

theorem mem_of_lookup (m : GoMap K T) (k : K) (b : T) (h : lookup m k = some b) : (k, b) ∈ m := by
  induction m with
  | nil => simp [lookup] at h
  | cons p m ih =>
    obtain ⟨a, c⟩ := p
    by_cases hak : a = k
    · subst hak
      simp only [lookup, if_true, Option.some.injEq] at h
      subst h
      exact List.mem_cons_self _ _
    · simp only [lookup, hak, if_false] at h
      exact List.mem_cons_of_mem _ (ih h)

theorem len_store_of_absent (m : GoMap K T) (k : K) (b : T) (h : lookup m k = none) :
    len (store m k b) = len m + 1 := by
  rw [store_of_absent m k b h]
  simp [len]

theorem len_delete_of_present (m : GoMap K T) (k : K) (hm : WF m) (h : has m k = true) :
    len (delete m k) + 1 = len m := by
  induction m with
  | nil => simp [has, lookup] at h
  | cons p m ih =>
    obtain ⟨a, c⟩ := p
    obtain ⟨hn, hm'⟩ := WF_tail a c m hm
    by_cases hak : a = k
    · subst hak
      simp [delete, delete_of_absent m a hn, len]
    · have h' : has m k = true := by
        simpa [has, lookup, hak] using h
      have := ih hm' h'
      simp only [len] at this ⊢
      simp [delete, hak, this]

theorem pairCount_cons (a : K) (c : GoMap K T2) (m : GoMap K (GoMap K T2)) :
    pairCount ((a, c) :: m) = len c + pairCount m := by
  simp [pairCount]

theorem pairCount_store_empty (m : GoMap K (GoMap K T2)) (k : K) (h : lookup m k = none) :
    pairCount (store m k []) = pairCount m := by
  rw [store_of_absent m k _ h]
  simp [pairCount, len]

theorem pairCount_update (m : GoMap K (GoMap K T2)) (k : K) (f : GoMap K T2 → GoMap K T2)
    (adj : GoMap K T2) (h : lookup m k = some adj) :
    pairCount (update m k f) + len adj = pairCount m + len (f adj) := by
  induction m with
  | nil => simp [lookup] at h
  | cons p m ih =>
    obtain ⟨a, c⟩ := p
    by_cases hak : a = k
    · subst hak
      simp only [lookup, if_true, Option.some.injEq] at h
      subst h
      simp only [update, if_true, pairCount_cons]
      omega
    · simp only [lookup, hak, if_false] at h
      have := ih h
      simp only [update, hak, if_false, pairCount_cons]
      omega

theorem pairCount_delete (m : GoMap K (GoMap K T2)) (k : K) (hm : WF m) :
    pairCount (delete m k) + len (inner m k) = pairCount m := by
  induction m with
  | nil => simp [delete, pairCount, inner, lookup, len]
  | cons p m ih =>
    obtain ⟨a, c⟩ := p
    obtain ⟨hn, hm'⟩ := WF_tail a c m hm
    by_cases hak : a = k
    · subst hak
      simp only [delete, if_true, delete_of_absent m a hn, inner, lookup, Option.getD_some,
        pairCount_cons]
      omega
    · have := ih hm'
      simp only [inner, lookup, hak, if_false, delete, pairCount_cons] at this ⊢
      omega

theorem pairCount_mapDelete (m : GoMap K (GoMap K T2)) (x : K) (hm : InnerWF m) :
    pairCount (m.map (fun p => (p.1, delete p.2 x))) + arcsTo x m = pairCount m := by
  induction m with
  | nil => simp [pairCount, arcsTo]
  | cons p m ih =>
    obtain ⟨a, c⟩ := p
    have hc : WF c := hm (a, c) (List.mem_cons_self _ _)
    have := ih (fun q hq => hm q (List.mem_cons_of_mem _ hq))
    simp only [arcsTo] at this
    by_cases h : has c x = true
    · have hl := len_delete_of_present c x hc h
      simp only [List.map_cons, pairCount_cons, arcsTo, List.filter_cons, h, if_true,
        List.length_cons]
      omega
    · have h' : lookup c x = none := (has_eq_false_iff c x).1 (by simpa using h)
      simp only [List.map_cons, pairCount_cons, arcsTo, List.filter_cons, h, delete_of_absent c x h']
      simp only [Bool.false_eq_true, if_false]
      omega

theorem removeArcsTo_snd {C : Type} (dec : C → C) (x : K) (m : GoMap K (GoMap K T2)) (c : C) :
    (removeArcsTo dec x m c).2 = dec^[arcsTo x m] c := by
  induction m generalizing c with
  | nil => simp [removeArcsTo, arcsTo]
  | cons p m ih =>
    obtain ⟨a, adj⟩ := p
    by_cases h : has adj x = true
    · simp [removeArcsTo, arcsTo, h, ih, List.filter_cons]
    · simp [removeArcsTo, arcsTo, h, ih, List.filter_cons]

theorem mem_delete (m : GoMap K T) (k : K) (p : K × T) (h : p ∈ delete m k) : p ∈ m := by
  induction m with
  | nil => simp [delete] at h
  | cons q m ih =>
    obtain ⟨a, c⟩ := q
    by_cases hak : a = k
    · simp only [delete, hak, if_true] at h
      exact List.mem_cons_of_mem _ (ih h)
    · simp only [delete, hak, if_false] at h
      rcases List.mem_cons.1 h with h1 | h1
      · exact h1 ▸ List.mem_cons_self _ _
      · exact List.mem_cons_of_mem _ (ih h1)

theorem mem_update (m : GoMap K T) (k : K) (f : T → T) (p : K × T) (h : p ∈ update m k f) :
    p ∈ m ∨ ∃ b, (p.1, b) ∈ m ∧ p.2 = f b := by
  induction m with
  | nil => simp [update] at h
  | cons q m ih =>
    obtain ⟨a, c⟩ := q
    by_cases hak : a = k
    · simp only [update, hak, if_true] at h
      rcases List.mem_cons.1 h with h1 | h1
      · right
        refine ⟨c, ?_, ?_⟩
        · rw [h1, hak]
          exact List.mem_cons_self _ _
        · rw [h1]
      · left
        exact List.mem_cons_of_mem _ h1
    · simp only [update, hak, if_false] at h
      rcases List.mem_cons.1 h with h1 | h1
      · left
        exact h1 ▸ List.mem_cons_self _ _
      · rcases ih h1 with h2 | ⟨b, h2, h3⟩
        · left
          exact List.mem_cons_of_mem _ h2
        · right
          exact ⟨b, List.mem_cons_of_mem _ h2, h3⟩

theorem WFall_nil : WFall ([] : GoMap K (GoMap K T2)) := by
  refine ⟨List.nodup_nil, ?_⟩
  intro p hp
  simp at hp

theorem WFall_ensure (m : GoMap K (GoMap K T2)) (k : K) (hm : WFall m) :
    WFall (if !has m k then store m k [] else m) := by
  by_cases h : has m k = true
  · simpa [h] using hm
  · have h' : lookup m k = none := (has_eq_false_iff m k).1 (by simpa using h)
    simp only [h, Bool.not_false, if_true]
    refine ⟨WF_store_of_absent m k _ h' hm.1, ?_⟩
    intro p hp
    rw [store_of_absent m k _ h', List.mem_append, List.mem_singleton] at hp
    rcases hp with hp | hp
    · exact hm.2 p hp
    · rw [hp]
      exact List.nodup_nil

theorem WFall_delete (m : GoMap K (GoMap K T2)) (k : K) (hm : WFall m) : WFall (delete m k) :=
  ⟨WF_delete m k hm.1, fun p hp => hm.2 p (mem_delete m k p hp)⟩

theorem WFall_update (m : GoMap K (GoMap K T2)) (k : K) (f : GoMap K T2 → GoMap K T2)
    (hf : ∀ adj, lookup m k = some adj → WF adj → WF (f adj)) (hm : WFall m) :
    WFall (update m k f) := by
  refine ⟨WF_update m k f hm.1, ?_⟩
  intro p hp
  by_cases hpk : p.1 = k
  · have hl := lookup_update m k p.1 f
    rw [if_pos hpk.symm] at hl
    have hp' := lookup_of_mem _ (WF_update m k f hm.1) p.1 p.2 hp
    rw [hp'] at hl
    cases hl2 : lookup m p.1 with
    | none => simp [hl2] at hl
    | some adj =>
      rw [hl2] at hl
      simp only [Option.map_some', Option.some.injEq] at hl
      rw [hl]
      apply hf adj
      · rw [← hpk]
        exact hl2
      · exact hm.2 (p.1, adj) (mem_of_lookup m p.1 adj hl2)
  · have hl := lookup_update m k p.1 f
    rw [if_neg (fun h => hpk h.symm)] at hl
    have hp' := lookup_of_mem _ (WF_update m k f hm.1) p.1 p.2 hp
    rw [hp'] at hl
    exact hm.2 (p.1, p.2) (mem_of_lookup m p.1 p.2 hl.symm)

theorem WFall_update_delete (m : GoMap K (GoMap K T2)) (k t : K) (hm : WFall m) :
    WFall (update m k (fun adj => delete adj t)) :=
  WFall_update m k _ (fun adj _ h => WF_delete adj t h) hm

theorem WFall_mapDelete (m : GoMap K (GoMap K T2)) (x : K) (hm : WFall m) :
    WFall (m.map (fun p => (p.1, delete p.2 x))) := by
  constructor
  · have : keys (m.map (fun p => (p.1, delete p.2 x))) = keys m := by
      simp [keys, List.map_map, Function.comp_def]
    unfold WF
    rw [this]
    exact hm.1
  · intro p hp
    rw [List.mem_map] at hp
    obtain ⟨q, hq, rfl⟩ := hp
    exact WF_delete q.2 x (hm.2 q hq)

theorem WFall_foldl_update_delete (ks : List K) (x : K) (m : GoMap K (GoMap K T2))
    (hm : WFall m) : WFall (ks.foldl (fun l k => update l k (fun adj => delete adj x)) m) :=
  foldl_invariant WFall _ (fun l k hl => WFall_update_delete l k x hl) ks m hm

end GoMap

theorem wrapInt_sub_wrapInt (a b : Int) : wrapInt (wrapInt a - b) = wrapInt (a - b) := by
  unfold wrapInt
  omega

theorem wrapInt_add_wrapInt (a b : Int) : wrapInt (wrapInt a + b) = wrapInt (a + b) := by
  unfold wrapInt
  omega

theorem wrapInt_zero : wrapInt 0 = 0 := by
  unfold wrapInt
  omega

theorem wrapInt_of_small (a : Int) (h0 : 0 ≤ a) (h : a < 9223372036854775808) :
    wrapInt a = a := by
  unfold wrapInt
  omega

theorem iterate_dec_wrapInt (n : Nat) (c : Int) :
    (fun s => wrapInt (s - 1))^[n] (wrapInt c) = wrapInt (c - n) := by
  induction n generalizing c with
  | zero => simp
  | succ n ih =>
    rw [Function.iterate_succ_apply, wrapInt_sub_wrapInt, ih]
    congr 1
    push_cast
    ring

namespace GoMap

variable {K T T2 : Type} [DecidableEq K]

theorem pairCount_ensure (m : GoMap K (GoMap K T2)) (k : K) :
    pairCount (if !has m k then store m k [] else m) = pairCount m := by
  by_cases h : has m k = true
  · simp [h]
  · have h' : lookup m k = none := (has_eq_false_iff m k).1 (by simpa using h)
    simp [h, pairCount_store_empty m k h']

theorem lookup_of_has_inner (m : GoMap K (GoMap K T2)) (u v : K)
    (h : has (inner m u) v = true) : lookup m u = some (inner m u) := by
  unfold inner at h ⊢
  cases hl : lookup m u with
  | none => simp [hl, has, lookup] at h
  | some adj => simp

theorem WFall_update_store (m : GoMap K (GoMap K T2)) (u v : K) (w : T2) (hm : WFall m)
    (h : has (inner m u) v = false) : WFall (update m u (fun adj => store adj v w)) := by
  apply WFall_update m u _ _ hm
  intro adj hl hadj
  have hi : inner m u = adj := by simp [inner, hl]
  rw [hi] at h
  exact WF_store_of_absent adj v w ((has_eq_false_iff adj v).1 h) hadj

theorem pairCount_update_store (m : GoMap K (GoMap K T2)) (u v : K) (w : T2)
    (hu : has m u = true) (h : has (inner m u) v = false) :
    pairCount (update m u (fun adj => store adj v w)) = pairCount m + 1 := by
  unfold has at hu
  cases hl : lookup m u with
  | none => simp [hl] at hu
  | some adj =>
    have hi : inner m u = adj := by simp [inner, hl]
    rw [hi] at h
    have h1 := pairCount_update m u (fun adj => store adj v w) adj hl
    have h2 := len_store_of_absent adj v w ((has_eq_false_iff adj v).1 h)
    simp only at h1
    omega

theorem pairCount_update_delete (m : GoMap K (GoMap K T2)) (u v : K) (hm : WFall m)
    (h : has (inner m u) v = true) :
    pairCount (update m u (fun adj => delete adj v)) + 1 = pairCount m := by
  have hl := lookup_of_has_inner m u v h
  have h1 := pairCount_update m u (fun adj => delete adj v) _ hl
  have h2 := len_delete_of_present (inner m u) v (hm.2 _ (mem_of_lookup m u _ hl)) h
  simp only at h1
  omega

end GoMap

namespace baseWeighted

variable {α : Type} [DecidableEq α]

theorem countInv_ensureVertexStep (g : baseWeighted α) (v : α)
    (h : GoMap.WFall g.list ∧ g.size = wrapInt (GoMap.pairCount g.list)) :
    GoMap.WFall (g.ensureVertexStep v).list ∧
      (g.ensureVertexStep v).size = wrapInt (GoMap.pairCount (g.ensureVertexStep v).list) := by
  have h1 := GoMap.WFall_ensure g.list v h.1
  have h2 := GoMap.pairCount_ensure g.list v
  unfold ensureVertexStep hasVertex
  by_cases hv : GoMap.has g.list v = true
  · simpa [hv] using h
  · simp only [hv, Bool.not_false, if_true] at h1 h2 ⊢
    exact ⟨h1, by rw [h2]; exact h.2⟩

theorem countInv_ensureVertex (g : baseWeighted α) (vs : List α)
    (h : GoMap.WFall g.list ∧ g.size = wrapInt (GoMap.pairCount g.list)) :
    GoMap.WFall (g.ensureVertex vs).list ∧
      (g.ensureVertex vs).size = wrapInt (GoMap.pairCount (g.ensureVertex vs).list) :=
  foldl_invariant (fun g : baseWeighted α =>
    GoMap.WFall g.list ∧ g.size = wrapInt (GoMap.pairCount g.list)) ensureVertexStep
    countInv_ensureVertexStep vs g h

theorem wfAll_ensureVertex (g : baseWeighted α) (vs : List α) (h : GoMap.WFall g.list) :
    GoMap.WFall (g.ensureVertex vs).list := by
  apply foldl_invariant (fun g : baseWeighted α => GoMap.WFall g.list) ensureVertexStep _ vs g h
  intro s v hs
  have h1 := GoMap.WFall_ensure s.list v hs
  unfold ensureVertexStep hasVertex
  by_cases hv : GoMap.has s.list v = true
  · simpa [hv] using hs
  · simpa [hv] using h1

end baseWeighted

namespace weightedDirected

variable {α : Type} [DecidableEq α]

theorem countInv_addEdgesStep (g : weightedDirected α) (e : BaseWeightedEdge α)
    (h : g.CountInv) : (g.addEdgesStep e).CountInv := by
  have h1 := baseWeighted.countInv_ensureVertex g.tobaseWeighted [e.U, e.V] h
  have hu : GoMap.has (g.tobaseWeighted.ensureVertex [e.U, e.V]).list e.U = true := by
    have h := baseWeighted.hasVertex_ensureVertex_pair g.tobaseWeighted e.U e.V e.U
    simpa [baseWeighted.hasVertex] using h
  unfold addEdgesStep CountInv
  simp only [BaseEdge.Source, BaseEdge.Target, BaseWeightedEdge.Weight]
  by_cases hex : GoMap.has (GoMap.inner (g.tobaseWeighted.ensureVertex [e.U, e.V]).list e.U) e.V
      = true
  · simp only [hex, Bool.not_true, Bool.false_eq_true, if_false]
    exact h1
  · have hex' : GoMap.has (GoMap.inner (g.tobaseWeighted.ensureVertex [e.U, e.V]).list e.U) e.V
        = false := by simpa using hex
    simp only [hex, Bool.not_false, if_true]
    refine ⟨GoMap.WFall_update_store _ e.U e.V e.W h1.1 hex', ?_⟩
    rw [GoMap.pairCount_update_store _ e.U e.V e.W hu hex', h1.2, wrapInt_add_wrapInt]
    push_cast
    rfl

theorem countInv_removeEdgesStep (g : weightedDirected α) (e : BaseWeightedEdge α)
    (h : g.CountInv) : (g.removeEdgesStep e).CountInv := by
  unfold removeEdgesStep CountInv
  simp only [BaseEdge.Both]
  by_cases hex : GoMap.has (GoMap.inner g.list e.U) e.V = true
  · simp only [hex, if_true]
    refine ⟨GoMap.WFall_update_delete _ e.U e.V h.1, ?_⟩
    have hc := GoMap.pairCount_update_delete g.list e.U e.V h.1 hex
    rw [h.2, wrapInt_sub_wrapInt, ← hc]
    push_cast
    congr 1
    ring
  · simp only [hex, Bool.false_eq_true, if_false]
    exact h

theorem countInv_removeVertexStep (g : weightedDirected α) (v : α)
    (h : g.CountInv) : (g.removeVertexStep v).CountInv := by
  unfold removeVertexStep CountInv
  by_cases hv : g.hasVertex v = true
  · simp only [hv, if_true, GoMap.removeArcsTo_fst, GoMap.removeArcsTo_snd]
    have hd := GoMap.WFall_delete g.list v h.1
    refine ⟨GoMap.WFall_mapDelete _ v hd, ?_⟩
    have h1 := GoMap.pairCount_delete g.list v h.1.1
    have h2 := GoMap.pairCount_mapDelete (GoMap.delete g.list v) v hd.2
    rw [h.2, wrapInt_sub_wrapInt, iterate_dec_wrapInt]
    congr 1
    omega
  · simp only [hv, Bool.false_eq_true, if_false]
    exact h

theorem Reachable.countInv {g : weightedDirected α} (h : Reachable g) : g.CountInv := by
  induction h with
  | init =>
    refine ⟨GoMap.WFall_nil, ?_⟩
    show (0 : Int) = wrapInt ((0 : Nat) : Int)
    rw [Nat.cast_zero, wrapInt_zero]
  | ensureVertex g vs _ ih =>
    unfold EnsureVertex
    rw [baseWeighted.EnsureVertex_eq]
    exact baseWeighted.countInv_ensureVertex g.tobaseWeighted vs ih
  | removeVertex g vs _ ih =>
    rw [wd_RemoveVertex_eq]
    exact foldl_invariant CountInv removeVertexStep countInv_removeVertexStep vs g ih
  | addEdges g es _ ih =>
    rw [wd_AddEdges_eq]
    exact foldl_invariant CountInv addEdgesStep countInv_addEdgesStep es g ih
  | removeEdges g es _ ih =>
    rw [wd_RemoveEdges_eq]
    exact foldl_invariant CountInv removeEdgesStep countInv_removeEdgesStep es g ih

end weightedDirected

/-! ### The stored pairs -/

namespace GoMap

variable {K T T2 : Type} [DecidableEq K]

theorem storedPairs_cons (a : K) (c : GoMap K T2) (m : GoMap K (GoMap K T2)) :
    storedPairs ((a, c) :: m) = (keys c).map (fun t => (a, t)) ++ storedPairs m := by
  simp [storedPairs]

theorem length_storedPairs (m : GoMap K (GoMap K T2)) : (storedPairs m).length = pairCount m := by
  induction m with
  | nil => rfl
  | cons p m ih =>
    obtain ⟨a, c⟩ := p
    rw [storedPairs_cons, pairCount_cons, List.length_append, ih]
    simp [keys, len]

theorem fst_mem_keys_of_mem_storedPairs (m : GoMap K (GoMap K T2)) (u v : K)
    (h : (u, v) ∈ storedPairs m) : u ∈ keys m := by
  unfold storedPairs at h
  rw [List.mem_flatMap] at h
  obtain ⟨p, hp, hq⟩ := h
  rw [List.mem_map] at hq
  obtain ⟨t, _, ht⟩ := hq
  have : p.1 = u := congrArg Prod.fst ht
  rw [← this]
  exact List.mem_map_of_mem Prod.fst hp

theorem nodup_storedPairs (m : GoMap K (GoMap K T2)) (hm : WFall m) : (storedPairs m).Nodup := by
  induction m with
  | nil => exact List.nodup_nil
  | cons p m ih =>
    obtain ⟨a, c⟩ := p
    obtain ⟨hn, hm'⟩ := WF_tail a c m hm.1
    have hc : WF c := hm.2 (a, c) (List.mem_cons_self _ _)
    rw [storedPairs_cons, List.nodup_append]
    refine ⟨?_, ih ⟨hm', fun q hq => hm.2 q (List.mem_cons_of_mem _ hq)⟩, ?_⟩
    · apply List.Nodup.map _ hc
      intro x y hxy
      exact congrArg Prod.snd hxy
    · intro q hq1 hq2
      obtain ⟨u, v⟩ := q
      rw [List.mem_map] at hq1
      obtain ⟨t, _, ht⟩ := hq1
      have hu : a = u := congrArg Prod.fst ht
      have := fst_mem_keys_of_mem_storedPairs m u v hq2
      rw [← hu] at this
      exact (lookup_eq_none_iff m a).1 hn this

theorem mem_storedPairs_iff (m : GoMap K (GoMap K T2)) (hm : WF m) (u v : K) :
    (u, v) ∈ storedPairs m ↔ (slot m u v).isSome = true := by
  constructor
  · intro h
    unfold storedPairs at h
    rw [List.mem_flatMap] at h
    obtain ⟨p, hp, hq⟩ := h
    rw [List.mem_map] at hq
    obtain ⟨t, ht1, ht2⟩ := hq
    have h1 : p.1 = u := congrArg Prod.fst ht2
    have h2 : t = v := congrArg Prod.snd ht2
    subst h1 h2
    have hl := lookup_of_mem m hm p.1 p.2 hp
    have : has p.2 t = true := (has_iff_mem_keys p.2 t).2 ht1
    simpa [slot, inner, hl] using this
  · intro h
    have hl := lookup_of_has_inner m u v h
    have hv : v ∈ keys (inner m u) := (has_iff_mem_keys _ v).1 h
    unfold storedPairs
    rw [List.mem_flatMap]
    exact ⟨(u, inner m u), mem_of_lookup m u _ hl, List.mem_map.2 ⟨v, hv, rfl⟩⟩

end GoMap

/-! ### No dangling adjacency -/

namespace AdjacencyList

variable {α : Type} [DecidableEq α]

theorem hasVertex_RemoveEdge (g : AdjacencyList α) (e : BaseEdge α) (x : α) :
    (g.RemoveEdge e).hasVertex x = g.hasVertex x := by
  unfold RemoveEdge
  dsimp only
  split
  · simp only [hasVertex]
    rw [GoMap.has_update]
  · rfl

theorem slot_RemoveEdge (g : AdjacencyList α) (e : BaseEdge α) (a b : α) :
    GoMap.slot (g.RemoveEdge e).list a b =
      if e.U = a ∧ e.V = b then none else GoMap.slot g.list a b := by
  unfold RemoveEdge
  simp only [BaseEdge.Both]
  by_cases hex : GoMap.has (GoMap.inner g.list e.U) e.V = true
  · simp only [hex, if_true]
    rw [GoMap.slot_update_delete]
  · simp only [hex, Bool.false_eq_true, if_false]
    by_cases hab : e.U = a ∧ e.V = b
    · obtain ⟨h1, h2⟩ := hab
      subst h1 h2
      rw [GoMap.has_inner] at hex
      cases hg : GoMap.slot g.list e.U e.V with
      | none => simp
      | some u => simp [hg] at hex
    · simp [hab]

theorem slot_RemoveVertex (g : AdjacencyList α) (v a b : α) (h : g.hasVertex v = true) :
    GoMap.slot (g.RemoveVertex v).1.list a b =
      if v = a ∨ v = b then none else GoMap.slot g.list a b := by
  unfold RemoveVertex
  simp only [h, if_true, GoMap.removeArcsTo_fst]
  rw [GoMap.slot_mapDelete, GoMap.slot_delete]
  by_cases h1 : v = a <;> by_cases h2 : v = b <;> simp [h1, h2]

theorem size_RemoveVertex (g : AdjacencyList α) (v : α) (h : g.hasVertex v = true) :
    (g.RemoveVertex v).1.size = uintDec^[GoMap.arcsTo v (GoMap.delete g.list v)] g.size := by
  unfold RemoveVertex
  simp only [h, if_true, GoMap.removeArcsTo_snd]

theorem RemoveVertex_of_absent (g : AdjacencyList α) (v : α) (h : ¬g.hasVertex v = true) :
    g.RemoveVertex v = (g, false) := by
  unfold RemoveVertex
  simp [h]

/-- The structural invariant of the unweighted store. -/
theorem Reachable.structure {g : AdjacencyList α} (h : Reachable g) :
    GoMap.WFall g.list ∧ GoMap.NoDangling g.list := by
  induction h with
  | init =>
    refine ⟨GoMap.WFall_nil, ?_⟩
    intro u v huv
    simp [NewAdjacencyList, GoMap.slot, GoMap.inner, GoMap.lookup] at huv
  | addVertex g v _ ih =>
    constructor
    · have h1 := GoMap.WFall_ensure g.list v ih.1
      unfold AdjacencyList.AddVertex AdjacencyList.addVertex AdjacencyList.hasVertex
      by_cases hv : GoMap.has g.list v = true
      · simpa [hv] using ih.1
      · simpa [hv] using h1
    · intro a b hab
      simp only [AddVertex] at hab ⊢
      rw [slot_addVertex] at hab
      have := hasVertex_addVertex g v b
      simp only [hasVertex] at this
      rw [this, ih.2 a b hab]
      simp
  | removeVertex g v _ ih =>
    by_cases hv : g.hasVertex v = true
    · constructor
      · unfold AdjacencyList.RemoveVertex
        simp only [hv, if_true, GoMap.removeArcsTo_fst]
        exact GoMap.WFall_mapDelete _ v (GoMap.WFall_delete g.list v ih.1)
      · intro a b hab
        rw [slot_RemoveVertex g v a b hv] at hab
        have := hasVertex_RemoveVertex g v b
        simp only [hasVertex] at this
        rw [this]
        by_cases hc : v = a ∨ v = b
        · simp [hc] at hab
        · rw [if_neg hc] at hab
          have hb : ¬v = b := fun h => hc (Or.inr h)
          simp [hb, ih.2 a b hab]
    · rw [RemoveVertex_of_absent g v hv]
      exact ih
  | addEdge g e _ ih =>
    constructor
    · have h1 : GoMap.WFall ((g.addVertex e.U).1.addVertex e.V).1.list := by
        have ha : ∀ (g : AdjacencyList α) (v : α), GoMap.WFall g.list →
            GoMap.WFall (g.addVertex v).1.list := by
          intro g v hg
          have h1 := GoMap.WFall_ensure g.list v hg
          unfold AdjacencyList.addVertex AdjacencyList.hasVertex
          by_cases hv : GoMap.has g.list v = true
          · simpa [hv] using hg
          · simpa [hv] using h1
        exact ha _ _ (ha _ _ ih.1)
      unfold AdjacencyList.AddEdge AdjacencyList.addEdge
      simp only [BaseEdge.Source, BaseEdge.Target]
      by_cases hex :
          GoMap.has (GoMap.inner ((g.addVertex e.U).1.addVertex e.V).1.list e.U) e.V = true
      · simpa [hex] using h1
      · have hex' : GoMap.has (GoMap.inner ((g.addVertex e.U).1.addVertex e.V).1.list e.U) e.V
            = false := by simpa using hex
        simp only [hex, Bool.not_false, if_true]
        exact GoMap.WFall_update_store _ e.U e.V () h1 hex'
    · intro a b hab
      simp only [AddEdge] at hab ⊢
      rw [slot_addEdge] at hab
      have := hasVertex_addEdge g e b
      simp only [hasVertex] at this
      rw [this]
      by_cases hc : e.U = a ∧ e.V = b
      · simp [hc.2]
      · rw [if_neg hc] at hab
        simp [ih.2 a b hab]
  | removeEdge g e _ ih =>
    constructor
    · unfold AdjacencyList.RemoveEdge
      dsimp only
      split
      · exact GoMap.WFall_update_delete _ _ _ ih.1
      · exact ih.1
    · intro a b hab
      rw [slot_RemoveEdge] at hab
      have := hasVertex_RemoveEdge g e b
      simp only [hasVertex] at this
      rw [this]
      by_cases hc : e.U = a ∧ e.V = b
      · simp [hc] at hab
      · rw [if_neg hc] at hab
        exact ih.2 a b hab

end AdjacencyList

namespace GoMap

variable {K T T2 : Type} [DecidableEq K]

theorem keys_store_of_present (m : GoMap K T) (k : K) (b : T) (h : has m k = true) :
    keys (store m k b) = keys m := by
  induction m with
  | nil => simp [has, lookup] at h
  | cons p m ih =>
    obtain ⟨a, c⟩ := p
    by_cases hak : a = k
    · simp [store, keys, hak]
    · have h' : has m k = true := by
        simpa [has, lookup, hak] using h
      have := ih h'
      simp only [keys] at this
      simp [store, keys, hak, this]

theorem WF_store (m : GoMap K T) (k : K) (b : T) (hm : WF m) : WF (store m k b) := by
  by_cases h : has m k = true
  · unfold WF at hm ⊢
    rw [keys_store_of_present m k b h]
    exact hm
  · exact WF_store_of_absent m k b ((has_eq_false_iff m k).1 (by simpa using h)) hm

end GoMap

namespace baseWeighted

variable {α : Type} [DecidableEq α]

theorem noDangling_ensureVertex (g : baseWeighted α) (vs : List α)
    (h : GoMap.NoDangling g.list) : GoMap.NoDangling (g.ensureVertex vs).list := by
  intro a b hab
  rw [slot_ensureVertex] at hab
  have := hasVertex_ensureVertex g vs b
  simp only [hasVertex] at this
  rw [this, h a b hab]
  simp

end baseWeighted

namespace weightedDirected

variable {α : Type} [DecidableEq α]

theorem noDangling_addEdgesStep (g : weightedDirected α) (e : BaseWeightedEdge α)
    (h : GoMap.NoDangling g.list) : GoMap.NoDangling (g.addEdgesStep e).list := by
  intro a b hab
  rw [wd_slot_addEdgesStep] at hab
  have := wd_hasVertex_addEdgesStep g e b
  simp only [baseWeighted.hasVertex] at this
  rw [this]
  by_cases hc : e.U = a ∧ e.V = b
  · simp [hc.2]
  · rw [if_neg hc] at hab
    simp [h a b hab]

theorem noDangling_removeEdgesStep (g : weightedDirected α) (e : BaseWeightedEdge α)
    (h : GoMap.NoDangling g.list) : GoMap.NoDangling (g.removeEdgesStep e).list := by
  intro a b hab
  rw [wd_slot_removeEdgesStep] at hab
  have := wd_hasVertex_removeEdgesStep g e b
  simp only [baseWeighted.hasVertex] at this
  rw [this]
  by_cases hc : e.U = a ∧ e.V = b
  · simp [hc] at hab
  · rw [if_neg hc] at hab
    exact h a b hab

theorem removeVertexStep_of_absent (g : weightedDirected α) (v : α)
    (h : ¬g.hasVertex v = true) : g.removeVertexStep v = g := by
  unfold removeVertexStep
  simp [h]

theorem noDangling_removeVertexStep (g : weightedDirected α) (v : α)
    (h : GoMap.NoDangling g.list) : GoMap.NoDangling (g.removeVertexStep v).list := by
  by_cases hv : g.hasVertex v = true
  · intro a b hab
    rw [wd_slot_removeVertexStep g v a b hv] at hab
    have := wd_hasVertex_removeVertexStep g v b
    simp only [baseWeighted.hasVertex] at this
    rw [this]
    by_cases hc : v = a ∨ v = b
    · simp [hc] at hab
    · rw [if_neg hc] at hab
      have hb : ¬v = b := fun h => hc (Or.inr h)
      simp [hb, h a b hab]
  · rw [removeVertexStep_of_absent g v hv]
    exact h

theorem Reachable.wd_noDangling {g : weightedDirected α} (h : Reachable g) :
    GoMap.NoDangling g.list := by
  induction h with
  | init =>
    intro u v huv
    simp [NewWeightedDirected, GoMap.slot, GoMap.inner, GoMap.lookup] at huv
  | ensureVertex g vs _ ih =>
    unfold weightedDirected.EnsureVertex
    rw [baseWeighted.EnsureVertex_eq]
    exact baseWeighted.noDangling_ensureVertex g.tobaseWeighted vs ih
  | removeVertex g vs _ ih =>
    rw [wd_RemoveVertex_eq]
    exact foldl_invariant (fun g : weightedDirected α => GoMap.NoDangling g.list)
      removeVertexStep noDangling_removeVertexStep vs g ih
  | addEdges g es _ ih =>
    rw [wd_AddEdges_eq]
    exact foldl_invariant (fun g : weightedDirected α => GoMap.NoDangling g.list)
      addEdgesStep noDangling_addEdgesStep es g ih
  | removeEdges g es _ ih =>
    rw [wd_RemoveEdges_eq]
    exact foldl_invariant (fun g : weightedDirected α => GoMap.NoDangling g.list)
      removeEdgesStep noDangling_removeEdgesStep es g ih

end weightedDirected

namespace weightedUndirected

variable {α : Type} [DecidableEq α]

theorem wfAll_addEdgesStep (g : weightedUndirected α) (e : BaseWeightedEdge α)
    (h : GoMap.WFall g.list) : GoMap.WFall (g.addEdgesStep e).list := by
  have h1 := baseWeighted.wfAll_ensureVertex g.tobaseWeighted [e.U, e.V] h
  unfold addEdgesStep
  simp only [BaseEdge.Source, BaseEdge.Target, BaseWeightedEdge.Weight]
  split
  · apply GoMap.WFall_update _ _ _ (fun adj _ hadj => GoMap.WF_store adj _ _ hadj)
    exact GoMap.WFall_update _ _ _ (fun adj _ hadj => GoMap.WF_store adj _ _ hadj) h1
  · exact h1

theorem wfAll_removeEdgesStep (g : weightedUndirected α) (e : BaseWeightedEdge α)
    (h : GoMap.WFall g.list) : GoMap.WFall (g.removeEdgesStep e).list := by
  unfold removeEdgesStep
  dsimp only
  split
  · exact GoMap.WFall_update_delete _ _ _ (GoMap.WFall_update_delete _ _ _ h)
  · exact h

theorem wfAll_removeVertexStep (g : weightedUndirected α) (v : α)
    (h : GoMap.WFall g.list) : GoMap.WFall (g.removeVertexStep v).list := by
  unfold removeVertexStep
  split
  · exact GoMap.WFall_delete _ _ (GoMap.WFall_foldl_update_delete _ v g.list h)
  · exact h

theorem Reachable.wfAll {g : weightedUndirected α} (h : Reachable g) : GoMap.WFall g.list := by
  induction h with
  | init => exact GoMap.WFall_nil
  | ensureVertex g vs _ ih =>
    unfold weightedUndirected.EnsureVertex
    rw [baseWeighted.EnsureVertex_eq]
    exact baseWeighted.wfAll_ensureVertex g.tobaseWeighted vs ih
  | removeVertex g vs _ ih =>
    rw [wu_RemoveVertex_eq]
    exact foldl_invariant (fun g : weightedUndirected α => GoMap.WFall g.list)
      removeVertexStep wfAll_removeVertexStep vs g ih
  | addEdges g es _ ih =>
    rw [wu_AddEdges_eq]
    exact foldl_invariant (fun g : weightedUndirected α => GoMap.WFall g.list)
      addEdgesStep wfAll_addEdgesStep es g ih
  | removeEdges g es _ ih =>
    rw [wu_RemoveEdges_eq]
    exact foldl_invariant (fun g : weightedUndirected α => GoMap.WFall g.list)
      removeEdgesStep wfAll_removeEdgesStep es g ih

theorem symNoDangling_addEdgesStep (g : weightedUndirected α) (e : BaseWeightedEdge α)
    (h : g.Symmetric ∧ GoMap.NoDangling g.list) :
    (g.addEdgesStep e).Symmetric ∧ GoMap.NoDangling (g.addEdgesStep e).list := by
  refine ⟨symmetric_addEdgesStep g e h.1, ?_⟩
  intro a b hab
  rw [wu_slot_addEdgesStep] at hab
  have := wu_hasVertex_addEdgesStep g e b
  simp only [baseWeighted.hasVertex] at this
  rw [this]
  by_cases hex : (GoMap.slot g.list e.U e.V).isSome = true
  · rw [if_pos hex] at hab
    simp [h.2 a b hab]
  · rw [if_neg hex] at hab
    by_cases hc : (e.U = a ∧ e.V = b) ∨ (e.V = a ∧ e.U = b)
    · rcases hc with hc | hc
      · simp [hc.2]
      · simp [hc.2]
    · rw [if_neg hc] at hab
      simp [h.2 a b hab]

theorem symNoDangling_removeEdgesStep (g : weightedUndirected α) (e : BaseWeightedEdge α)
    (h : g.Symmetric ∧ GoMap.NoDangling g.list) :
    (g.removeEdgesStep e).Symmetric ∧ GoMap.NoDangling (g.removeEdgesStep e).list := by
  refine ⟨symmetric_removeEdgesStep g e h.1, ?_⟩
  intro a b hab
  rw [wu_slot_removeEdgesStep] at hab
  have := wu_hasVertex_removeEdgesStep g e b
  simp only [baseWeighted.hasVertex] at this
  rw [this]
  by_cases hex : (GoMap.slot g.list e.U e.V).isSome = true
  · rw [if_pos hex] at hab
    by_cases hc : (e.U = a ∧ e.V = b) ∨ (e.V = a ∧ e.U = b)
    · simp [hc] at hab
    · rw [if_neg hc] at hab
      exact h.2 a b hab
  · rw [if_neg hex] at hab
    exact h.2 a b hab

theorem symNoDangling_removeVertexStep (g : weightedUndirected α) (v : α)
    (h : g.Symmetric ∧ GoMap.NoDangling g.list) :
    (g.removeVertexStep v).Symmetric ∧ GoMap.NoDangling (g.removeVertexStep v).list := by
  refine ⟨symmetric_removeVertexStep g v h.1, ?_⟩
  by_cases hv : g.hasVertex v = true
  · intro a b hab
    rw [wu_slot_removeVertexStep g v a b hv] at hab
    have := wu_hasVertex_removeVertexStep g v b
    simp only [baseWeighted.hasVertex] at this
    rw [this]
    by_cases hc : v = a ∨ (a ∈ GoMap.keys (GoMap.inner g.list v) ∧ v = b)
    · simp [hc] at hab
    · rw [if_neg hc] at hab
      have hb : ¬v = b := by
        intro hvb
        subst hvb
        have hk : a ∉ GoMap.keys (GoMap.inner g.list v) := fun hk => hc (Or.inr ⟨hk, rfl⟩)
        have hn := slot_eq_none_of_not_mem_keys g v a hk
        rw [h.1 a v, hn] at hab
        simp at hab
      simp [hb, h.2 a b hab]
  · have : g.removeVertexStep v = g := by
      unfold removeVertexStep
      simp [hv]
    rw [this]
    exact h.2

theorem Reachable.wu_noDangling {g : weightedUndirected α} (h : Reachable g) :
    GoMap.NoDangling g.list := by
  have key : g.Symmetric ∧ GoMap.NoDangling g.list := by
    induction h with
    | init =>
      refine ⟨fun a b => rfl, ?_⟩
      intro u v huv
      simp [NewWeightedUndirected, GoMap.slot, GoMap.inner, GoMap.lookup] at huv
    | ensureVertex g vs _ ih =>
      refine ⟨symmetric_ensureVertex g vs ih.1, ?_⟩
      unfold weightedUndirected.EnsureVertex
      rw [baseWeighted.EnsureVertex_eq]
      exact baseWeighted.noDangling_ensureVertex g.tobaseWeighted vs ih.2
    | removeVertex g vs _ ih =>
      rw [wu_RemoveVertex_eq]
      exact foldl_invariant
        (fun g : weightedUndirected α => g.Symmetric ∧ GoMap.NoDangling g.list)
        removeVertexStep symNoDangling_removeVertexStep vs g ih
    | addEdges g es _ ih =>
      rw [wu_AddEdges_eq]
      exact foldl_invariant
        (fun g : weightedUndirected α => g.Symmetric ∧ GoMap.NoDangling g.list)
        addEdgesStep symNoDangling_addEdgesStep es g ih
    | removeEdges g es _ ih =>
      rw [wu_RemoveEdges_eq]
      exact foldl_invariant
        (fun g : weightedUndirected α => g.Symmetric ∧ GoMap.NoDangling g.list)
        removeEdgesStep symNoDangling_removeEdgesStep es g ih
  exact key.2

end weightedUndirected

/-- In a well-formed map of maps without dangling slots, both the key of every entry and
every key of its inner map are keys of the outer map. -/
theorem GoMap.endpoints_resident {K T2 : Type} [DecidableEq K] (m : GoMap K (GoMap K T2))
    (hw : GoMap.WF m) (hd : GoMap.NoDangling m) (p : K × GoMap K T2) (hp : p ∈ m) (v : K)
    (hv : v ∈ GoMap.keys p.2) : GoMap.has m p.1 = true ∧ GoMap.has m v = true := by
  have hl := GoMap.lookup_of_mem m hw p.1 p.2 hp
  refine ⟨by simp [GoMap.has, hl], hd p.1 v ?_⟩
  have : GoMap.has p.2 v = true := (GoMap.has_iff_mem_keys p.2 v).2 hv
  simpa [GoMap.slot, GoMap.inner, hl] using this

/-! ### Calls with one argument -/

theorem baseWeighted.hasVertex_EnsureVertex_singleton {α : Type} [DecidableEq α]
    (g : baseWeighted α) (v x : α) :
    (g.EnsureVertex [v]).hasVertex x = (decide (v = x) || g.hasVertex x) :=
  baseWeighted.hasVertex_ensureVertexStep g v x

theorem weightedDirected.wd_AddEdges_singleton {α : Type} [DecidableEq α]
    (g : weightedDirected α) (e : BaseWeightedEdge α) : g.AddEdges [e] = g.addEdgesStep e := rfl

theorem weightedDirected.wd_RemoveEdges_singleton {α : Type} [DecidableEq α]
    (g : weightedDirected α) (e : BaseWeightedEdge α) :
    g.RemoveEdges [e] = g.removeEdgesStep e := rfl

theorem weightedDirected.wd_RemoveVertex_singleton {α : Type} [DecidableEq α]
    (g : weightedDirected α) (v : α) : g.RemoveVertex [v] = g.removeVertexStep v := rfl

theorem weightedUndirected.wu_AddEdges_singleton {α : Type} [DecidableEq α]
    (g : weightedUndirected α) (e : BaseWeightedEdge α) : g.AddEdges [e] = g.addEdgesStep e := rfl

theorem weightedUndirected.wu_RemoveEdges_singleton {α : Type} [DecidableEq α]
    (g : weightedUndirected α) (e : BaseWeightedEdge α) :
    g.RemoveEdges [e] = g.removeEdgesStep e := rfl

theorem weightedUndirected.wu_RemoveVertex_singleton {α : Type} [DecidableEq α]
    (g : weightedUndirected α) (v : α) : g.RemoveVertex [v] = g.removeVertexStep v := rfl

/-! ### First write wins -/

namespace weightedDirected

variable {α : Type} [DecidableEq α]

theorem wd_size_addEdgesStep (g : weightedDirected α) (e : BaseWeightedEdge α) :
    (g.addEdgesStep e).size =
      if (GoMap.slot g.list e.U e.V).isSome = true then g.size else wrapInt (g.size + 1) := by
  have hs := baseWeighted.slot_ensureVertex g.tobaseWeighted [e.U, e.V] e.U e.V
  have hz := baseWeighted.size_ensureVertex g.tobaseWeighted [e.U, e.V]
  unfold addEdgesStep
  simp only [BaseEdge.Source, BaseEdge.Target, BaseWeightedEdge.Weight]
  rw [GoMap.has_inner, hs]
  by_cases hex : (GoMap.slot g.list e.U e.V).isSome = true
  · simp only [hex, Bool.not_true, Bool.false_eq_true, if_false, if_true]
    exact hz
  · simp [hex, hz]

theorem wd_slot_AddEdges (es : List (BaseWeightedEdge α)) (g : weightedDirected α) (u v : α) :
    GoMap.slot (g.AddEdges es).list u v =
      (GoMap.slot g.list u v).or
        ((es.find? (fun e => decide (e.U = u ∧ e.V = v))).map (fun e => e.W)) := by
  rw [wd_AddEdges_eq]
  induction es generalizing g with
  | nil =>
    show GoMap.slot g.list u v = _
    cases GoMap.slot g.list u v <;> rfl
  | cons e es ih =>
    rw [List.foldl_cons, ih, wd_slot_addEdgesStep, List.find?_cons]
    by_cases hc : e.U = u ∧ e.V = v
    · simp only [hc, and_self, if_true, decide_True]
      cases hg : GoMap.slot g.list u v <;> simp [Option.or]
    · simp only [hc, if_false, decide_False]

end weightedDirected

namespace weightedUndirected

variable {α : Type} [DecidableEq α]

theorem wu_size_addEdgesStep (g : weightedUndirected α) (e : BaseWeightedEdge α) :
    (g.addEdgesStep e).size =
      if (GoMap.slot g.list e.U e.V).isSome = true then g.size else wrapInt (g.size + 1) := by
  have hs := baseWeighted.slot_ensureVertex g.tobaseWeighted [e.U, e.V] e.U e.V
  have hz := baseWeighted.size_ensureVertex g.tobaseWeighted [e.U, e.V]
  unfold addEdgesStep
  simp only [BaseEdge.Source, BaseEdge.Target, BaseWeightedEdge.Weight]
  rw [GoMap.has_inner, hs]
  by_cases hex : (GoMap.slot g.list e.U e.V).isSome = true
  · simp only [hex, Bool.not_true, Bool.false_eq_true, if_false, if_true]
    exact hz
  · simp [hex, hz]

theorem wu_slot_addEdgesStep_of_symmetric (g : weightedUndirected α) (e : BaseWeightedEdge α)
    (hg : g.Symmetric) (u v : α) :
    GoMap.slot (g.addEdgesStep e).list u v =
      (GoMap.slot g.list u v).or
        (if (e.U = u ∧ e.V = v) ∨ (e.U = v ∧ e.V = u) then some e.W else none) := by
  rw [wu_slot_addEdgesStep]
  by_cases hc : (e.U = u ∧ e.V = v) ∨ (e.U = v ∧ e.V = u)
  · have hc' : (e.U = u ∧ e.V = v) ∨ (e.V = u ∧ e.U = v) := by
      rcases hc with h | h
      · exact Or.inl h
      · exact Or.inr ⟨h.2, h.1⟩
    have hsame : GoMap.slot g.list e.U e.V = GoMap.slot g.list u v := by
      rcases hc with h | h
      · rw [h.1, h.2]
      · rw [h.1, h.2, hg v u]
    rw [hsame, if_pos hc, if_pos hc']
    cases hl : GoMap.slot g.list u v <;> simp [Option.or]
  · have hc' : ¬((e.U = u ∧ e.V = v) ∨ (e.V = u ∧ e.U = v)) := by
      rintro (h | h)
      · exact hc (Or.inl h)
      · exact hc (Or.inr ⟨h.2, h.1⟩)
    rw [if_neg hc, if_neg hc']
    cases hl : GoMap.slot g.list u v <;> simp [Option.or]

theorem wu_slot_AddEdges (es : List (BaseWeightedEdge α)) (g : weightedUndirected α)
    (hg : g.Symmetric) (u v : α) :
    GoMap.slot (g.AddEdges es).list u v =
      (GoMap.slot g.list u v).or
        ((es.find? (fun e => decide ((e.U = u ∧ e.V = v) ∨ (e.U = v ∧ e.V = u)))).map
          (fun e => e.W)) := by
  rw [wu_AddEdges_eq]
  induction es generalizing g with
  | nil =>
    show GoMap.slot g.list u v = _
    cases GoMap.slot g.list u v <;> rfl
  | cons e es ih =>
    rw [List.foldl_cons, ih _ (symmetric_addEdgesStep g e hg),
      wu_slot_addEdgesStep_of_symmetric g e hg, List.find?_cons]
    by_cases hc : (e.U = u ∧ e.V = v) ∨ (e.U = v ∧ e.V = u)
    · simp only [hc, if_true, decide_True]
      cases hl : GoMap.slot g.list u v <;> simp [Option.or]
    · simp only [hc, if_false, decide_False]
      cases hl : GoMap.slot g.list u v <;> simp [Option.or]

end weightedUndirected

/-! ### Transposition -/

namespace weightedDirected

variable {α : Type} [DecidableEq α]

theorem has_ensure_self (m : GoMap α (GoMap α Int)) (k : α) :
    GoMap.has (if !GoMap.has m k then GoMap.store m k [] else m) k = true := by
  by_cases h : GoMap.has m k = true
  · simp [h]
  · simp [h, GoMap.has_store]

theorem slot_transposeArc (s : α) (l2 : GoMap α (GoMap α Int)) (t : α) (w : Int) (a b : α) :
    GoMap.slot (transposeArc s l2 (t, w)) a b =
      if t = a ∧ s = b then some w else GoMap.slot l2 a b := by
  unfold transposeArc
  simp only
  rw [GoMap.slot_update _ _ _ _ _ (has_ensure_self l2 t), GoMap.lookup_store]
  by_cases h1 : t = a
  · subst h1
    by_cases h2 : s = b
    · simp [h2]
    · simp only [h2, if_true, if_false, and_false]
      exact GoMap.slot_store_empty_of_has l2 t t b
  · simp only [h1, if_false, false_and]
    exact GoMap.slot_store_empty_of_has l2 t a b

theorem slot_foldl_transposeArc (s : α) (adj : GoMap α Int) (hadj : GoMap.WF adj)
    (l2 : GoMap α (GoMap α Int)) (a b : α) :
    GoMap.slot (adj.foldl (transposeArc s) l2) a b =
      if b = s then (GoMap.lookup adj a).or (GoMap.slot l2 a b) else GoMap.slot l2 a b := by
  induction adj generalizing l2 with
  | nil =>
    by_cases h : b = s
    · simp [h, GoMap.lookup, Option.or]
    · simp [h]
  | cons p adj ih =>
    obtain ⟨t, w⟩ := p
    obtain ⟨hn, hadj'⟩ := GoMap.WF_tail t w adj hadj
    rw [List.foldl_cons, ih hadj', slot_transposeArc]
    by_cases h : b = s
    · subst h
      by_cases h1 : t = a
      · subst h1
        simp [GoMap.lookup, hn, Option.or]
      · simp [GoMap.lookup, h1]
    · have h' : ¬s = b := fun e => h e.symm
      simp [h, h']

theorem slot_transposeEntry (l2 : GoMap α (GoMap α Int)) (s : α) (adj : GoMap α Int)
    (hadj : GoMap.WF adj) (a b : α) :
    GoMap.slot (transposeEntry l2 (s, adj)) a b =
      if b = s then (GoMap.lookup adj a).or (GoMap.slot l2 a b) else GoMap.slot l2 a b := by
  unfold transposeEntry
  simp only
  rw [slot_foldl_transposeArc s adj hadj, GoMap.slot_store_empty_of_has]

theorem slot_foldl_transposeEntry (m : GoMap α (GoMap α Int)) (hm : GoMap.WFall m)
    (l2 : GoMap α (GoMap α Int)) (a b : α) :
    GoMap.slot (m.foldl transposeEntry l2) a b =
      (GoMap.slot m b a).or (GoMap.slot l2 a b) := by
  induction m generalizing l2 with
  | nil => simp [GoMap.slot, GoMap.inner, GoMap.lookup, Option.or]
  | cons p m ih =>
    obtain ⟨s, adj⟩ := p
    obtain ⟨hn, hm'⟩ := GoMap.WF_tail s adj m hm.1
    have hadj : GoMap.WF adj := hm.2 (s, adj) (List.mem_cons_self _ _)
    rw [List.foldl_cons, ih ⟨hm', fun q hq => hm.2 q (List.mem_cons_of_mem _ hq)⟩,
      slot_transposeEntry l2 s adj hadj]
    by_cases h : b = s
    · subst h
      have h1 : GoMap.slot m b a = none := GoMap.slot_eq_none_of_absent m b a hn
      have h2 : GoMap.slot ((b, adj) :: m) b a = GoMap.lookup adj a := by
        simp [GoMap.slot, GoMap.inner, GoMap.lookup]
      rw [h1, h2]
      simp [Option.or]
    · have h' : ¬s = b := fun e => h e.symm
      have h2 : GoMap.slot ((s, adj) :: m) b a = GoMap.slot m b a := by
        simp [GoMap.slot, GoMap.inner, GoMap.lookup, h']
      rw [h2, if_neg h]

theorem Transpose_eq_none_iff (g : weightedDirected α) : g.Transpose = none ↔ g.Order = 0 := by
  unfold Transpose
  by_cases h : g.Order = 0
  · simp [h]
  · simp [h]

theorem Transpose_of_order_ne_zero (g : weightedDirected α) (h : g.Order ≠ 0) :
    g.Transpose = some ⟨⟨g.list.foldl transposeEntry [], 0⟩⟩ := by
  unfold Transpose
  simp [h]

theorem slot_foldl_transposeEntry_nil (m : GoMap α (GoMap α Int)) (hm : GoMap.WFall m)
    (a b : α) : GoMap.slot (m.foldl transposeEntry []) a b = GoMap.slot m b a := by
  rw [slot_foldl_transposeEntry m hm]
  cases GoMap.slot m b a <;> simp [Option.or, GoMap.slot, GoMap.inner, GoMap.lookup]

end weightedDirected

/-! ### Density -/

theorem wrapInt_order_product (n : Int) (h2 : 2 ≤ n) (hb : n * (n - 1) < 9223372036854775808) :
    wrapInt (n * wrapInt (n - 1)) = n * (n - 1) ∧ n * (n - 1) ≠ 0 := by
  have h1 : 0 ≤ n - 1 := by omega
  have hle : n - 1 ≤ n * (n - 1) := by nlinarith
  have hpos : 0 < n * (n - 1) := by nlinarith
  have hw : wrapInt (n - 1) = n - 1 := wrapInt_of_small _ h1 (by omega)
  rw [hw, wrapInt_of_small _ (le_of_lt hpos) hb]
  exact ⟨rfl, ne_of_gt hpos⟩

theorem wrapInt_order_product_small (n : Int) (h : n = 0 ∨ n = 1) :
    wrapInt (n * wrapInt (n - 1)) = 0 := by
  rcases h with h | h
  · subst h
    rw [zero_mul, wrapInt_zero]
  · subst h
    have : wrapInt (1 - 1) = 0 := by
      unfold wrapInt
      omega
    rw [this, mul_zero, wrapInt_zero]

theorem uintMul_order_product (n : Nat) (h2 : 2 ≤ n) (hb : n * (n - 1) < 18446744073709551616) :
    uintMul n (uintDec n) = n * (n - 1) ∧ n * (n - 1) ≠ 0 := by
  have hle : n - 1 ≤ n * (n - 1) := Nat.le_mul_of_pos_left _ (by omega)
  have hn : n ≤ n * (n - 1) := Nat.le_mul_of_pos_right _ (by omega)
  have hd : uintDec n = n - 1 := by
    unfold uintDec
    omega
  unfold uintMul
  rw [hd, Nat.mod_eq_of_lt hb]
  exact ⟨rfl, by omega⟩

theorem uintMul_order_product_small (n : Nat) (h : n ≤ 1) : uintMul n (uintDec n) = 0 := by
  have h' : n = 0 ∨ n = 1 := by omega
  rcases h' with h' | h'
  · subst h'
    simp [uintMul]
  · subst h'
    have : uintDec 1 = 0 := by
      unfold uintDec
      omega
    simp [uintMul, this]

theorem roundHalfEven_of_near (q : ℚ) (M : Int) (h : |q - M| < 1 / 2) : roundHalfEven q = M := by
  rw [abs_lt] at h
  obtain ⟨h1, h2⟩ := h
  unfold roundHalfEven
  by_cases hq : (M : ℚ) ≤ q
  · have hf : ⌊q⌋ = M := by
      rw [Int.floor_eq_iff]
      constructor
      · exact hq
      · linarith
    rw [hf, if_pos h2]
  · have hq2 : q < M := not_le.1 hq
    have hf : ⌊q⌋ = M - 1 := by
      rw [Int.floor_eq_iff]
      push_cast
      constructor
      · linarith
      · linarith
    rw [hf]
    push_cast
    have hn : ¬(q - ((M : ℚ) - 1) < 1 / 2) := by
      intro hc
      linarith
    have hp : 1 / 2 < q - ((M : ℚ) - 1) := by linarith
    rw [if_neg hn, if_pos hp]
    omega

theorem int_log_two_eq (q : ℚ) (k : Int) (hq : 0 < q) (h1 : (2 : ℚ) ^ k ≤ q)
    (h2 : q < (2 : ℚ) ^ (k + 1)) : Int.log 2 q = k := by
  have hb : 1 < 2 := by norm_num
  apply le_antisymm
  · have := (Int.lt_zpow_iff_log_lt hb hq).1 (by simpa using h2)
    omega
  · exact (Int.zpow_le_iff_le_log hb hq).1 (by simpa using h1)

/-- The rounding of `q`, once its binade 2^(E+52) ≤ |q| < 2^(E+53) and the nearest multiple
M·2^E of the unit are known. -/
theorem roundFloat64_of_near (q : ℚ) (M E : Int) (hq : q ≠ 0) (hE : -1074 ≤ E)
    (h1 : (2 : ℚ) ^ (E + 52) ≤ |q|) (h2 : |q| < (2 : ℚ) ^ (E + 53))
    (hM : |(|q| / (2 : ℚ) ^ E) - M| < 1 / 2)
    (hv : (M : ℚ) * (2 : ℚ) ^ E < (2 : ℚ) ^ (1024 : ℤ)) :
    roundFloat64 q
      = FloatValue.finite (if 0 < q then M * (2 : ℚ) ^ E else -(M * (2 : ℚ) ^ E)) := by
  have hlog : Int.log 2 |q| = E + 52 :=
    int_log_two_eq |q| (E + 52) (abs_pos.2 hq) h1 (by
      have : E + 52 + 1 = E + 53 := by ring
      rw [this]
      exact h2)
  have he : max (Int.log 2 |q| - 52) (-1074) = E := by
    rw [hlog]
    omega
  unfold roundFloat64
  rw [if_neg hq]
  simp only
  rw [he, roundHalfEven_of_near _ M hM, if_neg (not_le.2 hv)]

/-- An integer of magnitude below 2^53 converts to `float64` exactly. -/
theorem roundFloat64_intCast (x : Int) (h : |x| < 9007199254740992) :
    roundFloat64 (x : ℚ) = FloatValue.finite x := by
  by_cases hx : x = 0
  · subst hx
    simp [roundFloat64]
  · have hxq : (x : ℚ) ≠ 0 := by exact_mod_cast hx
    have hn1 : 1 ≤ x.natAbs := Int.natAbs_pos.2 hx
    have hn2 : x.natAbs < 9007199254740992 := by
      have := Int.abs_eq_natAbs x
      omega
    have habs : |(x : ℚ)| = (x.natAbs : ℚ) := by
      rw [← Int.cast_abs, Int.abs_eq_natAbs, Int.cast_natCast]
    have hk1 : 2 ^ Nat.log 2 x.natAbs ≤ x.natAbs := Nat.pow_log_le_self 2 (by omega)
    have hk2 : x.natAbs < 2 ^ (Nat.log 2 x.natAbs + 1) :=
      Nat.lt_pow_succ_log_self (by norm_num) x.natAbs
    have hk : Nat.log 2 x.natAbs ≤ 52 := by
      by_contra hc
      have h53 : 53 ≤ Nat.log 2 x.natAbs := by omega
      have := Nat.pow_le_pow_right (by norm_num : 0 < 2) h53
      omega
    have hp : (2 : ℚ) ^ (52 - Nat.log 2 x.natAbs) * 2 ^ Nat.log 2 x.natAbs = 2 ^ 52 := by
      rw [← pow_add, Nat.sub_add_cancel hk]
    have hpos : (0 : ℚ) < 2 ^ Nat.log 2 x.natAbs := by positivity
    have hE : (2 : ℚ) ^ ((Nat.log 2 x.natAbs : ℤ) - 52) = 2 ^ Nat.log 2 x.natAbs / 2 ^ 52 := by
      rw [zpow_sub₀ (by norm_num), zpow_natCast]
      norm_num
    have hval : (((x.natAbs * 2 ^ (52 - Nat.log 2 x.natAbs) : ℕ) : ℤ) : ℚ)
        * (2 : ℚ) ^ ((Nat.log 2 x.natAbs : ℤ) - 52) = (x.natAbs : ℚ) := by
      rw [hE, Int.cast_natCast, Nat.cast_mul, Nat.cast_pow, Nat.cast_ofNat, mul_assoc,
        ← mul_div_assoc, hp, div_self (by positivity), mul_one]
    rw [roundFloat64_of_near x ((x.natAbs * 2 ^ (52 - Nat.log 2 x.natAbs) : ℕ) : ℤ)
      ((Nat.log 2 x.natAbs : ℤ) - 52) hxq (by omega) ?_ ?_ ?_ ?_]
    · rw [hval]
      by_cases h0 : (0 : ℚ) < x
      · rw [if_pos h0, ← habs, abs_of_pos h0]
      · rw [if_neg h0, ← habs, abs_of_neg (lt_of_le_of_ne (not_lt.1 h0) hxq), neg_neg]
    · rw [habs, sub_add_cancel, zpow_natCast]
      exact_mod_cast hk1
    · have he : (Nat.log 2 x.natAbs : ℤ) - 52 + 53 = ((Nat.log 2 x.natAbs + 1 : ℕ) : ℤ) := by
        push_cast
        ring
      rw [habs, he, zpow_natCast]
      exact_mod_cast hk2
    · have hq : (x.natAbs : ℚ) / (2 : ℚ) ^ ((Nat.log 2 x.natAbs : ℤ) - 52)
          = (((x.natAbs * 2 ^ (52 - Nat.log 2 x.natAbs) : ℕ) : ℤ) : ℚ) := by
        rw [← hval, mul_div_assoc, div_self (by positivity), mul_one]
      rw [habs, hq, sub_self, abs_zero]
      norm_num
    · rw [hval]
      have : (x.natAbs : ℚ) < 9007199254740992 := by exact_mod_cast hn2
      have h2 : (9007199254740992 : ℚ) < (2 : ℚ) ^ (1024 : ℤ) := by norm_num
      linarith

/-- Operands below 2^53 in magnitude convert exactly, so their `float64` quotient is the
rounding of their exact quotient. -/
theorem floatDiv_of_small (x y : Int) (hy : y ≠ 0) (hx : |x| < 9007199254740992)
    (hy2 : |y| < 9007199254740992) : floatDiv x y = roundFloat64 ((x : ℚ) / (y : ℚ)) := by
  unfold floatDiv
  rw [if_neg hy, roundFloat64_intCast x hx, roundFloat64_intCast y hy2]

/-- Rounding to an integer moves a value by at most one half. -/
theorem roundHalfEven_dist (q : ℚ) : |(roundHalfEven q : ℚ) - q| ≤ 1 / 2 := by
  have h1 := Int.floor_le q
  have h2 := Int.lt_floor_add_one q
  unfold roundHalfEven
  rw [abs_le]
  split_ifs <;> push_cast <;> constructor <;> linarith

/-- In the normal range a value rounds to a finite `float64` within the relative error
2^(−53). -/
theorem roundFloat64_error (q : ℚ) (h1 : (2 : ℚ) ^ (-1022 : ℤ) ≤ |q|)
    (h2 : |q| < (2 : ℚ) ^ (1023 : ℤ)) :
    ∃ v : ℚ, roundFloat64 q = FloatValue.finite v ∧ |v - q| ≤ |q| / 9007199254740992 := by
  have hb : 1 < 2 := by norm_num
  have hpos : 0 < |q| := lt_of_lt_of_le (by positivity) h1
  have hq : q ≠ 0 := abs_pos.1 hpos
  have hk1 : (2 : ℚ) ^ Int.log 2 |q| ≤ |q| := by
    have := Int.zpow_log_le_self hb hpos
    simpa using this
  have hk3 : -1022 ≤ Int.log 2 |q| := (Int.zpow_le_iff_le_log hb hpos).1 (by simpa using h1)
  have hk4 : Int.log 2 |q| < 1023 := (Int.lt_zpow_iff_log_lt hb hpos).1 (by simpa using h2)
  have he : max (Int.log 2 |q| - 52) (-1074) = Int.log 2 |q| - 52 := by omega
  have hepos : (0 : ℚ) < (2 : ℚ) ^ (Int.log 2 |q| - 52) := by positivity
  have hu : (2 : ℚ) ^ (Int.log 2 |q| - 52) = (2 : ℚ) ^ Int.log 2 |q| / 4503599627370496 := by
    rw [zpow_sub₀ (by norm_num)]
    norm_num
  have hd := roundHalfEven_dist (|q| / (2 : ℚ) ^ (Int.log 2 |q| - 52))
  have hv : abs ((roundHalfEven (|q| / (2 : ℚ) ^ (Int.log 2 |q| - 52)) : ℚ)
      * (2 : ℚ) ^ (Int.log 2 |q| - 52) - |q|) ≤ |q| / 9007199254740992 := by
    have e1 : (roundHalfEven (|q| / (2 : ℚ) ^ (Int.log 2 |q| - 52)) : ℚ)
        * (2 : ℚ) ^ (Int.log 2 |q| - 52) - |q|
        = ((roundHalfEven (|q| / (2 : ℚ) ^ (Int.log 2 |q| - 52)) : ℚ)
          - |q| / (2 : ℚ) ^ (Int.log 2 |q| - 52)) * (2 : ℚ) ^ (Int.log 2 |q| - 52) := by
      field_simp
    rw [e1, abs_mul, abs_of_pos hepos]
    calc _ ≤ 1 / 2 * (2 : ℚ) ^ (Int.log 2 |q| - 52) :=
          mul_le_mul_of_nonneg_right hd hepos.le
      _ = (2 : ℚ) ^ Int.log 2 |q| / 9007199254740992 := by
          rw [hu]
          ring
      _ ≤ |q| / 9007199254740992 := by
          apply div_le_div_of_nonneg_right hk1
          norm_num
  have hlt : (roundHalfEven (|q| / (2 : ℚ) ^ (Int.log 2 |q| - 52)) : ℚ)
      * (2 : ℚ) ^ (Int.log 2 |q| - 52) < (2 : ℚ) ^ (1024 : ℤ) := by
    have h3 := (abs_le.1 hv).2
    have h4 : (2 : ℚ) ^ (1024 : ℤ) = 2 * (2 : ℚ) ^ (1023 : ℤ) := by
      rw [show (1024 : ℤ) = 1023 + 1 by norm_num, zpow_add₀ (by norm_num)]
      norm_num
    have h5 : |q| / 9007199254740992 ≤ |q| := by
      apply div_le_self hpos.le
      norm_num
    linarith
  unfold roundFloat64
  rw [if_neg hq]
  simp only
  rw [he, if_neg (not_le.2 hlt)]
  refine ⟨_, rfl, ?_⟩
  by_cases h0 : 0 < q
  · rw [if_pos h0]
    rw [abs_of_pos h0] at hv ⊢
    exact hv
  · have hneg : q < 0 := lt_of_le_of_ne (not_lt.1 h0) hq
    rw [if_neg h0]
    rw [abs_of_neg hneg] at hv ⊢
    rw [← abs_neg]
    have e2 : -(-((roundHalfEven (-q / (2 : ℚ) ^ (Int.log 2 (-q) - 52)) : ℚ)
        * (2 : ℚ) ^ (Int.log 2 (-q) - 52)) - q)
        = (roundHalfEven (-q / (2 : ℚ) ^ (Int.log 2 (-q) - 52)) : ℚ)
          * (2 : ℚ) ^ (Int.log 2 (-q) - 52) - -q := by ring
    rw [e2]
    exact hv

/-- The `float64` quotient of two integers below 2^53 in magnitude is finite and within the
relative error 2^(−53) of the exact quotient. -/
theorem floatDiv_error (x y : Int) (hy : y ≠ 0) (hx : |x| < 9007199254740992)
    (hy2 : |y| < 9007199254740992) :
    ∃ v : ℚ, floatDiv x y = FloatValue.finite v ∧
      |v - (x : ℚ) / (y : ℚ)| ≤ |(x : ℚ) / (y : ℚ)| / 9007199254740992 := by
  rw [floatDiv_of_small x y hy hx hy2]
  by_cases h0 : x = 0
  · subst h0
    refine ⟨0, by simp [roundFloat64], by simp⟩
  · have ha1 : (1 : ℚ) ≤ |(x : ℚ)| := by
      have := Int.one_le_abs h0
      exact_mod_cast this
    have ha2 : |(x : ℚ)| < 9007199254740992 := by exact_mod_cast hx
    have hb1 : (1 : ℚ) ≤ |(y : ℚ)| := by
      have := Int.one_le_abs hy
      exact_mod_cast this
    have hb2 : |(y : ℚ)| < 9007199254740992 := by exact_mod_cast hy2
    have hbpos : (0 : ℚ) < |(y : ℚ)| := by linarith
    apply roundFloat64_error
    · rw [abs_div, le_div_iff₀ hbpos]
      have h3 : (2 : ℚ) ^ (-1022 : ℤ) * |(y : ℚ)| ≤ (2 : ℚ) ^ (-1022 : ℤ) * 9007199254740992 :=
        mul_le_mul_of_nonneg_left hb2.le (by positivity)
      have h4 : (2 : ℚ) ^ (-1022 : ℤ) * 9007199254740992 ≤ 1 := by norm_num
      linarith
    · rw [abs_div, div_lt_iff₀ hbpos]
      have h3 : (2 : ℚ) ^ (1023 : ℤ) * 1 ≤ (2 : ℚ) ^ (1023 : ℤ) * |(y : ℚ)| :=
        mul_le_mul_of_nonneg_left hb1 (by positivity)
      have h4 : (9007199254740992 : ℚ) < (2 : ℚ) ^ (1023 : ℤ) := by norm_num
      linarith

/-- Doubling commutes with rounding away from the subnormal range and from overflow. -/
theorem roundFloat64_two_mul (q : ℚ) (h1 : 1 ≤ |q|) (h2 : |q| < (2 : ℚ) ^ (1022 : ℤ)) :
    ∃ v : ℚ, roundFloat64 q = FloatValue.finite v ∧
      roundFloat64 (2 * q) = FloatValue.finite (2 * v) := by
  have hb : 1 < 2 := by norm_num
  have hpos : 0 < |q| := lt_of_lt_of_le (by norm_num) h1
  have hq : q ≠ 0 := abs_pos.1 hpos
  have hq2 : 2 * q ≠ 0 := mul_ne_zero (by norm_num) hq
  have habs : |2 * q| = 2 * |q| := by
    rw [abs_mul]
    norm_num
  have hk1 : (2 : ℚ) ^ Int.log 2 |q| ≤ |q| := by
    have := Int.zpow_log_le_self hb hpos
    simpa using this
  have hk2 : |q| < (2 : ℚ) ^ (Int.log 2 |q| + 1) := by
    have := Int.lt_zpow_succ_log_self hb |q|
    simpa using this
  have hk3 : 0 ≤ Int.log 2 |q| := (Int.zpow_le_iff_le_log hb hpos).1 (by simpa using h1)
  have hk4 : Int.log 2 |q| < 1022 := (Int.lt_zpow_iff_log_lt hb hpos).1 (by simpa using h2)
  have hs1 : (2 : ℚ) ^ (Int.log 2 |q| + 1) = 2 * (2 : ℚ) ^ Int.log 2 |q| := by
    rw [zpow_add₀ (by norm_num)]
    norm_num
    ring
  have hs2 : (2 : ℚ) ^ (Int.log 2 |q| + 1 + 1) = 2 * (2 : ℚ) ^ (Int.log 2 |q| + 1) := by
    rw [zpow_add₀ (by norm_num) (Int.log 2 |q| + 1)]
    norm_num
    ring
  have hlog2 : Int.log 2 |2 * q| = Int.log 2 |q| + 1 := by
    apply int_log_two_eq _ _ (abs_pos.2 hq2)
    · rw [habs, hs1]
      linarith
    · rw [habs, hs2]
      linarith
  have he : max (Int.log 2 |q| - 52) (-1074) = Int.log 2 |q| - 52 := by omega
  have he2 : max (Int.log 2 |q| + 1 - 52) (-1074) = Int.log 2 |q| - 52 + 1 := by omega
  have hepos : (0 : ℚ) < (2 : ℚ) ^ (Int.log 2 |q| - 52) := by positivity
  have hs3 : (2 : ℚ) ^ (Int.log 2 |q| - 52 + 1) = 2 * (2 : ℚ) ^ (Int.log 2 |q| - 52) := by
    rw [zpow_add₀ (by norm_num)]
    norm_num
    ring
  have hquot : 2 * |q| / (2 * (2 : ℚ) ^ (Int.log 2 |q| - 52))
      = |q| / (2 : ℚ) ^ (Int.log 2 |q| - 52) := by
    rw [mul_div_mul_left _ _ (by norm_num)]
  have hu : (2 : ℚ) ^ (Int.log 2 |q| - 52) = (2 : ℚ) ^ Int.log 2 |q| / 4503599627370496 := by
    rw [zpow_sub₀ (by norm_num)]
    norm_num
  have hd := roundHalfEven_dist (|q| / (2 : ℚ) ^ (Int.log 2 |q| - 52))
  have hbound : (roundHalfEven (|q| / (2 : ℚ) ^ (Int.log 2 |q| - 52)) : ℚ)
      * (2 : ℚ) ^ (Int.log 2 |q| - 52) ≤ 2 * |q| := by
    have h3 := (abs_le.1 hd).2
    have h4 : (roundHalfEven (|q| / (2 : ℚ) ^ (Int.log 2 |q| - 52)) : ℚ)
        ≤ |q| / (2 : ℚ) ^ (Int.log 2 |q| - 52) + 1 / 2 := by linarith
    have h5 := mul_le_mul_of_nonneg_right h4 hepos.le
    have h6 : (|q| / (2 : ℚ) ^ (Int.log 2 |q| - 52) + 1 / 2) * (2 : ℚ) ^ (Int.log 2 |q| - 52)
        = |q| + (2 : ℚ) ^ (Int.log 2 |q| - 52) / 2 := by
      field_simp
      ring
    have h7 : (2 : ℚ) ^ (Int.log 2 |q| - 52) / 2 ≤ |q| := by
      rw [hu]
      have : (2 : ℚ) ^ Int.log 2 |q| / 4503599627370496 / 2 ≤ (2 : ℚ) ^ Int.log 2 |q| := by
        have hp : (0 : ℚ) < (2 : ℚ) ^ Int.log 2 |q| := by positivity
        rw [div_div]
        apply div_le_self hp.le
        norm_num
      linarith
    linarith
  have h1024 : (2 : ℚ) ^ (1024 : ℤ) = 4 * (2 : ℚ) ^ (1022 : ℤ) := by
    rw [show (1024 : ℤ) = 1022 + 2 by norm_num, zpow_add₀ (by norm_num)]
    norm_num
  have hlt : (roundHalfEven (|q| / (2 : ℚ) ^ (Int.log 2 |q| - 52)) : ℚ)
      * (2 : ℚ) ^ (Int.log 2 |q| - 52) < (2 : ℚ) ^ (1024 : ℤ) := by
    rw [h1024]
    linarith
  have hlt2 : (roundHalfEven (|q| / (2 : ℚ) ^ (Int.log 2 |q| - 52)) : ℚ)
      * (2 * (2 : ℚ) ^ (Int.log 2 |q| - 52)) < (2 : ℚ) ^ (1024 : ℤ) := by
    rw [h1024]
    have : (roundHalfEven (|q| / (2 : ℚ) ^ (Int.log 2 |q| - 52)) : ℚ)
        * (2 * (2 : ℚ) ^ (Int.log 2 |q| - 52))
        = 2 * ((roundHalfEven (|q| / (2 : ℚ) ^ (Int.log 2 |q| - 52)) : ℚ)
          * (2 : ℚ) ^ (Int.log 2 |q| - 52)) := by ring
    rw [this]
    linarith
  have hsign : (0 < 2 * q) ↔ (0 < q) := by
    constructor
    · intro h
      linarith
    · intro h
      linarith
  refine ⟨if 0 < q then (roundHalfEven (|q| / (2 : ℚ) ^ (Int.log 2 |q| - 52)) : ℚ)
      * (2 : ℚ) ^ (Int.log 2 |q| - 52)
    else -((roundHalfEven (|q| / (2 : ℚ) ^ (Int.log 2 |q| - 52)) : ℚ)
      * (2 : ℚ) ^ (Int.log 2 |q| - 52)), ?_, ?_⟩
  · unfold roundFloat64
    rw [if_neg hq]
    simp only
    rw [he, if_neg (not_le.2 hlt)]
  · unfold roundFloat64
    rw [if_neg hq2]
    simp only
    rw [hlog2, he2, hs3, habs, hquot, if_neg (not_le.2 hlt2)]
    by_cases h0 : 0 < q
    · rw [if_pos (hsign.2 h0), if_pos h0]
      congr 1
      ring
    · rw [if_neg (fun h => h0 (hsign.1 h)), if_neg h0]
      congr 1
      ring

/-- The conversion of 2·x is the double of the conversion of x, for every x of a 64-bit integer
type: the product `2 * float64(x)` of the code is `float64` of the integer 2·x. -/
theorem roundFloat64_two_mul_intCast (x : Int) (h : |x| < 18446744073709551616) :
    ∃ v : ℚ, roundFloat64 (x : ℚ) = FloatValue.finite v ∧
      roundFloat64 ((2 * x : Int) : ℚ) = FloatValue.finite (2 * v) := by
  by_cases h0 : x = 0
  · subst h0
    exact ⟨0, by simp [roundFloat64], by simp [roundFloat64]⟩
  · have ha1 : (1 : ℚ) ≤ |(x : ℚ)| := by
      have := Int.one_le_abs h0
      exact_mod_cast this
    have ha2 : |(x : ℚ)| < 18446744073709551616 := by exact_mod_cast h
    have h3 : (18446744073709551616 : ℚ) < (2 : ℚ) ^ (1022 : ℤ) := by norm_num
    obtain ⟨v, hv1, hv2⟩ := roundFloat64_two_mul (x : ℚ) ha1 (by linarith)
    refine ⟨v, hv1, ?_⟩
    rw [← hv2]
    push_cast
    rfl

theorem floatDiv_one_two : floatDiv 1 2 = FloatValue.finite (1 / 2) := by
  rw [floatDiv_of_small 1 2 (by decide) (by decide) (by decide),
    roundFloat64_of_near _ 4503599627370496 (-53) (by norm_num) (by norm_num)
      (by norm_num [abs_of_pos]) (by norm_num [abs_of_pos]) (by norm_num [abs_of_pos])
      (by norm_num)]
  norm_num

theorem floatDiv_two_two : floatDiv 2 2 = FloatValue.finite 1 := by
  rw [floatDiv_of_small 2 2 (by decide) (by decide) (by decide)]
  have h : ((2 : Int) : ℚ) / ((2 : Int) : ℚ) = ((1 : Int) : ℚ) := by norm_num
  rw [h, roundFloat64_intCast 1 (by decide)]
  norm_num

theorem floatDiv_four_two : floatDiv 4 2 = FloatValue.finite 2 := by
  rw [floatDiv_of_small 4 2 (by decide) (by decide) (by decide)]
  have h : ((4 : Int) : ℚ) / ((2 : Int) : ℚ) = ((2 : Int) : ℚ) := by norm_num
  rw [h, roundFloat64_intCast 2 (by decide)]
  norm_num

theorem floatDiv_two_six :
    floatDiv 2 6 = FloatValue.finite (6004799503160661 / 18014398509481984) := by
  rw [floatDiv_of_small 2 6 (by decide) (by decide) (by decide),
    roundFloat64_of_near _ 6004799503160661 (-54) (by norm_num) (by norm_num)
      (by norm_num [abs_of_pos]) (by norm_num [abs_of_pos]) (by norm_num [abs_of_pos])
      (by norm_num)]
  norm_num

theorem floatDiv_four_six :
    floatDiv 4 6 = FloatValue.finite (6004799503160661 / 9007199254740992) := by
  rw [floatDiv_of_small 4 6 (by decide) (by decide) (by decide),
    roundFloat64_of_near _ 6004799503160661 (-53) (by norm_num) (by norm_num)
      (by norm_num [abs_of_pos]) (by norm_num [abs_of_pos]) (by norm_num [abs_of_pos])
      (by norm_num)]
  norm_num

theorem floatDiv_two_three :
    floatDiv 2 3 = FloatValue.finite (6004799503160661 / 9007199254740992) := by
  rw [floatDiv_of_small 2 3 (by decide) (by decide) (by decide),
    roundFloat64_of_near _ 6004799503160661 (-53) (by norm_num) (by norm_num)
      (by norm_num [abs_of_pos]) (by norm_num [abs_of_pos]) (by norm_num [abs_of_pos])
      (by norm_num)]
  norm_num

theorem floatDiv_two_pow : floatDiv 2 4294967296 = FloatValue.finite (2 / 4294967296) := by
  rw [floatDiv_of_small 2 4294967296 (by decide) (by decide) (by decide),
    roundFloat64_of_near _ 4503599627370496 (-83) (by norm_num) (by norm_num)
      (by norm_num [abs_of_pos]) (by norm_num [abs_of_pos]) (by norm_num [abs_of_pos])
      (by norm_num)]
  norm_num

theorem floatDiv_one_neg_pow :
    floatDiv 1 (-4294967296) = FloatValue.finite (-1 / 4294967296) := by
  rw [floatDiv_of_small 1 (-4294967296) (by decide) (by decide) (by decide),
    roundFloat64_of_near _ 4503599627370496 (-84) (by norm_num) (by norm_num)
      (by norm_num [abs_of_neg]) (by norm_num [abs_of_neg]) (by norm_num [abs_of_neg])
      (by norm_num)]
  norm_num

theorem floatDiv_zero_eq_nan_iff (x : Int) : floatDiv x 0 = FloatValue.nan ↔ x = 0 := by
  unfold floatDiv
  by_cases h : x = 0
  · simp [h]
  · by_cases hp : 0 < x
    · simp [h, hp]
    · simp [h, hp]

theorem floatDiv_zero_of_ne_zero (x : Int) (h : x ≠ 0) :
    floatDiv x 0 = if 0 < x then FloatValue.posInf else FloatValue.negInf := by
  unfold floatDiv
  rw [if_pos rfl, if_neg h]

theorem wd_density_eval {α : Type} [DecidableEq α] (g : weightedDirected α) (m d : Int)
    (hm : g.Size = m) (hd : wrapInt (g.Order * wrapInt (g.Order - 1)) = d) :
    g.Density = floatDiv m d := by
  unfold weightedDirected.Density
  simp only
  rw [hm, hd]

theorem wu_density_eval {α : Type} [DecidableEq α] (g : weightedUndirected α) (m d : Int)
    (hm : 2 * g.Size = m) (hd : wrapInt (g.Order * wrapInt (g.Order - 1)) = d) :
    g.Density = floatDiv m d := by
  unfold weightedUndirected.Density
  simp only
  rw [hm, hd]

theorem al_density_eval {α : Type} [DecidableEq α] (g : AdjacencyList α) (m d : Nat)
    (hm : 2 * g.Size = m) (hd : uintMul g.Order (uintDec g.Order) = d) :
    g.Density = floatDiv m d := by
  unfold AdjacencyList.Density
  simp only
  rw [hd, ← hm]
  push_cast
  rfl

theorem wd_size_zero_of_order_le_one {α : Type} [DecidableEq α] (g : weightedDirected α)
    (hg : weightedDirected.Reachable g) (ho : g.Order = 0 ∨ g.Order = 1)
    (hl : ∀ v, g.HasEdge ⟨v, v⟩ = false) : g.Size = 0 := by
  have hc := hg.countInv
  have hnd := hg.wd_noDangling
  obtain ⟨⟨list, size⟩⟩ := g
  simp only [baseWeighted.Order, baseWeighted.Size, GoMap.len] at ho ⊢
  have hsz : size = wrapInt (GoMap.pairCount list) := hc.2
  simp only at hnd hl
  cases list with
  | nil =>
    rw [hsz]
    simp [GoMap.pairCount, wrapInt_zero]
  | cons p rest =>
    cases rest with
    | cons q rest2 =>
      simp only [List.length_cons] at ho
      omega
    | nil =>
      obtain ⟨k, adj⟩ := p
      cases adj with
      | nil =>
        rw [hsz]
        simp [GoMap.pairCount, GoMap.len, wrapInt_zero]
      | cons tw adj2 =>
        exfalso
        obtain ⟨t, w⟩ := tw
        have h1 : (GoMap.slot [(k, (t, w) :: adj2)] k t).isSome = true := by
          simp [GoMap.slot, GoMap.inner, GoMap.lookup]
        have h2 := hnd k t h1
        have hkt : k = t := by
          by_contra hne
          simp [GoMap.has, GoMap.lookup, hne] at h2
        subst hkt
        have h3 := hl k
        rw [weightedDirected.wd_HasEdge_eq] at h3
        rw [h1] at h3
        exact Bool.noConfusion h3

/-! ### Degrees -/

theorem visit_never_stop {X S : Type} (h : X → S → S) (xs : List X) (s : S) :
    visit (fun x s => (h x s, false)) xs s = (xs.foldl (fun s x => h x s) s, false) := by
  induction xs generalizing s with
  | nil => rfl
  | cons x xs ih => simp [visit, ih]

theorem foldl_counting {X C : Type} (inc : C → C) (P : X → Prop) [DecidablePred P]
    (xs : List X) (c : C) :
    xs.foldl (fun d x => if P x then inc d else d) c
      = inc^[(xs.filter (fun x => decide (P x))).length] c := by
  induction xs generalizing c with
  | nil => rfl
  | cons x xs ih =>
    rw [List.foldl_cons, ih]
    by_cases hx : P x
    · simp [hx, List.filter_cons, Function.iterate_succ_apply]
    · simp [hx, List.filter_cons]

theorem iterate_uintInc (n : Nat) (d : Nat) :
    uintInc^[n] d = if n = 0 then d else (d + n) % 18446744073709551616 := by
  induction n generalizing d with
  | zero => simp
  | succ n ih =>
    rw [Function.iterate_succ_apply, ih]
    unfold uintInc
    by_cases hn : n = 0
    · subst hn
      simp
    · simp only [hn, if_false, Nat.succ_ne_zero]
      omega

theorem iterate_uintInc_zero (n : Nat) (h : n < 18446744073709551616) : uintInc^[n] 0 = n := by
  rw [iterate_uintInc]
  by_cases hn : n = 0
  · simp [hn]
  · simp only [hn, if_false]
    omega

theorem iterate_inc_wrapInt (n : Nat) (c : Int) :
    (fun d => wrapInt (d + 1))^[n] (wrapInt c) = wrapInt (c + n) := by
  induction n generalizing c with
  | zero => simp
  | succ n ih =>
    rw [Function.iterate_succ_apply, wrapInt_add_wrapInt, ih]
    congr 1
    push_cast
    ring

namespace GoMap

variable {K T T2 : Type} [DecidableEq K]

theorem filter_source_pairs (a v : K) (l : List K) :
    ((l.map (fun t => (a, t))).filter (fun p => decide (p.1 = v))).length
      = if a = v then l.length else 0 := by
  induction l with
  | nil => simp
  | cons t l ih =>
    by_cases h : a = v
    · simp only [h, if_true] at ih
      simp [List.filter_cons, h, ih]
    · simp only [h, if_false] at ih
      simp [List.filter_cons, h, ih]

theorem filter_target_pairs (a v : K) (l : List K) :
    ((l.map (fun t => (a, t))).filter (fun p => decide (p.2 = v))).length
      = (l.filter (fun t => decide (t = v))).length := by
  induction l with
  | nil => simp
  | cons t l ih =>
    by_cases h : t = v
    · simp [List.filter_cons, h, ih]
    · simp [List.filter_cons, h, ih]

theorem filter_source_storedPairs (m : GoMap K (GoMap K T2)) (hm : WF m) (v : K) :
    ((storedPairs m).filter (fun p => decide (p.1 = v))).length = len (inner m v) := by
  induction m with
  | nil => simp [storedPairs, inner, lookup, len]
  | cons p m ih =>
    obtain ⟨a, c⟩ := p
    obtain ⟨hn, hm'⟩ := WF_tail a c m hm
    rw [storedPairs_cons, List.filter_append, List.length_append, filter_source_pairs]
    by_cases h : a = v
    · subst h
      have h0 : (storedPairs m).filter (fun p => decide (p.1 = a)) = [] := by
        rw [List.filter_eq_nil_iff]
        intro q hq
        obtain ⟨x, y⟩ := q
        have hx := fst_mem_keys_of_mem_storedPairs m x y hq
        have : x ≠ a := by
          intro hxa
          subst hxa
          exact (lookup_eq_none_iff m x).1 hn hx
        simp [this]
      simp [h0, inner, lookup, len, keys]
    · have := ih hm'
      simp only [h, if_false, inner, lookup] at this ⊢
      omega

theorem filter_eq_length_le_one (l : List K) (hl : l.Nodup) (v : K) :
    (l.filter (fun t => decide (t = v))).length ≤ 1 := by
  induction l with
  | nil => simp
  | cons t l ih =>
    rw [List.nodup_cons] at hl
    by_cases h : t = v
    · subst h
      have h0 : l.filter (fun x => decide (x = t)) = [] := by
        rw [List.filter_eq_nil_iff]
        intro x hx
        have : x ≠ t := fun hxt => hl.1 (hxt ▸ hx)
        simp [this]
      simp [List.filter_cons, h0]
    · have := ih hl.2
      simp [List.filter_cons, h, this]

theorem filter_target_storedPairs_le (m : GoMap K (GoMap K T2)) (hm : InnerWF m) (v : K) :
    ((storedPairs m).filter (fun p => decide (p.2 = v))).length ≤ len m := by
  induction m with
  | nil => simp [storedPairs, len]
  | cons p m ih =>
    obtain ⟨a, c⟩ := p
    have hc : WF c := hm (a, c) (List.mem_cons_self _ _)
    have h1 := ih (fun q hq => hm q (List.mem_cons_of_mem _ hq))
    have h2 := filter_eq_length_le_one (keys c) hc v
    rw [storedPairs_cons, List.filter_append, List.length_append, filter_target_pairs]
    simp only [len, List.length_cons] at h1 ⊢
    omega

theorem length_filter_le_pairCount (m : GoMap K (GoMap K T2)) (P : K × K → Bool) :
    ((storedPairs m).filter P).length ≤ pairCount m := by
  rw [← length_storedPairs]
  exact List.length_filter_le _ _

end GoMap

namespace AdjacencyList

variable {α : Type} [DecidableEq α]

theorem EachAdjacent_of_lookup (g : AdjacencyList α) (e : α) (adj : VertexSet α)
    (h : GoMap.lookup g.list e = some adj) : g.EachAdjacent e = GoMap.keys adj := by
  unfold EachAdjacent
  simp [GoMap.has, GoMap.inner, h]

theorem inDegree_fold (g : AdjacencyList α) (vertex : α) (ps : GoMap α (VertexSet α))
    (hps : ∀ p ∈ ps, GoMap.lookup g.list p.1 = some p.2) (d : Nat) :
    (GoMap.keys ps).foldl
      (fun degree e =>
        (g.EachAdjacent e).foldl (fun d v => if v = vertex then uintInc d else d) degree) d
      = uintInc^[((GoMap.storedPairs ps).filter (fun p => decide (p.2 = vertex))).length] d := by
  induction ps generalizing d with
  | nil => rfl
  | cons p ps ih =>
    obtain ⟨a, c⟩ := p
    have ha := EachAdjacent_of_lookup g a c (hps (a, c) (List.mem_cons_self _ _))
    have hrest := ih (fun q hq => hps q (List.mem_cons_of_mem _ hq))
    simp only [GoMap.keys, List.map_cons, List.foldl_cons] at hrest ⊢
    rw [ha, hrest, foldl_counting uintInc (fun v => v = vertex), GoMap.storedPairs_cons,
      List.filter_append, List.length_append, GoMap.filter_target_pairs,
      ← Function.iterate_add_apply, Nat.add_comm]

theorem InDegree_eq (g : AdjacencyList α) (vertex : α) (hw : GoMap.WFall g.list)
    (hb : g.Order < 18446744073709551616) (hv : g.hasVertex vertex = true) :
    g.InDegree vertex =
      (((GoMap.storedPairs g.list).filter (fun p => decide (p.2 = vertex))).length, true) := by
  have hle := GoMap.filter_target_storedPairs_le g.list hw.2 vertex
  unfold InDegree
  rw [if_pos hv, inDegree_fold g vertex g.list
    (fun p hp => GoMap.lookup_of_mem g.list hw.1 p.1 p.2 hp)]
  rw [iterate_uintInc_zero]
  simp only [Order] at hb
  omega

theorem OutDegree_eq (g : AdjacencyList α) (vertex : α) (hw : GoMap.WFall g.list)
    (hv : g.hasVertex vertex = true) :
    g.OutDegree vertex =
      (((GoMap.storedPairs g.list).filter (fun p => decide (p.1 = vertex))).length, true) := by
  unfold OutDegree
  rw [if_pos hv, GoMap.filter_source_storedPairs g.list hw.1]

end AdjacencyList

namespace weightedDirected

variable {α : Type} [DecidableEq α]

theorem storedPairs_eq_map_edgeSeq (g : weightedDirected α) :
    GoMap.storedPairs g.list = g.edgeSeq.map (fun e => (e.U, e.V)) := by
  unfold GoMap.storedPairs edgeSeq
  rw [List.map_flatMap]
  congr 1
  funext p
  simp [GoMap.keys, List.map_map, Function.comp_def]

theorem InDegreeOf_eq (g : weightedDirected α) (vertex : α) (hv : g.hasVertex vertex = true) :
    g.InDegreeOf vertex =
      (wrapInt ((((GoMap.storedPairs g.list).filter
        (fun p => decide (p.2 = vertex))).length : Nat) : Int), true) := by
  unfold InDegreeOf EachEdge
  rw [if_pos hv, visit_never_stop (fun (e : BaseWeightedEdge α) (degree : Int) =>
    if vertex = e.Target then wrapInt (degree + 1) else degree)]
  simp only
  rw [foldl_counting (fun d => wrapInt (d + 1)) (fun e : BaseWeightedEdge α => vertex = e.Target)]
  have h0 : (0 : Int) = wrapInt 0 := wrapInt_zero.symm
  rw [h0, iterate_inc_wrapInt, storedPairs_eq_map_edgeSeq, List.filter_map, List.length_map]
  simp only [zero_add, BaseEdge.Target, Function.comp_def, eq_comm]

theorem OutDegreeOf_eq (g : weightedDirected α) (vertex : α) (hw : GoMap.WFall g.list)
    (hv : g.hasVertex vertex = true) :
    g.OutDegreeOf vertex =
      (((((GoMap.storedPairs g.list).filter
        (fun p => decide (p.1 = vertex))).length : Nat) : Int), true) := by
  unfold OutDegreeOf
  rw [if_pos hv, GoMap.filter_source_storedPairs g.list hw.1]

end weightedDirected

theorem manyVertices_order : manyVertices.Order = 4294967297 := by
  unfold manyVertices AdjacencyList.Order GoMap.len
  rw [List.length_cons, List.length_map, List.length_range']

theorem manyVertices_size : manyVertices.Size = 1 := by
  unfold manyVertices AdjacencyList.Size
  rfl

theorem uintMul_large : uintMul 4294967297 (uintDec 4294967297) = 4294967296 := by
  unfold uintMul uintDec
  norm_num

theorem manyVertices_density : manyVertices.Density = FloatValue.finite (2 / 4294967296) := by
  rw [al_density_eval manyVertices 2 4294967296 (by rw [manyVertices_size])
    (by rw [manyVertices_order]; exact uintMul_large)]
  exact floatDiv_two_pow

theorem manyVerticesWeighted_order : manyVerticesWeighted.Order = 4294967296 := by
  unfold manyVerticesWeighted baseWeighted.Order GoMap.len
  rw [List.length_cons, List.length_map, List.length_range']
  rfl

theorem manyVerticesWeighted_size : manyVerticesWeighted.Size = 1 := by
  unfold manyVerticesWeighted baseWeighted.Size
  rfl

theorem wrapInt_large : wrapInt (4294967296 * wrapInt (4294967296 - 1)) = -4294967296 := by
  unfold wrapInt
  omega

theorem manyVerticesWeighted_density :
    manyVerticesWeighted.Density = FloatValue.finite (-1 / 4294967296) := by
  rw [wd_density_eval manyVerticesWeighted 1 (-4294967296) manyVerticesWeighted_size
    (by rw [manyVerticesWeighted_order]; exact wrapInt_large)]
  exact floatDiv_one_neg_pow

/-! ### Return values, removal of edges and out-degrees -/

namespace GoMap

variable {K T T2 : Type} [DecidableEq K]

theorem len_update (m : GoMap K T) (k : K) (f : T → T) : len (update m k f) = len m := by
  have h := congrArg List.length (keys_update m k f)
  simpa [keys, len] using h

theorem update_of_absent (m : GoMap K T) (k : K) (f : T → T) (h : lookup m k = none) :
    update m k f = m := by
  induction m with
  | nil => rfl
  | cons p m ih =>
    obtain ⟨a, c⟩ := p
    by_cases hk : a = k
    · simp [lookup, hk] at h
    · simp only [lookup, hk, if_false] at h
      simp [update, hk, ih h]

theorem len_delete_eq (m : GoMap K T) (k : K) (hm : WF m) :
    len (delete m k) = if has m k = true then len m - 1 else len m := by
  by_cases h : has m k = true
  · have := len_delete_of_present m k hm h
    rw [if_pos h]
    omega
  · rw [if_neg h, delete_of_absent m k ((has_eq_false_iff m k).1 (by simpa using h))]

theorem inner_mapDelete_delete (m : GoMap K (GoMap K T2)) (v u : K) (h : u ≠ v) :
    inner ((delete m v).map (fun p => (p.1, delete p.2 v))) u = delete (inner m u) v := by
  unfold inner
  rw [lookup_mapValues (delete m v) (fun adj => delete adj v) u, lookup_delete,
    if_neg (fun e => h e.symm)]
  cases lookup m u with
  | none => simp [delete]
  | some adj => simp

end GoMap

namespace AdjacencyList

variable {α : Type} [DecidableEq α]

theorem addVertex_result (g : AdjacencyList α) (v : α) :
    (g.addVertex v).2 = !g.hasVertex v := by
  unfold addVertex
  by_cases h : g.hasVertex v = true
  · simp [h]
  · simp [h]

theorem addEdge_result (g : AdjacencyList α) (e : BaseEdge α) :
    (g.addEdge e).2 = !(GoMap.slot g.list e.U e.V).isSome ∧
      (g.addEdge e).1.size =
        if (GoMap.slot g.list e.U e.V).isSome = true then g.size else uintInc g.size := by
  have hs : GoMap.slot ((g.addVertex e.U).1.addVertex e.V).1.list e.U e.V
      = GoMap.slot g.list e.U e.V := by
    rw [slot_addVertex, slot_addVertex]
  have hz : ((g.addVertex e.U).1.addVertex e.V).1.size = g.size := by
    rw [size_addVertex, size_addVertex]
  unfold addEdge
  simp only [BaseEdge.Source, BaseEdge.Target]
  rw [GoMap.has_inner, hs]
  by_cases hex : (GoMap.slot g.list e.U e.V).isSome = true
  · simp [hex, hz]
  · simp [hex, hz]

theorem RemoveEdge_of_absent (g : AdjacencyList α) (e : BaseEdge α)
    (h : (GoMap.slot g.list e.U e.V).isSome = false) : g.RemoveEdge e = g := by
  unfold RemoveEdge
  simp only [BaseEdge.Both, GoMap.has_inner, h, Bool.false_eq_true, if_false]

theorem size_RemoveEdge (g : AdjacencyList α) (e : BaseEdge α)
    (h : (GoMap.slot g.list e.U e.V).isSome = true) :
    (g.RemoveEdge e).size = uintDec g.size := by
  unfold RemoveEdge
  simp only [BaseEdge.Both, GoMap.has_inner, h, if_true]

theorem order_RemoveEdge (g : AdjacencyList α) (e : BaseEdge α) :
    (g.RemoveEdge e).Order = g.Order := by
  unfold RemoveEdge Order
  dsimp only
  split
  · exact GoMap.len_update _ _ _
  · rfl

theorem OutDegree_RemoveVertex (g : AdjacencyList α) (u v : α) (hw : GoMap.WFall g.list)
    (huv : u ≠ v) (hu : g.hasVertex u = true) (hv : g.hasVertex v = true) :
    (g.RemoveVertex v).1.OutDegree u =
      (if (GoMap.slot g.list u v).isSome = true then (g.OutDegree u).1 - 1
        else (g.OutDegree u).1, true) := by
  have hu' : (g.RemoveVertex v).1.hasVertex u = true := by
    rw [hasVertex_RemoveVertex]
    simp [hu, Ne.symm huv]
  have hin : GoMap.inner (g.RemoveVertex v).1.list u = GoMap.delete (GoMap.inner g.list u) v := by
    unfold RemoveVertex
    simp only [hv, if_true, GoMap.removeArcsTo_fst]
    exact GoMap.inner_mapDelete_delete g.list v u huv
  have hwf : GoMap.WF (GoMap.inner g.list u) := by
    obtain ⟨adj, hadj⟩ := Option.isSome_iff_exists.1 hu
    have : GoMap.inner g.list u = adj := by simp [GoMap.inner, hadj]
    rw [this]
    exact hw.2 (u, adj) (GoMap.mem_of_lookup g.list u adj hadj)
  unfold OutDegree
  rw [if_pos hu', if_pos hu, hin, GoMap.len_delete_eq _ _ hwf]
  rfl

/-- The out-degree of `u` before `RemoveVertex(v)` against the one after it, without
subtraction: one more if the arc u→v was stored, the same if not. -/
theorem OutDegree_RemoveVertex_succ (g : AdjacencyList α) (u v : α)
    (hw : GoMap.WFall g.list) (huv : u ≠ v) (hu : g.hasVertex u = true)
    (hv : g.hasVertex v = true) :
    ((g.RemoveVertex v).1.OutDegree u).2 = true ∧ (g.OutDegree u).2 = true ∧
      ((GoMap.slot g.list u v).isSome = true →
        ((g.RemoveVertex v).1.OutDegree u).1 + 1 = (g.OutDegree u).1) ∧
      ((GoMap.slot g.list u v).isSome = false →
        ((g.RemoveVertex v).1.OutDegree u).1 = (g.OutDegree u).1) := by
  have hu' : (g.RemoveVertex v).1.hasVertex u = true := by
    rw [hasVertex_RemoveVertex]
    simp [hu, Ne.symm huv]
  have hin : GoMap.inner (g.RemoveVertex v).1.list u = GoMap.delete (GoMap.inner g.list u) v := by
    unfold RemoveVertex
    simp only [hv, if_true, GoMap.removeArcsTo_fst]
    exact GoMap.inner_mapDelete_delete g.list v u huv
  have hwf : GoMap.WF (GoMap.inner g.list u) := by
    obtain ⟨adj, hadj⟩ := Option.isSome_iff_exists.1 hu
    have : GoMap.inner g.list u = adj := by simp [GoMap.inner, hadj]
    rw [this]
    exact hw.2 (u, adj) (GoMap.mem_of_lookup g.list u adj hadj)
  unfold OutDegree
  rw [if_pos hu', if_pos hu, hin]
  refine ⟨rfl, rfl, ?_, ?_⟩
  · intro h
    exact GoMap.len_delete_of_present (GoMap.inner g.list u) v hwf h
  · intro h
    show GoMap.len (GoMap.delete (GoMap.inner g.list u) v) = GoMap.len (GoMap.inner g.list u)
    rw [GoMap.delete_of_absent _ v ((GoMap.has_eq_false_iff _ _).1 h)]

end AdjacencyList

namespace weightedDirected

variable {α : Type} [DecidableEq α]

theorem wd_removeEdgesStep_of_absent (g : weightedDirected α) (e : BaseWeightedEdge α)
    (h : (GoMap.slot g.list e.U e.V).isSome = false) : g.removeEdgesStep e = g := by
  unfold removeEdgesStep
  simp only [BaseEdge.Both, GoMap.has_inner, h, Bool.false_eq_true, if_false]

theorem wd_size_removeEdgesStep (g : weightedDirected α) (e : BaseWeightedEdge α)
    (h : (GoMap.slot g.list e.U e.V).isSome = true) :
    (g.removeEdgesStep e).size = wrapInt (g.size - 1) := by
  unfold removeEdgesStep
  simp only [BaseEdge.Both, GoMap.has_inner, h, if_true]

theorem wd_order_removeEdgesStep (g : weightedDirected α) (e : BaseWeightedEdge α) :
    (g.removeEdgesStep e).Order = g.Order := by
  unfold removeEdgesStep baseWeighted.Order
  dsimp only
  split
  · rw [GoMap.len_update]
  · rfl

theorem OutDegreeOf_removeVertexStep (g : weightedDirected α) (u v : α)
    (hw : GoMap.WFall g.list) (huv : u ≠ v) (hu : g.hasVertex u = true)
    (hv : g.hasVertex v = true) :
    (g.removeVertexStep v).OutDegreeOf u =
      (if (GoMap.slot g.list u v).isSome = true then (g.OutDegreeOf u).1 - 1
        else (g.OutDegreeOf u).1, true) := by
  have hu' : (g.removeVertexStep v).hasVertex u = true := by
    rw [wd_hasVertex_removeVertexStep]
    simp [hu, Ne.symm huv]
  have hin : GoMap.inner (g.removeVertexStep v).list u
      = GoMap.delete (GoMap.inner g.list u) v := by
    unfold removeVertexStep
    simp only [hv, if_true, GoMap.removeArcsTo_fst]
    exact GoMap.inner_mapDelete_delete g.list v u huv
  have hwf : GoMap.WF (GoMap.inner g.list u) := by
    obtain ⟨adj, hadj⟩ := Option.isSome_iff_exists.1 hu
    have : GoMap.inner g.list u = adj := by simp [GoMap.inner, hadj]
    rw [this]
    exact hw.2 (u, adj) (GoMap.mem_of_lookup g.list u adj hadj)
  have hpos : (GoMap.slot g.list u v).isSome = true → 1 ≤ GoMap.len (GoMap.inner g.list u) := by
    intro h
    have := GoMap.len_delete_of_present (GoMap.inner g.list u) v hwf h
    omega
  unfold OutDegreeOf
  rw [if_pos hu', if_pos hu, hin, GoMap.len_delete_eq _ _ hwf]
  by_cases h : (GoMap.slot g.list u v).isSome = true
  · have h' : GoMap.has (GoMap.inner g.list u) v = true := h
    have := hpos h
    simp only [h, h', if_true]
    congr 1
    omega
  · have h' : ¬GoMap.has (GoMap.inner g.list u) v = true := h
    simp [h, h']

end weightedDirected

namespace weightedUndirected

variable {α : Type} [DecidableEq α]

theorem wu_removeEdgesStep_of_absent (g : weightedUndirected α) (e : BaseWeightedEdge α)
    (h : (GoMap.slot g.list e.U e.V).isSome = false) : g.removeEdgesStep e = g := by
  unfold removeEdgesStep
  simp only [BaseEdge.Both, GoMap.has_inner, h, Bool.false_eq_true, if_false]

theorem wu_size_removeEdgesStep (g : weightedUndirected α) (e : BaseWeightedEdge α)
    (h : (GoMap.slot g.list e.U e.V).isSome = true) :
    (g.removeEdgesStep e).size = wrapInt (g.size - 1) := by
  unfold removeEdgesStep
  simp only [BaseEdge.Both, GoMap.has_inner, h, if_true]

theorem wu_order_removeEdgesStep (g : weightedUndirected α) (e : BaseWeightedEdge α) :
    (g.removeEdgesStep e).Order = g.Order := by
  unfold removeEdgesStep baseWeighted.Order
  dsimp only
  split
  · rw [GoMap.len_update, GoMap.len_update]
  · rfl

end weightedUndirected

theorem uintDec_of_pos (n : Nat) (h0 : 0 < n) (h : n < 18446744073709551616) :
    uintDec n = n - 1 := by
  unfold uintDec
  omega

theorem uintInc_of_lt (n : Nat) (h : n < 18446744073709551615) : uintInc n = n + 1 := by
  unfold uintInc
  omega

theorem wrapInt_pred (x : Int) (h0 : -9223372036854775808 < x) (h : x < 9223372036854775808) :
    wrapInt (x - 1) = x - 1 := by
  unfold wrapInt
  omega

/-! ### Enumerations -/

theorem foldl_collect {X : Type} (xs init : List X) :
    xs.foldl (fun acc x => acc ++ [x]) init = init ++ xs := by
  induction xs generalizing init with
  | nil => simp
  | cons x xs ih => simp [ih]

theorem GoMap.mem_weightedSlots_iff {α : Type} [DecidableEq α] (m : GoMap α (GoMap α Int))
    (hm : GoMap.WFall m) (u v : α) (w : Int) :
    (⟨⟨u, v⟩, w⟩ : BaseWeightedEdge α) ∈
        m.flatMap (fun p => p.2.map (fun q => (⟨⟨p.1, q.1⟩, q.2⟩ : BaseWeightedEdge α)))
      ↔ GoMap.slot m u v = some w := by
  constructor
  · intro h
    rw [List.mem_flatMap] at h
    obtain ⟨p, hp, hq⟩ := h
    rw [List.mem_map] at hq
    obtain ⟨q, hq, he⟩ := hq
    obtain ⟨a, adj⟩ := p
    obtain ⟨b, c⟩ := q
    simp only [BaseWeightedEdge.mk.injEq, BaseEdge.mk.injEq] at he
    obtain ⟨⟨rfl, rfl⟩, rfl⟩ := he
    have h1 := GoMap.lookup_of_mem m hm.1 a adj hp
    have h2 := GoMap.lookup_of_mem adj (hm.2 (a, adj) hp) b c hq
    unfold GoMap.slot GoMap.inner
    rw [h1]
    exact h2
  · intro h
    have hh : GoMap.has (GoMap.inner m u) v = true := by
      unfold GoMap.has
      unfold GoMap.slot at h
      rw [h]
      rfl
    have h1 := GoMap.mem_of_lookup m u _ (GoMap.lookup_of_has_inner m u v hh)
    have h2 := GoMap.mem_of_lookup (GoMap.inner m u) v w h
    rw [List.mem_flatMap]
    exact ⟨(u, GoMap.inner m u), h1, List.mem_map.mpr ⟨(v, w), h2, rfl⟩⟩

theorem GoMap.nodup_weightedSlots {α : Type} [DecidableEq α] (m : GoMap α (GoMap α Int))
    (hm : GoMap.WFall m) :
    (m.flatMap (fun p => p.2.map
      (fun q => (⟨⟨p.1, q.1⟩, q.2⟩ : BaseWeightedEdge α)))).Nodup := by
  have h := GoMap.nodup_storedPairs m hm
  have he : GoMap.storedPairs m =
      (m.flatMap (fun p => p.2.map
        (fun q => (⟨⟨p.1, q.1⟩, q.2⟩ : BaseWeightedEdge α)))).map (fun e => (e.U, e.V)) := by
    unfold GoMap.storedPairs
    rw [List.map_flatMap]
    congr 1
    funext p
    simp [GoMap.keys, List.map_map, Function.comp_def]
  rw [he] at h
  exact List.Nodup.of_map _ h

theorem GoMap.length_weightedSlots {α : Type} [DecidableEq α] (m : GoMap α (GoMap α Int)) :
    (m.flatMap (fun p => p.2.map
      (fun q => (⟨⟨p.1, q.1⟩, q.2⟩ : BaseWeightedEdge α)))).length = GoMap.pairCount m := by
  induction m with
  | nil => rfl
  | cons p m ih =>
    obtain ⟨a, c⟩ := p
    rw [List.flatMap_cons, List.length_append, ih, GoMap.pairCount_cons]
    simp [GoMap.len]

theorem AdjacencyList.edgeCalls_eq {α : Type} [DecidableEq α] (g : AdjacencyList α) :
    g.EachEdge (fun e acc => acc ++ [e]) []
      = (GoMap.storedPairs g.list).map (fun p => (⟨p.1, p.2⟩ : BaseEdge α)) := by
  unfold AdjacencyList.EachEdge
  rw [foldl_collect, List.nil_append]
  unfold GoMap.storedPairs
  rw [List.map_flatMap]
  congr 1
  funext p
  simp [List.map_map, Function.comp_def]


theorem visit_append {X S : Type} (f : X → S → S × Bool) (xs ys : List X) (s : S) :
    visit f (xs ++ ys) s
      = if (visit f xs s).2 = true then visit f xs s else visit f ys (visit f xs s).1 := by
  induction xs generalizing s with
  | nil => simp [visit]
  | cons x xs ih =>
    by_cases h : (f x s).2 = true
    · simp [visit, h]
    · simp [visit, h, ih]

theorem visit_map {X Y S : Type} (f : Y → S → S × Bool) (sel : X → Y) (xs : List X) (s : S) :
    visit (fun x => f (sel x)) xs s = visit f (xs.map sel) s := by
  induction xs generalizing s with
  | nil => rfl
  | cons x xs ih =>
    by_cases h : (f (sel x) s).2 = true
    · simp [visit, h]
    · simp [visit, h, ih]

theorem noCallAfterStop_of_all_false {X : Type} (log : List (X × Bool))
    (h : ∀ c ∈ log, c.2 = false) : NoCallAfterStop log := by
  intro pre c post he hc
  have hm : c ∈ log := by
    rw [he]
    simp
  rw [h c hm] at hc
  cases hc

theorem noCallAfterStop_concat {X : Type} (log : List (X × Bool)) (d : X × Bool)
    (h : ∀ c ∈ log, c.2 = false) : NoCallAfterStop (log ++ [d]) := by
  intro pre c post he hc
  rcases List.eq_nil_or_concat post with hp | ⟨post2, z, hp⟩
  · exact hp
  · exfalso
    rw [hp, List.concat_eq_append, ← List.cons_append, ← List.append_assoc] at he
    have h1 := List.append_inj_left' he rfl
    have hm : c ∈ log := by
      rw [h1]
      simp
    rw [h c hm] at hc
    cases hc

/-- The log of a loop run with a logged visitor, from a log without a stop request: a stop
request is its last entry, and there is none if the loop was not stopped. -/
theorem visit_logged {X S : Type} (f : X → S → S × Bool) (xs : List X) (s : S)
    (log0 : List (X × Bool)) (h0 : ∀ c ∈ log0, c.2 = false) :
    NoCallAfterStop (visit (logged f) xs (s, log0)).1.2 ∧
      ((visit (logged f) xs (s, log0)).2 = false →
        ∀ c ∈ (visit (logged f) xs (s, log0)).1.2, c.2 = false) := by
  induction xs generalizing s log0 with
  | nil => exact ⟨noCallAfterStop_of_all_false log0 h0, fun _ => h0⟩
  | cons x xs ih =>
    by_cases h : (f x s).2 = true
    · have hv : visit (logged f) (x :: xs) (s, log0)
          = (((f x s).1, log0 ++ [(x, (f x s).2)]), true) := by
        simp [visit, logged, h]
      rw [hv]
      exact ⟨noCallAfterStop_concat log0 _ h0, fun hc => by cases hc⟩
    · have hv : visit (logged f) (x :: xs) (s, log0)
          = visit (logged f) xs ((f x s).1, log0 ++ [(x, (f x s).2)]) := by
        simp [visit, logged, h]
      rw [hv]
      refine ih (f x s).1 (log0 ++ [(x, (f x s).2)]) ?_
      intro c hc
      rw [List.mem_append] at hc
      rcases hc with hc | hc
      · exact h0 c hc
      · rw [List.mem_singleton] at hc
        rw [hc]
        simpa using h

theorem visit_logged_nil {X S : Type} (f : X → S → S × Bool) (xs : List X) (s : S) :
    NoCallAfterStop (visit (logged f) xs (s, [])).1.2 ∧
      ((∃ c ∈ (visit (logged f) xs (s, [])).1.2, c.2 = true) →
        (visit (logged f) xs (s, [])).2 = true) := by
  have h := visit_logged f xs s [] (by simp)
  refine ⟨h.1, ?_⟩
  rintro ⟨c, hc, hct⟩
  cases hb : (visit (logged f) xs (s, [])).2
  · rw [h.2 hb c hc] at hct
    cases hct
  · rfl

namespace weightedDirected

variable {α : Type} [DecidableEq α]

theorem visit_interloper_true {S : Type} (f : BaseWeightedEdge α → S → S × Bool)
    (xs : List (BaseWeightedEdge α)) (s : S) :
    (visit (interloper f) xs (true, s)).1 = (true, s) := by
  cases xs with
  | nil => rfl
  | cons x xs => simp [visit, interloper]

theorem visit_interloper_false {S : Type} (f : BaseWeightedEdge α → S → S × Bool)
    (xs : List (BaseWeightedEdge α)) (s : S) :
    visit (interloper f) xs (false, s)
      = (((visit f xs s).2, (visit f xs s).1), (visit f xs s).2) := by
  induction xs generalizing s with
  | nil => rfl
  | cons x xs ih =>
    by_cases h : (f x s).2 = true
    · simp [visit, interloper, h]
    · have h2 : (f x s).2 = false := by simpa using h
      simp [visit, interloper, h2, ih]

/-- The out-arcs of `v`, then the arcs into `v`, in the order of `EachArcFrom` and
`EachArcTo`. -/
theorem EachEdgeIncidentTo_eq {S : Type} (g : weightedDirected α) (v : α)
    (f : BaseWeightedEdge α → S → S × Bool) (s : S) :
    g.EachEdgeIncidentTo v f s =
      if g.hasVertex v = true then
        (visit f
          ((GoMap.inner g.list v).map (fun q => (⟨⟨v, q.1⟩, q.2⟩ : BaseWeightedEdge α)) ++
            g.list.flatMap (fun p => (p.2.filter (fun q => decide (q.1 = v))).map
              (fun q => (⟨⟨p.1, q.1⟩, q.2⟩ : BaseWeightedEdge α)))) s).1
      else s := by
  unfold EachEdgeIncidentTo EachArcFrom EachArcTo
  by_cases hv : g.hasVertex v = true
  · simp only [hv, Bool.not_true, Bool.false_eq_true, if_false, if_true]
    rw [visit_interloper_false, visit_append]
    cases hb : (visit f ((GoMap.inner g.list v).map
        (fun q => (⟨⟨v, q.1⟩, q.2⟩ : BaseWeightedEdge α))) s).2
    · simp only [Bool.false_eq_true, if_false]
      rw [visit_interloper_false]
    · simp only [if_true]
      rw [visit_interloper_true]
  · have hv2 : g.hasVertex v = false := by simpa using hv
    simp [hv2]

theorem EachAdjacent_eq {S : Type} (g : weightedDirected α) (start : α)
    (f : α → S → S × Bool) (s : S) :
    g.EachAdjacent start f s =
      if g.hasVertex start = true then
        (visit f
          (((GoMap.inner g.list start).map
              (fun q => (⟨⟨start, q.1⟩, q.2⟩ : BaseWeightedEdge α)) ++
            g.list.flatMap (fun p => (p.2.filter (fun q => decide (q.1 = start))).map
              (fun q => (⟨⟨p.1, q.1⟩, q.2⟩ : BaseWeightedEdge α)))).map
            (fun e => if e.Both.1 = start then e.Both.2 else e.Both.1)) s).1
      else s := by
  unfold EachAdjacent
  have ha : (fun e : BaseWeightedEdge α =>
      if e.Both.1 = start then f e.Both.2 else f e.Both.1)
      = fun e => f (if e.Both.1 = start then e.Both.2 else e.Both.1) := by
    funext e
    split <;> rfl
  rw [ha, EachEdgeIncidentTo_eq, visit_map]

end weightedDirected

namespace weightedUndirected

variable {α : Type} [DecidableEq α]

/-- The loops of `EachEdge` pass to the visitor the slots of `emitted`, up to a stop request. -/
theorem visit_dedup {S : Type} (f : BaseWeightedEdge α → S → S × Bool)
    (xs : List (BaseWeightedEdge α)) (visited : List (BaseEdge α)) (s : S) :
    (visit (dedup f) xs (visited, s)).1.2 = (visit f (emitted xs visited) s).1 := by
  induction xs generalizing visited s with
  | nil => rfl
  | cons e xs ih =>
    by_cases hm : (⟨e.V, e.U⟩ : BaseEdge α) ∈ visited
    · simp only [visit, dedup, emitted, hm, if_true, Bool.false_eq_true, if_false]
      exact ih visited s
    · by_cases h : (f e s).2 = true
      · simp [visit, dedup, emitted, hm, h]
      · simp only [visit, dedup, emitted, hm, h, if_false]
        exact ih _ _

theorem EachEdge_eq {S : Type} (g : weightedUndirected α)
    (f : BaseWeightedEdge α → S → S × Bool) (s : S) :
    g.EachEdge f s = (visit f (emitted g.edgeSeq []) s).1 := by
  unfold EachEdge
  exact visit_dedup f g.edgeSeq [] s

theorem foldl_dedup {S : Type} (h : BaseWeightedEdge α → S → S)
    (xs : List (BaseWeightedEdge α)) (visited : List (BaseEdge α)) (s : S) :
    (xs.foldl
      (fun st e =>
        if (⟨e.V, e.U⟩ : BaseEdge α) ∈ st.1 then st else (st.1 ++ [e.toBaseEdge], h e st.2))
      (visited, s)).2 = (emitted xs visited).foldl (fun s e => h e s) s := by
  induction xs generalizing visited s with
  | nil => rfl
  | cons e xs ih =>
    by_cases hm : (⟨e.V, e.U⟩ : BaseEdge α) ∈ visited
    · simp only [List.foldl_cons, emitted, hm, if_true]
      exact ih visited s
    · simp only [List.foldl_cons, emitted, hm, if_false]
      exact ih _ _

theorem EachWeightedEdge_eq {S : Type} (g : weightedUndirected α)
    (h : BaseWeightedEdge α → S → S) (s : S) :
    g.EachWeightedEdge h s = (emitted g.edgeSeq []).foldl (fun s e => h e s) s := by
  unfold EachWeightedEdge
  exact foldl_dedup h g.edgeSeq [] s

end weightedUndirected


/-! ### The edges of the undirected store, one orientation each -/

theorem BaseWeightedEdge.reverse_eq_iff {α : Type} (e e2 : BaseWeightedEdge α) :
    (⟨e2.V, e2.U⟩ : BaseEdge α) = e.toBaseEdge ↔ e2.toBaseEdge = ⟨e.V, e.U⟩ := by
  obtain ⟨⟨u, v⟩, w⟩ := e
  obtain ⟨⟨u2, v2⟩, w2⟩ := e2
  simp only [BaseEdge.mk.injEq]
  exact and_comm

theorem BaseWeightedEdge.reverse_self_iff {α : Type} (e : BaseWeightedEdge α) :
    (⟨e.V, e.U⟩ : BaseEdge α) = e.toBaseEdge ↔ e.U = e.V := by
  obtain ⟨⟨u, v⟩, w⟩ := e
  simp only [BaseEdge.mk.injEq]
  constructor
  · intro h
    exact h.2
  · intro h
    exact ⟨h.symm, h⟩

namespace weightedUndirected

variable {α : Type} [DecidableEq α]

theorem emitted_sublist (edges : List (BaseWeightedEdge α)) (visited : List (BaseEdge α)) :
    (emitted edges visited).Sublist edges := by
  induction edges generalizing visited with
  | nil => exact List.Sublist.slnil
  | cons e edges ih =>
    by_cases hm : (⟨e.V, e.U⟩ : BaseEdge α) ∈ visited
    · simp only [emitted, hm, if_true]
      exact List.Sublist.cons e (ih visited)
    · simp only [emitted, hm, if_false]
      exact List.Sublist.cons₂ e (ih _)

theorem reverse_not_mem_of_mem_emitted (edges : List (BaseWeightedEdge α))
    (visited : List (BaseEdge α)) (e : BaseWeightedEdge α) (h : e ∈ emitted edges visited) :
    (⟨e.V, e.U⟩ : BaseEdge α) ∉ visited := by
  induction edges generalizing visited with
  | nil => simp [emitted] at h
  | cons e0 edges ih =>
    by_cases hm : (⟨e0.V, e0.U⟩ : BaseEdge α) ∈ visited
    · simp only [emitted, hm, if_true] at h
      exact ih visited h
    · simp only [emitted, hm, if_false, List.mem_cons] at h
      rcases h with h | h
      · rw [h]
        exact hm
      · intro hc
        exact ih _ h (List.mem_append_left _ hc)

/-- Of the two orientations of an edge at most one is passed to the visitor. -/
theorem emitted_exclusive (edges : List (BaseWeightedEdge α)) (visited : List (BaseEdge α))
    (e e2 : BaseWeightedEdge α) (h : e ∈ emitted edges visited)
    (h2 : e2 ∈ emitted edges visited) (hr : (⟨e2.V, e2.U⟩ : BaseEdge α) = e.toBaseEdge) :
    e = e2 := by
  induction edges generalizing visited with
  | nil => simp [emitted] at h
  | cons e0 edges ih =>
    by_cases hm : (⟨e0.V, e0.U⟩ : BaseEdge α) ∈ visited
    · simp only [emitted, hm, if_true] at h h2
      exact ih visited h h2
    · simp only [emitted, hm, if_false, List.mem_cons] at h h2
      rcases h with h | h <;> rcases h2 with h2 | h2
      · rw [h, h2]
      · exfalso
        apply reverse_not_mem_of_mem_emitted edges _ e2 h2
        rw [hr, h]
        simp
      · exfalso
        apply reverse_not_mem_of_mem_emitted edges _ e h
        have hr2 := (BaseWeightedEdge.reverse_eq_iff e e2).mp hr
        rw [← hr2, h2]
        simp
      · exact ih _ h h2

/-- Every slot is passed to the visitor, or its reverse was visited or is passed. -/
theorem emitted_covers (edges : List (BaseWeightedEdge α)) (visited : List (BaseEdge α))
    (e : BaseWeightedEdge α) (h : e ∈ edges) :
    e ∈ emitted edges visited ∨ (⟨e.V, e.U⟩ : BaseEdge α) ∈ visited ∨
      ∃ e2 ∈ emitted edges visited, e2.toBaseEdge = ⟨e.V, e.U⟩ := by
  induction edges generalizing visited with
  | nil => simp at h
  | cons e0 edges ih =>
    rw [List.mem_cons] at h
    by_cases hm : (⟨e0.V, e0.U⟩ : BaseEdge α) ∈ visited
    · simp only [emitted, hm, if_true]
      rcases h with h | h
      · rw [h]
        exact Or.inr (Or.inl hm)
      · exact ih visited h
    · simp only [emitted, hm, if_false, List.mem_cons]
      rcases h with h | h
      · exact Or.inl (Or.inl h)
      · rcases ih (visited ++ [e0.toBaseEdge]) h with h1 | h1 | ⟨e2, h1, h2⟩
        · exact Or.inl (Or.inr h1)
        · rw [List.mem_append, List.mem_singleton] at h1
          rcases h1 with h1 | h1
          · exact Or.inr (Or.inl h1)
          · exact Or.inr (Or.inr ⟨e0, Or.inl rfl, h1.symm⟩)
        · exact Or.inr (Or.inr ⟨e2, Or.inr h1, h2⟩)

end weightedUndirected


theorem countP_or_of_disjoint {X : Type} (p q : X → Bool) (l : List X)
    (h : ∀ x ∈ l, ¬(p x = true ∧ q x = true)) :
    l.countP (fun x => p x || q x) = l.countP p + l.countP q := by
  induction l with
  | nil => rfl
  | cons x l ih =>
    have hx := h x (List.mem_cons_self _ _)
    have ih2 := ih (fun y hy => h y (List.mem_cons_of_mem _ hy))
    simp only [List.countP_cons, ih2]
    cases hp : p x <;> cases hq : q x <;> simp [hp, hq] at hx ⊢ <;> omega

theorem countP_key_eq_one {X Y : Type} [DecidableEq Y] (key : X → Y) (l : List X) (k : Y)
    (hn : (l.map key).Nodup) (hk : k ∈ l.map key) :
    l.countP (fun x => decide (key x = k)) = 1 := by
  induction l with
  | nil => simp at hk
  | cons x l ih =>
    rw [List.map_cons, List.nodup_cons] at hn
    rw [List.map_cons, List.mem_cons] at hk
    by_cases hx : key x = k
    · have hz : l.countP (fun y => decide (key y = k)) = 0 := by
        rw [List.countP_eq_zero]
        intro y hy hc
        apply hn.1
        rw [hx, ← of_decide_eq_true hc]
        exact List.mem_map_of_mem _ hy
      simp [List.countP_cons, hx, hz]
    · rcases hk with hk | hk
      · exact absurd hk.symm hx
      · simp [List.countP_cons, hx, ih hn.2 hk]

namespace weightedUndirected

variable {α : Type} [DecidableEq α]

/-- Counting the slots passed to the visitor: among slots with distinct keys, none of them
visited and closed under reversal up to the visited ones, every slot that is not a self-loop
is passed or has its reverse passed or visited, not both. -/
theorem emitted_count (edges : List (BaseWeightedEdge α)) (visited : List (BaseEdge α))
    (h1 : (edges.map (fun e => e.toBaseEdge)).Nodup)
    (h2 : ∀ e ∈ edges, e.toBaseEdge ∉ visited)
    (h3 : ∀ e ∈ edges, (⟨e.V, e.U⟩ : BaseEdge α) ∈ visited ∨
      (⟨e.V, e.U⟩ : BaseEdge α) ∈ edges.map (fun e => e.toBaseEdge)) :
    2 * (emitted edges visited).length
        + edges.countP (fun e => decide ((⟨e.V, e.U⟩ : BaseEdge α) ∈ visited))
      = edges.length + edges.countP (fun e => decide (e.U = e.V)) := by
  induction edges generalizing visited with
  | nil => simp [emitted]
  | cons e0 edges ih =>
    rw [List.map_cons, List.nodup_cons] at h1
    obtain ⟨hn, h1t⟩ := h1
    have h2t : ∀ e ∈ edges, e.toBaseEdge ∉ visited :=
      fun e he => h2 e (List.mem_cons_of_mem _ he)
    by_cases hm : (⟨e0.V, e0.U⟩ : BaseEdge α) ∈ visited
    · have hloop : ¬ e0.U = e0.V := by
        intro hl
        apply h2 e0 (List.mem_cons_self _ _)
        rw [← (BaseWeightedEdge.reverse_self_iff e0).mpr hl]
        exact hm
      have h3t : ∀ e ∈ edges, (⟨e.V, e.U⟩ : BaseEdge α) ∈ visited ∨
          (⟨e.V, e.U⟩ : BaseEdge α) ∈ edges.map (fun e => e.toBaseEdge) := by
        intro e he
        rcases h3 e (List.mem_cons_of_mem _ he) with h | h
        · exact Or.inl h
        · rw [List.map_cons, List.mem_cons] at h
          rcases h with h | h
          · exfalso
            apply h2t e he
            rw [(BaseWeightedEdge.reverse_eq_iff e0 e).mp h]
            exact hm
          · exact Or.inr h
      have hi := ih visited h1t h2t h3t
      have hem : emitted (e0 :: edges) visited = emitted edges visited := by
        simp [emitted, hm]
      have hc1 : (e0 :: edges).countP (fun e => decide ((⟨e.V, e.U⟩ : BaseEdge α) ∈ visited))
          = edges.countP (fun e => decide ((⟨e.V, e.U⟩ : BaseEdge α) ∈ visited)) + 1 := by
        simp [List.countP_cons, hm]
      have hc2 : (e0 :: edges).countP (fun e => decide (e.U = e.V))
          = edges.countP (fun e => decide (e.U = e.V)) := by
        simp [List.countP_cons, hloop]
      rw [hem, hc1, hc2, List.length_cons]
      omega
    · have hk0 : e0.toBaseEdge ∉ visited := h2 e0 (List.mem_cons_self _ _)
      have h2u : ∀ e ∈ edges, e.toBaseEdge ∉ visited ++ [e0.toBaseEdge] := by
        intro e he hc
        rw [List.mem_append, List.mem_singleton] at hc
        rcases hc with hc | hc
        · exact h2t e he hc
        · apply hn
          rw [← hc]
          exact List.mem_map_of_mem _ he
      have h3u : ∀ e ∈ edges, (⟨e.V, e.U⟩ : BaseEdge α) ∈ visited ++ [e0.toBaseEdge] ∨
          (⟨e.V, e.U⟩ : BaseEdge α) ∈ edges.map (fun e => e.toBaseEdge) := by
        intro e he
        rcases h3 e (List.mem_cons_of_mem _ he) with h | h
        · exact Or.inl (List.mem_append_left _ h)
        · rw [List.map_cons, List.mem_cons] at h
          rcases h with h | h
          · refine Or.inl (List.mem_append_right _ ?_)
            rw [h]
            simp
          · exact Or.inr h
      have hi := ih (visited ++ [e0.toBaseEdge]) h1t h2u h3u
      have hsplit : edges.countP
          (fun e => decide ((⟨e.V, e.U⟩ : BaseEdge α) ∈ visited ++ [e0.toBaseEdge]))
          = edges.countP (fun e => decide ((⟨e.V, e.U⟩ : BaseEdge α) ∈ visited))
            + edges.countP (fun e => decide (e.toBaseEdge = ⟨e0.V, e0.U⟩)) := by
        rw [← countP_or_of_disjoint]
        · apply List.countP_congr
          intro e _
          simp only [List.mem_append, List.mem_singleton, decide_eq_true_eq, Bool.or_eq_true,
            BaseWeightedEdge.reverse_eq_iff e0 e]
        · intro e _ hc
          simp only [decide_eq_true_eq] at hc
          apply hk0
          rw [← (BaseWeightedEdge.reverse_eq_iff e0 e).mpr hc.2]
          exact hc.1
      have hem : emitted (e0 :: edges) visited
          = e0 :: emitted edges (visited ++ [e0.toBaseEdge]) := by
        simp [emitted, hm]
      have hc1 : (e0 :: edges).countP (fun e => decide ((⟨e.V, e.U⟩ : BaseEdge α) ∈ visited))
          = edges.countP (fun e => decide ((⟨e.V, e.U⟩ : BaseEdge α) ∈ visited)) := by
        simp [List.countP_cons, hm]
      by_cases hl : e0.U = e0.V
      · have hz : edges.countP (fun e => decide (e.toBaseEdge = ⟨e0.V, e0.U⟩)) = 0 := by
          rw [List.countP_eq_zero]
          intro e he hc
          apply hn
          rw [← (BaseWeightedEdge.reverse_self_iff e0).mpr hl, ← of_decide_eq_true hc]
          exact List.mem_map_of_mem _ he
        have hc2 : (e0 :: edges).countP (fun e => decide (e.U = e.V))
            = edges.countP (fun e => decide (e.U = e.V)) + 1 := by
          simp [List.countP_cons, hl]
        rw [hem, hc1, hc2, List.length_cons, List.length_cons]
        omega
      · have ho : edges.countP (fun e => decide (e.toBaseEdge = ⟨e0.V, e0.U⟩)) = 1 := by
          apply countP_key_eq_one (fun e : BaseWeightedEdge α => e.toBaseEdge) edges _ h1t
          rcases h3 e0 (List.mem_cons_self _ _) with h | h
          · exact absurd h hm
          · rw [List.map_cons, List.mem_cons] at h
            rcases h with h | h
            · exact absurd ((BaseWeightedEdge.reverse_self_iff e0).mp h) hl
            · exact h
        have hc2 : (e0 :: edges).countP (fun e => decide (e.U = e.V))
            = edges.countP (fun e => decide (e.U = e.V)) := by
          simp [List.countP_cons, hl]
        rw [hem, hc1, hc2, List.length_cons, List.length_cons]
        omega

end weightedUndirected


namespace weightedUndirected

variable {α : Type} [DecidableEq α]

theorem mem_edgeSeq_iff (g : weightedUndirected α) (hw : GoMap.WFall g.list) (u v : α)
    (w : Int) :
    (⟨⟨u, v⟩, w⟩ : BaseWeightedEdge α) ∈ g.edgeSeq ↔ GoMap.slot g.list u v = some w :=
  GoMap.mem_weightedSlots_iff g.list hw u v w

theorem nodup_keys_edgeSeq (g : weightedUndirected α) (hw : GoMap.WFall g.list) :
    (g.edgeSeq.map (fun e => e.toBaseEdge)).Nodup := by
  have h := GoMap.nodup_storedPairs g.list hw
  have he : g.edgeSeq.map (fun e => e.toBaseEdge)
      = (GoMap.storedPairs g.list).map (fun p => (⟨p.1, p.2⟩ : BaseEdge α)) := by
    unfold GoMap.storedPairs edgeSeq
    rw [List.map_flatMap, List.map_flatMap]
    congr 1
    funext p
    simp [GoMap.keys, List.map_map, Function.comp_def]
  rw [he]
  refine List.Nodup.map ?_ h
  intro p q hpq
  simp only [BaseEdge.mk.injEq] at hpq
  exact Prod.ext hpq.1 hpq.2

theorem loops_edgeSeq (g : weightedUndirected α) :
    g.edgeSeq.countP (fun e => decide (e.U = e.V))
      = (g.list.map (fun p => (p.2.filter (fun q => decide (q.1 = p.1))).length)).sum := by
  unfold edgeSeq
  induction g.list with
  | nil => rfl
  | cons p m ih =>
    rw [List.flatMap_cons, List.countP_append, ih, List.map_cons, List.sum_cons,
      List.countP_map, List.countP_eq_length_filter]
    congr 2
    apply List.filter_congr
    intro q _
    simp only [Function.comp_def]
    by_cases h : q.1 = p.1
    · simp [h]
    · simp [h, Ne.symm h]

theorem reverse_mem_edgeSeq (g : weightedUndirected α) (hw : GoMap.WFall g.list)
    (hs : g.Symmetric) (e : BaseWeightedEdge α) (h : e ∈ g.edgeSeq) :
    (⟨⟨e.V, e.U⟩, e.W⟩ : BaseWeightedEdge α) ∈ g.edgeSeq := by
  obtain ⟨⟨u, v⟩, w⟩ := e
  rw [mem_edgeSeq_iff g hw] at h ⊢
  rw [← hs u v]
  exact h

/-- A never-stopping visitor is called as many times as there are logical edges. -/
theorem length_emitted_edgeSeq (g : weightedUndirected α) (hw : GoMap.WFall g.list)
    (hs : g.Symmetric) : (emitted g.edgeSeq []).length = g.edgeCount := by
  have h := emitted_count g.edgeSeq [] (nodup_keys_edgeSeq g hw) (by simp)
    (fun e he => Or.inr (List.mem_map_of_mem (fun e => e.toBaseEdge)
      (reverse_mem_edgeSeq g hw hs e he)))
  have hl : g.edgeSeq.length = GoMap.pairCount g.list := GoMap.length_weightedSlots g.list
  have h0 : g.edgeSeq.countP
      (fun e => decide ((⟨e.V, e.U⟩ : BaseEdge α) ∈ ([] : List (BaseEdge α)))) = 0 := by
    rw [List.countP_eq_zero]
    intro e _
    simp
  rw [h0, loops_edgeSeq, hl] at h
  unfold edgeCount
  omega

end weightedUndirected


/-! ### Adding an edge and removing it again -/

namespace GoMap

variable {K T : Type} [DecidableEq K]

theorem update_update (m : GoMap K T) (k : K) (f g : T → T) :
    update (update m k f) k g = update m k (fun b => g (f b)) := by
  induction m with
  | nil => rfl
  | cons p m ih =>
    obtain ⟨a, c⟩ := p
    by_cases h : a = k
    · simp [update, h]
    · simp [update, h, ih]

theorem update_comm (m : GoMap K T) (k k2 : K) (f g : T → T) (hk : k ≠ k2) :
    update (update m k f) k2 g = update (update m k2 g) k f := by
  induction m with
  | nil => rfl
  | cons p m ih =>
    obtain ⟨a, c⟩ := p
    by_cases h : a = k
    · subst h
      simp [update, hk]
    · by_cases h2 : a = k2
      · subst h2
        simp [update, h]
      · simp [update, h, h2, ih]

theorem update_eq_self (m : GoMap K T) (k : K) (f : T → T)
    (h : ∀ b, lookup m k = some b → f b = b) : update m k f = m := by
  induction m with
  | nil => rfl
  | cons p m ih =>
    obtain ⟨a, c⟩ := p
    by_cases hk : a = k
    · have hc : f c = c := h c (by simp [lookup, hk])
      simp [update, hk, hc]
    · have hm : ∀ b, lookup m k = some b → f b = b := by
        intro b hb
        apply h b
        simp [lookup, hk, hb]
      simp [update, hk, ih hm]

theorem delete_store_of_absent (m : GoMap K T) (k : K) (b : T) (h : lookup m k = none) :
    delete (store m k b) k = m := by
  induction m with
  | nil => simp [store, delete]
  | cons p m ih =>
    obtain ⟨a, c⟩ := p
    by_cases hk : a = k
    · simp [lookup, hk] at h
    · simp only [lookup, hk, if_false] at h
      simp [store, delete, hk, ih h]

theorem delete_store_of_absent_twice (m : GoMap K T) (k : K) (b : T) (h : lookup m k = none) :
    delete (delete (store (store m k b) k b) k) k = m := by
  have h1 : store (store m k b) k b = store m k b := by
    induction m with
    | nil => simp [store]
    | cons p m ih =>
      obtain ⟨a, c⟩ := p
      by_cases hk : a = k
      · simp [lookup, hk] at h
      · simp only [lookup, hk, if_false] at h
        simp [store, hk, ih h]
  rw [h1, delete_store_of_absent m k b h, delete_of_absent m k h]

end GoMap

theorem wrapInt_succ_pred (c : Int) : wrapInt (wrapInt (wrapInt c + 1) - 1) = wrapInt c := by
  unfold wrapInt
  omega

namespace weightedDirected

variable {α : Type} [DecidableEq α]

theorem wd_add_then_remove (g : weightedDirected α) (u v : α) (w w2 : Int)
    (hu : g.hasVertex u = true) (hv : g.hasVertex v = true)
    (he : GoMap.has (GoMap.inner g.list u) v = false) :
    (g.addEdgesStep ⟨⟨u, v⟩, w⟩).removeEdgesStep ⟨⟨u, v⟩, w2⟩
      = ⟨⟨g.list, wrapInt (wrapInt (g.size + 1) - 1)⟩⟩ := by
  have h1 : g.tobaseWeighted.ensureVertex [u, v] = g.tobaseWeighted := by
    apply baseWeighted.ensureVertex_of_hasVertex
    intro x hx
    simp only [List.mem_cons, List.mem_singleton, List.not_mem_nil, or_false] at hx
    rcases hx with rfl | rfl
    · exact hu
    · exact hv
  have hadd : g.addEdgesStep ⟨⟨u, v⟩, w⟩
      = ⟨⟨GoMap.update g.list u (fun adj => GoMap.store adj v w), wrapInt (g.size + 1)⟩⟩ := by
    unfold addEdgesStep
    simp only [BaseEdge.Source, BaseEdge.Target, BaseWeightedEdge.Weight, h1, he, Bool.not_false,
      if_true]
  have hl : GoMap.lookup (GoMap.inner g.list u) v = none :=
    (GoMap.has_eq_false_iff _ _).1 he
  have hs : GoMap.has (GoMap.inner
      (GoMap.update g.list u (fun adj => GoMap.store adj v w)) u) v = true := by
    rw [GoMap.has_inner, GoMap.slot_update _ _ _ _ _ hu]
    simp [GoMap.lookup_store]
  rw [hadd]
  unfold removeEdgesStep
  simp only [BaseEdge.Both, hs, if_true]
  rw [GoMap.update_update, GoMap.update_eq_self]
  intro b hb
  have hb2 : GoMap.inner g.list u = b := by
    unfold GoMap.inner
    rw [hb]
    rfl
  rw [← hb2]
  exact GoMap.delete_store_of_absent _ v w hl

end weightedDirected

namespace weightedUndirected

variable {α : Type} [DecidableEq α]

theorem wu_add_then_remove (g : weightedUndirected α) (u v : α) (w w2 : Int)
    (hu : g.hasVertex u = true) (hv : g.hasVertex v = true)
    (he : GoMap.has (GoMap.inner g.list u) v = false)
    (he2 : GoMap.has (GoMap.inner g.list v) u = false) :
    (g.addEdgesStep ⟨⟨u, v⟩, w⟩).removeEdgesStep ⟨⟨u, v⟩, w2⟩
      = ⟨⟨g.list, wrapInt (wrapInt (g.size + 1) - 1)⟩⟩ := by
  have h1 : g.tobaseWeighted.ensureVertex [u, v] = g.tobaseWeighted := by
    apply baseWeighted.ensureVertex_of_hasVertex
    intro x hx
    simp only [List.mem_cons, List.mem_singleton, List.not_mem_nil, or_false] at hx
    rcases hx with rfl | rfl
    · exact hu
    · exact hv
  have hadd : g.addEdgesStep ⟨⟨u, v⟩, w⟩
      = ⟨⟨GoMap.update (GoMap.update g.list u (fun adj => GoMap.store adj v w)) v
          (fun adj => GoMap.store adj u w), wrapInt (g.size + 1)⟩⟩ := by
    unfold addEdgesStep
    simp only [BaseEdge.Source, BaseEdge.Target, BaseWeightedEdge.Weight, h1, he, Bool.not_false,
      if_true]
  have hl : GoMap.lookup (GoMap.inner g.list u) v = none :=
    (GoMap.has_eq_false_iff _ _).1 he
  have hl2 : GoMap.lookup (GoMap.inner g.list v) u = none :=
    (GoMap.has_eq_false_iff _ _).1 he2
  have hs : (GoMap.slot (g.addEdgesStep ⟨⟨u, v⟩, w⟩).list u v).isSome = true := by
    rw [wu_slot_addEdgesStep]
    have : (GoMap.slot g.list u v).isSome = false := he
    simp [this]
  have hinner : ∀ x b, GoMap.lookup g.list x = some b → GoMap.inner g.list x = b := by
    intro x b hb
    unfold GoMap.inner
    rw [hb]
    rfl
  rw [hadd] at hs ⊢
  unfold removeEdgesStep
  have hs2 : GoMap.has (GoMap.inner (GoMap.update (GoMap.update g.list u
      (fun adj => GoMap.store adj v w)) v (fun adj => GoMap.store adj u w)) u) v = true := hs
  simp only [BaseEdge.Both, hs2, if_true]
  by_cases huv : u = v
  · subst huv
    rw [GoMap.update_update, GoMap.update_update, GoMap.update_update, GoMap.update_eq_self]
    intro b hb
    rw [← hinner u b hb]
    exact GoMap.delete_store_of_absent_twice _ u w hl
  · have e1 : GoMap.update g.list u (fun b => GoMap.delete (GoMap.store b v w) v)
        = g.list := by
      apply GoMap.update_eq_self
      intro b hb
      rw [← hinner u b hb]
      exact GoMap.delete_store_of_absent _ v w hl
    have e2 : GoMap.update g.list v (fun b => GoMap.delete (GoMap.store b u w) u)
        = g.list := by
      apply GoMap.update_eq_self
      intro b hb
      rw [← hinner v b hb]
      exact GoMap.delete_store_of_absent _ u w hl2
    rw [GoMap.update_comm _ u v _ _ huv, GoMap.update_update,
      GoMap.update_comm _ v u _ _ (Ne.symm huv), GoMap.update_update, e1, e2]

/-- The counter of a reachable store is a value of the type `int`. -/
theorem Reachable.sizeInRange {g : weightedUndirected α} (h : Reachable g) :
    wrapInt g.size = g.size := by
  have hstep1 : ∀ (g : weightedUndirected α) (v : α), wrapInt g.size = g.size →
      wrapInt (g.removeVertexStep v).size = (g.removeVertexStep v).size := by
    intro g v hg
    unfold weightedUndirected.removeVertexStep
    split
    · show wrapInt (wrapInt _) = wrapInt _
      unfold wrapInt
      omega
    · exact hg
  have hstep2 : ∀ (g : weightedUndirected α) (e : BaseWeightedEdge α),
      wrapInt g.size = g.size → wrapInt (g.addEdgesStep e).size = (g.addEdgesStep e).size := by
    intro g e hg
    unfold weightedUndirected.addEdgesStep
    have hz := baseWeighted.size_ensureVertex g.tobaseWeighted [e.Source, e.Target]
    dsimp only
    split
    · show wrapInt (wrapInt _) = wrapInt _
      unfold wrapInt
      omega
    · show wrapInt (baseWeighted.ensureVertex _ _).size = (baseWeighted.ensureVertex _ _).size
      rw [hz]
      exact hg
  have hstep3 : ∀ (g : weightedUndirected α) (e : BaseWeightedEdge α),
      wrapInt g.size = g.size →
      wrapInt (g.removeEdgesStep e).size = (g.removeEdgesStep e).size := by
    intro g e hg
    unfold weightedUndirected.removeEdgesStep
    dsimp only
    split
    · show wrapInt (wrapInt _) = wrapInt _
      unfold wrapInt
      omega
    · exact hg
  induction h with
  | init => exact wrapInt_zero
  | ensureVertex g vs _ ih =>
    unfold weightedUndirected.EnsureVertex
    rw [baseWeighted.EnsureVertex_eq]
    show wrapInt (baseWeighted.ensureVertex _ _).size = (baseWeighted.ensureVertex _ _).size
    rw [baseWeighted.size_ensureVertex]
    exact ih
  | removeVertex g vs _ ih =>
    rw [wu_RemoveVertex_eq]
    exact foldl_invariant (fun g => wrapInt g.size = g.size) _ hstep1 vs g ih
  | addEdges g es _ ih =>
    rw [wu_AddEdges_eq]
    exact foldl_invariant (fun g => wrapInt g.size = g.size) _ hstep2 es g ih
  | removeEdges g es _ ih =>
    rw [wu_RemoveEdges_eq]
    exact foldl_invariant (fun g => wrapInt g.size = g.size) _ hstep3 es g ih

end weightedUndirected


/-! ### Sums of degrees -/

theorem sum_indicator_of_nodup {K : Type} [DecidableEq K] (ks : List K) (a : K)
    (hn : ks.Nodup) (ha : a ∈ ks) : (ks.map (fun k => if a = k then 1 else 0)).sum = 1 := by
  induction ks with
  | nil => simp at ha
  | cons k ks ih =>
    rw [List.nodup_cons] at hn
    rw [List.map_cons, List.sum_cons]
    by_cases hk : a = k
    · have hz : (ks.map (fun k => if a = k then 1 else 0)).sum = 0 := by
        apply List.sum_eq_zero
        intro x hx
        rw [List.mem_map] at hx
        obtain ⟨y, hy, hxy⟩ := hx
        have hay : ¬a = y := by
          intro h
          apply hn.1
          rw [← hk, h]
          exact hy
        rw [← hxy, if_neg hay]
      rw [if_pos hk, hz]
    · rw [List.mem_cons] at ha
      rcases ha with ha | ha
      · exact absurd ha hk
      · rw [if_neg hk, ih hn.2 ha]

/-- Items sorted into pairwise distinct classes that cover them all: the class sizes add up
to the number of items. -/
theorem sum_filter_length {P K : Type} [DecidableEq K] (f : P → K) (ps : List P) (ks : List K)
    (hn : ks.Nodup) (h : ∀ p ∈ ps, f p ∈ ks) :
    (ks.map (fun k => (ps.filter (fun p => decide (f p = k))).length)).sum = ps.length := by
  induction ps with
  | nil => simp
  | cons p ps ih =>
    have hfun : (fun k => ((p :: ps).filter (fun q => decide (f q = k))).length)
        = fun k => (if f p = k then 1 else 0)
            + (ps.filter (fun q => decide (f q = k))).length := by
      funext k
      by_cases hk : f p = k
      · simp [List.filter_cons, hk]
        omega
      · simp [List.filter_cons, hk]
    rw [hfun, List.sum_map_add, sum_indicator_of_nodup ks (f p) hn (h p (List.mem_cons_self _ _)),
      ih (fun q hq => h q (List.mem_cons_of_mem _ hq)), List.length_cons]
    omega

theorem sum_map_natCast {X : Type} (l : List X) (f : X → Nat) :
    (l.map (fun x => ((f x : Nat) : Int))).sum = (((l.map f).sum : Nat) : Int) := by
  induction l with
  | nil => rfl
  | cons x l ih =>
    rw [List.map_cons, List.sum_cons, ih, List.map_cons, List.sum_cons]
    push_cast
    rfl

/-- The lengths of the inner maps, summed over the keys, give the number of stored pairs. -/
theorem GoMap.sum_len_inner {α T2 : Type} [DecidableEq α] (m : GoMap α (GoMap α T2))
    (hm : GoMap.WF m) :
    ((GoMap.keys m).map (fun v => GoMap.len (GoMap.inner m v))).sum = GoMap.pairCount m := by
  unfold GoMap.keys GoMap.pairCount
  rw [List.map_map]
  congr 1
  apply List.map_congr_left
  intro p hp
  obtain ⟨a, c⟩ := p
  have h := GoMap.lookup_of_mem m hm a c hp
  simp [GoMap.inner, h]

theorem weightedDirected.sum_OutDegreeOf {α : Type} [DecidableEq α] (g : weightedDirected α)
    (hw : GoMap.WFall g.list) :
    ((GoMap.keys g.list).map (fun v => (g.OutDegreeOf v).1)).sum
      = ((GoMap.pairCount g.list : Nat) : Int) := by
  rw [← GoMap.sum_len_inner g.list hw.1, ← sum_map_natCast]
  congr 1
  apply List.map_congr_left
  intro v hv
  have hv2 : g.hasVertex v = true := (GoMap.has_iff_mem_keys g.list v).2 hv
  simp [weightedDirected.OutDegreeOf, hv2]

theorem weightedDirected.sum_InDegreeOf {α : Type} [DecidableEq α] (g : weightedDirected α)
    (hw : GoMap.WFall g.list) (hd : GoMap.NoDangling g.list)
    (hb : GoMap.pairCount g.list < 9223372036854775808) :
    ((GoMap.keys g.list).map (fun v => (g.InDegreeOf v).1)).sum
      = ((GoMap.pairCount g.list : Nat) : Int) := by
  have hsum := sum_filter_length (fun p : α × α => p.2) (GoMap.storedPairs g.list)
    (GoMap.keys g.list) hw.1 (by
      intro p hp
      obtain ⟨a, b⟩ := p
      have hs := (GoMap.mem_storedPairs_iff g.list hw.1 a b).1 hp
      exact (GoMap.has_iff_mem_keys g.list b).1 (hd a b hs))
  rw [GoMap.length_storedPairs] at hsum
  rw [← hsum, ← sum_map_natCast]
  congr 1
  apply List.map_congr_left
  intro v hv
  have hv2 : g.hasVertex v = true := (GoMap.has_iff_mem_keys g.list v).2 hv
  rw [weightedDirected.InDegreeOf_eq g v hv2]
  have hle := GoMap.length_filter_le_pairCount g.list (fun p => decide (p.2 = v))
  apply wrapInt_of_small
  · exact Int.natCast_nonneg _
  · omega


/-! ### The counter of the unweighted store -/

namespace AdjacencyList

variable {α : Type} [DecidableEq α]

theorem pairCount_addVertex (g : AdjacencyList α) (v : α) :
    GoMap.pairCount (g.addVertex v).1.list = GoMap.pairCount g.list := by
  unfold addVertex hasVertex
  by_cases h : GoMap.has g.list v = true
  · simp [h]
  · have h2 : GoMap.has g.list v = false := by simpa using h
    simp only [h2, Bool.not_false, if_true]
    exact GoMap.pairCount_store_empty g.list v ((GoMap.has_eq_false_iff _ _).1 h2)

theorem pairCount_addEdge (g : AdjacencyList α) (e : BaseEdge α) :
    GoMap.pairCount (g.addEdge e).1.list =
      if (GoMap.slot g.list e.U e.V).isSome = true then GoMap.pairCount g.list
      else GoMap.pairCount g.list + 1 := by
  have hs : GoMap.slot ((g.addVertex e.U).1.addVertex e.V).1.list e.U e.V
      = GoMap.slot g.list e.U e.V := by
    rw [slot_addVertex, slot_addVertex]
  have hp : GoMap.pairCount ((g.addVertex e.U).1.addVertex e.V).1.list
      = GoMap.pairCount g.list := by
    rw [pairCount_addVertex, pairCount_addVertex]
  have hu : GoMap.has ((g.addVertex e.U).1.addVertex e.V).1.list e.U = true := by
    have h := hasVertex_addVertex (g.addVertex e.U).1 e.V e.U
    rw [hasVertex_addVertex g] at h
    simpa [hasVertex] using h
  unfold addEdge
  simp only [BaseEdge.Source, BaseEdge.Target]
  by_cases hex : GoMap.has (GoMap.inner ((g.addVertex e.U).1.addVertex e.V).1.list e.U) e.V
      = true
  · have hex2 := hex
    rw [GoMap.has_inner, hs] at hex2
    simp only [hex, Bool.not_true, Bool.false_eq_true, if_false, hex2, if_true]
    exact hp
  · have hex3 : GoMap.has (GoMap.inner ((g.addVertex e.U).1.addVertex e.V).1.list e.U) e.V
        = false := by simpa using hex
    have hex2 := hex3
    rw [GoMap.has_inner, hs] at hex2
    simp only [hex3, Bool.not_false, if_true, hex2, Bool.false_eq_true, if_false]
    rw [GoMap.pairCount_update_store _ _ _ _ hu hex3, hp]

/-- The store built by `addEdge` from a list of edges, starting from any store. -/
theorem hasVertex_foldl_addEdge (es : List (BaseEdge α)) (g : AdjacencyList α) (x : α) :
    (es.foldl (fun g e => (g.addEdge e).1) g).hasVertex x = true ↔
      (∃ e ∈ es, e.U = x ∨ e.V = x) ∨ g.hasVertex x = true := by
  induction es generalizing g with
  | nil => simp
  | cons e es ih =>
    rw [List.foldl_cons, ih, hasVertex_addEdge]
    simp only [Bool.or_eq_true, decide_eq_true_eq, List.mem_cons, exists_eq_or_imp]
    constructor
    · rintro (h | (h | h) | h)
      · exact Or.inl (Or.inr h)
      · exact Or.inl (Or.inl (Or.inl h))
      · exact Or.inl (Or.inl (Or.inr h))
      · exact Or.inr h
    · rintro ((h | h) | h)
      · exact Or.inr (Or.inl h)
      · exact Or.inl h
      · exact Or.inr (Or.inr h)

theorem slot_foldl_addEdge (es : List (BaseEdge α)) (g : AdjacencyList α) (a b : α) :
    (GoMap.slot (es.foldl (fun g e => (g.addEdge e).1) g).list a b).isSome = true ↔
      (⟨a, b⟩ : BaseEdge α) ∈ es ∨ (GoMap.slot g.list a b).isSome = true := by
  induction es generalizing g with
  | nil => simp
  | cons e es ih =>
    rw [List.foldl_cons, ih, slot_addEdge, List.mem_cons]
    obtain ⟨u, v⟩ := e
    by_cases h : u = a ∧ v = b
    · obtain ⟨rfl, rfl⟩ := h
      simp
    · have h2 : ¬(⟨a, b⟩ : BaseEdge α) = ⟨u, v⟩ := by
        intro hc
        simp only [BaseEdge.mk.injEq] at hc
        exact h ⟨hc.1.symm, hc.2.symm⟩
      simp only [h, if_false, h2, false_or]

theorem reachable_foldl_addEdge (es : List (BaseEdge α)) (g : AdjacencyList α)
    (hg : Reachable g) : Reachable (es.foldl (fun g e => (g.addEdge e).1) g) :=
  foldl_invariant Reachable _ (fun g e h => Reachable.addEdge g e h) es g hg

theorem size_foldl_addEdge (es : List (BaseEdge α)) (g : AdjacencyList α)
    (hg : g.size = GoMap.pairCount g.list % 18446744073709551616) :
    (es.foldl (fun g e => (g.addEdge e).1) g).size
      = GoMap.pairCount (es.foldl (fun g e => (g.addEdge e).1) g).list
          % 18446744073709551616 := by
  refine foldl_invariant
    (fun g : AdjacencyList α => g.size = GoMap.pairCount g.list % 18446744073709551616)
    _ ?_ es g hg
  intro g e h
  rw [(addEdge_result g e).2, pairCount_addEdge]
  by_cases hex : (GoMap.slot g.list e.U e.V).isSome = true
  · rw [if_pos hex, if_pos hex]
    exact h
  · rw [if_neg hex, if_neg hex, h]
    unfold uintInc
    omega

/-- The stored pairs of a well-formed map of maps, listed as edges, are a rearrangement of
any list without repetition that has the same members. -/
theorem pairCount_eq_length_of_mem_iff (m : GoMap α (VertexSet α)) (hm : GoMap.WFall m)
    (l : List (BaseEdge α)) (hl : l.Nodup)
    (h : ∀ a b, (GoMap.slot m a b).isSome = true ↔ (⟨a, b⟩ : BaseEdge α) ∈ l) :
    GoMap.pairCount m = l.length := by
  have hn : ((GoMap.storedPairs m).map (fun p => (⟨p.1, p.2⟩ : BaseEdge α))).Nodup := by
    refine List.Nodup.map ?_ (GoMap.nodup_storedPairs m hm)
    intro p q hpq
    simp only [BaseEdge.mk.injEq] at hpq
    exact Prod.ext hpq.1 hpq.2
  have hp : ((GoMap.storedPairs m).map (fun p => (⟨p.1, p.2⟩ : BaseEdge α))).Perm l := by
    rw [List.perm_ext_iff_of_nodup hn hl]
    intro e
    obtain ⟨a, b⟩ := e
    rw [← h a b, ← GoMap.mem_storedPairs_iff m hm.1 a b, List.mem_map]
    constructor
    · rintro ⟨p, hp, hpe⟩
      simp only [BaseEdge.mk.injEq] at hpe
      obtain ⟨c, d⟩ := p
      obtain ⟨rfl, rfl⟩ := hpe
      exact hp
    · intro hab
      exact ⟨(a, b), hab, rfl⟩
  rw [← GoMap.length_storedPairs, ← hp.length_eq, List.length_map]

end AdjacencyList


theorem iterate_uintDec (a m : Nat) (h : a ≤ m) :
    uintDec^[a] (m % 18446744073709551616) = (m - a) % 18446744073709551616 := by
  induction a generalizing m with
  | zero => rfl
  | succ a ih =>
    rw [Function.iterate_succ_apply]
    have h1 : uintDec (m % 18446744073709551616) = (m - 1) % 18446744073709551616 := by
      unfold uintDec
      omega
    have h2 : m - 1 - a = m - (a + 1) := by omega
    rw [h1, ih (m - 1) (by omega), h2]

namespace AdjacencyList

variable {α : Type} [DecidableEq α]

theorem ReachableIn.al_reachable {n : Nat} {g : AdjacencyList α} (h : ReachableIn n g) :
    Reachable g := by
  induction h with
  | init => exact .init
  | addVertex n g v _ ih => exact .addVertex g v ih
  | removeVertex n g v _ ih => exact .removeVertex g v ih
  | addEdge n g e _ ih => exact .addEdge g e ih
  | removeEdge n g e _ ih => exact .removeEdge g e ih

theorem Reachable.reachableIn {g : AdjacencyList α} (h : Reachable g) :
    ∃ n, ReachableIn n g := by
  induction h with
  | init => exact ⟨0, .init⟩
  | addVertex g v _ ih =>
    obtain ⟨n, hn⟩ := ih
    exact ⟨n, .addVertex n g v hn⟩
  | removeVertex g v _ ih =>
    obtain ⟨n, hn⟩ := ih
    exact ⟨n, .removeVertex n g v hn⟩
  | addEdge g e _ ih =>
    obtain ⟨n, hn⟩ := ih
    exact ⟨n + 1, .addEdge n g e hn⟩
  | removeEdge g e _ ih =>
    obtain ⟨n, hn⟩ := ih
    exact ⟨n, .removeEdge n g e hn⟩

/-- What `RemoveVertex` of a resident vertex does to the number of stored pairs: the pairs
with source `v` and the pairs with target `v` go. -/
theorem pairCount_RemoveVertex (g : AdjacencyList α) (v : α) (hw : GoMap.WFall g.list)
    (hv : g.hasVertex v = true) :
    GoMap.pairCount (g.RemoveVertex v).1.list + GoMap.arcsTo v (GoMap.delete g.list v)
        + GoMap.len (GoMap.inner g.list v) = GoMap.pairCount g.list := by
  have hl : (g.RemoveVertex v).1.list
      = (GoMap.delete g.list v).map (fun p => (p.1, GoMap.delete p.2 v)) := by
    unfold RemoveVertex
    simp only [hv, if_true]
    exact GoMap.removeArcsTo_fst uintDec v (GoMap.delete g.list v) g.size
  rw [hl, GoMap.pairCount_mapDelete _ v (GoMap.WFall_delete g.list v hw).2,
    GoMap.pairCount_delete g.list v hw.1]

theorem pairCount_RemoveEdge (g : AdjacencyList α) (e : BaseEdge α) (hw : GoMap.WFall g.list)
    (h : (GoMap.slot g.list e.U e.V).isSome = true) :
    GoMap.pairCount (g.RemoveEdge e).list + 1 = GoMap.pairCount g.list := by
  have hh : GoMap.has (GoMap.inner g.list e.U) e.V = true := h
  unfold RemoveEdge
  simp only [BaseEdge.Both, hh, if_true]
  exact GoMap.pairCount_update_delete g.list e.U e.V hw hh

/-- The counter against the stored pairs: after `n` calls of `AddEdge` the counter is the
`uint` value of a number between the number of stored pairs and `n`. -/
theorem ReachableIn.counter {n : Nat} {g : AdjacencyList α} (h : ReachableIn n g) :
    ∃ m, GoMap.pairCount g.list ≤ m ∧ m ≤ n ∧ g.size = m % 18446744073709551616 := by
  induction h with
  | init => exact ⟨0, Nat.le_refl _, Nat.le_refl _, rfl⟩
  | addVertex n g v _ ih =>
    obtain ⟨m, h1, h2, h3⟩ := ih
    refine ⟨m, ?_, h2, ?_⟩
    · show GoMap.pairCount (g.addVertex v).1.list ≤ m
      rw [pairCount_addVertex]
      exact h1
    · show (g.addVertex v).1.size = _
      rw [size_addVertex]
      exact h3
  | removeVertex n g v hr ih =>
    obtain ⟨m, h1, h2, h3⟩ := ih
    by_cases hv : g.hasVertex v = true
    · have hp := pairCount_RemoveVertex g v hr.al_reachable.structure.1 hv
      refine ⟨m - GoMap.arcsTo v (GoMap.delete g.list v), by omega, by omega, ?_⟩
      rw [size_RemoveVertex g v hv, h3, iterate_uintDec _ _ (by omega)]
    · rw [RemoveVertex_of_absent g v hv]
      exact ⟨m, h1, h2, h3⟩
  | addEdge n g e _ ih =>
    obtain ⟨m, h1, h2, h3⟩ := ih
    have hp := pairCount_addEdge g e
    have hz := (addEdge_result g e).2
    by_cases hex : (GoMap.slot g.list e.U e.V).isSome = true
    · rw [if_pos hex] at hp hz
      refine ⟨m, ?_, by omega, ?_⟩
      · show GoMap.pairCount (g.addEdge e).1.list ≤ m
        omega
      · show (g.addEdge e).1.size = _
        rw [hz]
        exact h3
    · rw [if_neg hex] at hp hz
      refine ⟨m + 1, ?_, by omega, ?_⟩
      · show GoMap.pairCount (g.addEdge e).1.list ≤ m + 1
        omega
      · show (g.addEdge e).1.size = _
        rw [hz, h3]
        unfold uintInc
        omega
  | removeEdge n g e hr ih =>
    obtain ⟨m, h1, h2, h3⟩ := ih
    by_cases hex : (GoMap.slot g.list e.U e.V).isSome = true
    · have hp := pairCount_RemoveEdge g e hr.al_reachable.structure.1 hex
      refine ⟨m - 1, by omega, by omega, ?_⟩
      rw [size_RemoveEdge g e hex, h3]
      unfold uintDec
      omega
    · have hex2 : (GoMap.slot g.list e.U e.V).isSome = false := by simpa using hex
      rw [RemoveEdge_of_absent g e hex2]
      exact ⟨m, h1, h2, h3⟩

end AdjacencyList


/-! ### Transposing twice -/

namespace weightedDirected

variable {α : Type} [DecidableEq α]

theorem has_ensure (m : GoMap α (GoMap α Int)) (k x : α) :
    GoMap.has (if !GoMap.has m k then GoMap.store m k [] else m) x
      = (decide (k = x) || GoMap.has m x) := by
  by_cases h : GoMap.has m k = true
  · by_cases hx : k = x
    · subst hx
      simp [h]
    · simp [h, hx]
  · have h2 : GoMap.has m k = false := by simpa using h
    simp [h2, GoMap.has_store]

theorem has_transposeArc (s : α) (l2 : GoMap α (GoMap α Int)) (tw : α × Int) (x : α) :
    GoMap.has (transposeArc s l2 tw) x = (decide (tw.1 = x) || GoMap.has l2 x) := by
  unfold transposeArc
  simp only
  rw [GoMap.has_update, has_ensure]

theorem has_foldl_transposeArc (s : α) (adj : GoMap α Int) (l2 : GoMap α (GoMap α Int))
    (x : α) :
    GoMap.has (adj.foldl (transposeArc s) l2) x = true ↔
      x ∈ GoMap.keys adj ∨ GoMap.has l2 x = true := by
  induction adj generalizing l2 with
  | nil => simp [GoMap.keys]
  | cons p adj ih =>
    rw [List.foldl_cons, ih, has_transposeArc]
    simp only [GoMap.keys, List.map_cons, List.mem_cons, Bool.or_eq_true, decide_eq_true_eq]
    constructor
    · rintro (h | h | h)
      · exact Or.inl (Or.inr h)
      · exact Or.inl (Or.inl h.symm)
      · exact Or.inr h
    · rintro ((h | h) | h)
      · exact Or.inr (Or.inl h.symm)
      · exact Or.inl h
      · exact Or.inr (Or.inr h)

theorem has_transposeEntry (l2 : GoMap α (GoMap α Int)) (p : α × GoMap α Int) (x : α) :
    GoMap.has (transposeEntry l2 p) x = true ↔
      (x = p.1 ∨ x ∈ GoMap.keys p.2) ∨ GoMap.has l2 x = true := by
  unfold transposeEntry
  simp only
  rw [has_foldl_transposeArc, has_ensure]
  simp only [Bool.or_eq_true, decide_eq_true_eq]
  constructor
  · rintro (h | h | h)
    · exact Or.inl (Or.inr h)
    · exact Or.inl (Or.inl h.symm)
    · exact Or.inr h
  · rintro ((h | h) | h)
    · exact Or.inr (Or.inl h.symm)
    · exact Or.inl h
    · exact Or.inr (Or.inr h)

theorem has_foldl_transposeEntry (m l2 : GoMap α (GoMap α Int)) (x : α) :
    GoMap.has (m.foldl transposeEntry l2) x = true ↔
      (∃ p ∈ m, x = p.1 ∨ x ∈ GoMap.keys p.2) ∨ GoMap.has l2 x = true := by
  induction m generalizing l2 with
  | nil => simp
  | cons p m ih =>
    rw [List.foldl_cons, ih, has_transposeEntry]
    simp only [List.mem_cons, exists_eq_or_imp]
    constructor
    · rintro (h | h | h)
      · exact Or.inl (Or.inr h)
      · exact Or.inl (Or.inl h)
      · exact Or.inr h
    · rintro ((h | h) | h)
      · exact Or.inr (Or.inl h)
      · exact Or.inl h
      · exact Or.inr (Or.inr h)

/-- The vertices of the transposed map: with no dangling adjacency, those of the map. -/
theorem has_transposed (m : GoMap α (GoMap α Int)) (hw : GoMap.WF m)
    (hd : GoMap.NoDangling m) (x : α) :
    GoMap.has (m.foldl transposeEntry []) x = GoMap.has m x := by
  have h := has_foldl_transposeEntry m [] x
  have hnil : GoMap.has ([] : GoMap α (GoMap α Int)) x = false := rfl
  rw [hnil] at h
  have key : GoMap.has (m.foldl transposeEntry []) x = true ↔ GoMap.has m x = true := by
    rw [h]
    constructor
    · rintro (⟨p, hp, hx | hx⟩ | hc)
      · rw [hx, GoMap.has_iff_mem_keys]
        exact List.mem_map_of_mem Prod.fst hp
      · exact (GoMap.endpoints_resident m hw hd p hp x hx).2
      · cases hc
    · intro hx
      rw [GoMap.has_iff_mem_keys] at hx
      unfold GoMap.keys at hx
      rw [List.mem_map] at hx
      obtain ⟨p, hp, hpx⟩ := hx
      exact Or.inl ⟨p, hp, Or.inl hpx.symm⟩
  cases h1 : GoMap.has (m.foldl transposeEntry []) x <;> cases h2 : GoMap.has m x
  · rfl
  · rw [h1, h2] at key
    exact absurd (key.2 rfl) (by simp)
  · rw [h1, h2] at key
    exact absurd (key.1 rfl) (by simp)
  · rfl

theorem WFall_transposeArc (s : α) (l2 : GoMap α (GoMap α Int)) (tw : α × Int)
    (h : GoMap.WFall l2) : GoMap.WFall (transposeArc s l2 tw) := by
  unfold transposeArc
  simp only
  exact GoMap.WFall_update _ _ _ (fun adj _ hadj => GoMap.WF_store adj s tw.2 hadj)
    (GoMap.WFall_ensure l2 tw.1 h)

theorem WFall_transposeEntry (l2 : GoMap α (GoMap α Int)) (p : α × GoMap α Int)
    (h : GoMap.WFall l2) : GoMap.WFall (transposeEntry l2 p) := by
  unfold transposeEntry
  simp only
  exact foldl_invariant GoMap.WFall _ (fun l tw hl => WFall_transposeArc p.1 l tw hl) p.2 _
    (GoMap.WFall_ensure l2 p.1 h)

theorem WFall_transposed (m : GoMap α (GoMap α Int)) :
    GoMap.WFall (m.foldl transposeEntry []) :=
  foldl_invariant GoMap.WFall _ (fun l p hl => WFall_transposeEntry l p hl) m []
    GoMap.WFall_nil

theorem noDangling_transposed (m : GoMap α (GoMap α Int)) (hw : GoMap.WFall m)
    (hd : GoMap.NoDangling m) : GoMap.NoDangling (m.foldl transposeEntry []) := by
  intro u v huv
  rw [slot_foldl_transposeEntry_nil m hw] at huv
  rw [has_transposed m hw.1 hd]
  cases hl : GoMap.lookup m v with
  | none =>
    rw [GoMap.slot_eq_none_of_absent m v u hl] at huv
    cases huv
  | some adj =>
    unfold GoMap.has
    rw [hl]
    rfl

theorem order_ne_zero_iff (g : weightedDirected α) :
    g.Order ≠ 0 ↔ ∃ x, g.hasVertex x = true := by
  obtain ⟨⟨l, z⟩⟩ := g
  cases l with
  | nil =>
    simp [baseWeighted.Order, GoMap.len, baseWeighted.hasVertex, GoMap.has, GoMap.lookup]
  | cons p l =>
    obtain ⟨a, c⟩ := p
    constructor
    · intro _
      exact ⟨a, by simp [baseWeighted.hasVertex, GoMap.has, GoMap.lookup]⟩
    · intro _
      simp only [baseWeighted.Order, GoMap.len, List.length_cons]
      omega

end weightedDirected


/-! ### The counter of the undirected store without self-loops -/

theorem foldl_invariant_mem {S X : Type} (P : S → Prop) (f : S → X → S) (xs : List X)
    (hstep : ∀ s x, x ∈ xs → P s → P (f s x)) (s : S) (hs : P s) : P (xs.foldl f s) := by
  induction xs generalizing s with
  | nil => exact hs
  | cons x xs ih =>
    rw [List.foldl_cons]
    exact ih (fun s y hy h => hstep s y (List.mem_cons_of_mem _ hy) h) _
      (hstep s x (List.mem_cons_self _ _) hs)

namespace GoMap

variable {K T T2 : Type} [DecidableEq K]

theorem lookup_foldl_update_of_not_mem (ks : List K) (F : K → T → T) (m : GoMap K T) (k : K)
    (hk : k ∉ ks) : lookup (ks.foldl (fun l a => update l a (F a)) m) k = lookup m k := by
  induction ks generalizing m with
  | nil => rfl
  | cons a ks ih =>
    rw [List.mem_cons, not_or] at hk
    rw [List.foldl_cons, ih _ hk.2, lookup_update]
    have ha : ¬a = k := fun h => hk.1 h.symm
    rw [if_neg ha]

theorem pairCount_foldl_update_delete (ks : List K) (x : K) (m : GoMap K (GoMap K T2))
    (hn : ks.Nodup) (hm : WFall m) (h : ∀ a ∈ ks, has (inner m a) x = true) :
    pairCount (ks.foldl (fun l a => update l a (fun adj => delete adj x)) m) + ks.length
      = pairCount m := by
  induction ks generalizing m with
  | nil => rfl
  | cons a ks ih =>
    rw [List.nodup_cons] at hn
    have h1 := pairCount_update_delete m a x hm (h a (List.mem_cons_self _ _))
    have hm2 := WFall_update_delete m a x hm
    have h2 : ∀ b ∈ ks, has (inner (update m a (fun adj => delete adj x)) b) x = true := by
      intro b hb
      have hab : ¬a = b := by
        intro hc
        apply hn.1
        rw [hc]
        exact hb
      rw [has_inner, slot_update_delete]
      simp only [hab, false_and, if_false]
      exact h b (List.mem_cons_of_mem _ hb)
    have h3 := ih _ hn.2 hm2 h2
    rw [List.foldl_cons, List.length_cons]
    omega

end GoMap

theorem baseWeighted.pairCount_ensureVertex {α : Type} [DecidableEq α] (g : baseWeighted α)
    (vs : List α) : GoMap.pairCount (g.ensureVertex vs).list = GoMap.pairCount g.list := by
  unfold baseWeighted.ensureVertex
  refine foldl_invariant
    (fun g2 : baseWeighted α => GoMap.pairCount g2.list = GoMap.pairCount g.list) _ ?_ vs g rfl
  intro g2 v h
  unfold baseWeighted.ensureVertexStep baseWeighted.hasVertex
  by_cases hv : GoMap.has g2.list v = true
  · simp only [hv, Bool.not_true, Bool.false_eq_true, if_false]
    exact h
  · have hv2 : GoMap.has g2.list v = false := by simpa using hv
    simp only [hv2, Bool.not_false, if_true]
    rw [GoMap.pairCount_store_empty g2.list v ((GoMap.has_eq_false_iff _ _).1 hv2)]
    exact h


namespace weightedUndirected

variable {α : Type} [DecidableEq α]

theorem wu_count_addEdgesStep (g : weightedUndirected α) (e : BaseWeightedEdge α)
    (hs : g.Symmetric) (hne : e.U ≠ e.V) :
    GoMap.pairCount (g.addEdgesStep e).list =
      if (GoMap.slot g.list e.U e.V).isSome = true then GoMap.pairCount g.list
      else GoMap.pairCount g.list + 2 := by
  have hsl : ∀ a b, GoMap.slot (g.tobaseWeighted.ensureVertex [e.U, e.V]).list a b
      = GoMap.slot g.list a b := baseWeighted.slot_ensureVertex g.tobaseWeighted _
  have hpc := baseWeighted.pairCount_ensureVertex g.tobaseWeighted [e.U, e.V]
  have hu : GoMap.has (g.tobaseWeighted.ensureVertex [e.U, e.V]).list e.U = true := by
    have h := baseWeighted.hasVertex_ensureVertex_pair g.tobaseWeighted e.U e.V e.U
    simpa [baseWeighted.hasVertex] using h
  have hv : GoMap.has (g.tobaseWeighted.ensureVertex [e.U, e.V]).list e.V = true := by
    have h := baseWeighted.hasVertex_ensureVertex_pair g.tobaseWeighted e.U e.V e.V
    simpa [baseWeighted.hasVertex] using h
  unfold addEdgesStep
  simp only [BaseEdge.Source, BaseEdge.Target, BaseWeightedEdge.Weight]
  by_cases hex : GoMap.has (GoMap.inner (g.tobaseWeighted.ensureVertex [e.U, e.V]).list e.U)
      e.V = true
  · have hex2 := hex
    rw [GoMap.has_inner, hsl] at hex2
    simp only [hex, Bool.not_true, Bool.false_eq_true, if_false, hex2, if_true]
    exact hpc
  · have hex3 : GoMap.has (GoMap.inner (g.tobaseWeighted.ensureVertex [e.U, e.V]).list e.U)
        e.V = false := by simpa using hex
    have hex2 := hex3
    rw [GoMap.has_inner, hsl] at hex2
    simp only [hex3, Bool.not_false, if_true, hex2, Bool.false_eq_true, if_false]
    have h1 := GoMap.pairCount_update_store _ e.U e.V e.W hu hex3
    have hv1 : GoMap.has (GoMap.update (g.tobaseWeighted.ensureVertex [e.U, e.V]).list e.U
        (fun adj => GoMap.store adj e.V e.W)) e.V = true := by
      rw [GoMap.has_update]
      exact hv
    have hex4 : GoMap.has (GoMap.inner (GoMap.update
        (g.tobaseWeighted.ensureVertex [e.U, e.V]).list e.U
        (fun adj => GoMap.store adj e.V e.W)) e.V) e.U = false := by
      rw [GoMap.has_inner, GoMap.slot_update _ _ _ _ _ hu, if_neg hne]
      show (GoMap.slot (g.tobaseWeighted.ensureVertex [e.U, e.V]).list e.V e.U).isSome = false
      rw [hsl, ← hs e.U e.V]
      exact hex2
    have h2 := GoMap.pairCount_update_store _ e.V e.U e.W hv1 hex4
    rw [h2, h1, hpc]

theorem wu_count_removeEdgesStep (g : weightedUndirected α) (e : BaseWeightedEdge α)
    (hw : GoMap.WFall g.list) (hs : g.Symmetric) (hne : e.U ≠ e.V)
    (h : (GoMap.slot g.list e.U e.V).isSome = true) :
    GoMap.pairCount (g.removeEdgesStep e).list + 2 = GoMap.pairCount g.list := by
  have hh : GoMap.has (GoMap.inner g.list e.U) e.V = true := h
  unfold removeEdgesStep
  simp only [BaseEdge.Both, hh, if_true]
  have h1 := GoMap.pairCount_update_delete g.list e.U e.V hw hh
  have hw1 := GoMap.WFall_update_delete g.list e.U e.V hw
  have hh2 : GoMap.has (GoMap.inner (GoMap.update g.list e.U
      (fun adj => GoMap.delete adj e.V)) e.V) e.U = true := by
    rw [GoMap.has_inner, GoMap.slot_update_delete]
    have hc : ¬(e.U = e.V ∧ e.V = e.U) := fun hc => hne hc.1
    rw [if_neg hc, ← hs e.U e.V]
    exact h
  have h2 := GoMap.pairCount_update_delete _ e.V e.U hw1 hh2
  omega

theorem wu_count_removeVertexStep (g : weightedUndirected α) (v : α)
    (hw : GoMap.WFall g.list) (hs : g.Symmetric) (hl : GoMap.slot g.list v v = none)
    (hv : g.hasVertex v = true) :
    GoMap.pairCount (g.removeVertexStep v).list + 2 * GoMap.len (GoMap.inner g.list v)
        = GoMap.pairCount g.list ∧
      (g.removeVertexStep v).size
        = wrapInt (g.size - (GoMap.len (GoMap.inner g.list v) : Int)) := by
  have hwf : GoMap.WF (GoMap.inner g.list v) := by
    unfold GoMap.inner
    cases hlk : GoMap.lookup g.list v with
    | none => exact List.nodup_nil
    | some adj => exact hw.2 (v, adj) (GoMap.mem_of_lookup g.list v adj hlk)
  have hnot : v ∉ GoMap.keys (GoMap.inner g.list v) :=
    (GoMap.lookup_eq_none_iff _ _).1 hl
  have hall : ∀ a ∈ GoMap.keys (GoMap.inner g.list v),
      GoMap.has (GoMap.inner g.list a) v = true := by
    intro a ha
    rw [GoMap.has_inner, hs a v, ← GoMap.has_inner]
    exact (GoMap.has_iff_mem_keys _ _).2 ha
  have h1 := GoMap.pairCount_foldl_update_delete (GoMap.keys (GoMap.inner g.list v)) v g.list
    hwf hw hall
  have hw1 := GoMap.WFall_foldl_update_delete (GoMap.keys (GoMap.inner g.list v)) v g.list hw
  have hin : GoMap.inner (stripFromNeighbours g.list v) v = GoMap.inner g.list v := by
    unfold GoMap.inner stripFromNeighbours
    rw [GoMap.lookup_foldl_update_of_not_mem _ (fun _ m => GoMap.delete m v) g.list v hnot]
  have h2 := GoMap.pairCount_delete (stripFromNeighbours g.list v) v hw1.1
  rw [hin] at h2
  have hlen : (GoMap.keys (GoMap.inner g.list v)).length = GoMap.len (GoMap.inner g.list v) := by
    simp [GoMap.keys, GoMap.len]
  unfold removeVertexStep
  simp only [hv, if_true, hin]
  constructor
  · unfold stripFromNeighbours at h2 ⊢
    omega
  · trivial

end weightedUndirected


namespace weightedUndirected

variable {α : Type} [DecidableEq α]

theorem loopFreeInv_ensureVertex (g : weightedUndirected α) (vs : List α)
    (h : g.LoopFreeInv) : (g.EnsureVertex vs).LoopFreeInv := by
  obtain ⟨hw, hs, hl, k, hk, hz⟩ := h
  refine ⟨?_, symmetric_ensureVertex g vs hs, ?_, k, ?_, ?_⟩
  · unfold EnsureVertex
    rw [baseWeighted.EnsureVertex_eq]
    exact baseWeighted.wfAll_ensureVertex g.tobaseWeighted vs hw
  · intro v
    unfold EnsureVertex
    rw [baseWeighted.EnsureVertex_eq]
    exact (baseWeighted.slot_ensureVertex g.tobaseWeighted vs v v).trans (hl v)
  · unfold EnsureVertex
    rw [baseWeighted.EnsureVertex_eq]
    exact (baseWeighted.pairCount_ensureVertex g.tobaseWeighted vs).trans hk
  · unfold EnsureVertex
    rw [baseWeighted.EnsureVertex_eq]
    exact (baseWeighted.size_ensureVertex g.tobaseWeighted vs).trans hz

theorem loopFreeInv_addEdgesStep (g : weightedUndirected α) (e : BaseWeightedEdge α)
    (hne : e.Source ≠ e.Target) (h : g.LoopFreeInv) : (g.addEdgesStep e).LoopFreeInv := by
  obtain ⟨hw, hs, hl, k, hk, hz⟩ := h
  have hne2 : e.U ≠ e.V := hne
  have hc := wu_count_addEdgesStep g e hs hne2
  have hsz := wu_size_addEdgesStep g e
  refine ⟨wfAll_addEdgesStep g e hw, symmetric_addEdgesStep g e hs, ?_, ?_⟩
  · intro a
    rw [wu_slot_addEdgesStep]
    have hcond : ¬((e.U = a ∧ e.V = a) ∨ (e.V = a ∧ e.U = a)) := by
      rintro (⟨h1, h2⟩ | ⟨h1, h2⟩)
      · exact hne2 (h1.trans h2.symm)
      · exact hne2 (h2.trans h1.symm)
    rw [if_neg hcond, ite_self]
    exact hl a
  · by_cases hex : (GoMap.slot g.list e.U e.V).isSome = true
    · rw [if_pos hex] at hc hsz
      exact ⟨k, hc.trans hk, hsz.trans hz⟩
    · rw [if_neg hex] at hc hsz
      refine ⟨k + 1, by omega, ?_⟩
      rw [hsz, hz, wrapInt_add_wrapInt]
      push_cast
      rfl

theorem loopFreeInv_removeEdgesStep (g : weightedUndirected α) (e : BaseWeightedEdge α)
    (h : g.LoopFreeInv) : (g.removeEdgesStep e).LoopFreeInv := by
  obtain ⟨hw, hs, hl, k, hk, hz⟩ := h
  refine ⟨wfAll_removeEdgesStep g e hw, symmetric_removeEdgesStep g e hs, ?_, ?_⟩
  · intro a
    rw [wu_slot_removeEdgesStep]
    split
    · split
      · rfl
      · exact hl a
    · exact hl a
  · by_cases hex : (GoMap.slot g.list e.U e.V).isSome = true
    · have hne : e.U ≠ e.V := by
        intro hc
        rw [← hc, hl e.U] at hex
        cases hex
      have hc := wu_count_removeEdgesStep g e hw hs hne hex
      have hsz := wu_size_removeEdgesStep g e hex
      refine ⟨k - 1, by omega, ?_⟩
      rw [hsz, hz, wrapInt_sub_wrapInt]
      have hcast : ((k - 1 : Nat) : Int) = (k : Int) - 1 := by omega
      rw [hcast]
    · have hex2 : (GoMap.slot g.list e.U e.V).isSome = false := by simpa using hex
      rw [wu_removeEdgesStep_of_absent g e hex2]
      exact ⟨k, hk, hz⟩

theorem loopFreeInv_removeVertexStep (g : weightedUndirected α) (v : α)
    (h : g.LoopFreeInv) : (g.removeVertexStep v).LoopFreeInv := by
  obtain ⟨hw, hs, hl, k, hk, hz⟩ := h
  by_cases hv : g.hasVertex v = true
  · refine ⟨wfAll_removeVertexStep g v hw, symmetric_removeVertexStep g v hs, ?_, ?_⟩
    · intro a
      rw [wu_slot_removeVertexStep g v a a hv]
      split
      · rfl
      · exact hl a
    · obtain ⟨hc, hsz⟩ := wu_count_removeVertexStep g v hw hs (hl v) hv
      refine ⟨k - GoMap.len (GoMap.inner g.list v), by omega, ?_⟩
      rw [hsz, hz, wrapInt_sub_wrapInt]
      have hcast : ((k - GoMap.len (GoMap.inner g.list v) : Nat) : Int)
          = (k : Int) - (GoMap.len (GoMap.inner g.list v) : Int) := by omega
      rw [hcast]
  · have he : g.removeVertexStep v = g := by
      unfold removeVertexStep
      simp [hv]
    rw [he]
    exact ⟨hw, hs, hl, k, hk, hz⟩

theorem ReachableLoopFree.inv {g : weightedUndirected α} (h : ReachableLoopFree g) :
    g.LoopFreeInv := by
  induction h with
  | init =>
    refine ⟨GoMap.WFall_nil, fun a b => rfl, fun v => rfl, 0, rfl, ?_⟩
    show (0 : Int) = wrapInt ((0 : Nat) : Int)
    rw [Nat.cast_zero, wrapInt_zero]
  | ensureVertex g vs _ ih => exact loopFreeInv_ensureVertex g vs ih
  | removeVertex g vs _ ih =>
    rw [wu_RemoveVertex_eq]
    exact foldl_invariant LoopFreeInv removeVertexStep loopFreeInv_removeVertexStep vs g ih
  | addEdges g es hes _ ih =>
    rw [wu_AddEdges_eq]
    exact foldl_invariant_mem LoopFreeInv addEdgesStep es
      (fun s e he hs => loopFreeInv_addEdgesStep s e (hes e he) hs) g ih
  | removeEdges g es _ ih =>
    rw [wu_RemoveEdges_eq]
    exact foldl_invariant LoopFreeInv removeEdgesStep loopFreeInv_removeEdgesStep es g ih

theorem ReachableLoopFree.wu_reachable {g : weightedUndirected α} (h : ReachableLoopFree g) :
    Reachable g := by
  induction h with
  | init => exact .init
  | ensureVertex g vs _ ih => exact .ensureVertex g vs ih
  | removeVertex g vs _ ih => exact .removeVertex g vs ih
  | addEdges g es _ _ ih => exact .addEdges g es ih
  | removeEdges g es _ ih => exact .removeEdges g es ih

theorem sum_DegreeOf (g : weightedUndirected α) (hw : GoMap.WFall g.list) :
    ((GoMap.keys g.list).map (fun v => (g.DegreeOf v).1)).sum
      = ((GoMap.pairCount g.list : Nat) : Int) := by
  rw [← GoMap.sum_len_inner g.list hw.1, ← sum_map_natCast]
  congr 1
  apply List.map_congr_left
  intro v hv
  have hv2 : g.hasVertex v = true := (GoMap.has_iff_mem_keys g.list v).2 hv
  simp [weightedUndirected.DegreeOf, hv2]

end weightedUndirected


/-! ## The specification, claim by claim -/

/-- C1, the code at the input of the package test: after `AddEdge` of (1,2), (2,3), (4,1),
`RemoveVertex(1)` returns true and leaves the single arc (2,3), but `Size()` is 2: the counter
was lowered for the in-arc (4,1) only, not for the out-arc (1,2). -/
theorem C1_RemoveVertex_forgets_out_arcs :
    (((((NewAdjacencyList : AdjacencyList Nat).AddEdge ⟨1, 2⟩).1.AddEdge ⟨2, 3⟩).1.AddEdge
        ⟨4, 1⟩).1.RemoveVertex 1)
      = (⟨[(2, [(3, ())]), (3, []), (4, [])], 2⟩, true) := by
  decide

/-- C2: in every weighted directed store reachable from the empty store by `EnsureVertex`,
`RemoveVertex`, `AddEdges` and `RemoveEdges` (self-loops allowed) the stored (source, target)
pairs are pairwise distinct, they are exactly the pairs for which `HasEdge` holds, and `Size()`
is their number: as an `int`, that is whenever the number is below 2^63, which every map that
fits in memory satisfies. -/
theorem C2_directed_size_is_pair_count {α : Type} [DecidableEq α] (g : weightedDirected α)
    (hg : weightedDirected.Reachable g) :
    (GoMap.storedPairs g.list).Nodup ∧
    (∀ u v, (u, v) ∈ GoMap.storedPairs g.list ↔ g.HasEdge ⟨u, v⟩ = true) ∧
    g.Size = wrapInt ((GoMap.storedPairs g.list).length : Int) ∧
    (((GoMap.storedPairs g.list).length : Int) < 9223372036854775808 →
      g.Size = ((GoMap.storedPairs g.list).length : Int)) := by
  have hinv := hg.countInv
  have hsize : g.Size = wrapInt ((GoMap.storedPairs g.list).length : Int) := by
    rw [GoMap.length_storedPairs]
    exact hinv.2
  refine ⟨GoMap.nodup_storedPairs g.list hinv.1, ?_, hsize, ?_⟩
  · intro u v
    rw [GoMap.mem_storedPairs_iff g.list hinv.1.1, weightedDirected.wd_HasEdge_eq]
  · intro hlt
    rw [hsize]
    exact wrapInt_of_small _ (Int.natCast_nonneg _) hlt

/-- C2 at a concrete store: three edges added, one of them a self-loop, then vertex 2
removed. -/
theorem C2_directed_size_is_pair_count_witness :
    weightedDirected.Reachable
        (((NewWeightedDirected : weightedDirected Nat).AddEdges
          [⟨⟨1, 2⟩, 5⟩, ⟨⟨2, 3⟩, 7⟩, ⟨⟨1, 1⟩, 1⟩]).RemoveVertex [2]) ∧
      (((NewWeightedDirected : weightedDirected Nat).AddEdges
          [⟨⟨1, 2⟩, 5⟩, ⟨⟨2, 3⟩, 7⟩, ⟨⟨1, 1⟩, 1⟩]).RemoveVertex [2]).Size =
        ((GoMap.storedPairs (((NewWeightedDirected : weightedDirected Nat).AddEdges
          [⟨⟨1, 2⟩, 5⟩, ⟨⟨2, 3⟩, 7⟩, ⟨⟨1, 1⟩, 1⟩]).RemoveVertex [2]).list).length : Int) :=
  ⟨.removeVertex _ _ (.addEdges _ _ .init),
    (C2_directed_size_is_pair_count _ (.removeVertex _ _ (.addEdges _ _ .init))).2.2.2
      (by decide)⟩

/-- C3, the code on a self-loop: after `AddEdges((1,1,5))` on the empty undirected store,
`RemoveVertex(1)` empties the store, yet `Size()` stays 1 while no logical edge is stored. -/
theorem C3_RemoveVertex_miscounts_self_loop :
    ((NewWeightedUndirected : weightedUndirected Nat).AddEdges [⟨⟨1, 1⟩, 5⟩]).RemoveVertex [1]
        = ⟨⟨[], 1⟩⟩ ∧
      (((NewWeightedUndirected : weightedUndirected Nat).AddEdges
        [⟨⟨1, 1⟩, 5⟩]).RemoveVertex [1]).edgeCount = 0 := by
  decide

/-- C4: in every state of each store (`AdjacencyList`, weighted directed, weighted undirected)
reachable from the empty store by its public mutators, the key of every adjacency entry and
every vertex that appears as a target inside it are keys of the top-level mapping; so on the
weighted stores `HasVertex` holds for both endpoints of every edge that `HasEdge` reports. -/
theorem C4_no_dangling_adjacency {α : Type} [DecidableEq α] :
    (∀ g : AdjacencyList α, AdjacencyList.Reachable g →
      ∀ p ∈ g.list, ∀ v ∈ GoMap.keys p.2, g.HasVertex p.1 = true ∧ g.HasVertex v = true) ∧
    (∀ g : weightedDirected α, weightedDirected.Reachable g →
      (∀ p ∈ g.list, ∀ v ∈ GoMap.keys p.2, g.HasVertex p.1 = true ∧ g.HasVertex v = true) ∧
      ∀ u v, g.HasEdge ⟨u, v⟩ = true → g.HasVertex u = true ∧ g.HasVertex v = true) ∧
    (∀ g : weightedUndirected α, weightedUndirected.Reachable g →
      (∀ p ∈ g.list, ∀ v ∈ GoMap.keys p.2, g.HasVertex p.1 = true ∧ g.HasVertex v = true) ∧
      ∀ u v, g.HasEdge ⟨u, v⟩ = true → g.HasVertex u = true ∧ g.HasVertex v = true) := by
  have hslot : ∀ (m : GoMap α (GoMap α Int)), GoMap.NoDangling m → ∀ u v,
      (GoMap.slot m u v).isSome = true → GoMap.has m u = true ∧ GoMap.has m v = true := by
    intro m hd u v huv
    refine ⟨?_, hd u v huv⟩
    have hl := GoMap.lookup_of_has_inner m u v huv
    simp [GoMap.has, hl]
  refine ⟨?_, ?_, ?_⟩
  · intro g hg p hp v hv
    exact GoMap.endpoints_resident g.list hg.structure.1.1 hg.structure.2 p hp v hv
  · intro g hg
    refine ⟨?_, ?_⟩
    · intro p hp v hv
      exact GoMap.endpoints_resident g.list hg.countInv.1.1 hg.wd_noDangling p hp v hv
    · intro u v huv
      rw [weightedDirected.wd_HasEdge_eq] at huv
      exact hslot g.list hg.wd_noDangling u v huv
  · intro g hg
    refine ⟨?_, ?_⟩
    · intro p hp v hv
      exact GoMap.endpoints_resident g.list hg.wfAll.1 hg.wu_noDangling p hp v hv
    · intro u v huv
      rw [weightedUndirected.wu_HasEdge_eq, Bool.or_eq_true] at huv
      rcases huv with huv | huv
      · exact hslot g.list hg.wu_noDangling u v huv
      · exact (hslot g.list hg.wu_noDangling v u huv).symm

/-- C4 at a concrete store: after removing vertex 2 from the undirected store holding the edges
{1,2}, {2,3} and {3,1}, both endpoints of the remaining edge are vertices. -/
theorem C4_no_dangling_adjacency_witness :
    weightedUndirected.Reachable
        (((NewWeightedUndirected : weightedUndirected Nat).AddEdges
          [⟨⟨1, 2⟩, 5⟩, ⟨⟨2, 3⟩, 7⟩, ⟨⟨3, 1⟩, 1⟩]).RemoveVertex [2]) ∧
      (((NewWeightedUndirected : weightedUndirected Nat).AddEdges
          [⟨⟨1, 2⟩, 5⟩, ⟨⟨2, 3⟩, 7⟩, ⟨⟨3, 1⟩, 1⟩]).RemoveVertex [2]).HasEdge ⟨1, 3⟩ = true ∧
      (((NewWeightedUndirected : weightedUndirected Nat).AddEdges
          [⟨⟨1, 2⟩, 5⟩, ⟨⟨2, 3⟩, 7⟩, ⟨⟨3, 1⟩, 1⟩]).RemoveVertex [2]).HasVertex 1 = true ∧
      (((NewWeightedUndirected : weightedUndirected Nat).AddEdges
          [⟨⟨1, 2⟩, 5⟩, ⟨⟨2, 3⟩, 7⟩, ⟨⟨3, 1⟩, 1⟩]).RemoveVertex [2]).HasVertex 3 = true :=
  ⟨.removeVertex _ _ (.addEdges _ _ .init), by decide,
    ((C4_no_dangling_adjacency.2.2 _ (.removeVertex _ _ (.addEdges _ _ .init))).2 1 3
      (by decide))⟩

/-- C5: in every weighted undirected store reachable from the empty store by `EnsureVertex`,
`AddEdges`, `RemoveEdges` and `RemoveVertex`, the slot (u,v) holds weight w iff the slot (v,u)
holds weight w; hence `HasEdge` and `HasWeightedEdge` do not depend on the orientation of the
queried edge, and after `AddEdges((u,v,w))` the query `HasEdge((v,u))` is true. -/
theorem C5_undirected_symmetry {α : Type} [DecidableEq α] (g : weightedUndirected α)
    (hg : weightedUndirected.Reachable g) :
    (∀ u v w, GoMap.slot g.list u v = some w ↔ GoMap.slot g.list v u = some w) ∧
    (∀ u v, g.HasEdge ⟨u, v⟩ = g.HasEdge ⟨v, u⟩) ∧
    (∀ u v w, g.HasWeightedEdge ⟨⟨u, v⟩, w⟩ = g.HasWeightedEdge ⟨⟨v, u⟩, w⟩) ∧
    (∀ u v w, (g.AddEdges [⟨⟨u, v⟩, w⟩]).HasEdge ⟨v, u⟩ = true) := by
  have hsym := hg.symmetric
  refine ⟨?_, ?_, ?_, ?_⟩
  · intro u v w
    rw [hsym u v]
  · intro u v
    rw [weightedUndirected.wu_HasEdge_eq, weightedUndirected.wu_HasEdge_eq, Bool.or_comm]
  · intro u v w
    rw [Bool.eq_iff_iff, weightedUndirected.wu_HasWeightedEdge_iff,
      weightedUndirected.wu_HasWeightedEdge_iff, hsym v u]
  · intro u v w
    rw [weightedUndirected.wu_AddEdges_singleton, weightedUndirected.wu_HasEdge_eq,
      weightedUndirected.wu_slot_addEdgesStep, weightedUndirected.wu_slot_addEdgesStep]
    simp only
    by_cases hex : (GoMap.slot g.list u v).isSome = true
    · simp [hex, hsym v u]
    · simp [hex]

/-- C5 at a concrete store: after `AddEdges((1,2,5))` both slots hold 5. -/
theorem C5_undirected_symmetry_witness :
    weightedUndirected.Reachable
        ((NewWeightedUndirected : weightedUndirected Nat).AddEdges [⟨⟨1, 2⟩, 5⟩]) ∧
      (GoMap.slot ((NewWeightedUndirected : weightedUndirected Nat).AddEdges
          [⟨⟨1, 2⟩, 5⟩]).list 1 2 = some 5 ↔
        GoMap.slot ((NewWeightedUndirected : weightedUndirected Nat).AddEdges
          [⟨⟨1, 2⟩, 5⟩]).list 2 1 = some 5) :=
  ⟨.addEdges _ _ .init, (C5_undirected_symmetry _ (.addEdges _ _ .init)).1 1 2 5⟩

/-- C6: on each of the three stores, after adding a vertex v (`AddVertex`, `EnsureVertex`)
`HasVertex(v)` is true, after a subsequent `RemoveVertex(v)` it is false, and both operations
leave `HasVertex(x)` unchanged for every other vertex x. -/
theorem C6_vertex_membership {α : Type} [DecidableEq α] :
    (∀ (g : AdjacencyList α) (v : α),
      (g.AddVertex v).1.HasVertex v = true ∧
      ((g.AddVertex v).1.RemoveVertex v).1.HasVertex v = false ∧
      ∀ x, x ≠ v → (g.AddVertex v).1.HasVertex x = g.HasVertex x ∧
        (g.RemoveVertex v).1.HasVertex x = g.HasVertex x) ∧
    (∀ (g : weightedDirected α) (v : α),
      (g.EnsureVertex [v]).HasVertex v = true ∧
      ((g.EnsureVertex [v]).RemoveVertex [v]).HasVertex v = false ∧
      ∀ x, x ≠ v → (g.EnsureVertex [v]).HasVertex x = g.HasVertex x ∧
        (g.RemoveVertex [v]).HasVertex x = g.HasVertex x) ∧
    (∀ (g : weightedUndirected α) (v : α),
      (g.EnsureVertex [v]).HasVertex v = true ∧
      ((g.EnsureVertex [v]).RemoveVertex [v]).HasVertex v = false ∧
      ∀ x, x ≠ v → (g.EnsureVertex [v]).HasVertex x = g.HasVertex x ∧
        (g.RemoveVertex [v]).HasVertex x = g.HasVertex x) := by
  refine ⟨?_, ?_, ?_⟩
  · intro g v
    simp only [AdjacencyList.HasVertex, AdjacencyList.AddVertex]
    refine ⟨?_, ?_, ?_⟩
    · rw [AdjacencyList.hasVertex_addVertex]
      simp
    · rw [AdjacencyList.hasVertex_RemoveVertex]
      simp
    · intro x hx
      rw [AdjacencyList.hasVertex_addVertex, AdjacencyList.hasVertex_RemoveVertex]
      simp [Ne.symm hx]
  · intro g v
    simp only [baseWeighted.HasVertex, weightedDirected.EnsureVertex,
      weightedDirected.wd_RemoveVertex_singleton]
    refine ⟨?_, ?_, ?_⟩
    · rw [baseWeighted.hasVertex_EnsureVertex_singleton]
      simp
    · rw [weightedDirected.wd_hasVertex_removeVertexStep]
      simp
    · intro x hx
      rw [baseWeighted.hasVertex_EnsureVertex_singleton,
        weightedDirected.wd_hasVertex_removeVertexStep]
      simp [Ne.symm hx]
  · intro g v
    simp only [baseWeighted.HasVertex, weightedUndirected.EnsureVertex,
      weightedUndirected.wu_RemoveVertex_singleton]
    refine ⟨?_, ?_, ?_⟩
    · rw [baseWeighted.hasVertex_EnsureVertex_singleton]
      simp
    · rw [weightedUndirected.wu_hasVertex_removeVertexStep]
      simp
    · intro x hx
      rw [baseWeighted.hasVertex_EnsureVertex_singleton,
        weightedUndirected.wu_hasVertex_removeVertexStep]
      simp [Ne.symm hx]

/-- C6 at a concrete store: adding and removing vertex 1 leaves the membership of vertex 2. -/
theorem C6_vertex_membership_witness :
    (2 : Nat) ≠ 1 ∧
      (((NewWeightedDirected : weightedDirected Nat).AddEdges [⟨⟨2, 1⟩, 7⟩]).EnsureVertex
          [1]).HasVertex 2 =
        ((NewWeightedDirected : weightedDirected Nat).AddEdges [⟨⟨2, 1⟩, 7⟩]).HasVertex 2 ∧
      (((NewWeightedDirected : weightedDirected Nat).AddEdges [⟨⟨2, 1⟩, 7⟩]).RemoveVertex
          [1]).HasVertex 2 =
        ((NewWeightedDirected : weightedDirected Nat).AddEdges [⟨⟨2, 1⟩, 7⟩]).HasVertex 2 :=
  ⟨by decide, (C6_vertex_membership.2.1 _ 1).2.2 2 (by decide)⟩

/-- C7: on each of the three stores, after `AddEdge`/`AddEdges` of an edge (u,v) (any weight,
u = v included) both endpoints are vertices and the arc u→v is present: v is enumerated by
`EachAdjacent(u)` on `AdjacencyList`, `HasEdge((u,v))` is true on the weighted stores. -/
theorem C7_added_edge_is_present {α : Type} [DecidableEq α] :
    (∀ (g : AdjacencyList α) (u v : α),
      (g.AddEdge ⟨u, v⟩).1.HasVertex u = true ∧ (g.AddEdge ⟨u, v⟩).1.HasVertex v = true ∧
      v ∈ (g.AddEdge ⟨u, v⟩).1.EachAdjacent u) ∧
    (∀ (g : weightedDirected α) (u v : α) (w : Int),
      (g.AddEdges [⟨⟨u, v⟩, w⟩]).HasVertex u = true ∧
      (g.AddEdges [⟨⟨u, v⟩, w⟩]).HasVertex v = true ∧
      (g.AddEdges [⟨⟨u, v⟩, w⟩]).HasEdge ⟨u, v⟩ = true) ∧
    (∀ (g : weightedUndirected α) (u v : α) (w : Int),
      (g.AddEdges [⟨⟨u, v⟩, w⟩]).HasVertex u = true ∧
      (g.AddEdges [⟨⟨u, v⟩, w⟩]).HasVertex v = true ∧
      (g.AddEdges [⟨⟨u, v⟩, w⟩]).HasEdge ⟨u, v⟩ = true) := by
  refine ⟨?_, ?_, ?_⟩
  · intro g u v
    have hu : (g.addEdge ⟨u, v⟩).1.hasVertex u = true := by
      rw [AdjacencyList.hasVertex_addEdge]
      simp
    refine ⟨hu, ?_, ?_⟩
    · show (g.addEdge ⟨u, v⟩).1.hasVertex v = true
      rw [AdjacencyList.hasVertex_addEdge]
      simp
    · have hs := AdjacencyList.slot_addEdge g ⟨u, v⟩ u v
      simp only [and_self, if_true] at hs
      unfold AdjacencyList.EachAdjacent
      simp only [AdjacencyList.AddEdge]
      rw [if_pos (show GoMap.has (g.addEdge ⟨u, v⟩).1.list u = true from hu),
        ← GoMap.has_iff_mem_keys, GoMap.has_inner, hs]
      rfl
  · intro g u v w
    simp only [weightedDirected.wd_AddEdges_singleton, baseWeighted.HasVertex]
    refine ⟨?_, ?_, ?_⟩
    · rw [weightedDirected.wd_hasVertex_addEdgesStep]
      simp
    · rw [weightedDirected.wd_hasVertex_addEdgesStep]
      simp
    · rw [weightedDirected.wd_HasEdge_eq, weightedDirected.wd_slot_addEdgesStep]
      simp
  · intro g u v w
    simp only [weightedUndirected.wu_AddEdges_singleton, baseWeighted.HasVertex]
    refine ⟨?_, ?_, ?_⟩
    · rw [weightedUndirected.wu_hasVertex_addEdgesStep]
      simp
    · rw [weightedUndirected.wu_hasVertex_addEdgesStep]
      simp
    · rw [weightedUndirected.wu_HasEdge_eq, weightedUndirected.wu_slot_addEdgesStep]
      by_cases hex : (GoMap.slot g.list u v).isSome = true
      · simp [hex]
      · simp [hex]

/-- C8: adding is idempotent on each of the three stores: a second `AddVertex`/`EnsureVertex`
of v, or a second `AddEdge`/`AddEdges` of e, right after the first leaves the whole store state
(every adjacency map, every stored weight and the edge counter, so `Order()` and `Size()` too)
as it was after the first. -/
theorem C8_adding_twice_is_adding_once {α : Type} [DecidableEq α] :
    (∀ (g : AdjacencyList α) (v : α), ((g.AddVertex v).1.AddVertex v).1 = (g.AddVertex v).1) ∧
    (∀ (g : AdjacencyList α) (e : BaseEdge α), ((g.AddEdge e).1.AddEdge e).1 = (g.AddEdge e).1) ∧
    (∀ (g : weightedDirected α) (v : α),
      (g.EnsureVertex [v]).EnsureVertex [v] = g.EnsureVertex [v]) ∧
    (∀ (g : weightedDirected α) (e : BaseWeightedEdge α),
      (g.AddEdges [e]).AddEdges [e] = g.AddEdges [e]) ∧
    (∀ (g : weightedUndirected α) (v : α),
      (g.EnsureVertex [v]).EnsureVertex [v] = g.EnsureVertex [v]) ∧
    (∀ (g : weightedUndirected α) (e : BaseWeightedEdge α),
      (g.AddEdges [e]).AddEdges [e] = g.AddEdges [e]) := by
  have hens : ∀ (g : baseWeighted α) (v : α),
      (g.EnsureVertex [v]).EnsureVertex [v] = g.EnsureVertex [v] := by
    intro g v
    show (g.ensureVertexStep v).ensureVertexStep v = g.ensureVertexStep v
    apply baseWeighted.ensureVertexStep_of_hasVertex
    rw [baseWeighted.hasVertex_ensureVertexStep]
    simp
  refine ⟨?_, ?_, ?_, ?_, ?_, ?_⟩
  · intro g v
    simp only [AdjacencyList.AddVertex]
    rw [AdjacencyList.addVertex_of_hasVertex]
    rw [AdjacencyList.hasVertex_addVertex]
    simp
  · intro g e
    simp only [AdjacencyList.AddEdge]
    rw [AdjacencyList.addEdge_of_present]
    · rw [AdjacencyList.hasVertex_addEdge]
      simp
    · rw [AdjacencyList.hasVertex_addEdge]
      simp
    · rw [AdjacencyList.slot_addEdge]
      simp
  · intro g v
    simp only [weightedDirected.EnsureVertex, hens]
  · intro g e
    simp only [weightedDirected.wd_AddEdges_singleton]
    apply weightedDirected.wd_addEdgesStep_of_present
    · rw [weightedDirected.wd_hasVertex_addEdgesStep]
      simp
    · rw [weightedDirected.wd_hasVertex_addEdgesStep]
      simp
    · rw [weightedDirected.wd_slot_addEdgesStep]
      simp
  · intro g v
    simp only [weightedUndirected.EnsureVertex, hens]
  · intro g e
    simp only [weightedUndirected.wu_AddEdges_singleton]
    apply weightedUndirected.wu_addEdgesStep_of_present
    · rw [weightedUndirected.wu_hasVertex_addEdgesStep]
      simp
    · rw [weightedUndirected.wu_hasVertex_addEdgesStep]
      simp
    · rw [weightedUndirected.wu_slot_addEdgesStep]
      by_cases hex : (GoMap.slot g.list e.U e.V).isSome = true
      · simp [hex]
      · simp [hex]

/-- C9: in a weighted directed store `AddEdges((u,v,w))` and `RemoveEdges((u,v,w))` change no
adjacency slot other than (u,v); so for u ≠ v they leave `HasEdge((v,u))` and the stored weight
of (v,u) as they were; and on the empty store `AddEdges((1,2,5))` gives `HasEdge((1,2))` true
and `HasEdge((2,1))` false. -/
theorem C9_directed_orientations_independent {α : Type} [DecidableEq α] :
    (∀ (g : weightedDirected α) (u v : α) (w : Int) (a b : α), (a, b) ≠ (u, v) →
      GoMap.slot (g.AddEdges [⟨⟨u, v⟩, w⟩]).list a b = GoMap.slot g.list a b ∧
      GoMap.slot (g.RemoveEdges [⟨⟨u, v⟩, w⟩]).list a b = GoMap.slot g.list a b) ∧
    (∀ (g : weightedDirected α) (u v : α) (w : Int), u ≠ v →
      (g.AddEdges [⟨⟨u, v⟩, w⟩]).HasEdge ⟨v, u⟩ = g.HasEdge ⟨v, u⟩ ∧
      (g.RemoveEdges [⟨⟨u, v⟩, w⟩]).HasEdge ⟨v, u⟩ = g.HasEdge ⟨v, u⟩ ∧
      GoMap.slot (g.AddEdges [⟨⟨u, v⟩, w⟩]).list v u = GoMap.slot g.list v u ∧
      GoMap.slot (g.RemoveEdges [⟨⟨u, v⟩, w⟩]).list v u = GoMap.slot g.list v u) ∧
    ((NewWeightedDirected : weightedDirected Nat).AddEdges [⟨⟨1, 2⟩, 5⟩]).HasEdge ⟨1, 2⟩ = true ∧
    ((NewWeightedDirected : weightedDirected Nat).AddEdges [⟨⟨1, 2⟩, 5⟩]).HasEdge ⟨2, 1⟩
      = false := by
  have key : ∀ (g : weightedDirected α) (u v : α) (w : Int) (a b : α), ¬(u = a ∧ v = b) →
      GoMap.slot (g.AddEdges [⟨⟨u, v⟩, w⟩]).list a b = GoMap.slot g.list a b ∧
      GoMap.slot (g.RemoveEdges [⟨⟨u, v⟩, w⟩]).list a b = GoMap.slot g.list a b := by
    intro g u v w a b hne
    rw [weightedDirected.wd_AddEdges_singleton, weightedDirected.wd_RemoveEdges_singleton,
      weightedDirected.wd_slot_addEdgesStep, weightedDirected.wd_slot_removeEdgesStep]
    simp only [hne, if_false, and_self]
  refine ⟨?_, ?_, by decide, by decide⟩
  · intro g u v w a b hne
    apply key
    rintro ⟨h1, h2⟩
    exact hne (by rw [h1, h2])
  · intro g u v w hne
    have hk := key g u v w v u (fun h => hne h.1)
    refine ⟨?_, ?_, hk.1, hk.2⟩
    · rw [weightedDirected.wd_HasEdge_eq, weightedDirected.wd_HasEdge_eq, hk.1]
    · rw [weightedDirected.wd_HasEdge_eq, weightedDirected.wd_HasEdge_eq, hk.2]

/-- C9 at a concrete store: adding (1,2,5) to a store that holds (2,1,9) leaves the slot (2,1). -/
theorem C9_directed_orientations_independent_witness :
    ((2 : Nat), (1 : Nat)) ≠ (1, 2) ∧
      GoMap.slot (((NewWeightedDirected : weightedDirected Nat).AddEdges [⟨⟨2, 1⟩, 9⟩]).AddEdges
        [⟨⟨1, 2⟩, 5⟩]).list 2 1 =
      GoMap.slot ((NewWeightedDirected : weightedDirected Nat).AddEdges [⟨⟨2, 1⟩, 9⟩]).list 2 1 :=
  ⟨by decide, ((C9_directed_orientations_independent.1 _ 1 2 5 2 1) (by decide)).1⟩

/-- C10: on both weighted stores `HasWeightedEdge((u,v,w))` is true iff an edge connecting u
and v (the arc u→v; for the undirected store the slot (u,v), or failing that the slot (v,u)) is
stored and its stored weight equals w, whereas `HasEdge((u,v))` is true iff such an edge is
stored, whatever its weight; hence `HasWeightedEdge` implies `HasEdge`, and after adding
(1,2,5) to an empty store `HasWeightedEdge((1,2,5))` is true, `HasWeightedEdge((1,2,3))` is
false and `HasEdge((1,2))` is true.  In a reachable undirected store the two slots agree, so
the test is simply that the slot (u,v) holds w. -/
theorem C10_weighted_edge_membership {α : Type} [DecidableEq α] :
    (∀ (g : weightedDirected α) (u v : α) (w : Int),
      (g.HasWeightedEdge ⟨⟨u, v⟩, w⟩ = true ↔ GoMap.slot g.list u v = some w) ∧
      (g.HasEdge ⟨u, v⟩ = true ↔ ∃ w0, GoMap.slot g.list u v = some w0) ∧
      (g.HasWeightedEdge ⟨⟨u, v⟩, w⟩ = true → g.HasEdge ⟨u, v⟩ = true)) ∧
    (∀ (g : weightedUndirected α) (u v : α) (w : Int),
      (g.HasWeightedEdge ⟨⟨u, v⟩, w⟩ = true ↔
        GoMap.slot g.list u v = some w ∨
          (GoMap.slot g.list u v = none ∧ GoMap.slot g.list v u = some w)) ∧
      (g.HasEdge ⟨u, v⟩ = true ↔
        (∃ w0, GoMap.slot g.list u v = some w0) ∨ ∃ w0, GoMap.slot g.list v u = some w0) ∧
      (g.HasWeightedEdge ⟨⟨u, v⟩, w⟩ = true → g.HasEdge ⟨u, v⟩ = true) ∧
      (weightedUndirected.Reachable g →
        (g.HasWeightedEdge ⟨⟨u, v⟩, w⟩ = true ↔ GoMap.slot g.list u v = some w))) ∧
    (((NewWeightedDirected : weightedDirected Nat).AddEdges
        [⟨⟨1, 2⟩, 5⟩]).HasWeightedEdge ⟨⟨1, 2⟩, 5⟩ = true ∧
      ((NewWeightedDirected : weightedDirected Nat).AddEdges
        [⟨⟨1, 2⟩, 5⟩]).HasWeightedEdge ⟨⟨1, 2⟩, 3⟩ = false ∧
      ((NewWeightedDirected : weightedDirected Nat).AddEdges
        [⟨⟨1, 2⟩, 5⟩]).HasEdge ⟨1, 2⟩ = true) ∧
    (((NewWeightedUndirected : weightedUndirected Nat).AddEdges
        [⟨⟨1, 2⟩, 5⟩]).HasWeightedEdge ⟨⟨1, 2⟩, 5⟩ = true ∧
      ((NewWeightedUndirected : weightedUndirected Nat).AddEdges
        [⟨⟨1, 2⟩, 5⟩]).HasWeightedEdge ⟨⟨1, 2⟩, 3⟩ = false ∧
      ((NewWeightedUndirected : weightedUndirected Nat).AddEdges
        [⟨⟨1, 2⟩, 5⟩]).HasEdge ⟨1, 2⟩ = true) := by
  refine ⟨?_, ?_, by decide, by decide⟩
  · intro g u v w
    have h2 : g.HasEdge ⟨u, v⟩ = true ↔ ∃ w0, GoMap.slot g.list u v = some w0 := by
      rw [weightedDirected.wd_HasEdge_eq, Option.isSome_iff_exists]
    refine ⟨weightedDirected.wd_HasWeightedEdge_iff g u v w, h2, ?_⟩
    intro h
    exact h2.2 ⟨w, (weightedDirected.wd_HasWeightedEdge_iff g u v w).1 h⟩
  · intro g u v w
    have h1 := weightedUndirected.wu_HasWeightedEdge_iff g u v w
    have h2 : g.HasEdge ⟨u, v⟩ = true ↔
        (∃ w0, GoMap.slot g.list u v = some w0) ∨ ∃ w0, GoMap.slot g.list v u = some w0 := by
      rw [weightedUndirected.wu_HasEdge_eq, Bool.or_eq_true, Option.isSome_iff_exists,
        Option.isSome_iff_exists]
    refine ⟨h1, h2, ?_, ?_⟩
    · intro h
      rcases h1.1 h with h3 | ⟨_, h3⟩
      · exact h2.2 (Or.inl ⟨w, h3⟩)
      · exact h2.2 (Or.inr ⟨w, h3⟩)
    · intro hg
      rw [h1]
      constructor
      · rintro (h3 | ⟨_, h3⟩)
        · exact h3
        · rw [hg.symmetric u v]
          exact h3
      · intro h3
        exact Or.inl h3

/-- C10 at a concrete store: in the undirected store holding (1,2,5) the query for (2,1,5)
succeeds because the slot (2,1) holds 5. -/
theorem C10_weighted_edge_membership_witness :
    weightedUndirected.Reachable
        ((NewWeightedUndirected : weightedUndirected Nat).AddEdges [⟨⟨1, 2⟩, 5⟩]) ∧
      (((NewWeightedUndirected : weightedUndirected Nat).AddEdges
          [⟨⟨1, 2⟩, 5⟩]).HasWeightedEdge ⟨⟨2, 1⟩, 5⟩ = true ↔
        GoMap.slot ((NewWeightedUndirected : weightedUndirected Nat).AddEdges
          [⟨⟨1, 2⟩, 5⟩]).list 2 1 = some 5) :=
  ⟨.addEdges _ _ .init,
    (C10_weighted_edge_membership.2.1 _ 2 1 5).2.2.2 (.addEdges _ _ .init)⟩



/-- C11: first write wins on both weighted stores.  If the pair (u,v) is stored with weight
w1, `AddEdges((u,v,w2))` leaves the stored weight w1 and `Size()` as they were, for every w2;
in a reachable undirected store this also holds when the edge is stored as (v,u).  After an
`AddEdges` batch the weight stored for a pair is the one it had before the call, or else the
weight of the first edge of the batch that names the pair (in either orientation for a
reachable undirected store). -/
theorem C11_first_write_wins {α : Type} [DecidableEq α] :
    (∀ (g : weightedDirected α) (u v : α) (w1 w2 : Int), GoMap.slot g.list u v = some w1 →
      GoMap.slot (g.AddEdges [⟨⟨u, v⟩, w2⟩]).list u v = some w1 ∧
      (g.AddEdges [⟨⟨u, v⟩, w2⟩]).Size = g.Size) ∧
    (∀ (g : weightedUndirected α) (u v : α) (w1 w2 : Int), GoMap.slot g.list u v = some w1 →
      GoMap.slot (g.AddEdges [⟨⟨u, v⟩, w2⟩]).list u v = some w1 ∧
      (g.AddEdges [⟨⟨u, v⟩, w2⟩]).Size = g.Size) ∧
    (∀ (g : weightedUndirected α) (u v : α) (w1 w2 : Int), weightedUndirected.Reachable g →
      GoMap.slot g.list v u = some w1 →
      GoMap.slot (g.AddEdges [⟨⟨u, v⟩, w2⟩]).list u v = some w1 ∧
      GoMap.slot (g.AddEdges [⟨⟨u, v⟩, w2⟩]).list v u = some w1 ∧
      (g.AddEdges [⟨⟨u, v⟩, w2⟩]).Size = g.Size) ∧
    (∀ (g : weightedDirected α) (es : List (BaseWeightedEdge α)) (u v : α),
      GoMap.slot (g.AddEdges es).list u v =
        (GoMap.slot g.list u v).or
          ((es.find? (fun e => decide (e.U = u ∧ e.V = v))).map (fun e => e.W))) ∧
    (∀ (g : weightedUndirected α) (es : List (BaseWeightedEdge α)) (u v : α),
      weightedUndirected.Reachable g →
      GoMap.slot (g.AddEdges es).list u v =
        (GoMap.slot g.list u v).or
          ((es.find? (fun e => decide ((e.U = u ∧ e.V = v) ∨ (e.U = v ∧ e.V = u)))).map
            (fun e => e.W))) ∧
    GoMap.slot ((NewWeightedDirected : weightedDirected Nat).AddEdges
      [⟨⟨1, 2⟩, 5⟩, ⟨⟨1, 2⟩, 7⟩]).list 1 2 = some 5 ∧
    GoMap.slot ((NewWeightedUndirected : weightedUndirected Nat).AddEdges
      [⟨⟨1, 2⟩, 5⟩, ⟨⟨2, 1⟩, 7⟩]).list 2 1 = some 5 := by
  have hu : ∀ (g : weightedUndirected α) (u v : α) (w1 w2 : Int),
      GoMap.slot g.list u v = some w1 →
      (∀ a b, GoMap.slot (g.AddEdges [⟨⟨u, v⟩, w2⟩]).list a b = GoMap.slot g.list a b) ∧
      (g.AddEdges [⟨⟨u, v⟩, w2⟩]).Size = g.Size := by
    intro g u v w1 w2 h
    rw [weightedUndirected.wu_AddEdges_singleton]
    constructor
    · intro a b
      rw [weightedUndirected.wu_slot_addEdgesStep]
      simp [h]
    · show (g.addEdgesStep ⟨⟨u, v⟩, w2⟩).size = g.size
      rw [weightedUndirected.wu_size_addEdgesStep]
      simp [h]
  refine ⟨?_, ?_, ?_, ?_, ?_, by decide, by decide⟩
  · intro g u v w1 w2 h
    rw [weightedDirected.wd_AddEdges_singleton]
    constructor
    · rw [weightedDirected.wd_slot_addEdgesStep]
      simp [h]
    · show (g.addEdgesStep ⟨⟨u, v⟩, w2⟩).size = g.size
      rw [weightedDirected.wd_size_addEdgesStep]
      simp [h]
  · intro g u v w1 w2 h
    obtain ⟨h1, h2⟩ := hu g u v w1 w2 h
    exact ⟨by rw [h1, h], h2⟩
  · intro g u v w1 w2 hg h
    have h' : GoMap.slot g.list u v = some w1 := by
      rw [hg.symmetric u v]
      exact h
    obtain ⟨h1, h2⟩ := hu g u v w1 w2 h'
    exact ⟨by rw [h1, h'], by rw [h1, h], h2⟩
  · intro g es u v
    exact weightedDirected.wd_slot_AddEdges es g u v
  · intro g es u v hg
    exact weightedUndirected.wu_slot_AddEdges es g hg.symmetric u v

/-- C11 at a concrete store: the directed store holds (1,2) with weight 5; adding (1,2,9)
keeps the weight 5. -/
theorem C11_first_write_wins_witness :
    GoMap.slot ((NewWeightedDirected : weightedDirected Nat).AddEdges [⟨⟨1, 2⟩, 5⟩]).list 1 2
        = some 5 ∧
      GoMap.slot (((NewWeightedDirected : weightedDirected Nat).AddEdges
        [⟨⟨1, 2⟩, 5⟩]).AddEdges [⟨⟨1, 2⟩, 9⟩]).list 1 2 = some 5 :=
  ⟨by decide, ((C11_first_write_wins.1 _ 1 2 5 9) (by decide)).1⟩

/-- C12: for every weighted directed store g with at least one vertex, `Transpose()` returns
a store that holds the arc v→u with weight w iff g holds the arc u→v with weight w; for the
store built from (foo,bar), (bar,baz) the transpose has (bar,foo) and (baz,bar) and neither
original arc.  The call only reads g. -/
theorem C12_transpose_reverses_arcs {α : Type} [DecidableEq α] :
    (∀ g : weightedDirected α, GoMap.WFall g.list → g.Order ≠ 0 →
      ∃ g2, g.Transpose = some g2 ∧
        (∀ u v w, GoMap.slot g2.list v u = some w ↔ GoMap.slot g.list u v = some w) ∧
        (∀ u v w, g2.HasWeightedEdge ⟨⟨v, u⟩, w⟩ = g.HasWeightedEdge ⟨⟨u, v⟩, w⟩) ∧
        (∀ u v, g2.HasEdge ⟨v, u⟩ = g.HasEdge ⟨u, v⟩)) ∧
    (((NewWeightedDirected : weightedDirected TestVertex).AddEdges
        [⟨⟨.foo, .bar⟩, 0⟩, ⟨⟨.bar, .baz⟩, 0⟩]).Transpose).map
      (fun g2 => (g2.HasEdge ⟨.bar, .foo⟩, g2.HasEdge ⟨.baz, .bar⟩,
        g2.HasEdge ⟨.foo, .bar⟩, g2.HasEdge ⟨.bar, .baz⟩))
      = some (true, true, false, false) := by
  refine ⟨?_, by decide⟩
  intro g hw hn
  refine ⟨_, weightedDirected.Transpose_of_order_ne_zero g hn, ?_, ?_, ?_⟩
  · intro u v w
    rw [weightedDirected.slot_foldl_transposeEntry_nil g.list hw]
  · intro u v w
    rw [Bool.eq_iff_iff, weightedDirected.wd_HasWeightedEdge_iff,
      weightedDirected.wd_HasWeightedEdge_iff,
      weightedDirected.slot_foldl_transposeEntry_nil g.list hw]
  · intro u v
    rw [weightedDirected.wd_HasEdge_eq, weightedDirected.wd_HasEdge_eq,
      weightedDirected.slot_foldl_transposeEntry_nil g.list hw]

/-- C12 at a concrete store: the transpose of the store holding (1,2,5) holds (2,1,5). -/
theorem C12_transpose_reverses_arcs_witness :
    GoMap.WFall ((NewWeightedDirected : weightedDirected Nat).AddEdges [⟨⟨1, 2⟩, 5⟩]).list ∧
      ((NewWeightedDirected : weightedDirected Nat).AddEdges [⟨⟨1, 2⟩, 5⟩]).Order ≠ 0 ∧
      ∃ g2, ((NewWeightedDirected : weightedDirected Nat).AddEdges [⟨⟨1, 2⟩, 5⟩]).Transpose
          = some g2 ∧
        GoMap.slot g2.list 2 1 = some 5 := by
  have hw : GoMap.WFall
      ((NewWeightedDirected : weightedDirected Nat).AddEdges [⟨⟨1, 2⟩, 5⟩]).list :=
    (weightedDirected.Reachable.countInv (.addEdges _ _ .init)).1
  have hn : ((NewWeightedDirected : weightedDirected Nat).AddEdges [⟨⟨1, 2⟩, 5⟩]).Order ≠ 0 := by
    decide
  obtain ⟨g2, h1, h2, _⟩ := C12_transpose_reverses_arcs.1 _ hw hn
  exact ⟨hw, hn, g2, h1, (h2 1 2 5).2 (by decide)⟩

/-- C13, the code on the empty store: `Transpose()` evaluates `g.Size() / g.Order()` with
order zero, an integer division by zero, so the call panics instead of returning a store; it
returns a store exactly when the store has a vertex. -/
theorem C13_transpose_panics_on_empty_store :
    (NewWeightedDirected : weightedDirected Nat).Transpose = none ∧
      ∀ g : weightedDirected Nat, g.Transpose = none ↔ g.Order = 0 :=
  ⟨by decide, weightedDirected.Transpose_eq_none_iff⟩

/-- C14, the code on the store built from (1,2,0), (2,3,0): `Size()` of the store is 2 and the
transpose stores the two reversed arcs, but `Size()` of the transpose is 0, because `Transpose`
never assigns the field `size` of the store it builds. -/
theorem C14_transpose_leaves_size_zero :
    ((NewWeightedDirected : weightedDirected Nat).AddEdges [⟨⟨1, 2⟩, 0⟩, ⟨⟨2, 3⟩, 0⟩]).Size = 2 ∧
      ((NewWeightedDirected : weightedDirected Nat).AddEdges
        [⟨⟨1, 2⟩, 0⟩, ⟨⟨2, 3⟩, 0⟩]).Transpose
        = some ⟨⟨[(1, []), (2, [(1, 0)]), (3, [(2, 0)])], 0⟩⟩ ∧
      ∀ g : weightedDirected Nat, (g.Transpose).map (fun g2 => g2.Size)
        = if g.Order = 0 then none else some 0 := by
  refine ⟨by decide, by decide, ?_⟩
  intro g
  by_cases h : g.Order = 0
  · rw [(weightedDirected.Transpose_eq_none_iff g).2 h]
    simp [h]
  · rw [weightedDirected.Transpose_of_order_ne_zero g h]
    simp [h, baseWeighted.Size]

/-- C15 as stated fails, for two reasons.  The result is a `float64` quotient, not an exact
rational: on the weighted directed path (1,2),(2,3) over three vertices `Density()` is
float64(2)/float64(6) = 6004799503160661 / 2^54, which is not 2/6.  And the product
order·(order−1) is computed in the machine word before the conversion: in the weighted directed
store with the 2^32 vertices 0, …, 2^32 − 1 and the single arc (0,1) the `int` product wraps to
−2^32, so `Density()` is −1 / 2^32 and not 1 / (2^32·(2^32 − 1)); in the `AdjacencyList` with
the 2^32 + 1 vertices 0, …, 2^32 and the single arc (0,1) the `uint` product wraps to 2^32, so
`Density()` is 2 / 2^32 and not 2·1 / ((2^32 + 1)·2^32). -/
theorem C15_density_is_not_the_exact_ratio :
    (((NewWeightedDirected : weightedDirected Nat).AddEdges
        [⟨⟨1, 2⟩, 0⟩, ⟨⟨2, 3⟩, 0⟩]).Order = 3 ∧
      ((NewWeightedDirected : weightedDirected Nat).AddEdges
        [⟨⟨1, 2⟩, 0⟩, ⟨⟨2, 3⟩, 0⟩]).Size = 2 ∧
      ((NewWeightedDirected : weightedDirected Nat).AddEdges
        [⟨⟨1, 2⟩, 0⟩, ⟨⟨2, 3⟩, 0⟩]).Density
          = FloatValue.finite (6004799503160661 / 18014398509481984) ∧
      ((NewWeightedDirected : weightedDirected Nat).AddEdges
        [⟨⟨1, 2⟩, 0⟩, ⟨⟨2, 3⟩, 0⟩]).Density ≠ FloatValue.finite (2 / 6)) ∧
    (manyVerticesWeighted.Order = 4294967296 ∧ manyVerticesWeighted.Size = 1 ∧
      manyVerticesWeighted.Density = FloatValue.finite (-1 / 4294967296) ∧
      manyVerticesWeighted.Density ≠
        FloatValue.finite ((manyVerticesWeighted.Size : ℚ) /
          ((manyVerticesWeighted.Order * (manyVerticesWeighted.Order - 1) : Int) : ℚ))) ∧
    (manyVertices.Order = 4294967297 ∧ manyVertices.Size = 1 ∧
      manyVertices.Density = FloatValue.finite (2 / 4294967296) ∧
      manyVertices.Density ≠
        FloatValue.finite (((2 * manyVertices.Size : Nat) : ℚ) /
          ((manyVertices.Order * (manyVertices.Order - 1) : Nat) : ℚ))) := by
  have hp : ((NewWeightedDirected : weightedDirected Nat).AddEdges
      [⟨⟨1, 2⟩, 0⟩, ⟨⟨2, 3⟩, 0⟩]).Density
        = FloatValue.finite (6004799503160661 / 18014398509481984) := by
    rw [wd_density_eval _ 2 6 (by decide) (by decide)]
    exact floatDiv_two_six
  refine ⟨⟨by decide, by decide, hp, ?_⟩,
    ⟨manyVerticesWeighted_order, manyVerticesWeighted_size, manyVerticesWeighted_density, ?_⟩,
    ⟨manyVertices_order, manyVertices_size, manyVertices_density, ?_⟩⟩
  · rw [hp]
    intro hc
    injection hc with hq
    norm_num at hq
  · rw [manyVerticesWeighted_density, manyVerticesWeighted_order, manyVerticesWeighted_size]
    intro hc
    injection hc with hq
    norm_num at hq
  · rw [manyVertices_density, manyVertices_order, manyVertices_size]
    intro hc
    injection hc with hq
    norm_num at hq

/-- C15, amended, for the two weighted stores.  For every store of order n ≥ 2 and size m
whose product n·(n−1) fits the `int` in which the code computes it, `Density()` is the
`float64` quotient float64(m) / float64(n·(n−1)) for the weighted directed store and
float64(2·m) / float64(n·(n−1)) for the weighted undirected store.  When moreover n·(n−1) and
m (resp. 2·m) are below 2^53, so that both operands convert exactly, this is the `float64`
nearest to the exact ratio m / (n·(n−1)) (resp. 2·m / (n·(n−1))): a finite value within the
relative error 2^(−53) of it.  Two vertices with one edge give exactly 1/2 (directed) and 1
(undirected); a path of two edges over three vertices gives float64(2)/float64(6) =
6004799503160661 / 2^54 (directed) and float64(2)/float64(3) = 6004799503160661 / 2^53
(undirected), the `float64` nearest to 2/6 and to 2/3. -/
theorem C15_density_formula {α : Type} [DecidableEq α] :
    (∀ g : weightedDirected α, 2 ≤ g.Order → g.Order * (g.Order - 1) < 9223372036854775808 →
      g.Density = floatDiv g.Size (g.Order * (g.Order - 1))) ∧
    (∀ g : weightedDirected α, 2 ≤ g.Order → g.Order * (g.Order - 1) < 9007199254740992 →
      |g.Size| < 9007199254740992 →
      g.Density = roundFloat64 ((g.Size : ℚ) / ((g.Order * (g.Order - 1) : Int) : ℚ)) ∧
      ∃ v : ℚ, g.Density = FloatValue.finite v ∧
        |v - (g.Size : ℚ) / ((g.Order * (g.Order - 1) : Int) : ℚ)|
          ≤ |(g.Size : ℚ) / ((g.Order * (g.Order - 1) : Int) : ℚ)| / 9007199254740992) ∧
    (∀ g : weightedUndirected α, 2 ≤ g.Order → g.Order * (g.Order - 1) < 9223372036854775808 →
      g.Density = floatDiv (2 * g.Size) (g.Order * (g.Order - 1))) ∧
    (∀ g : weightedUndirected α, 2 ≤ g.Order → g.Order * (g.Order - 1) < 9007199254740992 →
      |2 * g.Size| < 9007199254740992 →
      g.Density
        = roundFloat64 (((2 * g.Size : Int) : ℚ) / ((g.Order * (g.Order - 1) : Int) : ℚ)) ∧
      ∃ v : ℚ, g.Density = FloatValue.finite v ∧
        |v - ((2 * g.Size : Int) : ℚ) / ((g.Order * (g.Order - 1) : Int) : ℚ)|
          ≤ |((2 * g.Size : Int) : ℚ) / ((g.Order * (g.Order - 1) : Int) : ℚ)|
            / 9007199254740992) ∧
    ((NewWeightedDirected : weightedDirected Nat).AddEdges [⟨⟨1, 2⟩, 0⟩]).Density
      = FloatValue.finite (1 / 2) ∧
    ((NewWeightedDirected : weightedDirected Nat).AddEdges [⟨⟨1, 2⟩, 0⟩, ⟨⟨2, 3⟩, 0⟩]).Density
      = floatDiv 2 6 ∧
    floatDiv 2 6 = FloatValue.finite (6004799503160661 / 18014398509481984) ∧
    roundFloat64 (2 / 6) = FloatValue.finite (6004799503160661 / 18014398509481984) ∧
    ((NewWeightedUndirected : weightedUndirected Nat).AddEdges [⟨⟨1, 2⟩, 0⟩]).Density
      = FloatValue.finite 1 ∧
    ((NewWeightedUndirected : weightedUndirected Nat).AddEdges
      [⟨⟨1, 2⟩, 0⟩, ⟨⟨2, 3⟩, 0⟩]).Density = floatDiv 2 3 ∧
    floatDiv 2 3 = FloatValue.finite (6004799503160661 / 9007199254740992) ∧
    roundFloat64 (2 / 3) = FloatValue.finite (6004799503160661 / 9007199254740992) := by
  have hd : ∀ g : weightedDirected α, 2 ≤ g.Order →
      g.Order * (g.Order - 1) < 9223372036854775808 →
      g.Density = floatDiv g.Size (g.Order * (g.Order - 1)) := by
    intro g h2 hb
    obtain ⟨h1, _⟩ := wrapInt_order_product g.Order h2 hb
    exact wd_density_eval g _ _ rfl h1
  have hu : ∀ g : weightedUndirected α, 2 ≤ g.Order →
      g.Order * (g.Order - 1) < 9223372036854775808 →
      g.Density = floatDiv (2 * g.Size) (g.Order * (g.Order - 1)) := by
    intro g h2 hb
    obtain ⟨h1, _⟩ := wrapInt_order_product g.Order h2 hb
    exact wu_density_eval g _ _ rfl h1
  have hsmall : ∀ n : Int, 2 ≤ n → n * (n - 1) < 9007199254740992 →
      n * (n - 1) ≠ 0 ∧ |n * (n - 1)| < 9007199254740992 ∧
        n * (n - 1) < 9223372036854775808 := by
    intro n h2 hb
    have hpos : 0 < n * (n - 1) := mul_pos (by omega) (by omega)
    refine ⟨by omega, ?_, by omega⟩
    rw [abs_of_pos hpos]
    exact hb
  have h23 : roundFloat64 (2 / 3) = FloatValue.finite (6004799503160661 / 9007199254740992) := by
    rw [roundFloat64_of_near _ 6004799503160661 (-53) (by norm_num) (by norm_num)
      (by norm_num [abs_of_pos]) (by norm_num [abs_of_pos]) (by norm_num [abs_of_pos])
      (by norm_num)]
    norm_num
  have h26 : roundFloat64 (2 / 6) = FloatValue.finite (6004799503160661 / 18014398509481984) := by
    rw [roundFloat64_of_near _ 6004799503160661 (-54) (by norm_num) (by norm_num)
      (by norm_num [abs_of_pos]) (by norm_num [abs_of_pos]) (by norm_num [abs_of_pos])
      (by norm_num)]
    norm_num
  refine ⟨hd, ?_, hu, ?_, ?_, ?_, floatDiv_two_six, h26, ?_, ?_, floatDiv_two_three, h23⟩
  · intro g h2 hb hm
    obtain ⟨h0, ha, hw⟩ := hsmall g.Order h2 hb
    rw [hd g h2 hw]
    refine ⟨floatDiv_of_small _ _ h0 hm ha, ?_⟩
    exact floatDiv_error _ _ h0 hm ha
  · intro g h2 hb hm
    obtain ⟨h0, ha, hw⟩ := hsmall g.Order h2 hb
    rw [hu g h2 hw]
    refine ⟨floatDiv_of_small _ _ h0 hm ha, ?_⟩
    exact floatDiv_error _ _ h0 hm ha
  · rw [wd_density_eval _ 1 2 (by decide) (by decide)]
    exact floatDiv_one_two
  · exact wd_density_eval _ 2 6 (by decide) (by decide)
  · rw [wu_density_eval _ 2 2 (by decide) (by decide)]
    exact floatDiv_two_two
  · rw [wu_density_eval _ 4 6 (by decide) (by decide), floatDiv_four_six, floatDiv_two_three]

/-- C15 (amended) at a concrete store: the directed store holding the single edge (1,2) has
order 2 and size 1, and its density is the `float64` nearest to 1 / (2·1). -/
theorem C15_density_formula_witness :
    (2 : Int) ≤ ((NewWeightedDirected : weightedDirected Nat).AddEdges [⟨⟨1, 2⟩, 0⟩]).Order ∧
      ((NewWeightedDirected : weightedDirected Nat).AddEdges [⟨⟨1, 2⟩, 0⟩]).Density =
        roundFloat64
          ((((NewWeightedDirected : weightedDirected Nat).AddEdges [⟨⟨1, 2⟩, 0⟩]).Size : ℚ) /
            ((((NewWeightedDirected : weightedDirected Nat).AddEdges [⟨⟨1, 2⟩, 0⟩]).Order *
              (((NewWeightedDirected : weightedDirected Nat).AddEdges [⟨⟨1, 2⟩, 0⟩]).Order - 1)
                : Int) : ℚ)) :=
  ⟨by decide, (C15_density_formula.2.1 _ (by decide) (by decide) (by decide)).1⟩

/-- C16 as stated fails: the weighted directed store reached by `AddEdges((1,1,5))` has order
1 and size 1, so `Density()` divides 1 by 0 and yields +Inf, not NaN. -/
theorem C16_self_loop_density_is_infinite :
    weightedDirected.Reachable
        ((NewWeightedDirected : weightedDirected Nat).AddEdges [⟨⟨1, 1⟩, 5⟩]) ∧
      ((NewWeightedDirected : weightedDirected Nat).AddEdges [⟨⟨1, 1⟩, 5⟩]).Order = 1 ∧
      ((NewWeightedDirected : weightedDirected Nat).AddEdges [⟨⟨1, 1⟩, 5⟩]).Size = 1 ∧
      ((NewWeightedDirected : weightedDirected Nat).AddEdges [⟨⟨1, 1⟩, 5⟩]).Density
        = FloatValue.posInf ∧
      ((NewWeightedDirected : weightedDirected Nat).AddEdges [⟨⟨1, 1⟩, 5⟩]).Density
        ≠ FloatValue.nan := by
  have h : ((NewWeightedDirected : weightedDirected Nat).AddEdges [⟨⟨1, 1⟩, 5⟩]).Density
      = FloatValue.posInf := by
    rw [wd_density_eval _ 1 0 (by decide) (by decide)]
    simp [floatDiv]
  refine ⟨.addEdges _ _ .init, by decide, by decide, h, ?_⟩
  rw [h]
  exact fun hc => FloatValue.noConfusion hc

/-- C16, amended: in every store (`AdjacencyList`, weighted directed, weighted undirected) whose
order is 0 or 1 the denominator order·(order−1) is zero (computed in wrapping unsigned
arithmetic for `AdjacencyList`), so `Density()` is NaN exactly when `Size()` is zero.  It is
NaN on the three empty stores, and on every reachable weighted directed store of order 0 or 1
that holds no self-loop, where `Size()` is zero.  When `Size()` is not zero it is an infinity,
of the sign of `Size()`. -/
theorem C16_density_nan_iff_size_zero {α : Type} [DecidableEq α] :
    (∀ g : AdjacencyList α, g.Order ≤ 1 →
      uintMul g.Order (uintDec g.Order) = 0 ∧ (g.Density = FloatValue.nan ↔ g.Size = 0)) ∧
    (∀ g : weightedDirected α, g.Order = 0 ∨ g.Order = 1 →
      wrapInt (g.Order * wrapInt (g.Order - 1)) = 0 ∧
        (g.Density = FloatValue.nan ↔ g.Size = 0)) ∧
    (∀ g : weightedUndirected α, g.Order = 0 ∨ g.Order = 1 →
      wrapInt (g.Order * wrapInt (g.Order - 1)) = 0 ∧
        (g.Density = FloatValue.nan ↔ g.Size = 0)) ∧
    (∀ g : weightedDirected α, weightedDirected.Reachable g → g.Order = 0 ∨ g.Order = 1 →
      (∀ v, g.HasEdge ⟨v, v⟩ = false) → g.Size = 0 ∧ g.Density = FloatValue.nan) ∧
    (NewAdjacencyList : AdjacencyList α).Density = FloatValue.nan ∧
    (NewWeightedDirected : weightedDirected α).Density = FloatValue.nan ∧
    (NewWeightedUndirected : weightedUndirected α).Density = FloatValue.nan ∧
    (∀ g : AdjacencyList α, g.Order ≤ 1 → g.Size ≠ 0 → g.Density = FloatValue.posInf) ∧
    (∀ g : weightedDirected α, g.Order = 0 ∨ g.Order = 1 → g.Size ≠ 0 →
      g.Density = if 0 < g.Size then FloatValue.posInf else FloatValue.negInf) ∧
    (∀ g : weightedUndirected α, g.Order = 0 ∨ g.Order = 1 → g.Size ≠ 0 →
      g.Density = if 0 < g.Size then FloatValue.posInf else FloatValue.negInf) := by
  have hd : ∀ g : weightedDirected α, g.Order = 0 ∨ g.Order = 1 →
      wrapInt (g.Order * wrapInt (g.Order - 1)) = 0 ∧
        (g.Density = FloatValue.nan ↔ g.Size = 0) := by
    intro g ho
    have h0 := wrapInt_order_product_small g.Order ho
    refine ⟨h0, ?_⟩
    rw [wd_density_eval g g.Size 0 rfl h0]
    exact floatDiv_zero_eq_nan_iff g.Size
  have hu : ∀ g : weightedUndirected α, g.Order = 0 ∨ g.Order = 1 →
      wrapInt (g.Order * wrapInt (g.Order - 1)) = 0 ∧
        (g.Density = FloatValue.nan ↔ g.Size = 0) := by
    intro g ho
    have h0 := wrapInt_order_product_small g.Order ho
    refine ⟨h0, ?_⟩
    rw [wu_density_eval g (2 * g.Size) 0 rfl h0, floatDiv_zero_eq_nan_iff]
    omega
  have ha : ∀ g : AdjacencyList α, g.Order ≤ 1 →
      uintMul g.Order (uintDec g.Order) = 0 ∧ (g.Density = FloatValue.nan ↔ g.Size = 0) := by
    intro g ho
    have h0 := uintMul_order_product_small g.Order ho
    refine ⟨h0, ?_⟩
    rw [al_density_eval g (2 * g.Size) 0 rfl h0]
    simp only [Nat.cast_zero]
    rw [floatDiv_zero_eq_nan_iff]
    omega
  refine ⟨ha, hd, hu, ?_, ?_, ?_, ?_, ?_, ?_, ?_⟩
  · intro g hg ho hl
    have hz := wd_size_zero_of_order_le_one g hg ho hl
    exact ⟨hz, (hd g ho).2.2 hz⟩
  · exact (ha _ (by simp [AdjacencyList.Order, NewAdjacencyList, GoMap.len])).2.2 rfl
  · exact (hd (NewWeightedDirected : weightedDirected α) (Or.inl rfl)).2.2 rfl
  · exact (hu (NewWeightedUndirected : weightedUndirected α) (Or.inl rfl)).2.2 rfl
  · intro g ho hs
    rw [al_density_eval g (2 * g.Size) 0 rfl (uintMul_order_product_small g.Order ho)]
    simp only [Nat.cast_zero]
    rw [floatDiv_zero_of_ne_zero _ (by omega), if_pos (by omega)]
  · intro g ho hs
    rw [wd_density_eval g g.Size 0 rfl (wrapInt_order_product_small g.Order ho),
      floatDiv_zero_of_ne_zero _ hs]
  · intro g ho hs
    rw [wu_density_eval g (2 * g.Size) 0 rfl (wrapInt_order_product_small g.Order ho),
      floatDiv_zero_of_ne_zero _ (by omega)]
    by_cases hp : 0 < g.Size
    · rw [if_pos hp, if_pos (by omega)]
    · rw [if_neg hp, if_neg (by omega)]

/-- C16 (amended) at a concrete store: the directed store holding the single vertex 1 and no
edge has density NaN. -/
theorem C16_density_nan_iff_size_zero_witness :
    weightedDirected.Reachable ((NewWeightedDirected : weightedDirected Nat).EnsureVertex [1]) ∧
      ((NewWeightedDirected : weightedDirected Nat).EnsureVertex [1]).Order = 1 ∧
      ((NewWeightedDirected : weightedDirected Nat).EnsureVertex [1]).Density
        = FloatValue.nan :=
  ⟨.ensureVertex _ _ .init, by decide,
    (C16_density_nan_iff_size_zero.2.2.2.1 _ (.ensureVertex _ _ .init) (Or.inr (by decide))
      (by
        intro v
        have hl : (NewWeightedDirected : weightedDirected Nat).EnsureVertex [1]
            = ⟨⟨[(1, [])], 0⟩⟩ := by decide
        rw [hl]
        by_cases h : 1 = v <;>
          simp [weightedDirected.HasEdge, BaseEdge.Source, BaseEdge.Target, GoMap.has,
            GoMap.inner, GoMap.lookup, h])).2⟩

/-- C17, the code on the loop-free `AdjacencyList` built by `AddEdge((1,2))`, `AddEdge((2,1))`:
the order is 2 and the size 2, and `Density()` is 2·2 / (2·1) = 2, above 1: the store holds
directed arcs, at most n·(n−1) of them, but divides with the factor 2 of the undirected
convention. -/
theorem C17_adjacency_list_density_exceeds_one :
    (((NewAdjacencyList : AdjacencyList Nat).AddEdge ⟨1, 2⟩).1.AddEdge ⟨2, 1⟩).1.Order = 2 ∧
      (((NewAdjacencyList : AdjacencyList Nat).AddEdge ⟨1, 2⟩).1.AddEdge ⟨2, 1⟩).1.Size = 2 ∧
      (((NewAdjacencyList : AdjacencyList Nat).AddEdge ⟨1, 2⟩).1.AddEdge ⟨2, 1⟩).1.Density
        = FloatValue.finite 2 := by
  refine ⟨by decide, by decide, ?_⟩
  rw [al_density_eval _ 4 2 (by decide) (by decide)]
  exact floatDiv_four_two

/-- C18: for every `AdjacencyList` and vertex v: if v is absent, `OutDegree(v)` and
`InDegree(v)` both return (0, false); otherwise `OutDegree(v)` returns the number of distinct
out-neighbours of v (the arcs with source v) and `InDegree(v)` the number of vertices u holding
an arc u→v (the arcs with target v), both with the flag true.  For the single arc (foo,bar):
`OutDegree(foo)` = 1, `InDegree(bar)` = 1, `InDegree(foo)` = 0. -/
theorem C18_adjacency_list_degrees {α : Type} [DecidableEq α] :
    (∀ (g : AdjacencyList α) (v : α), g.HasVertex v = false →
      g.OutDegree v = (0, false) ∧ g.InDegree v = (0, false)) ∧
    (∀ (g : AdjacencyList α) (v : α), GoMap.WFall g.list →
      g.Order < 18446744073709551616 → g.HasVertex v = true →
      (GoMap.storedPairs g.list).Nodup ∧
      g.OutDegree v = ((g.EachAdjacent v).length, true) ∧
      (g.EachAdjacent v).Nodup ∧
      g.OutDegree v =
        (((GoMap.storedPairs g.list).filter (fun p => decide (p.1 = v))).length, true) ∧
      g.InDegree v =
        (((GoMap.storedPairs g.list).filter (fun p => decide (p.2 = v))).length, true)) ∧
    ((NewAdjacencyList : AdjacencyList TestVertex).AddEdge ⟨.foo, .bar⟩).1.OutDegree .foo
      = (1, true) ∧
    ((NewAdjacencyList : AdjacencyList TestVertex).AddEdge ⟨.foo, .bar⟩).1.InDegree .bar
      = (1, true) ∧
    ((NewAdjacencyList : AdjacencyList TestVertex).AddEdge ⟨.foo, .bar⟩).1.InDegree .foo
      = (0, true) ∧
    ((NewAdjacencyList : AdjacencyList TestVertex).AddEdge ⟨.foo, .bar⟩).1.OutDegree .baz
      = (0, false) ∧
    ((NewAdjacencyList : AdjacencyList TestVertex).AddEdge ⟨.foo, .bar⟩).1.InDegree .baz
      = (0, false) := by
  refine ⟨?_, ?_, by decide, by decide, by decide, by decide, by decide⟩
  · intro g v hv
    have hv' : ¬g.hasVertex v = true := by
      simp only [AdjacencyList.HasVertex] at hv
      simp [hv]
    constructor
    · unfold AdjacencyList.OutDegree
      rw [if_neg hv']
    · unfold AdjacencyList.InDegree
      rw [if_neg hv']
  · intro g v hw hb hv
    have hv' : g.hasVertex v = true := hv
    have hlk : ∃ adj, GoMap.lookup g.list v = some adj :=
      Option.isSome_iff_exists.1 hv'
    obtain ⟨adj, hadj⟩ := hlk
    have hea := AdjacencyList.EachAdjacent_of_lookup g v adj hadj
    have hin : GoMap.inner g.list v = adj := by simp [GoMap.inner, hadj]
    refine ⟨GoMap.nodup_storedPairs g.list hw, ?_, ?_,
      AdjacencyList.OutDegree_eq g v hw hv', AdjacencyList.InDegree_eq g v hw hb hv'⟩
    · unfold AdjacencyList.OutDegree
      rw [if_pos hv', hea, hin]
      simp [GoMap.len, GoMap.keys]
    · rw [hea]
      exact hw.2 (v, adj) (GoMap.mem_of_lookup g.list v adj hadj)

/-- C18 at a concrete store: with the arcs (1,2) and (3,2) the in-degree of 2 is the number of
stored pairs with target 2. -/
theorem C18_adjacency_list_degrees_witness :
    GoMap.WFall (((NewAdjacencyList : AdjacencyList Nat).AddEdge ⟨1, 2⟩).1.AddEdge
        ⟨3, 2⟩).1.list ∧
      (((NewAdjacencyList : AdjacencyList Nat).AddEdge ⟨1, 2⟩).1.AddEdge ⟨3, 2⟩).1.InDegree 2 =
        (((GoMap.storedPairs (((NewAdjacencyList : AdjacencyList Nat).AddEdge
          ⟨1, 2⟩).1.AddEdge ⟨3, 2⟩).1.list).filter (fun p => decide (p.2 = 2))).length, true) :=
  ⟨(AdjacencyList.Reachable.structure (.addEdge _ _ (.addEdge _ _ .init))).1,
    ((C18_adjacency_list_degrees.2.1 _ 2
      (AdjacencyList.Reachable.structure (.addEdge _ _ (.addEdge _ _ .init))).1
      (by decide) (by decide))).2.2.2.2⟩

/-- C19: for every weighted directed store and vertex v: `OutDegreeOf(v)` is the number of
arcs with source v, `InDegreeOf(v)` the number of arcs with target v, and `DegreeOf(v)` returns
`InDegreeOf(v) + OutDegreeOf(v)` (the `int` sum) with the same exists flag; all three return
(0, false) when v is absent. -/
theorem C19_directed_degrees {α : Type} [DecidableEq α] :
    (∀ (g : weightedDirected α) (v : α), g.HasVertex v = false →
      g.OutDegreeOf v = (0, false) ∧ g.InDegreeOf v = (0, false) ∧ g.DegreeOf v = (0, false)) ∧
    (∀ (g : weightedDirected α) (v : α), GoMap.WFall g.list →
      g.Order < 9223372036854775808 → g.HasVertex v = true →
      g.OutDegreeOf v =
        (((((GoMap.storedPairs g.list).filter (fun p => decide (p.1 = v))).length : Nat) : Int),
          true) ∧
      g.InDegreeOf v =
        (((((GoMap.storedPairs g.list).filter (fun p => decide (p.2 = v))).length : Nat) : Int),
          true) ∧
      ((g.InDegreeOf v).1 + (g.OutDegreeOf v).1 < 9223372036854775808 →
        g.DegreeOf v = ((g.InDegreeOf v).1 + (g.OutDegreeOf v).1, true))) ∧
    (∀ (g : weightedDirected α) (v : α),
      g.DegreeOf v = (wrapInt ((g.InDegreeOf v).1 + (g.OutDegreeOf v).1), (g.InDegreeOf v).2) ∧
      (g.InDegreeOf v).2 = (g.OutDegreeOf v).2) ∧
    (((NewWeightedDirected : weightedDirected Nat).AddEdges
        [⟨⟨1, 1⟩, 5⟩, ⟨⟨2, 1⟩, 7⟩, ⟨⟨1, 3⟩, 7⟩]).OutDegreeOf 1 = (2, true) ∧
      ((NewWeightedDirected : weightedDirected Nat).AddEdges
        [⟨⟨1, 1⟩, 5⟩, ⟨⟨2, 1⟩, 7⟩, ⟨⟨1, 3⟩, 7⟩]).InDegreeOf 1 = (2, true) ∧
      ((NewWeightedDirected : weightedDirected Nat).AddEdges
        [⟨⟨1, 1⟩, 5⟩, ⟨⟨2, 1⟩, 7⟩, ⟨⟨1, 3⟩, 7⟩]).DegreeOf 1 = (4, true)) := by
  have hflag : ∀ (g : weightedDirected α) (v : α),
      g.DegreeOf v = (wrapInt ((g.InDegreeOf v).1 + (g.OutDegreeOf v).1), (g.InDegreeOf v).2) ∧
      (g.InDegreeOf v).2 = (g.OutDegreeOf v).2 := by
    intro g v
    have h2 : (g.InDegreeOf v).2 = (g.OutDegreeOf v).2 := by
      unfold weightedDirected.InDegreeOf weightedDirected.OutDegreeOf
      by_cases hv : g.hasVertex v = true
      · rw [if_pos hv, if_pos hv]
      · rw [if_neg hv, if_neg hv]
    refine ⟨?_, h2⟩
    rw [h2]
    rfl
  refine ⟨?_, ?_, hflag, by decide, by decide, by decide⟩
  · intro g v hv
    have hv' : ¬g.hasVertex v = true := by
      simp only [baseWeighted.HasVertex] at hv
      simp [hv]
    have ho : g.OutDegreeOf v = (0, false) := by
      unfold weightedDirected.OutDegreeOf
      rw [if_neg hv']
    have hi : g.InDegreeOf v = (0, false) := by
      unfold weightedDirected.InDegreeOf
      rw [if_neg hv']
    refine ⟨ho, hi, ?_⟩
    rw [(hflag g v).1, hi, ho]
    simp [wrapInt_zero]
  · intro g v hw hb hv
    have hv' : g.hasVertex v = true := hv
    have ho := weightedDirected.OutDegreeOf_eq g v hw hv'
    have hi := weightedDirected.InDegreeOf_eq g v hv'
    have hle := GoMap.filter_target_storedPairs_le g.list hw.2 v
    have hsmall : wrapInt ((((GoMap.storedPairs g.list).filter
        (fun p => decide (p.2 = v))).length : Nat) : Int)
        = ((((GoMap.storedPairs g.list).filter (fun p => decide (p.2 = v))).length : Nat) : Int) := by
      apply wrapInt_of_small _ (Int.natCast_nonneg _)
      simp only [baseWeighted.Order] at hb
      omega
    rw [hsmall] at hi
    refine ⟨ho, hi, ?_⟩
    intro hlt
    rw [(hflag g v).1]
    rw [hi, ho] at hlt ⊢
    simp only at hlt ⊢
    rw [wrapInt_of_small _ (by omega) hlt]

/-- C19 at a concrete store: in the store holding (1,1), (2,1), (1,3) the in-degree of 1 is the
number of stored pairs with target 1. -/
theorem C19_directed_degrees_witness :
    GoMap.WFall ((NewWeightedDirected : weightedDirected Nat).AddEdges
        [⟨⟨1, 1⟩, 5⟩, ⟨⟨2, 1⟩, 7⟩, ⟨⟨1, 3⟩, 7⟩]).list ∧
      ((NewWeightedDirected : weightedDirected Nat).AddEdges
        [⟨⟨1, 1⟩, 5⟩, ⟨⟨2, 1⟩, 7⟩, ⟨⟨1, 3⟩, 7⟩]).InDegreeOf 1 =
        (((((GoMap.storedPairs ((NewWeightedDirected : weightedDirected Nat).AddEdges
          [⟨⟨1, 1⟩, 5⟩, ⟨⟨2, 1⟩, 7⟩, ⟨⟨1, 3⟩, 7⟩]).list).filter
            (fun p => decide (p.2 = 1))).length : Nat) : Int), true) :=
  ⟨(weightedDirected.Reachable.countInv (.addEdges _ _ .init)).1,
    ((C19_directed_degrees.2.1 _ 1
      (weightedDirected.Reachable.countInv (.addEdges _ _ .init)).1
      (by decide) (by decide))).2.1⟩

/-- C20, the code on a self-loop: in the store reached by `AddEdges((1,1,5))` the call
`EachEdgeIncidentTo(1, visitor)` with a visitor that never stops passes the arc (1,1,5) to the
visitor twice, once from `EachArcFrom` and once from `EachArcTo`; with the further arcs (2,1,7)
and (1,3,7) those two are passed once each and the self-loop still twice. -/
theorem C20_self_loop_is_visited_twice :
    ((NewWeightedDirected : weightedDirected Nat).AddEdges [⟨⟨1, 1⟩, 5⟩]).EachEdgeIncidentTo 1
        (fun e calls => (calls ++ [e], false)) []
        = [⟨⟨1, 1⟩, 5⟩, ⟨⟨1, 1⟩, 5⟩] ∧
      ((NewWeightedDirected : weightedDirected Nat).AddEdges
        [⟨⟨1, 1⟩, 5⟩, ⟨⟨2, 1⟩, 7⟩, ⟨⟨1, 3⟩, 7⟩]).EachEdgeIncidentTo 1
        (fun e calls => (calls ++ [e], false)) []
        = [⟨⟨1, 1⟩, 5⟩, ⟨⟨1, 3⟩, 7⟩, ⟨⟨1, 1⟩, 5⟩, ⟨⟨2, 1⟩, 7⟩] := by
  decide



/-- C21: on both weighted stores, for each enumerator taking a visitor that may ask to stop
(`EachVertex`, `EachEdge`, `EachArcFrom`, `EachArcTo`, `EachEdgeIncidentTo`, `EachAdjacent`),
in the log of the calls made to the visitor during one enumeration a call that returned true
is the last one; and in the directed `EachEdgeIncidentTo` a stop requested among the out-arcs
ends the enumeration in the state, log included, in which `EachArcFrom` alone ends: no in-arc
is passed to the visitor. -/
theorem C21_early_termination {α S : Type} [DecidableEq α] :
    (∀ (g : weightedDirected α) (f : α → S → S × Bool) (s : S),
      NoCallAfterStop (g.EachVertex (logged f) (s, [])).2) ∧
    (∀ (g : weightedDirected α) (f : BaseWeightedEdge α → S → S × Bool) (s : S),
      NoCallAfterStop (g.EachEdge (logged f) (s, [])).2) ∧
    (∀ (g : weightedDirected α) (v : α) (f : BaseWeightedEdge α → S → S × Bool) (s : S),
      NoCallAfterStop (g.EachArcFrom v (logged f) (s, [])).2) ∧
    (∀ (g : weightedDirected α) (v : α) (f : BaseWeightedEdge α → S → S × Bool) (s : S),
      NoCallAfterStop (g.EachArcTo v (logged f) (s, [])).2) ∧
    (∀ (g : weightedDirected α) (v : α) (f : BaseWeightedEdge α → S → S × Bool) (s : S),
      NoCallAfterStop (g.EachEdgeIncidentTo v (logged f) (s, [])).2) ∧
    (∀ (g : weightedDirected α) (v : α) (f : α → S → S × Bool) (s : S),
      NoCallAfterStop (g.EachAdjacent v (logged f) (s, [])).2) ∧
    (∀ (g : weightedUndirected α) (f : α → S → S × Bool) (s : S),
      NoCallAfterStop (g.EachVertex (logged f) (s, [])).2) ∧
    (∀ (g : weightedUndirected α) (f : BaseWeightedEdge α → S → S × Bool) (s : S),
      NoCallAfterStop (g.EachEdge (logged f) (s, [])).2) ∧
    (∀ (g : weightedUndirected α) (v : α) (f : BaseWeightedEdge α → S → S × Bool) (s : S),
      NoCallAfterStop (g.EachEdgeIncidentTo v (logged f) (s, [])).2) ∧
    (∀ (g : weightedUndirected α) (v : α) (f : α → S → S × Bool) (s : S),
      NoCallAfterStop (g.EachAdjacent v (logged f) (s, [])).2) ∧
    (∀ (g : weightedDirected α) (v : α) (f : BaseWeightedEdge α → S → S × Bool) (s : S),
      (∃ c ∈ (g.EachArcFrom v (logged f) (s, [])).2, c.2 = true) →
      g.EachEdgeIncidentTo v (logged f) (s, []) = g.EachArcFrom v (logged f) (s, [])) := by
  have hnil : ∀ (X : Type), NoCallAfterStop ([] : List (X × Bool)) :=
    fun X => noCallAfterStop_of_all_false [] (by simp)
  refine ⟨?_, ?_, ?_, ?_, ?_, ?_, ?_, ?_, ?_, ?_, ?_⟩
  · intro g f s
    exact (visit_logged_nil f _ s).1
  · intro g f s
    exact (visit_logged_nil f _ s).1
  · intro g v f s
    unfold weightedDirected.EachArcFrom
    split
    · exact hnil _
    · exact (visit_logged_nil f _ s).1
  · intro g v f s
    unfold weightedDirected.EachArcTo
    split
    · exact hnil _
    · exact (visit_logged_nil f _ s).1
  · intro g v f s
    rw [weightedDirected.EachEdgeIncidentTo_eq]
    split
    · exact (visit_logged_nil f _ s).1
    · exact hnil _
  · intro g v f s
    rw [weightedDirected.EachAdjacent_eq]
    split
    · exact (visit_logged_nil f _ s).1
    · exact hnil _
  · intro g f s
    exact (visit_logged_nil f _ s).1
  · intro g f s
    rw [weightedUndirected.EachEdge_eq]
    exact (visit_logged_nil f _ s).1
  · intro g v f s
    unfold weightedUndirected.EachEdgeIncidentTo
    split
    · exact hnil _
    · exact (visit_logged_nil f _ s).1
  · intro g v f s
    unfold weightedUndirected.EachAdjacent weightedUndirected.eachAdjacent
    split
    · exact (visit_logged_nil f _ s).1
    · exact hnil _
  · intro g v f s
    rw [weightedDirected.EachEdgeIncidentTo_eq]
    unfold weightedDirected.EachArcFrom
    by_cases hv : g.hasVertex v = true
    · simp only [hv, Bool.not_true, Bool.false_eq_true, if_false, if_true]
      intro hc
      have hb := (visit_logged_nil f _ s).2 hc
      rw [visit_append, if_pos hb]
    · have hv2 : g.hasVertex v = false := by simpa using hv
      simp [hv2]

/-- C21 at a concrete store: with the arcs (1,2) and (2,1) and a visitor that asks to stop at
once, `EachEdgeIncidentTo(1, visitor)` calls the visitor with the out-arc (1,2) only. -/
theorem C21_early_termination_witness :
    (∃ c ∈ (((NewWeightedDirected : weightedDirected Nat).AddEdges
        [⟨⟨1, 2⟩, 5⟩, ⟨⟨2, 1⟩, 7⟩]).EachArcFrom 1
          (logged (fun _ (n : Nat) => (n + 1, true))) (0, [])).2, c.2 = true) ∧
      ((NewWeightedDirected : weightedDirected Nat).AddEdges
        [⟨⟨1, 2⟩, 5⟩, ⟨⟨2, 1⟩, 7⟩]).EachEdgeIncidentTo 1
          (logged (fun _ (n : Nat) => (n + 1, true))) (0, [])
        = (1, [(⟨⟨1, 2⟩, 5⟩, true)]) :=
  ⟨by decide,
    (C21_early_termination.2.2.2.2.2.2.2.2.2.2 _ 1 (fun _ (n : Nat) => (n + 1, true)) 0
      (by decide)).trans (by decide)⟩


/-- C22: on every weighted undirected store reachable by the public mutators, `EachEdge` with
a visitor that never stops and `EachWeightedEdge` call their visitor with the same sequence
`calls` of slots: it has no repetition, each member (u,v,w) is a stored slot with its stored
weight, each stored logical edge {u,v} has one of its orientations in it, never both, and its
length is the number of logical edges stored. -/
theorem C22_undirected_each_edge_once {α : Type} [DecidableEq α] (g : weightedUndirected α)
    (hg : weightedUndirected.Reachable g) (calls : List (BaseWeightedEdge α))
    (hc : calls = g.EachWeightedEdge (fun e acc => acc ++ [e]) []) :
    g.EachEdge (fun e acc => (acc ++ [e], false)) [] = calls ∧
    (∀ (S : Type) (h : BaseWeightedEdge α → S → S) (s : S),
      g.EachEdge (fun e s => (h e s, false)) s = calls.foldl (fun s e => h e s) s ∧
      g.EachWeightedEdge h s = calls.foldl (fun s e => h e s) s) ∧
    calls.Nodup ∧
    (∀ u v w, (⟨⟨u, v⟩, w⟩ : BaseWeightedEdge α) ∈ calls → GoMap.slot g.list u v = some w) ∧
    (∀ u v w, GoMap.slot g.list u v = some w →
      (⟨⟨u, v⟩, w⟩ : BaseWeightedEdge α) ∈ calls ∨
        (⟨⟨v, u⟩, w⟩ : BaseWeightedEdge α) ∈ calls) ∧
    (∀ u v w w2, u ≠ v → (⟨⟨u, v⟩, w⟩ : BaseWeightedEdge α) ∈ calls →
      (⟨⟨v, u⟩, w2⟩ : BaseWeightedEdge α) ∉ calls) ∧
    calls.length = g.edgeCount := by
  have hw := hg.wfAll
  have hs := hg.symmetric
  have he : calls = weightedUndirected.emitted g.edgeSeq [] := by
    rw [hc, weightedUndirected.EachWeightedEdge_eq, foldl_collect, List.nil_append]
  have hsub := weightedUndirected.emitted_sublist g.edgeSeq []
  refine ⟨?_, ?_, ?_, ?_, ?_, ?_, ?_⟩
  · rw [he, weightedUndirected.EachEdge_eq, visit_never_stop (fun e acc => acc ++ [e]),
      foldl_collect, List.nil_append]
  · intro S h s
    rw [he, weightedUndirected.EachEdge_eq, visit_never_stop,
      weightedUndirected.EachWeightedEdge_eq]
    exact ⟨rfl, rfl⟩
  · rw [he]
    exact List.Nodup.sublist hsub (GoMap.nodup_weightedSlots g.list hw)
  · intro u v w hm
    rw [he] at hm
    exact (weightedUndirected.mem_edgeSeq_iff g hw u v w).mp (hsub.subset hm)
  · intro u v w hsl
    rw [he]
    have hm := (weightedUndirected.mem_edgeSeq_iff g hw u v w).mpr hsl
    rcases weightedUndirected.emitted_covers g.edgeSeq [] _ hm with h | h | ⟨e2, h, hk⟩
    · exact Or.inl h
    · simp at h
    · right
      obtain ⟨⟨a, b⟩, w2⟩ := e2
      simp only [BaseEdge.mk.injEq] at hk
      obtain ⟨rfl, rfl⟩ := hk
      have h2 := (weightedUndirected.mem_edgeSeq_iff g hw a b w2).mp (hsub.subset h)
      rw [hs a b, hsl] at h2
      cases h2
      exact h
  · intro u v w w2 huv h1 h2
    rw [he] at h1 h2
    have := weightedUndirected.emitted_exclusive g.edgeSeq [] _ _ h1 h2 rfl
    simp only [BaseWeightedEdge.mk.injEq, BaseEdge.mk.injEq] at this
    exact huv this.1.1
  · rw [he]
    exact weightedUndirected.length_emitted_edgeSeq g hw hs

/-- C22 at a concrete store: with the edges {1,2}, {2,3} and the self-loop {3,3} the visitor
of `EachWeightedEdge` is called three times, once per logical edge. -/
theorem C22_undirected_each_edge_once_witness :
    weightedUndirected.Reachable ((NewWeightedUndirected : weightedUndirected Nat).AddEdges
        [⟨⟨1, 2⟩, 5⟩, ⟨⟨2, 3⟩, 7⟩, ⟨⟨3, 3⟩, 9⟩]) ∧
      (((NewWeightedUndirected : weightedUndirected Nat).AddEdges
        [⟨⟨1, 2⟩, 5⟩, ⟨⟨2, 3⟩, 7⟩, ⟨⟨3, 3⟩, 9⟩]).EachWeightedEdge
          (fun e acc => acc ++ [e]) []).length = 3 :=
  ⟨.addEdges _ _ .init,
    (C22_undirected_each_edge_once _ (.addEdges _ _ .init) _ rfl).2.2.2.2.2.2.trans
      (by decide)⟩


/-- C23: the claim that `EachAdjacent(s, visitor)` of the weighted directed store calls the
visitor once with each adjacent vertex fails for a neighbour that is both a successor and a
predecessor: with the arcs (1,2) and (2,1), `EachAdjacent(1, visitor)` calls a visitor that
never stops twice with the vertex 2. -/
theorem C23_neighbour_both_ways_is_visited_twice :
    ((NewWeightedDirected : weightedDirected Nat).AddEdges
        [⟨⟨1, 2⟩, 5⟩, ⟨⟨2, 1⟩, 7⟩]).EachAdjacent 1 (fun v acc => (acc ++ [v], false)) []
      = [2, 2] := by
  decide

/-- C24: on every `AdjacencyList` and weighted directed store whose maps hold each key once,
the calls that `EachVertex` makes to a visitor that never stops are those of a list without
repetition whose members are the resident vertices, `Order()` calls in total, and the calls of
`EachEdge` are those of a list without repetition whose members are the stored arcs (with the
stored weight on the weighted store); with (foo,bar),(bar,baz) that is 3 vertex calls and
2 edge calls. -/
theorem C24_each_vertex_each_edge_once {α : Type} [DecidableEq α] :
    (∀ g : AdjacencyList α, GoMap.WFall g.list →
      (∀ (S : Type) (h : α → S → S) (s : S),
        g.EachVertex h s
          = (g.EachVertex (fun v acc => acc ++ [v]) []).foldl (fun s v => h v s) s) ∧
      (g.EachVertex (fun v acc => acc ++ [v]) []).Nodup ∧
      (∀ v, v ∈ g.EachVertex (fun v acc => acc ++ [v]) [] ↔ g.HasVertex v = true) ∧
      (g.EachVertex (fun v acc => acc ++ [v]) []).length = g.Order ∧
      (∀ (S : Type) (h : BaseEdge α → S → S) (s : S),
        g.EachEdge h s
          = (g.EachEdge (fun e acc => acc ++ [e]) []).foldl (fun s e => h e s) s) ∧
      (g.EachEdge (fun e acc => acc ++ [e]) []).Nodup ∧
      (∀ u v, (⟨u, v⟩ : BaseEdge α) ∈ g.EachEdge (fun e acc => acc ++ [e]) []
        ↔ (GoMap.slot g.list u v).isSome = true)) ∧
    (∀ g : weightedDirected α, GoMap.WFall g.list →
      (∀ (S : Type) (h : α → S → S) (s : S),
        g.EachVertex (fun v s => (h v s, false)) s
          = (g.EachVertex (fun v acc => (acc ++ [v], false)) []).foldl (fun s v => h v s) s) ∧
      (g.EachVertex (fun v acc => (acc ++ [v], false)) []).Nodup ∧
      (∀ v, v ∈ g.EachVertex (fun v acc => (acc ++ [v], false)) [] ↔ g.HasVertex v = true) ∧
      (((g.EachVertex (fun v acc => (acc ++ [v], false)) []).length : Nat) : Int) = g.Order ∧
      (∀ (S : Type) (h : BaseWeightedEdge α → S → S) (s : S),
        g.EachEdge (fun e s => (h e s, false)) s
          = (g.EachEdge (fun e acc => (acc ++ [e], false)) []).foldl (fun s e => h e s) s) ∧
      (g.EachEdge (fun e acc => (acc ++ [e], false)) []).Nodup ∧
      (∀ u v w, (⟨⟨u, v⟩, w⟩ : BaseWeightedEdge α)
          ∈ g.EachEdge (fun e acc => (acc ++ [e], false)) []
        ↔ GoMap.slot g.list u v = some w)) ∧
    ((((NewAdjacencyList : AdjacencyList TestVertex).AddEdge ⟨.foo, .bar⟩).1.AddEdge
        ⟨.bar, .baz⟩).1.EachVertex (fun _ n => n + 1) 0 = 3 ∧
      (((NewAdjacencyList : AdjacencyList TestVertex).AddEdge ⟨.foo, .bar⟩).1.AddEdge
        ⟨.bar, .baz⟩).1.EachEdge (fun _ n => n + 1) 0 = 2 ∧
      ((NewWeightedDirected : weightedDirected TestVertex).AddEdges
        [⟨⟨.foo, .bar⟩, 0⟩, ⟨⟨.bar, .baz⟩, 0⟩]).EachVertex (fun _ n => (n + 1, false)) 0 = 3 ∧
      ((NewWeightedDirected : weightedDirected TestVertex).AddEdges
        [⟨⟨.foo, .bar⟩, 0⟩, ⟨⟨.bar, .baz⟩, 0⟩]).EachEdge (fun _ n => (n + 1, false)) 0 = 2) := by
  refine ⟨?_, ?_, by decide⟩
  · intro g hw
    have hv : g.EachVertex (fun v acc => acc ++ [v]) [] = GoMap.keys g.list := by
      unfold AdjacencyList.EachVertex
      rw [foldl_collect, List.nil_append]
    have he := AdjacencyList.edgeCalls_eq g
    refine ⟨?_, ?_, ?_, ?_, ?_, ?_, ?_⟩
    · intro S h s
      rw [hv]
      rfl
    · rw [hv]
      exact hw.1
    · intro v
      rw [hv]
      exact (GoMap.has_iff_mem_keys g.list v).symm
    · rw [hv]
      simp [GoMap.keys, AdjacencyList.Order, GoMap.len]
    · intro S h s
      unfold AdjacencyList.EachEdge
      rw [foldl_collect, List.nil_append]
    · rw [he]
      refine List.Nodup.map ?_ (GoMap.nodup_storedPairs g.list hw)
      intro p q hpq
      simp only [BaseEdge.mk.injEq] at hpq
      exact Prod.ext hpq.1 hpq.2
    · intro u v
      rw [he, ← GoMap.mem_storedPairs_iff g.list hw.1 u v, List.mem_map]
      constructor
      · rintro ⟨p, hp, hpe⟩
        simp only [BaseEdge.mk.injEq] at hpe
        obtain ⟨a, b⟩ := p
        obtain ⟨rfl, rfl⟩ := hpe
        exact hp
      · intro h
        exact ⟨(u, v), h, rfl⟩
  · intro g hw
    have hv : g.EachVertex (fun v acc => (acc ++ [v], false)) [] = GoMap.keys g.list := by
      unfold baseWeighted.EachVertex
      rw [visit_never_stop (fun v acc => acc ++ [v]), foldl_collect, List.nil_append]
    have he : g.EachEdge (fun e acc => (acc ++ [e], false)) [] = g.edgeSeq := by
      unfold weightedDirected.EachEdge
      rw [visit_never_stop (fun e acc => acc ++ [e]), foldl_collect, List.nil_append]
    refine ⟨?_, ?_, ?_, ?_, ?_, ?_, ?_⟩
    · intro S h s
      rw [hv]
      unfold baseWeighted.EachVertex
      rw [visit_never_stop]
    · rw [hv]
      exact hw.1
    · intro v
      rw [hv]
      exact (GoMap.has_iff_mem_keys g.list v).symm
    · rw [hv]
      simp [GoMap.keys, baseWeighted.Order, GoMap.len]
    · intro S h s
      rw [he]
      unfold weightedDirected.EachEdge
      rw [visit_never_stop]
    · rw [he]
      exact GoMap.nodup_weightedSlots g.list hw
    · intro u v w
      rw [he]
      exact GoMap.mem_weightedSlots_iff g.list hw u v w

/-- C24 at a concrete store: with the arcs (1,2) and (1,3) in the weighted directed store,
`EachEdge` passes the arc (1,3,7) to its visitor. -/
theorem C24_each_vertex_each_edge_once_witness :
    GoMap.WFall ((NewWeightedDirected : weightedDirected Nat).AddEdges
        [⟨⟨1, 2⟩, 5⟩, ⟨⟨1, 3⟩, 7⟩]).list ∧
      (⟨⟨1, 3⟩, 7⟩ : BaseWeightedEdge Nat) ∈
        ((NewWeightedDirected : weightedDirected Nat).AddEdges
          [⟨⟨1, 2⟩, 5⟩, ⟨⟨1, 3⟩, 7⟩]).EachEdge (fun e acc => (acc ++ [e], false)) [] := by
  have hw : GoMap.WFall ((NewWeightedDirected : weightedDirected Nat).AddEdges
      [⟨⟨1, 2⟩, 5⟩, ⟨⟨1, 3⟩, 7⟩]).list :=
    (weightedDirected.Reachable.countInv (.addEdges _ _ .init)).1
  exact ⟨hw, ((C24_each_vertex_each_edge_once.2.1 _ hw).2.2.2.2.2.2 1 3 7).mpr (by decide)⟩


/-- C25: on each of the three stores `RemoveEdge`/`RemoveEdges` of an edge (u,v) removes the
arc u→v and applies one decrement to `Size()` if the arc is present (the result is `Size()`
minus one unless the counter is at the least value of its type), leaves the store as it is if
the arc is absent, whether or not u and v are vertices, and in both cases keeps `Order()` and
`HasVertex`.  No slot other than (u,v), and (v,u) on the undirected store, changes. -/
theorem C25_remove_edge {α : Type} [DecidableEq α] :
    (∀ (g : AdjacencyList α) (u v : α),
      ((GoMap.slot g.list u v).isSome = true →
        GoMap.slot (g.RemoveEdge ⟨u, v⟩).list u v = none ∧
        (g.RemoveEdge ⟨u, v⟩).Size = uintDec g.Size ∧
        (0 < g.Size → g.Size < 18446744073709551616 →
          (g.RemoveEdge ⟨u, v⟩).Size = g.Size - 1)) ∧
      ((GoMap.slot g.list u v).isSome = false → g.RemoveEdge ⟨u, v⟩ = g) ∧
      (g.RemoveEdge ⟨u, v⟩).Order = g.Order ∧
      (∀ x, (g.RemoveEdge ⟨u, v⟩).HasVertex x = g.HasVertex x) ∧
      (∀ a b, ¬(u = a ∧ v = b) →
        GoMap.slot (g.RemoveEdge ⟨u, v⟩).list a b = GoMap.slot g.list a b)) ∧
    (∀ (g : weightedDirected α) (u v : α) (w : Int),
      ((GoMap.slot g.list u v).isSome = true →
        GoMap.slot (g.RemoveEdges [⟨⟨u, v⟩, w⟩]).list u v = none ∧
        (g.RemoveEdges [⟨⟨u, v⟩, w⟩]).Size = wrapInt (g.Size - 1) ∧
        (-9223372036854775808 < g.Size → g.Size < 9223372036854775808 →
          (g.RemoveEdges [⟨⟨u, v⟩, w⟩]).Size = g.Size - 1)) ∧
      ((GoMap.slot g.list u v).isSome = false → g.RemoveEdges [⟨⟨u, v⟩, w⟩] = g) ∧
      (g.RemoveEdges [⟨⟨u, v⟩, w⟩]).Order = g.Order ∧
      (∀ x, (g.RemoveEdges [⟨⟨u, v⟩, w⟩]).HasVertex x = g.HasVertex x) ∧
      (∀ a b, ¬(u = a ∧ v = b) →
        GoMap.slot (g.RemoveEdges [⟨⟨u, v⟩, w⟩]).list a b = GoMap.slot g.list a b)) ∧
    (∀ (g : weightedUndirected α) (u v : α) (w : Int),
      ((GoMap.slot g.list u v).isSome = true →
        GoMap.slot (g.RemoveEdges [⟨⟨u, v⟩, w⟩]).list u v = none ∧
        GoMap.slot (g.RemoveEdges [⟨⟨u, v⟩, w⟩]).list v u = none ∧
        (g.RemoveEdges [⟨⟨u, v⟩, w⟩]).Size = wrapInt (g.Size - 1) ∧
        (-9223372036854775808 < g.Size → g.Size < 9223372036854775808 →
          (g.RemoveEdges [⟨⟨u, v⟩, w⟩]).Size = g.Size - 1)) ∧
      ((GoMap.slot g.list u v).isSome = false → g.RemoveEdges [⟨⟨u, v⟩, w⟩] = g) ∧
      (g.RemoveEdges [⟨⟨u, v⟩, w⟩]).Order = g.Order ∧
      (∀ x, (g.RemoveEdges [⟨⟨u, v⟩, w⟩]).HasVertex x = g.HasVertex x) ∧
      (∀ a b, ¬(u = a ∧ v = b) → ¬(v = a ∧ u = b) →
        GoMap.slot (g.RemoveEdges [⟨⟨u, v⟩, w⟩]).list a b = GoMap.slot g.list a b)) := by
  refine ⟨?_, ?_, ?_⟩
  · intro g u v
    refine ⟨?_, AdjacencyList.RemoveEdge_of_absent g ⟨u, v⟩, AdjacencyList.order_RemoveEdge g _,
      AdjacencyList.hasVertex_RemoveEdge g _, ?_⟩
    · intro h
      have hz := AdjacencyList.size_RemoveEdge g ⟨u, v⟩ h
      refine ⟨?_, hz, ?_⟩
      · rw [AdjacencyList.slot_RemoveEdge]
        simp
      · intro h0 hb
        exact hz.trans (uintDec_of_pos _ h0 hb)
    · intro a b hab
      rw [AdjacencyList.slot_RemoveEdge, if_neg hab]
  · intro g u v w
    rw [weightedDirected.wd_RemoveEdges_singleton]
    refine ⟨?_, weightedDirected.wd_removeEdgesStep_of_absent g ⟨⟨u, v⟩, w⟩,
      weightedDirected.wd_order_removeEdgesStep g _,
      weightedDirected.wd_hasVertex_removeEdgesStep g _, ?_⟩
    · intro h
      have hz := weightedDirected.wd_size_removeEdgesStep g ⟨⟨u, v⟩, w⟩ h
      refine ⟨?_, hz, ?_⟩
      · rw [weightedDirected.wd_slot_removeEdgesStep]
        simp
      · intro h0 hb
        exact hz.trans (wrapInt_pred _ h0 hb)
    · intro a b hab
      rw [weightedDirected.wd_slot_removeEdgesStep, if_neg hab]
  · intro g u v w
    rw [weightedUndirected.wu_RemoveEdges_singleton]
    refine ⟨?_, weightedUndirected.wu_removeEdgesStep_of_absent g ⟨⟨u, v⟩, w⟩,
      weightedUndirected.wu_order_removeEdgesStep g _,
      weightedUndirected.wu_hasVertex_removeEdgesStep g _, ?_⟩
    · intro h
      have hz := weightedUndirected.wu_size_removeEdgesStep g ⟨⟨u, v⟩, w⟩ h
      refine ⟨?_, ?_, hz, ?_⟩
      · rw [weightedUndirected.wu_slot_removeEdgesStep]
        simp [h]
      · rw [weightedUndirected.wu_slot_removeEdgesStep]
        simp [h]
      · intro h0 hb
        exact hz.trans (wrapInt_pred _ h0 hb)
    · intro a b hab hba
      rw [weightedUndirected.wu_slot_removeEdgesStep]
      have hc : ¬((u = a ∧ v = b) ∨ (v = a ∧ u = b)) := by
        rintro (h | h)
        · exact hab h
        · exact hba h
      simp only [hc, if_false, ite_self]

/-- C25 at a concrete store: removing the arc (1,2) from the directed store that holds it
lowers `Size()` from 1 to 0. -/
theorem C25_remove_edge_witness :
    (GoMap.slot ((NewWeightedDirected : weightedDirected Nat).AddEdges
        [⟨⟨1, 2⟩, 5⟩]).list 1 2).isSome = true ∧
      (((NewWeightedDirected : weightedDirected Nat).AddEdges [⟨⟨1, 2⟩, 5⟩]).RemoveEdges
        [⟨⟨1, 2⟩, 5⟩]).Size =
        ((NewWeightedDirected : weightedDirected Nat).AddEdges [⟨⟨1, 2⟩, 5⟩]).Size - 1 :=
  ⟨by decide, ((C25_remove_edge.2.1 _ 1 2 5).1 (by decide)).2.2 (by decide) (by decide)⟩

/-- C26: in every weighted undirected store reachable by the public mutators that stores the
logical edge {u,v}, `RemoveEdges` given either orientation, (u,v,_) or (v,u,_), deletes both
adjacency slots and applies one decrement to `Size()`, so that afterwards `HasEdge((u,v))` and
`HasEdge((v,u))` are both false. -/
theorem C26_undirected_remove_either_orientation {α : Type} [DecidableEq α]
    (g : weightedUndirected α) (hg : weightedUndirected.Reachable g) (u v : α) (w w2 : Int)
    (h : GoMap.slot g.list u v = some w) :
    (GoMap.slot (g.RemoveEdges [⟨⟨u, v⟩, w2⟩]).list u v = none ∧
      GoMap.slot (g.RemoveEdges [⟨⟨u, v⟩, w2⟩]).list v u = none ∧
      (g.RemoveEdges [⟨⟨u, v⟩, w2⟩]).HasEdge ⟨u, v⟩ = false ∧
      (g.RemoveEdges [⟨⟨u, v⟩, w2⟩]).HasEdge ⟨v, u⟩ = false ∧
      (g.RemoveEdges [⟨⟨u, v⟩, w2⟩]).Size = wrapInt (g.Size - 1)) ∧
    (GoMap.slot (g.RemoveEdges [⟨⟨v, u⟩, w2⟩]).list u v = none ∧
      GoMap.slot (g.RemoveEdges [⟨⟨v, u⟩, w2⟩]).list v u = none ∧
      (g.RemoveEdges [⟨⟨v, u⟩, w2⟩]).HasEdge ⟨u, v⟩ = false ∧
      (g.RemoveEdges [⟨⟨v, u⟩, w2⟩]).HasEdge ⟨v, u⟩ = false ∧
      (g.RemoveEdges [⟨⟨v, u⟩, w2⟩]).Size = wrapInt (g.Size - 1)) := by
  have key : ∀ a b : α, (GoMap.slot g.list a b).isSome = true →
      GoMap.slot (g.RemoveEdges [⟨⟨a, b⟩, w2⟩]).list a b = none ∧
      GoMap.slot (g.RemoveEdges [⟨⟨a, b⟩, w2⟩]).list b a = none ∧
      (g.RemoveEdges [⟨⟨a, b⟩, w2⟩]).HasEdge ⟨a, b⟩ = false ∧
      (g.RemoveEdges [⟨⟨a, b⟩, w2⟩]).HasEdge ⟨b, a⟩ = false ∧
      (g.RemoveEdges [⟨⟨a, b⟩, w2⟩]).Size = wrapInt (g.Size - 1) := by
    intro a b hab
    have h1 : GoMap.slot (g.RemoveEdges [⟨⟨a, b⟩, w2⟩]).list a b = none := by
      rw [weightedUndirected.wu_RemoveEdges_singleton, weightedUndirected.wu_slot_removeEdgesStep]
      simp [hab]
    have h2 : GoMap.slot (g.RemoveEdges [⟨⟨a, b⟩, w2⟩]).list b a = none := by
      rw [weightedUndirected.wu_RemoveEdges_singleton, weightedUndirected.wu_slot_removeEdgesStep]
      simp [hab]
    refine ⟨h1, h2, ?_, ?_, ?_⟩
    · rw [weightedUndirected.wu_HasEdge_eq, h1, h2]
      rfl
    · rw [weightedUndirected.wu_HasEdge_eq, h1, h2]
      rfl
    · rw [weightedUndirected.wu_RemoveEdges_singleton]
      exact weightedUndirected.wu_size_removeEdgesStep g ⟨⟨a, b⟩, w2⟩ hab
  have huv : (GoMap.slot g.list u v).isSome = true := by simp [h]
  have hvu : (GoMap.slot g.list v u).isSome = true := by
    rw [hg.symmetric v u]
    exact huv
  obtain ⟨a1, a2, a3, a4, a5⟩ := key u v huv
  obtain ⟨b1, b2, b3, b4, b5⟩ := key v u hvu
  exact ⟨⟨a1, a2, a3, a4, a5⟩, ⟨b2, b1, b4, b3, b5⟩⟩

/-- C26 at a concrete store: the edge added as (1,2,5) is removed by `RemoveEdges((2,1,0))`. -/
theorem C26_undirected_remove_either_orientation_witness :
    weightedUndirected.Reachable
        ((NewWeightedUndirected : weightedUndirected Nat).AddEdges [⟨⟨1, 2⟩, 5⟩]) ∧
      (((NewWeightedUndirected : weightedUndirected Nat).AddEdges [⟨⟨1, 2⟩, 5⟩]).RemoveEdges
        [⟨⟨2, 1⟩, 0⟩]).HasEdge ⟨1, 2⟩ = false :=
  ⟨.addEdges _ _ .init,
    (C26_undirected_remove_either_orientation _ (.addEdges _ _ .init) 1 2 5 0
      (by decide)).2.2.2.1⟩

/-- C27: on every `AdjacencyList`, `AddVertex(v)` returns true iff v was absent before the
call, and returns false without changing the store if v was present; `AddEdge((u,v))` returns
true iff the arc u→v was absent before the call, in which case `Size()` is incremented once
(it grows by exactly one unless the counter is at the greatest `uint`), and returns false with
`Size()` unchanged otherwise. -/
theorem C27_add_return_values {α : Type} [DecidableEq α] :
    (∀ (g : AdjacencyList α) (v : α),
      ((g.AddVertex v).2 = true ↔ g.HasVertex v = false) ∧
      (g.HasVertex v = true → g.AddVertex v = (g, false))) ∧
    (∀ (g : AdjacencyList α) (u v : α),
      ((g.AddEdge ⟨u, v⟩).2 = true ↔ (GoMap.slot g.list u v).isSome = false) ∧
      ((g.AddEdge ⟨u, v⟩).2 = true → (g.AddEdge ⟨u, v⟩).1.Size = uintInc g.Size) ∧
      ((g.AddEdge ⟨u, v⟩).2 = true → g.Size < 18446744073709551615 →
        (g.AddEdge ⟨u, v⟩).1.Size = g.Size + 1) ∧
      ((g.AddEdge ⟨u, v⟩).2 = false → (g.AddEdge ⟨u, v⟩).1.Size = g.Size)) := by
  refine ⟨?_, ?_⟩
  · intro g v
    refine ⟨?_, AdjacencyList.addVertex_of_hasVertex g v⟩
    show (g.addVertex v).2 = true ↔ g.hasVertex v = false
    rw [AdjacencyList.addVertex_result]
    cases g.hasVertex v <;> simp
  · intro g u v
    obtain ⟨h1, h2⟩ := AdjacencyList.addEdge_result g ⟨u, v⟩
    have hr : (g.AddEdge ⟨u, v⟩).2 = !(GoMap.slot g.list u v).isSome := h1
    have hz : (g.AddEdge ⟨u, v⟩).1.Size =
        if (GoMap.slot g.list u v).isSome = true then g.Size else uintInc g.Size := h2
    rw [hr, hz]
    cases hs : (GoMap.slot g.list u v).isSome
    · refine ⟨by simp, by simp, ?_, by simp⟩
      intro _ hb
      simp only [Bool.false_eq_true, if_false]
      exact uintInc_of_lt _ hb
    · refine ⟨by simp, by simp, by simp, by simp⟩

/-- C27 at a concrete store: adding the arc (1,2) to the empty store returns true and makes
`Size()` 1. -/
theorem C27_add_return_values_witness :
    ((NewAdjacencyList : AdjacencyList Nat).AddEdge ⟨1, 2⟩).2 = true ∧
      ((NewAdjacencyList : AdjacencyList Nat).AddEdge ⟨1, 2⟩).1.Size
        = (NewAdjacencyList : AdjacencyList Nat).Size + 1 :=
  ⟨by decide, (C27_add_return_values.2 _ 1 2).2.2.1 (by decide) (by decide)⟩

/-- C28: on both weighted stores a call of `EnsureVertex`, `RemoveVertex`, `AddEdges` or
`RemoveEdges` with zero arguments leaves the store state as it is, `Order()` and `Size()`
included; on an empty store `Order()` stays 0. -/
theorem C28_zero_arguments_no_op {α : Type} [DecidableEq α] :
    (∀ g : weightedDirected α,
      g.EnsureVertex [] = g ∧ g.RemoveVertex [] = g ∧ g.AddEdges [] = g ∧
        g.RemoveEdges [] = g) ∧
    (∀ g : weightedUndirected α,
      g.EnsureVertex [] = g ∧ g.RemoveVertex [] = g ∧ g.AddEdges [] = g ∧
        g.RemoveEdges [] = g) ∧
    (((NewWeightedDirected : weightedDirected α).EnsureVertex []).RemoveVertex []).Order = 0 ∧
    (((NewWeightedUndirected : weightedUndirected α).EnsureVertex []).RemoveVertex []).Order
      = 0 :=
  ⟨fun _ => ⟨rfl, rfl, rfl, rfl⟩, fun _ => ⟨rfl, rfl, rfl, rfl⟩, rfl, rfl⟩

/-- C29: on `AdjacencyList` and on the weighted directed store, for resident vertices u ≠ v,
after `RemoveVertex(v)` the vertex u is still present and `OutDegree` reports it present; if
the arc u→v existed, the out-degree of u before the call is the out-degree after it plus one
(so it was at least one and fell by exactly one), and otherwise the two are equal.  With the
arcs (foo,bar), (bar,baz) the out-degree of foo is (1, true) before `RemoveVertex(bar)` and
(0, true) after it. -/
theorem C29_out_degree_after_remove_vertex {α : Type} [DecidableEq α] :
    (∀ (g : AdjacencyList α) (u v : α), GoMap.WFall g.list → u ≠ v →
      g.HasVertex u = true → g.HasVertex v = true →
      (g.RemoveVertex v).1.HasVertex u = true ∧
      ((g.RemoveVertex v).1.OutDegree u).2 = true ∧ (g.OutDegree u).2 = true ∧
      ((GoMap.slot g.list u v).isSome = true →
        ((g.RemoveVertex v).1.OutDegree u).1 + 1 = (g.OutDegree u).1) ∧
      ((GoMap.slot g.list u v).isSome = false →
        ((g.RemoveVertex v).1.OutDegree u).1 = (g.OutDegree u).1)) ∧
    (∀ (g : weightedDirected α) (u v : α), GoMap.WFall g.list → u ≠ v →
      g.HasVertex u = true → g.HasVertex v = true →
      (g.RemoveVertex [v]).HasVertex u = true ∧
      (g.RemoveVertex [v]).OutDegreeOf u =
        (if (GoMap.slot g.list u v).isSome = true then (g.OutDegreeOf u).1 - 1
          else (g.OutDegreeOf u).1, true) ∧
      (g.OutDegreeOf u).2 = true ∧
      ((GoMap.slot g.list u v).isSome = true →
        ((g.RemoveVertex [v]).OutDegreeOf u).1 + 1 = (g.OutDegreeOf u).1 ∧
          1 ≤ (g.OutDegreeOf u).1)) ∧
    (((NewAdjacencyList : AdjacencyList TestVertex).AddEdge ⟨.foo, .bar⟩).1.AddEdge
      ⟨.bar, .baz⟩).1.OutDegree .foo = (1, true) ∧
    ((((NewAdjacencyList : AdjacencyList TestVertex).AddEdge ⟨.foo, .bar⟩).1.AddEdge
      ⟨.bar, .baz⟩).1.RemoveVertex .bar).1.OutDegree .foo = (0, true) ∧
    ((NewWeightedDirected : weightedDirected TestVertex).AddEdges
      [⟨⟨.foo, .bar⟩, 0⟩, ⟨⟨.bar, .baz⟩, 0⟩]).OutDegreeOf .foo = (1, true) ∧
    (((NewWeightedDirected : weightedDirected TestVertex).AddEdges
      [⟨⟨.foo, .bar⟩, 0⟩, ⟨⟨.bar, .baz⟩, 0⟩]).RemoveVertex [.bar]).OutDegreeOf .foo
      = (0, true) := by
  refine ⟨?_, ?_, by decide, by decide, by decide, by decide⟩
  · intro g u v hw huv hu hv
    refine ⟨?_, AdjacencyList.OutDegree_RemoveVertex_succ g u v hw huv hu hv⟩
    show (g.RemoveVertex v).1.hasVertex u = true
    rw [AdjacencyList.hasVertex_RemoveVertex]
    have hu' : g.hasVertex u = true := hu
    simp [hu', Ne.symm huv]
  · intro g u v hw huv hu hv
    have hu' : g.hasVertex u = true := hu
    have hdeg := weightedDirected.OutDegreeOf_removeVertexStep g u v hw huv hu hv
    have hbefore : g.OutDegreeOf u
        = ((GoMap.len (GoMap.inner g.list u) : Int), true) := by
      unfold weightedDirected.OutDegreeOf
      rw [if_pos hu']
    have hwf : GoMap.WF (GoMap.inner g.list u) := by
      obtain ⟨adj, hadj⟩ := Option.isSome_iff_exists.1 hu'
      have : GoMap.inner g.list u = adj := by simp [GoMap.inner, hadj]
      rw [this]
      exact hw.2 (u, adj) (GoMap.mem_of_lookup g.list u adj hadj)
    rw [weightedDirected.wd_RemoveVertex_singleton]
    refine ⟨?_, hdeg, ?_, ?_⟩
    · show (g.removeVertexStep v).hasVertex u = true
      rw [weightedDirected.wd_hasVertex_removeVertexStep]
      simp [hu', Ne.symm huv]
    · rw [hbefore]
    · intro h
      have hlen := GoMap.len_delete_of_present (GoMap.inner g.list u) v hwf h
      rw [hdeg, if_pos h, hbefore]
      constructor
      · show ((GoMap.len (GoMap.inner g.list u) : Int) - 1) + 1 = _
        omega
      · show (1 : Int) ≤ (GoMap.len (GoMap.inner g.list u) : Int)
        omega

/-- C29 at a concrete store: with the arcs (1,2) and (1,3) in an `AdjacencyList`, removing
vertex 2 lowers the out-degree of 1 from 2 to 1. -/
theorem C29_out_degree_after_remove_vertex_witness :
    GoMap.WFall (((NewAdjacencyList : AdjacencyList Nat).AddEdge ⟨1, 2⟩).1.AddEdge
        ⟨1, 3⟩).1.list ∧
      ((((NewAdjacencyList : AdjacencyList Nat).AddEdge ⟨1, 2⟩).1.AddEdge
        ⟨1, 3⟩).1.OutDegree 1).1 = 2 ∧
      (((((NewAdjacencyList : AdjacencyList Nat).AddEdge ⟨1, 2⟩).1.AddEdge
        ⟨1, 3⟩).1.RemoveVertex 2).1.OutDegree 1).1 + 1 = 2 := by
  have hw : GoMap.WFall (((NewAdjacencyList : AdjacencyList Nat).AddEdge ⟨1, 2⟩).1.AddEdge
      ⟨1, 3⟩).1.list :=
    (AdjacencyList.Reachable.structure (.addEdge _ _ (.addEdge _ _ .init))).1
  have h := (C29_out_degree_after_remove_vertex.1 _ 1 2 hw (by decide) (by decide)
    (by decide)).2.2.2.1 (by decide)
  exact ⟨hw, by decide, h.trans (by decide)⟩

/-- C31: in every weighted directed store reachable from the empty store by the public
mutators, the sum of `OutDegreeOf(v)` over the resident vertices (the keys of the adjacency
map, each listed once) is the number of stored arcs, of which `Size()` is the `int` value; so
whenever that number is below 2^63, which every map that fits in memory satisfies, the sum of
the out-degrees, the sum of `InDegreeOf(v)` over the resident vertices and `Size()` are
equal. -/
theorem C31_directed_handshake {α : Type} [DecidableEq α] (g : weightedDirected α)
    (hg : weightedDirected.Reachable g) :
    (GoMap.keys g.list).Nodup ∧
    (∀ v, v ∈ GoMap.keys g.list ↔ g.HasVertex v = true) ∧
    ((GoMap.keys g.list).map (fun v => (g.OutDegreeOf v).1)).sum
      = ((GoMap.pairCount g.list : Nat) : Int) ∧
    g.Size = wrapInt ((GoMap.pairCount g.list : Nat) : Int) ∧
    (GoMap.pairCount g.list < 9223372036854775808 →
      ((GoMap.keys g.list).map (fun v => (g.OutDegreeOf v).1)).sum = g.Size ∧
      ((GoMap.keys g.list).map (fun v => (g.InDegreeOf v).1)).sum = g.Size) := by
  have hc := hg.countInv
  have hout := weightedDirected.sum_OutDegreeOf g hc.1
  refine ⟨hc.1.1, fun v => (GoMap.has_iff_mem_keys g.list v).symm, hout, hc.2, ?_⟩
  intro hb
  have hz : g.Size = ((GoMap.pairCount g.list : Nat) : Int) := by
    show g.size = _
    rw [hc.2]
    apply wrapInt_of_small
    · exact Int.natCast_nonneg _
    · omega
  rw [hz]
  exact ⟨hout, weightedDirected.sum_InDegreeOf g hc.1 hg.wd_noDangling hb⟩

/-- C31 at a concrete store: with the arcs (1,2), (2,1) and (1,3) the in-degrees of the three
vertices add up to `Size()`, which is 3. -/
theorem C31_directed_handshake_witness :
    weightedDirected.Reachable ((NewWeightedDirected : weightedDirected Nat).AddEdges
        [⟨⟨1, 2⟩, 5⟩, ⟨⟨2, 1⟩, 7⟩, ⟨⟨1, 3⟩, 9⟩]) ∧
      ((GoMap.keys ((NewWeightedDirected : weightedDirected Nat).AddEdges
        [⟨⟨1, 2⟩, 5⟩, ⟨⟨2, 1⟩, 7⟩, ⟨⟨1, 3⟩, 9⟩]).list).map
        (fun v => (((NewWeightedDirected : weightedDirected Nat).AddEdges
          [⟨⟨1, 2⟩, 5⟩, ⟨⟨2, 1⟩, 7⟩, ⟨⟨1, 3⟩, 9⟩]).InDegreeOf v).1)).sum = 3 :=
  ⟨.addEdges _ _ .init,
    ((C31_directed_handshake _ (.addEdges _ _ .init)).2.2.2.2 (by decide)).2.trans
      (by decide)⟩


/-- C32: in every weighted undirected store reachable from the empty store by the public
mutators with no self-loop ever passed to `AddEdges`, the sum of `DegreeOf(v)` over the
resident vertices (the keys of the adjacency map, each listed once) is the number of adjacency
slots, which is even, and `Size()` is the `int` value of half of it; so whenever the number of
slots is below 2^63, which every map that fits in memory satisfies, the sum of the degrees is
2·`Size()`. -/
theorem C32_undirected_handshake {α : Type} [DecidableEq α] (g : weightedUndirected α)
    (hg : weightedUndirected.ReachableLoopFree g) :
    (GoMap.keys g.list).Nodup ∧
    (∀ v, v ∈ GoMap.keys g.list ↔ g.HasVertex v = true) ∧
    ((GoMap.keys g.list).map (fun v => (g.DegreeOf v).1)).sum
      = ((GoMap.pairCount g.list : Nat) : Int) ∧
    (∃ k : Nat, GoMap.pairCount g.list = 2 * k ∧ g.Size = wrapInt k) ∧
    (GoMap.pairCount g.list < 9223372036854775808 →
      ((GoMap.keys g.list).map (fun v => (g.DegreeOf v).1)).sum = 2 * g.Size) := by
  obtain ⟨hw, _, _, k, hk, hz⟩ := hg.inv
  have hsum := weightedUndirected.sum_DegreeOf g hw
  refine ⟨hw.1, fun v => (GoMap.has_iff_mem_keys g.list v).symm, hsum, ⟨k, hk, hz⟩, ?_⟩
  intro hb
  have hsize : g.Size = (k : Int) := by
    show g.size = _
    rw [hz]
    apply wrapInt_of_small
    · exact Int.natCast_nonneg _
    · omega
  rw [hsum, hsize, hk]
  push_cast
  rfl

/-- C32 at a concrete store: with the edges {1,2} and {2,3} the degrees 1, 2 and 1 add up to
4, twice `Size()`. -/
theorem C32_undirected_handshake_witness :
    weightedUndirected.ReachableLoopFree
        ((NewWeightedUndirected : weightedUndirected Nat).AddEdges
          [⟨⟨1, 2⟩, 5⟩, ⟨⟨2, 3⟩, 7⟩]) ∧
      ((GoMap.keys ((NewWeightedUndirected : weightedUndirected Nat).AddEdges
        [⟨⟨1, 2⟩, 5⟩, ⟨⟨2, 3⟩, 7⟩]).list).map
        (fun v => (((NewWeightedUndirected : weightedUndirected Nat).AddEdges
          [⟨⟨1, 2⟩, 5⟩, ⟨⟨2, 3⟩, 7⟩]).DegreeOf v).1)).sum = 4 :=
  ⟨.addEdges _ _ (by decide) .init,
    ((C32_undirected_handshake _ (.addEdges _ _ (by decide) .init)).2.2.2.2
      (by decide)).trans (by decide)⟩


/-- C33: for every weighted directed store g with at least one vertex whose adjacency targets
are all vertices (maps holding each key once), `Transpose()` succeeds on g and on the result;
the transposed store has the vertices of g, and the store transposed twice has the vertices of
g and, in every slot (u,v), what g has there: the same arcs with the same weights. -/
theorem C33_transpose_involution {α : Type} [DecidableEq α] (g : weightedDirected α)
    (hw : GoMap.WFall g.list) (hd : GoMap.NoDangling g.list) (ho : g.Order ≠ 0) :
    ∃ g2 g3, g.Transpose = some g2 ∧ g2.Transpose = some g3 ∧
      (∀ x, g2.HasVertex x = g.HasVertex x) ∧
      (∀ x, g3.HasVertex x = g.HasVertex x) ∧
      (∀ u v, GoMap.slot g3.list u v = GoMap.slot g.list u v) ∧
      (∀ u v w, g3.HasWeightedEdge ⟨⟨u, v⟩, w⟩ = g.HasWeightedEdge ⟨⟨u, v⟩, w⟩) ∧
      (∀ u v, g3.HasEdge ⟨u, v⟩ = g.HasEdge ⟨u, v⟩) := by
  have hw2 : GoMap.WFall (g.list.foldl weightedDirected.transposeEntry []) :=
    weightedDirected.WFall_transposed g.list
  have hd2 := weightedDirected.noDangling_transposed g.list hw hd
  have hv2 : ∀ x, GoMap.has (g.list.foldl weightedDirected.transposeEntry []) x
      = GoMap.has g.list x := weightedDirected.has_transposed g.list hw.1 hd
  have ho2 : (⟨⟨g.list.foldl weightedDirected.transposeEntry [], 0⟩⟩ :
      weightedDirected α).Order ≠ 0 := by
    rw [weightedDirected.order_ne_zero_iff] at ho ⊢
    obtain ⟨x, hx⟩ := ho
    exact ⟨x, (hv2 x).trans hx⟩
  have hs : ∀ u v, GoMap.slot
      ((g.list.foldl weightedDirected.transposeEntry []).foldl
        weightedDirected.transposeEntry []) u v = GoMap.slot g.list u v := by
    intro u v
    rw [weightedDirected.slot_foldl_transposeEntry_nil _ hw2,
      weightedDirected.slot_foldl_transposeEntry_nil _ hw]
  refine ⟨_, _, weightedDirected.Transpose_of_order_ne_zero g ho,
    weightedDirected.Transpose_of_order_ne_zero _ ho2, hv2, ?_, hs, ?_, ?_⟩
  · intro x
    exact (weightedDirected.has_transposed _ hw2.1 hd2 x).trans (hv2 x)
  · intro u v w
    show (match GoMap.slot _ u v with
      | some weight => decide (weight = w)
      | none => false) = (match GoMap.slot g.list u v with
      | some weight => decide (weight = w)
      | none => false)
    rw [hs]
  · intro u v
    rw [weightedDirected.wd_HasEdge_eq, weightedDirected.wd_HasEdge_eq]
    show (GoMap.slot _ u v).isSome = _
    rw [hs]

/-- C33 at a concrete store: with the arcs (1,2,5) and (2,3,7), transposing twice gives a
store with the arc (1,2,5). -/
theorem C33_transpose_involution_witness :
    GoMap.WFall ((NewWeightedDirected : weightedDirected Nat).AddEdges
        [⟨⟨1, 2⟩, 5⟩, ⟨⟨2, 3⟩, 7⟩]).list ∧
      GoMap.NoDangling ((NewWeightedDirected : weightedDirected Nat).AddEdges
        [⟨⟨1, 2⟩, 5⟩, ⟨⟨2, 3⟩, 7⟩]).list ∧
      ((NewWeightedDirected : weightedDirected Nat).AddEdges
        [⟨⟨1, 2⟩, 5⟩, ⟨⟨2, 3⟩, 7⟩]).Order ≠ 0 ∧
      ∃ g2 g3, ((NewWeightedDirected : weightedDirected Nat).AddEdges
          [⟨⟨1, 2⟩, 5⟩, ⟨⟨2, 3⟩, 7⟩]).Transpose = some g2 ∧ g2.Transpose = some g3 ∧
        g3.HasWeightedEdge ⟨⟨1, 2⟩, 5⟩ = true := by
  have hr : weightedDirected.Reachable ((NewWeightedDirected : weightedDirected Nat).AddEdges
      [⟨⟨1, 2⟩, 5⟩, ⟨⟨2, 3⟩, 7⟩]) := .addEdges _ _ .init
  obtain ⟨g2, g3, h1, h2, _, _, _, h6, _⟩ :=
    C33_transpose_involution _ hr.countInv.1 hr.wd_noDangling (by decide)
  exact ⟨hr.countInv.1, hr.wd_noDangling, by decide, g2, g3, h1, h2,
    (h6 1 2 5).trans (by decide)⟩

/-- C34: on both weighted stores, if the slot (u,v) holds a weight w then `RemoveEdges` given
(u,v,w') removes the edge for every w', equal to w or not: the slot (u,v), and (v,u) on the
undirected store, is empty afterwards and `HasEdge((u,v))` is false. -/
theorem C34_removal_matches_endpoints_only {α : Type} [DecidableEq α] :
    (∀ (g : weightedDirected α) (u v : α) (w w2 : Int), GoMap.slot g.list u v = some w →
      GoMap.slot (g.RemoveEdges [⟨⟨u, v⟩, w2⟩]).list u v = none ∧
      (g.RemoveEdges [⟨⟨u, v⟩, w2⟩]).HasEdge ⟨u, v⟩ = false) ∧
    (∀ (g : weightedUndirected α) (u v : α) (w w2 : Int), GoMap.slot g.list u v = some w →
      GoMap.slot (g.RemoveEdges [⟨⟨u, v⟩, w2⟩]).list u v = none ∧
      GoMap.slot (g.RemoveEdges [⟨⟨u, v⟩, w2⟩]).list v u = none ∧
      (g.RemoveEdges [⟨⟨u, v⟩, w2⟩]).HasEdge ⟨u, v⟩ = false ∧
      (g.RemoveEdges [⟨⟨u, v⟩, w2⟩]).HasEdge ⟨v, u⟩ = false) := by
  refine ⟨?_, ?_⟩
  · intro g u v w w2 _
    have h1 : GoMap.slot (g.RemoveEdges [⟨⟨u, v⟩, w2⟩]).list u v = none := by
      rw [weightedDirected.wd_RemoveEdges_singleton, weightedDirected.wd_slot_removeEdgesStep]
      simp
    refine ⟨h1, ?_⟩
    rw [weightedDirected.wd_HasEdge_eq, h1]
    rfl
  · intro g u v w w2 h
    have h1 : GoMap.slot (g.RemoveEdges [⟨⟨u, v⟩, w2⟩]).list u v = none := by
      rw [weightedUndirected.wu_RemoveEdges_singleton, weightedUndirected.wu_slot_removeEdgesStep]
      simp [h]
    have h2 : GoMap.slot (g.RemoveEdges [⟨⟨u, v⟩, w2⟩]).list v u = none := by
      rw [weightedUndirected.wu_RemoveEdges_singleton, weightedUndirected.wu_slot_removeEdgesStep]
      simp [h]
    refine ⟨h1, h2, ?_, ?_⟩
    · rw [weightedUndirected.wu_HasEdge_eq, h1, h2]
      rfl
    · rw [weightedUndirected.wu_HasEdge_eq, h1, h2]
      rfl

/-- C34 at a concrete store: the edge added as (1,2,5) is removed by `RemoveEdges((1,2,9))`. -/
theorem C34_removal_matches_endpoints_only_witness :
    GoMap.slot ((NewWeightedDirected : weightedDirected Nat).AddEdges
        [⟨⟨1, 2⟩, 5⟩]).list 1 2 = some 5 ∧
      (((NewWeightedDirected : weightedDirected Nat).AddEdges [⟨⟨1, 2⟩, 5⟩]).RemoveEdges
        [⟨⟨1, 2⟩, 9⟩]).HasEdge ⟨1, 2⟩ = false :=
  ⟨by decide, (C34_removal_matches_endpoints_only.1 _ 1 2 5 9 (by decide)).2⟩

/-- C35: on every weighted store, directed or undirected, reachable by the public mutators,
in which u and v are vertices and `HasEdge((u,v))` is false, `AddEdges((u,v,w))` followed by
`RemoveEdges((u,v,w))` gives back the very state it started from: the same adjacency maps,
entry for entry, and the same counter. -/
theorem C35_add_remove_round_trip {α : Type} [DecidableEq α] :
    (∀ g : weightedDirected α, weightedDirected.Reachable g → ∀ (u v : α) (w : Int),
      g.HasVertex u = true → g.HasVertex v = true → g.HasEdge ⟨u, v⟩ = false →
      (g.AddEdges [⟨⟨u, v⟩, w⟩]).RemoveEdges [⟨⟨u, v⟩, w⟩] = g) ∧
    (∀ g : weightedUndirected α, weightedUndirected.Reachable g → ∀ (u v : α) (w : Int),
      g.HasVertex u = true → g.HasVertex v = true → g.HasEdge ⟨u, v⟩ = false →
      (g.AddEdges [⟨⟨u, v⟩, w⟩]).RemoveEdges [⟨⟨u, v⟩, w⟩] = g) := by
  refine ⟨?_, ?_⟩
  · intro g hg u v w hu hv he
    rw [weightedDirected.wd_AddEdges_singleton, weightedDirected.wd_RemoveEdges_singleton,
      weightedDirected.wd_add_then_remove g u v w w hu hv he]
    have hz : wrapInt (wrapInt (g.size + 1) - 1) = g.size := by
      rw [hg.countInv.2, wrapInt_succ_pred]
    rw [hz]
  · intro g hg u v w hu hv he
    rw [weightedUndirected.wu_HasEdge_eq, Bool.or_eq_false_iff] at he
    rw [weightedUndirected.wu_AddEdges_singleton, weightedUndirected.wu_RemoveEdges_singleton,
      weightedUndirected.wu_add_then_remove g u v w w hu hv he.1 he.2]
    have hz : wrapInt (wrapInt (g.size + 1) - 1) = g.size := by
      rw [← hg.sizeInRange, wrapInt_succ_pred]
    rw [hz]

/-- C35 at a concrete store: with the vertices 1 and 2 and no edge, adding and removing the
edge (1,2,5) gives back the store. -/
theorem C35_add_remove_round_trip_witness :
    weightedUndirected.Reachable
        ((NewWeightedUndirected : weightedUndirected Nat).EnsureVertex [1, 2]) ∧
      ((((NewWeightedUndirected : weightedUndirected Nat).EnsureVertex [1, 2]).AddEdges
        [⟨⟨1, 2⟩, 5⟩]).RemoveEdges [⟨⟨1, 2⟩, 5⟩])
        = (NewWeightedUndirected : weightedUndirected Nat).EnsureVertex [1, 2] :=
  ⟨.ensureVertex _ _ .init,
    C35_add_remove_round_trip.2 _ (.ensureVertex _ _ .init) 1 2 5 (by decide) (by decide)
      (by decide)⟩


/-- C36: for every list of edges es, the store `NewAdjacencyListFromEdgeSet(es)` holds the
arc (u,v) iff (u,v) occurs in es, has the vertex x iff x is an endpoint of an edge of es, and
its `Size()` is the `uint` value of the number of distinct edges of es: that number itself
when es has fewer than 2^64 edges, which every slice satisfies.  The calls of `EachEdge` on it
are a list without repetition whose members are the edges of es. -/
theorem C36_store_from_edge_set {α : Type} [DecidableEq α] (es : List (BaseEdge α)) :
    (∀ u v, (GoMap.slot (NewAdjacencyListFromEdgeSet es).list u v).isSome = true
      ↔ (⟨u, v⟩ : BaseEdge α) ∈ es) ∧
    (∀ x, (NewAdjacencyListFromEdgeSet es).HasVertex x = true
      ↔ ∃ e ∈ es, e.U = x ∨ e.V = x) ∧
    (NewAdjacencyListFromEdgeSet es).Size = es.dedup.length % 18446744073709551616 ∧
    (es.length < 18446744073709551616 →
      (NewAdjacencyListFromEdgeSet es).Size = es.dedup.length) ∧
    ((NewAdjacencyListFromEdgeSet es).EachEdge (fun e acc => acc ++ [e]) []).Nodup ∧
    (∀ e, e ∈ (NewAdjacencyListFromEdgeSet es).EachEdge (fun e acc => acc ++ [e]) []
      ↔ e ∈ es) := by
  have hr : AdjacencyList.Reachable (NewAdjacencyListFromEdgeSet es) :=
    AdjacencyList.reachable_foldl_addEdge es NewAdjacencyList .init
  have hw := hr.structure.1
  have hslot : ∀ u v, (GoMap.slot (NewAdjacencyListFromEdgeSet es).list u v).isSome = true
      ↔ (⟨u, v⟩ : BaseEdge α) ∈ es := by
    intro u v
    unfold NewAdjacencyListFromEdgeSet
    rw [AdjacencyList.slot_foldl_addEdge]
    simp [NewAdjacencyList, GoMap.slot, GoMap.inner, GoMap.lookup]
  have hcount : GoMap.pairCount (NewAdjacencyListFromEdgeSet es).list = es.dedup.length :=
    AdjacencyList.pairCount_eq_length_of_mem_iff _ hw es.dedup (List.nodup_dedup es)
      (fun a b => (hslot a b).trans List.mem_dedup.symm)
  have hsize : (NewAdjacencyListFromEdgeSet es).Size
      = es.dedup.length % 18446744073709551616 := by
    rw [← hcount]
    exact AdjacencyList.size_foldl_addEdge es NewAdjacencyList rfl
  have hcalls := AdjacencyList.edgeCalls_eq (NewAdjacencyListFromEdgeSet es)
  refine ⟨hslot, ?_, hsize, ?_, ?_, ?_⟩
  · intro x
    unfold NewAdjacencyListFromEdgeSet
    show (es.foldl (fun g e => (g.addEdge e).1) NewAdjacencyList).hasVertex x = true ↔ _
    rw [AdjacencyList.hasVertex_foldl_addEdge]
    simp [NewAdjacencyList, AdjacencyList.hasVertex, GoMap.has, GoMap.lookup]
  · intro hb
    rw [hsize]
    have hle := (List.dedup_sublist es).length_le
    omega
  · rw [hcalls]
    refine List.Nodup.map ?_ (GoMap.nodup_storedPairs _ hw)
    intro p q hpq
    simp only [BaseEdge.mk.injEq] at hpq
    exact Prod.ext hpq.1 hpq.2
  · intro e
    obtain ⟨a, b⟩ := e
    rw [hcalls, ← hslot a b, ← GoMap.mem_storedPairs_iff _ hw.1 a b, List.mem_map]
    constructor
    · rintro ⟨p, hp, hpe⟩
      simp only [BaseEdge.mk.injEq] at hpe
      obtain ⟨c, d⟩ := p
      obtain ⟨rfl, rfl⟩ := hpe
      exact hp
    · intro hab
      exact ⟨(a, b), hab, rfl⟩

/-- C36 at a concrete list: the edge (1,2) given twice and the edge (2,3) give a store of
`Size()` 2. -/
theorem C36_store_from_edge_set_witness :
    ([⟨1, 2⟩, ⟨1, 2⟩, ⟨2, 3⟩] : List (BaseEdge Nat)).length < 18446744073709551616 ∧
      (NewAdjacencyListFromEdgeSet ([⟨1, 2⟩, ⟨1, 2⟩, ⟨2, 3⟩] : List (BaseEdge Nat))).Size
        = 2 :=
  ⟨by decide,
    ((C36_store_from_edge_set ([⟨1, 2⟩, ⟨1, 2⟩, ⟨2, 3⟩] : List (BaseEdge Nat))).2.2.2.1
      (by decide)).trans (by decide)⟩


/-- C37: every `AdjacencyList` reachable from `NewAdjacencyList()` by `AddVertex`,
`RemoveVertex`, `AddEdge` and `RemoveEdge` is reached with some number n of `AddEdge` calls,
and its counter is the `uint` value of a number between the number of stored arcs and n.  So
as long as fewer than 2^64 calls of `AddEdge` were made, the `size` field is at least the
number of arcs stored, and no decrement is applied to a zero counter: `RemoveEdge` of a stored
arc finds the counter positive, and every decrement of the loop of `RemoveVertex` does. -/
theorem C37_counter_never_underflows {α : Type} [DecidableEq α] :
    (∀ g : AdjacencyList α, AdjacencyList.Reachable g → ∃ n, AdjacencyList.ReachableIn n g) ∧
    (∀ (n : Nat) (g : AdjacencyList α), AdjacencyList.ReachableIn n g →
      (∃ m, (GoMap.storedPairs g.list).length ≤ m ∧ m ≤ n ∧
        g.Size = m % 18446744073709551616) ∧
      (n < 18446744073709551616 →
        (GoMap.storedPairs g.list).length ≤ g.Size ∧
        (∀ e : BaseEdge α, (GoMap.slot g.list e.U e.V).isSome = true →
          0 < g.Size ∧ (g.RemoveEdge e).Size + 1 = g.Size) ∧
        (∀ v, g.HasVertex v = true →
          (∀ i, i < GoMap.arcsTo v (GoMap.delete g.list v) → 0 < uintDec^[i] g.Size) ∧
          (g.RemoveVertex v).1.Size + GoMap.arcsTo v (GoMap.delete g.list v) = g.Size))) := by
  refine ⟨fun g hg => hg.reachableIn, ?_⟩
  intro n g h
  obtain ⟨m, h1, h2, h3⟩ := h.counter
  have hw := h.al_reachable.structure.1
  rw [GoMap.length_storedPairs]
  refine ⟨⟨m, h1, h2, h3⟩, ?_⟩
  intro hn
  have hm : g.size = m := by
    rw [h3]
    omega
  refine ⟨?_, ?_, ?_⟩
  · show GoMap.pairCount g.list ≤ g.size
    omega
  · intro e he
    have hp := AdjacencyList.pairCount_RemoveEdge g e hw he
    have hz := AdjacencyList.size_RemoveEdge g e he
    have hpos : 0 < g.size := by omega
    refine ⟨hpos, ?_⟩
    show (g.RemoveEdge e).size + 1 = g.size
    rw [hz, uintDec_of_pos g.size hpos (by omega)]
    omega
  · intro v hv
    have hp := AdjacencyList.pairCount_RemoveVertex g v hw hv
    have hz := AdjacencyList.size_RemoveVertex g v hv
    constructor
    · intro i hi
      show 0 < uintDec^[i] g.size
      rw [h3, iterate_uintDec i m (by omega)]
      omega
    · show (g.RemoveVertex v).1.size + _ = g.size
      rw [hz, h3, iterate_uintDec _ m (by omega)]
      omega

/-- C37 at a concrete store: after the single call `AddEdge((1,2))` the counter is 1, which
is at least the number of stored arcs. -/
theorem C37_counter_never_underflows_witness :
    AdjacencyList.ReachableIn 1 ((NewAdjacencyList : AdjacencyList Nat).AddEdge ⟨1, 2⟩).1 ∧
      (GoMap.storedPairs ((NewAdjacencyList : AdjacencyList Nat).AddEdge ⟨1, 2⟩).1.list).length
        ≤ ((NewAdjacencyList : AdjacencyList Nat).AddEdge ⟨1, 2⟩).1.Size :=
  ⟨.addEdge 0 _ _ .init,
    ((C37_counter_never_underflows.2 1 _ (.addEdge 0 _ _ .init)).2 (by decide)).1⟩


end Gogl
